import Mathlib

/-!
# rANS static codec (htscodecs, `rANS_static.c`)

A shallow embedding of the order-0 and order-1 rANS block codec of
`rANS_static.c`, followed by theorems about it.

Conventions of the embedding.

* A byte buffer is a `List Nat`; a C array indexed by a byte or by a slot is a
  function `Nat → Nat`.  The cell `in[i]` of the input is `inp.getD i 0`.
* A read cursor (`cp`, `ptr` of the decoders) is the list of the bytes from the
  cursor to the end of the input, so `*cp++` takes the head, and
  `cp > cp_end - 16` reads `cp.length < 16`.
* The backward-growing payload of the encoders (`*--ptr = b`) is the list of
  the bytes from `ptr` to `out_end`, so a store is a `cons`.  The capacity of
  the output allocation, which the source computes in floating point, is not
  represented.
* A call returns a `Res`: a value, the failure return `NULL`, undefined
  behaviour of the C program (`ub`), or exhaustion of the iteration budget of a
  loop of the model (`diverge`).
-/

namespace RansStatic

/-! ## Results -/

/-- Outcome of a call. -/
inductive Res (α : Type) where
  | ok : α → Res α
  | fail : Res α
  | ub : Res α
  | diverge : Res α
deriving DecidableEq, Repr

/-- Sequencing of outcomes. -/
def Res.bind {α β : Type} (r : Res α) (f : α → Res β) : Res β :=
  match r with
  | Res.ok a => f a
  | Res.fail => Res.fail
  | Res.ub => Res.ub
  | Res.diverge => Res.diverge

instance : Monad Res where
  pure := Res.ok
  bind := Res.bind

/-! ## Constants -/

/-- Number of bits of the frequency total (`#define TF_SHIFT 12`). -/
def TF_SHIFT : Nat := 12

/-- Total of a frequency row (`#define TOTFREQ (1<<TF_SHIFT)`). -/
def TOTFREQ : Nat := 1 <<< TF_SHIFT

/-- Modelled from the spec: the constant `RANS_BYTE_L` of `rANS_byte.h`, the
lower bound of the normalised state interval (`RANS_BYTE_L = 1<<23`). -/
def RANS_BYTE_L : Nat := 1 <<< 23

/-- The constant `INT_MAX` of `limits.h` for a 32-bit `int`. -/
def INT_MAX : Nat := 2 ^ 31 - 1

/-- Array store `a[i] = v`. -/
def store (a : Nat → Nat) (i v : Nat) : Nat → Nat :=
  fun k => if k = i then v else a k

/-! ## Order-0 histogram -/

/-- The eight partial counters of `hist8`. -/
structure Hist8 where
  F0 : Nat → Nat
  F1 : Nat → Nat
  F2 : Nat → Nat
  F3 : Nat → Nat
  F4 : Nat → Nat
  F5 : Nat → Nat
  F6 : Nat → Nat
  F7 : Nat → Nat

/-- The two counting loops of `hist8`: eight bytes per round while at least
eight remain (`i < i8`, `i8 = in_size & ~7`), then the tail into `F0`. -/
def hist8_loops : List Nat → Hist8 → Hist8
  | b0 :: b1 :: b2 :: b3 :: b4 :: b5 :: b6 :: b7 :: rest, h =>
    hist8_loops rest
      { F0 := store h.F0 b0 (h.F0 b0 + 1), F1 := store h.F1 b1 (h.F1 b1 + 1),
        F2 := store h.F2 b2 (h.F2 b2 + 1), F3 := store h.F3 b3 (h.F3 b3 + 1),
        F4 := store h.F4 b4 (h.F4 b4 + 1), F5 := store h.F5 b5 (h.F5 b5 + 1),
        F6 := store h.F6 b6 (h.F6 b6 + 1), F7 := store h.F7 b7 (h.F7 b7 + 1) }
  | tail, h => { h with F0 := tail.foldl (fun F b => store F b (F b + 1)) h.F0 }

/-- The function `hist8`: the histogram of `inp` added into `F0`.  The index `i`,
the bound `i8` and the counters are `int` in the source and natural numbers
here: the embedding is that of the source for `in_size < 2^31`, where the index
and every counter stay at most `INT_MAX`; for larger sizes the source overflows
a signed `int`, and the statements about `hist8` carry the bound. -/
def hist8 (inp : List Nat) (F0 : Nat → Nat) : Nat → Nat :=
  let z : Nat → Nat := fun _ => 0
  let h := hist8_loops inp { F0 := F0, F1 := z, F2 := z, F3 := z, F4 := z, F5 := z, F6 := z, F7 := z }
  fun i => if i < 256 then h.F0 i + (h.F1 i + h.F2 i + h.F3 i + h.F4 i + h.F5 i + h.F6 i + h.F7 i)
    else h.F0 i

/-! ## Order-0 normalisation -/

/-- Variables of the normalisation loop of `rans_compress_O0`. -/
structure NormState where
  F : Nat → Nat
  fsum : Nat
  m : Nat
  M : Nat

/-- One pass `for (fsum = m = M = j = 0; j < 256; j++)` of the normaliser, from
symbol `j`, `n` symbols remaining; `tr` is a `uint64_t`.  The value
`(F[j]*tr)>>31` is stored back into the `int F[j]`: the embedding keeps it as a
natural number and is that of the source while the entries are at most
`INT_MAX`, which holds for the counts of an input with `in_size < 2^31` (the
first pass leaves entries of at most `TOTFREQ`, a later pass lowers them). -/
def norm_pass (tr : Nat) : Nat → Nat → NormState → NormState
  | 0, _, st => st
  | n + 1, j, st =>
    if st.F j = 0 then norm_pass tr n (j + 1) st
    else
      let m := if st.m < st.F j then st.F j else st.m
      let M := if st.m < st.F j then j else st.M
      let f := ((st.F j * tr) % 2 ^ 64) >>> 31
      let f := if f = 0 then 1 else f
      norm_pass tr n (j + 1) { F := store st.F j f, fsum := st.fsum + f, m := m, M := M }

/-- The loop around the label `normalise_harder` of `rans_compress_O0`: the pass,
then the adjustment of `F[M]`, or another pass with `tr = 2104533975`.  The
result is the row and `M`; `none` when the budget of passes is used up. -/
def normalise : Nat → Nat → (Nat → Nat) → Option ((Nat → Nat) × Nat)
  | 0, _, _ => none
  | fuel + 1, tr, F =>
    let st := norm_pass tr 256 0 { F := F, fsum := 0, m := 0, M := 0 }
    let fsum := st.fsum + 1
    if fsum < TOTFREQ then
      some (store st.F st.M (st.F st.M + (TOTFREQ - fsum)), st.M)
    else if fsum - TOTFREQ > st.F st.M / 2 then
      normalise fuel 2104533975 st.F
    else
      some (store st.F st.M (st.F st.M - (fsum - TOTFREQ)), st.M)

/-- Budget of passes given to `normalise`. -/
def NORM_FUEL : Nat := 4100

/-! ## Order-0 table encoder -/

/-- Modelled from the spec: the type `RansEncSymbol` of `rANS_byte.h`, as set by
`RansEncSymbolInit(&s, start, freq, TF_SHIFT)`; the reciprocal constants are not
kept, the spec requiring the encode step to equal the exact integer formula. -/
structure RansEncSymbol where
  start : Nat
  freq : Nat
deriving DecidableEq, Repr

/-- The scan `for(rle=j+1; rle<256 && F[rle]; rle++);` from `rle = k`, at most
`n` steps: the first `k` at which it stops. -/
def rle_scan (F : Nat → Nat) : Nat → Nat → Nat
  | 0, k => k
  | n + 1, k => if k < 256 ∧ F k ≠ 0 then rle_scan F n (k + 1) else k

/-- The bytes of one frequency: one byte below 128, else `128 | (F>>8)` and
`F & 0xff`, each stored into an `unsigned char`. -/
def freq_bytes (f : Nat) : List Nat :=
  if f < 128 then [f % 256] else [(128 ||| (f >>> 8)) % 256, (f &&& 0xff) % 256]

/-- The loop `for (x = rle = j = 0; j < 256; j++)` of `rans_compress_O0` that
writes the table and initialises `syms`, from symbol `j`, `n` symbols
remaining.  The result is the bytes written and the final `syms`. -/
def enc_table_loop (F : Nat → Nat) :
    Nat → Nat → Nat → Nat → (Nat → RansEncSymbol) → List Nat × (Nat → RansEncSymbol)
  | 0, _, _, _, syms => ([], syms)
  | n + 1, j, rle, x, syms =>
    if F j = 0 then enc_table_loop F n (j + 1) rle x syms
    else
      let hdr : List Nat × Nat :=
        if rle ≠ 0 then ([], rle - 1)
        else if j ≠ 0 ∧ F (j - 1) ≠ 0 then
          let r := rle_scan F 256 (j + 1) - (j + 1)
          ([j % 256, r % 256], r)
        else ([j % 256], 0)
      let syms1 := fun k => if k = j then { start := x, freq := F j } else syms k
      let r := enc_table_loop F n (j + 1) hdr.2 (x + F j) syms1
      (hdr.1 ++ freq_bytes (F j) ++ r.1, r.2)

/-- The table of `rans_compress_O0`: the loop, then the terminating zero. -/
def enc_table (F : Nat → Nat) : List Nat × (Nat → RansEncSymbol) :=
  let r := enc_table_loop F 256 0 0 0 (fun _ => { start := 0, freq := 0 })
  (r.1 ++ [0], r.2)

/-! ## rANS primitives -/

/-- Modelled from the spec: the renormalisation loop of `RansEncPutSymbol` of
`rANS_byte.h`, which is not part of the sources: while the state is at or above
the window bound `x_max`, the low 8 bits go to `*--ptr` and the state is
shifted.  A 32-bit state is below any positive bound after four shifts; the
budget is used up only when `x_max = 0`. -/
def enc_renorm (x_max : Nat) : Nat → Nat → List Nat → Res (Nat × List Nat)
  | 0, x, ptr => if x_max ≤ x then Res.diverge else Res.ok (x, ptr)
  | fuel + 1, x, ptr =>
    if x_max ≤ x then enc_renorm x_max fuel (x >>> 8) ((x &&& 0xff) :: ptr)
    else Res.ok (x, ptr)

/-- Modelled from the spec: `RansEncPutSymbol` of `rANS_byte.h`, which is not
part of the sources (`enc_put_symbol`): renormalise, then
`x = ((x / freq) << TF_SHIFT) + (x mod freq) + start`.  The window bound is
`((RANS_BYTE_L >> TF_SHIFT) << 8) * freq`, the bound under which the state stays
in `[RANS_BYTE_L, RANS_BYTE_L << 8)`, which is what the byte-wise `dec_renorm`
with threshold `RANS_BYTE_L` reads back; the exponent `32-TF_SHIFT-8` printed in
the spec does not keep the state at or above `RANS_BYTE_L`.  A division by a
zero `freq` is undefined. -/
def RansEncPutSymbol (r : Nat) (ptr : List Nat) (sym : RansEncSymbol) : Res (Nat × List Nat) :=
  if sym.freq = 0 then Res.ub
  else
    (enc_renorm ((((RANS_BYTE_L >>> TF_SHIFT) <<< 8) * sym.freq) % 2 ^ 32) 5 r ptr).bind fun xp =>
      Res.ok ((((xp.1 / sym.freq) <<< TF_SHIFT) + xp.1 % sym.freq + sym.start) % 2 ^ 32, xp.2)

/-- Modelled from the spec: `RansEncFlush` of `rANS_byte.h` (`enc_flush`): the
four bytes of the state, little-endian, below the cursor. -/
def RansEncFlush (r : Nat) (ptr : List Nat) : List Nat :=
  ((r >>> 0) &&& 0xff) :: ((r >>> 8) &&& 0xff) :: ((r >>> 16) &&& 0xff) :: ((r >>> 24) &&& 0xff) :: ptr

/-- Modelled from the spec: `RansDecInit` of `rANS_byte.h` (`dec_init`): reads
four bytes, little-endian; the comparison with `RANS_BYTE_L` is made by the
callers.  Reading past the end of the input is undefined. -/
def RansDecInit (ptr : List Nat) : Res (Nat × List Nat) :=
  match ptr with
  | b0 :: b1 :: b2 :: b3 :: rest =>
    Res.ok (((b0 <<< 0) ||| (b1 <<< 8) ||| (b2 <<< 16) ||| (b3 <<< 24)) % 2 ^ 32, rest)
  | _ => Res.ub

/-- Modelled from the spec: `RansDecRenorm` of `rANS_byte.h` (`dec_renorm`):
while `x < RANS_BYTE_L`, `x = (x << 8) | *cursor++`.  Reading past the end of
the input is undefined. -/
def RansDecRenorm : Nat → List Nat → Res (Nat × List Nat)
  | x, [] => if x < RANS_BYTE_L then Res.ub else Res.ok (x, [])
  | x, b :: ptr =>
    if x < RANS_BYTE_L then RansDecRenorm (((x <<< 8) ||| b) % 2 ^ 32) ptr
    else Res.ok (x, b :: ptr)

/-- Modelled from the spec: `RansDecRenormSafe` of `rANS_byte.h`
(`dec_renorm_safe`): as `RansDecRenorm`, but it does not read past the end and
leaves the state as it is there. -/
def RansDecRenormSafe : Nat → List Nat → Nat × List Nat
  | x, [] => (x, [])
  | x, b :: ptr =>
    if x < RANS_BYTE_L then RansDecRenormSafe (((x <<< 8) ||| b) % 2 ^ 32) ptr
    else (x, b :: ptr)

/-- Modelled from the spec: the share of one state in `RansDecRenorm2` of
`rANS_byte.h`, the fast renormalisation, which takes a pair of streams per read
of four bytes: `x = (x << 8) | *cursor++` while `x < RANS_BYTE_L`, as in
`dec_renorm`, with the two bytes of the state and no more.  Reading past the
end of the input is undefined. -/
def RansDecRenorm2_one (x : Nat) (ptr : List Nat) : Res (Nat × List Nat) :=
  if x < RANS_BYTE_L then
    match ptr with
    | [] => Res.ub
    | b :: p =>
      if ((x <<< 8) ||| b) % 2 ^ 32 < RANS_BYTE_L then
        match p with
        | [] => Res.ub
        | c :: q => Res.ok ((((((x <<< 8) ||| b) % 2 ^ 32) <<< 8) ||| c) % 2 ^ 32, q)
      else Res.ok (((x <<< 8) ||| b) % 2 ^ 32, p)
  else Res.ok (x, ptr)

/-- Modelled from the spec: `RansDecRenorm2` of `rANS_byte.h`, the fast
renormalisation of two states from one cursor ("pair two streams per 4-byte
read"): the first state, then the second, each with two bytes at most.  The
callers keep eight bytes ahead for the two pairs of a round (`cp_end -= 8;
// within 8 for simplicity of loop below`). -/
def RansDecRenorm2 (r1 r2 : Nat) (ptr : List Nat) : Res (Nat × Nat × List Nat) :=
  (RansDecRenorm2_one r1 ptr).bind fun a =>
    (RansDecRenorm2_one r2 a.2).bind fun b => Res.ok (a.1, b.1, b.2)

/-! ## Order-0 encoder -/

/-- The four rANS states and the payload cursor. -/
structure Rans4 where
  r0 : Nat
  r1 : Nat
  r2 : Nat
  r3 : Nat
  ptr : List Nat

/-- Put on stream 0. -/
def put0 (st : Rans4) (sym : RansEncSymbol) : Res Rans4 :=
  (RansEncPutSymbol st.r0 st.ptr sym).bind fun xp => Res.ok { st with r0 := xp.1, ptr := xp.2 }

/-- Put on stream 1. -/
def put1 (st : Rans4) (sym : RansEncSymbol) : Res Rans4 :=
  (RansEncPutSymbol st.r1 st.ptr sym).bind fun xp => Res.ok { st with r1 := xp.1, ptr := xp.2 }

/-- Put on stream 2. -/
def put2 (st : Rans4) (sym : RansEncSymbol) : Res Rans4 :=
  (RansEncPutSymbol st.r2 st.ptr sym).bind fun xp => Res.ok { st with r2 := xp.1, ptr := xp.2 }

/-- Put on stream 3. -/
def put3 (st : Rans4) (sym : RansEncSymbol) : Res Rans4 :=
  (RansEncPutSymbol st.r3 st.ptr sym).bind fun xp => Res.ok { st with r3 := xp.1, ptr := xp.2 }

/-- The four flushes `RansEncFlush(&rans3, &ptr); RansEncFlush(&rans2, &ptr);
RansEncFlush(&rans1, &ptr); RansEncFlush(&rans0, &ptr);` that end the payload. -/
def payload4 (st : Rans4) : List Nat :=
  RansEncFlush st.r0 (RansEncFlush st.r1 (RansEncFlush st.r2 (RansEncFlush st.r3 st.ptr)))

/-- The `switch (i=(in_size&3))` of `rans_compress_O0`, with its fall-through:
the last `in_size & 3` bytes go to streams 2, 1, 0. -/
def enc0_tail (inp : List Nat) (syms : Nat → RansEncSymbol) (st : Rans4) : Res Rans4 :=
  let in_size := inp.length
  let i := in_size &&& 3
  (if i = 3 then put2 st (syms (inp.getD (in_size - (i - 2)) 0)) else Res.ok st).bind fun st1 =>
  (if i = 3 ∨ i = 2 then put1 st1 (syms (inp.getD (in_size - (i - 1)) 0)) else Res.ok st1).bind fun st2 =>
  (if i = 3 ∨ i = 2 ∨ i = 1 then put0 st2 (syms (inp.getD (in_size - (i - 0)) 0)) else Res.ok st2)

/-- The loop `for (i=(in_size &~3); i>0; i-=4)` of `rans_compress_O0`, with
`i = 4 * k`. -/
def enc0_loop (inp : List Nat) (syms : Nat → RansEncSymbol) : Nat → Rans4 → Res Rans4
  | 0, st => Res.ok st
  | k + 1, st =>
    let i := 4 * (k + 1)
    (put3 st (syms (inp.getD (i - 1) 0))).bind fun st3 =>
    (put2 st3 (syms (inp.getD (i - 2) 0))).bind fun st2 =>
    (put1 st2 (syms (inp.getD (i - 3) 0))).bind fun st1 =>
    (put0 st1 (syms (inp.getD (i - 4) 0))).bind fun st0 =>
    enc0_loop inp syms k st0

/-- The four bytes `(v>>0)&0xff`, `(v>>8)&0xff`, `(v>>16)&0xff`, `(v>>24)&0xff`
of a header field. -/
def le32 (v : Nat) : List Nat :=
  [(v >>> 0) &&& 0xff, (v >>> 8) &&& 0xff, (v >>> 16) &&& 0xff, (v >>> 24) &&& 0xff]

/-- The header, table and payload that a compressor leaves in `out_buf`, cut at
`out_size`; `order` is the first byte, `tab` the table bytes after the header,
`ptr` the payload, and `*out_size = (out_end - ptr) + tab_size` is an
`unsigned int`. -/
def finish_block (order : Nat) (in_size : Nat) (tab ptr : List Nat) : List Nat :=
  let tab_size := 9 + tab.length
  let out_size := (ptr.length + tab_size) % 2 ^ 32
  (([order] ++ le32 ((out_size + (2 ^ 32 - 9)) % 2 ^ 32) ++ le32 (in_size % 2 ^ 32)) ++ tab ++ ptr).take out_size

/-- The statistics of `rans_compress_O0` for a non-empty input: the histogram,
`tr = ((uint64_t)TOTFREQ<<31)/in_size + (1<<30)/in_size`, and the normalisation.
The result is the normalised row `F` and the symbol `M`. -/
def norm_row_O0 (inp : List Nat) : Option ((Nat → Nat) × Nat) :=
  let in_size := inp.length
  let F := hist8 inp (fun _ => 0)
  let tr := (((TOTFREQ <<< 31) % 2 ^ 64) / in_size + (1 <<< 30) / in_size) % 2 ^ 64
  normalise NORM_FUEL tr F

/-- The function `rans_compress_O0`.  The division by `in_size` is undefined for
an empty input, and a failed `assert(F[M]>0)` aborts. -/
def rans_compress_O0 (inp : List Nat) : Res (List Nat) :=
  let in_size := inp.length
  if in_size = 0 then Res.ub
  else
    match norm_row_O0 inp with
    | none => Res.diverge
    | some (F1, M) =>
      if F1 M = 0 then Res.ub
      else
        let tab := enc_table F1
        (enc0_tail inp tab.2
          { r0 := RANS_BYTE_L, r1 := RANS_BYTE_L, r2 := RANS_BYTE_L, r3 := RANS_BYTE_L, ptr := [] }).bind
        fun st =>
        (enc0_loop inp tab.2 ((in_size &&& 0xFFFFFFFC) / 4) st).bind fun st1 =>
        Res.ok (finish_block 0 in_size tab.1 (payload4 st1))

/-! ## Order-0 decoder -/

/-- The lookup arrays `ssym`, `sfreq`, `sbase` of `rans_uncompress_O0`.  They
are uninitialised stack arrays: the decoder takes their initial contents as an
argument. -/
structure DecTab0 where
  ssym : Nat → Nat
  sfreq : Nat → Nat
  sbase : Nat → Nat

/-- The array `a` after the loop `for (y = 0; y < F; y++) a[y + C] = v(y)`:
the cells `C .. C + F - 1` hold `v 0 .. v (F - 1)`, the others are unchanged. -/
def fill_loop (a : Nat → Nat) (C : Nat) (v : Nat → Nat) (F : Nat) : Nat → Nat :=
  fun k => if C ≤ k ∧ k < C + F then v (k - C) else a k

/-- The read `*cp++`; past the end of the input it is undefined. -/
def rd (cp : List Nat) : Res (Nat × List Nat) :=
  match cp with
  | [] => Res.ub
  | b :: rest => Res.ok (b, rest)

/-- The read `*cp`; past the end of the input it is undefined. -/
def peek (cp : List Nat) : Res Nat :=
  match cp with
  | [] => Res.ub
  | b :: _ => Res.ok b

/-- The read of one frequency, `if ((F = *cp++) >= 128) { F &= ~128;
F = ((F & 127) << 8) | *cp++; }`. -/
def rd_freq (cp : List Nat) : Res (Nat × List Nat) :=
  (rd cp).bind fun b =>
    if b.1 ≥ 128 then
      (rd b.2).bind fun b2 => Res.ok ((((b.1 &&& 0xFFFFFF7F) &&& 127) <<< 8) ||| b2.1, b2.2)
    else Res.ok b

/-- The lookup arrays after the loop `for (y = 0; y < F; y++) { ssym[y + C] = j;
sfreq[y + C] = F; sbase[y + C] = y; }` of `rans_uncompress_O0`. -/
def dec0_fill (T : DecTab0) (C j F : Nat) : DecTab0 :=
  { ssym := fill_loop T.ssym C (fun _ => j) F,
    sfreq := fill_loop T.sfreq C (fun _ => F) F,
    sbase := fill_loop T.sbase C (fun y => y) F }

/-- The loop `do { ... } while(j)` of `rans_uncompress_O0` that parses the table
and fills the lookup arrays.  A round reads at least one byte, so a budget of
as many rounds as the input has bytes is never used up.  The result is the
arrays, the cumulative sum `x` and the cursor. -/
def dec0_table_loop : Nat → DecTab0 → Nat → Nat → Nat → List Nat → Res (DecTab0 × Nat × List Nat)
  | 0, _, _, _, _, _ => Res.diverge
  | fuel + 1, T, j, rle, x, cp =>
    if cp.length < 16 then Res.fail
    else
      (rd_freq cp).bind fun fc =>
      if fc.1 + x > TOTFREQ then Res.fail
      else
        let T1 := dec0_fill T x j fc.1
        let x1 := x + fc.1
        if rle = 0 then
          (peek fc.2).bind fun c =>
          if j + 1 = c then
            (rd fc.2).bind fun jc => (rd jc.2).bind fun rc =>
              if jc.1 ≠ 0 then dec0_table_loop fuel T1 jc.1 rc.1 x1 rc.2
              else Res.ok (T1, x1, rc.2)
          else
            (rd fc.2).bind fun jc =>
              if jc.1 ≠ 0 then dec0_table_loop fuel T1 jc.1 rle x1 jc.2
              else Res.ok (T1, x1, jc.2)
        else
          if j + 1 > 255 then Res.fail
          else dec0_table_loop fuel T1 (j + 1) (rle - 1) x1 fc.2

/-- The table decoder of `rans_uncompress_O0`: `rle = x = y = 0; j = *cp++;`
and the loop, with a budget of `fuel` rounds. -/
def dec0_table (fuel : Nat) (T : DecTab0) (cp : List Nat) : Res (DecTab0 × Nat × List Nat) :=
  (rd cp).bind fun jc => dec0_table_loop fuel T jc.1 0 0 jc.2

/-- One symbol of the decode loop: `m = R & mask; out_buf[i] = ssym[m];
R = sfreq[m] * (R >> TF_SHIFT) + sbase[m]`, giving the byte stored and the new
32-bit state. -/
def dec0_sym (T : DecTab0) (R : Nat) : Nat × Nat :=
  let m := R &&& ((1 <<< TF_SHIFT) - 1)
  (T.ssym m % 256, (T.sfreq m * (R >>> TF_SHIFT) + T.sbase m) % 2 ^ 32)

/-- The renormalisation at the end of a round of the decode loops: the fast pair
while `cp < cp_end` (more than 8 bytes left), else the bounds-checked one. -/
def dec_renorm4 (R0 R1 R2 R3 : Nat) (cp : List Nat) : Res Rans4 :=
  if cp.length > 8 then
    (RansDecRenorm2 R0 R1 cp).bind fun a =>
    (RansDecRenorm2 R2 R3 a.2.2).bind fun b =>
    Res.ok { r0 := a.1, r1 := a.2.1, r2 := b.1, r3 := b.2.1, ptr := b.2.2 }
  else
    let a0 := RansDecRenormSafe R0 cp
    let a1 := RansDecRenormSafe R1 a0.2
    let a2 := RansDecRenormSafe R2 a1.2
    let a3 := RansDecRenormSafe R3 a2.2
    Res.ok { r0 := a0.1, r1 := a1.1, r2 := a2.1, r3 := a3.1, ptr := a3.2 }

/-- The loop `for (i=0; i < out_end; i+=4)` of `rans_uncompress_O0`, `n` rounds
from index `i`. -/
def dec0_loop (T : DecTab0) : Nat → Nat → Rans4 → (Nat → Nat) → Res (Rans4 × (Nat → Nat))
  | 0, _, st, out => Res.ok (st, out)
  | n + 1, i, st, out =>
    let d0 := dec0_sym T st.r0
    let d1 := dec0_sym T st.r1
    let d2 := dec0_sym T st.r2
    let d3 := dec0_sym T st.r3
    let out1 := store (store (store (store out (i + 0) d0.1) (i + 1) d1.1) (i + 2) d2.1) (i + 3) d3.1
    (dec_renorm4 d0.2 d1.2 d2.2 d3.2 st.ptr).bind fun st1 =>
    dec0_loop T n (i + 4) st1 out1

/-- The `switch(out_sz&3)` of `rans_uncompress_O0`, with its fall-through. -/
def dec0_tail (T : DecTab0) (out_sz out_end : Nat) (st : Rans4) (out : Nat → Nat) : Nat → Nat :=
  let mask := (1 <<< TF_SHIFT) - 1
  let k := out_sz &&& 3
  let o1 := if k = 3 then store out (out_end + 2) (T.ssym (st.r2 &&& mask) % 256) else out
  let o2 := if k = 3 ∨ k = 2 then store o1 (out_end + 1) (T.ssym (st.r1 &&& mask) % 256) else o1
  if k = 3 ∨ k = 2 ∨ k = 1 then store o2 out_end (T.ssym (st.r0 &&& mask) % 256) else o2

/-- The little-endian word `(in[k]<<0) | (in[k+1]<<8) | (in[k+2]<<16) |
(in[k+3]<<24)` of a header, as an `unsigned int`. -/
def rd_le32 (inp : List Nat) (k : Nat) : Nat :=
  (((inp.getD k 0) <<< 0) ||| ((inp.getD (k + 1) 0) <<< 8) ||| ((inp.getD (k + 2) 0) <<< 16)
    ||| ((inp.getD (k + 3) 0) <<< 24)) % 2 ^ 32

/-- The state initialisation `RansDecInit(&R, &cp); if (R < RANS_BYTE_L) goto
cleanup;`. -/
def dec_init_chk (cp : List Nat) : Res (Nat × List Nat) :=
  (RansDecInit cp).bind fun a => if a.1 < RANS_BYTE_L then Res.fail else Res.ok a

/-- The state initialisation of the four streams: `RansDecInit(&R[k], &cp);` and
the failure return when `R[k] < RANS_BYTE_L`, for `k = 0 .. 3`. -/
def dec_init4 (cp : List Nat) : Res Rans4 :=
  (dec_init_chk cp).bind fun a0 =>
  (dec_init_chk a0.2).bind fun a1 =>
  (dec_init_chk a1.2).bind fun a2 =>
  (dec_init_chk a2.2).bind fun a3 =>
  Res.ok { r0 := a0.1, r1 := a1.1, r2 := a2.1, r3 := a3.1, ptr := a3.2 }

/-- The function `rans_uncompress_O0`; `T` is the initial content of the lookup
arrays.  The allocation `malloc(out_sz)` is taken to succeed, and the bytes
returned are `out_buf[0 .. out_sz)`. -/
def rans_uncompress_O0 (T : DecTab0) (inp : List Nat) : Res (List Nat) :=
  let in_size := inp.length
  if in_size < 26 then Res.fail
  else if inp.getD 0 0 ≠ 0 then Res.fail
  else
    let in_sz := rd_le32 inp 1
    let out_sz := rd_le32 inp 5
    if in_sz ≠ in_size - 9 then Res.fail
    else if out_sz ≥ INT_MAX then Res.fail
    else
      (dec0_table in_size T (inp.drop 9)).bind fun r =>
      if r.2.1 < TOTFREQ - 1 ∨ r.2.1 > TOTFREQ then Res.fail
      else if r.2.2.length < 16 then Res.fail
      else
        (dec_init4 r.2.2).bind fun st =>
        let out_end := out_sz &&& 0xFFFFFFFC
        (dec0_loop r.1 (out_end / 4) 0 st (fun _ => 0)).bind fun e =>
        Res.ok ((List.range out_sz).map (dec0_tail r.1 out_sz out_end e.1 e.2))

/-! ## Order-1 histogram -/

/-- Store `a[i][j] = v` into a two-dimensional array. -/
def store2 {α : Type} (a : Nat → Nat → α) (i j : Nat) (v : α) : Nat → Nat → α :=
  fun p q => if p = i ∧ q = j then v else a p q

/-- Variables of `hist1_4`: the pair counts `F0`, the four marginal counters and
the four previous bytes. -/
structure Hist1 where
  F : Nat → Nat → Nat
  T0 : Nat → Nat
  T1 : Nat → Nat
  T2 : Nat → Nat
  T3 : Nat → Nat
  last_0 : Nat
  last_1 : Nat
  last_2 : Nat
  last_3 : Nat

/-- One round of the loop `while (in0 < in0_end)` of `hist1_4`, at offset `k`
(`in0 = in + k`, `in1 = in + idiv4 + k`, and so on). -/
def hist1_4_round (inp : List Nat) (idiv4 k : Nat) (h : Hist1) : Hist1 :=
  let c0 := inp.getD k 0
  let Fa := store2 h.F h.last_0 c0 (h.F h.last_0 c0 + 1)
  let c1 := inp.getD (idiv4 + k) 0
  let Fb := store2 Fa h.last_1 c1 (Fa h.last_1 c1 + 1)
  let c2 := inp.getD (idiv4 * 2 + k) 0
  let Fc := store2 Fb h.last_2 c2 (Fb h.last_2 c2 + 1)
  let c3 := inp.getD (idiv4 * 3 + k) 0
  let Fd := store2 Fc h.last_3 c3 (Fc h.last_3 c3 + 1)
  { F := Fd,
    T0 := store h.T0 h.last_0 (h.T0 h.last_0 + 1),
    T1 := store h.T1 h.last_1 (h.T1 h.last_1 + 1),
    T2 := store h.T2 h.last_2 (h.T2 h.last_2 + 1),
    T3 := store h.T3 h.last_3 (h.T3 h.last_3 + 1),
    last_0 := c0, last_1 := c1, last_2 := c2, last_3 := c3 }

/-- The loop `while (in0 < in0_end)` of `hist1_4`, `n` rounds from offset `k`. -/
def hist1_4_loop (inp : List Nat) (idiv4 : Nat) : Nat → Nat → Hist1 → Hist1
  | 0, _, h => h
  | n + 1, k, h => hist1_4_loop inp idiv4 n (k + 1) (hist1_4_round inp idiv4 k h)

/-- One round of the loop `while (in3 < in + in_size)` of `hist1_4`, at index
`k3`. -/
def hist1_4_tail_round (inp : List Nat) (k3 : Nat) (h : Hist1) : Hist1 :=
  let c3 := inp.getD k3 0
  { h with F := store2 h.F h.last_3 c3 (h.F h.last_3 c3 + 1),
           T3 := store h.T3 h.last_3 (h.T3 h.last_3 + 1), last_3 := c3 }

/-- The loop `while (in3 < in + in_size)` of `hist1_4`, `n` rounds from index
`k3`. -/
def hist1_4_tail (inp : List Nat) : Nat → Nat → Hist1 → Hist1
  | 0, _, h => h
  | n + 1, k3, h => hist1_4_tail inp n (k3 + 1) (hist1_4_tail_round inp k3 h)

/-- The variables of `hist1_4` before its loops: `T1`, `T2`, `T3` zeroed,
`last_0 = 0, last_1 = in1[-1], last_2 = in2[-1], last_3 = in3[-1]`. -/
def hist1_4_init (inp : List Nat) (idiv4 : Nat) (F0 : Nat → Nat → Nat) (T0 : Nat → Nat) : Hist1 :=
  { F := F0, T0 := T0, T1 := fun _ => 0, T2 := fun _ => 0, T3 := fun _ => 0, last_0 := 0,
    last_1 := inp.getD (idiv4 - 1) 0, last_2 := inp.getD (idiv4 * 2 - 1) 0,
    last_3 := inp.getD (idiv4 * 3 - 1) 0 }

/-- The function `hist1_4`, called with at least four bytes: the updated `F0`
and `T0`.  The counters are `int` in the source and natural numbers here: the
embedding is that of the source while no counter passes `INT_MAX`, which holds
for `in_size + 3 < 2^31` (with the three seed increments of the caller); the
statements about the counts carry the bound. -/
def hist1_4 (inp : List Nat) (F0 : Nat → Nat → Nat) (T0 : Nat → Nat) :
    (Nat → Nat → Nat) × (Nat → Nat) :=
  let in_size := inp.length
  let idiv4 := in_size / 4
  let h1 := hist1_4_loop inp idiv4 idiv4 0 (hist1_4_init inp idiv4 F0 T0)
  let h2 := hist1_4_tail inp (in_size - idiv4 * 4) (idiv4 * 4) h1
  (h2.F, fun i => if i < 256 then h2.T0 i + (h2.T1 i + h2.T2 i + h2.T3 i) else h2.T0 i)

/-! ## Order-1 normalisation and table encoder -/

/-- The two floating-point computations of the normaliser of `rans_compress_O1`,
which the embedding takes as an argument: `scale t f` is the `int` that
`F[i][j] *= p` leaves for `F[i][j] = f` and `p = ((double)TOTFREQ)/t`, and
`scale98 f` the one it leaves for `p = .98`. -/
structure FloatOps where
  scale : Nat → Nat → Nat
  scale98 : Nat → Nat

/-- One pass `for (t2 = m = M = j = 0; j < 256; j++)` of the order-1 normaliser
over a row, with `g` the multiplication by `p`. -/
def norm1_pass (g : Nat → Nat) : Nat → Nat → NormState → NormState
  | 0, _, st => st
  | n + 1, j, st =>
    if st.F j = 0 then norm1_pass g n (j + 1) st
    else
      let m := if st.m < st.F j then st.F j else st.m
      let M := if st.m < st.F j then j else st.M
      let f := if g (st.F j) = 0 then 1 else g (st.F j)
      norm1_pass g n (j + 1) { F := store st.F j f, fsum := st.fsum + f, m := m, M := M }

/-- The loop around the label `normalise_harder` of `rans_compress_O1` for one
row: `none` when the budget of passes is used up. -/
def normalise1 (fl : FloatOps) : Nat → (Nat → Nat) → (Nat → Nat) → Option (Nat → Nat)
  | 0, _, _ => none
  | fuel + 1, g, F =>
    let st := norm1_pass g 256 0 { F := F, fsum := 0, m := 0, M := 0 }
    let t2 := st.fsum + 1
    if t2 < TOTFREQ then
      some (store st.F st.M (st.F st.M + (TOTFREQ - t2)))
    else if t2 - TOTFREQ ≥ st.F st.M / 2 then
      normalise1 fl fuel fl.scale98 st.F
    else
      some (store st.F st.M (st.F st.M - (t2 - TOTFREQ)))

/-- The loop `for (rle_i = i = 0; i < 256; i++)` of `rans_compress_O1`: each row
with `T[i] != 0` is normalised and written, from context `i`, `n` contexts
remaining.  The row loop over `j` is the one of the order-0 table.  The result
is the bytes written and the final `syms`. -/
def enc1_table_loop (fl : FloatOps) (T : Nat → Nat) (F : Nat → Nat → Nat) :
    Nat → Nat → Nat → (Nat → Nat → RansEncSymbol) →
    Res (List Nat × (Nat → Nat → RansEncSymbol))
  | 0, _, _, syms => Res.ok ([], syms)
  | n + 1, i, rle_i, syms =>
    if T i = 0 then enc1_table_loop fl T F n (i + 1) rle_i syms
    else
      match normalise1 fl NORM_FUEL (fl.scale (T i)) (F i) with
      | none => Res.diverge
      | some Fi =>
        let hdr : List Nat × Nat :=
          if rle_i ≠ 0 then ([], rle_i - 1)
          else if i ≠ 0 ∧ T (i - 1) ≠ 0 then
            let r := rle_scan T 256 (i + 1) - (i + 1)
            ([i % 256, r % 256], r)
          else ([i % 256], 0)
        let row := enc_table_loop Fi 256 0 0 0 (syms i)
        (enc1_table_loop fl T F n (i + 1) hdr.2 (fun a => if a = i then row.2 else syms a)).bind
          fun r => Res.ok (hdr.1 ++ row.1 ++ [0] ++ r.1, r.2)

/-! ## Order-1 encoder -/

/-- The four previous symbols `l0 .. l3` of the order-1 coders. -/
structure Last4 where
  l0 : Nat
  l1 : Nat
  l2 : Nat
  l3 : Nat

/-- The loop `for (i3 = in_size-2; i3 > 4*isz4-2; i3--)` of `rans_compress_O1`,
`c` rounds, with `i3 = 4*isz4 - 2 + c`. -/
def enc1_rem (inp : List Nat) (syms : Nat → Nat → RansEncSymbol) (isz4 : Nat) :
    Nat → Rans4 → Nat → Res (Rans4 × Nat)
  | 0, st, l3 => Res.ok (st, l3)
  | c + 1, st, l3 =>
    let c3 := inp.getD (4 * isz4 - 2 + (c + 1)) 0
    (put3 st (syms c3 l3)).bind fun st1 => enc1_rem inp syms isz4 c st1 c3

/-- The loop `for (; i0 >= 0; i0--, i1--, i2--, i3--)` of `rans_compress_O1`,
`k` rounds, with `i0 = k - 1`, `i1 = isz4 + k - 1`, `i2 = 2*isz4 + k - 1`,
`i3 = 3*isz4 + k - 1`. -/
def enc1_loop (inp : List Nat) (syms : Nat → Nat → RansEncSymbol) (isz4 : Nat) :
    Nat → Rans4 → Last4 → Res (Rans4 × Last4)
  | 0, st, l => Res.ok (st, l)
  | k + 1, st, l =>
    let c3 := inp.getD (3 * isz4 + k) 0
    let c2 := inp.getD (2 * isz4 + k) 0
    let c1 := inp.getD (isz4 + k) 0
    let c0 := inp.getD k 0
    (put3 st (syms c3 l.l3)).bind fun st3 =>
    (put2 st3 (syms c2 l.l2)).bind fun st2 =>
    (put1 st2 (syms c1 l.l1)).bind fun st1 =>
    (put0 st1 (syms c0 l.l0)).bind fun st0 =>
    enc1_loop inp syms isz4 k st0 { l0 := c0, l1 := c1, l2 := c2, l3 := c3 }

/-- The statistics of `rans_compress_O1`: `hist1_4` on zeroed `F` and `T`, then
`F[0][in[k*(in_size>>2)]]++` for `k = 1, 2, 3` and `T[0]+=3`.  The result is `F`
and `T`. -/
def stats_O1 (inp : List Nat) : (Nat → Nat → Nat) × (Nat → Nat) :=
  let in_size := inp.length
  let h := hist1_4 inp (fun _ _ => 0) (fun _ => 0)
  let q := in_size >>> 2
  let Fa := store2 h.1 0 (inp.getD (1 * q) 0) (h.1 0 (inp.getD (1 * q) 0) + 1)
  let Fb := store2 Fa 0 (inp.getD (2 * q) 0) (Fa 0 (inp.getD (2 * q) 0) + 1)
  let Fc := store2 Fb 0 (inp.getD (3 * q) 0) (Fb 0 (inp.getD (3 * q) 0) + 1)
  (Fc, store h.2 0 (h.2 0 + 3))

/-- The function `rans_compress_O1`, which hands fewer than four bytes over to
`rans_compress_O0`; `fl` stands for its floating-point normalisation.  The allocations are taken to succeed and a
failed `assert(tab_size < 257*257*3)` aborts. -/
def rans_compress_O1 (fl : FloatOps) (inp : List Nat) : Res (List Nat) :=
  let in_size := inp.length
  if in_size < 4 then rans_compress_O0 inp
  else
    let st := stats_O1 inp
    (enc1_table_loop fl st.2 st.1 256 0 0 (fun _ _ => { start := 0, freq := 0 })).bind fun tb =>
    let tab := tb.1 ++ [0]
    let syms := tb.2
    let tab_size := 9 + tab.length
    if ¬ (tab_size < 257 * 257 * 3) then Res.ub
    else
      let isz4 := in_size >>> 2
      let st0 : Rans4 :=
        { r0 := RANS_BYTE_L, r1 := RANS_BYTE_L, r2 := RANS_BYTE_L, r3 := RANS_BYTE_L, ptr := [] }
      (enc1_rem inp syms isz4 (in_size - 4 * isz4) st0 (inp.getD (in_size - 1) 0)).bind fun a =>
      (enc1_loop inp syms isz4 (isz4 - 1) a.1
        { l0 := inp.getD (1 * isz4 - 1) 0, l1 := inp.getD (2 * isz4 - 1) 0,
          l2 := inp.getD (3 * isz4 - 1) 0, l3 := a.2 }).bind fun b =>
      (put3 b.1 (syms 0 b.2.l3)).bind fun s3 =>
      (put2 s3 (syms 0 b.2.l2)).bind fun s2 =>
      (put1 s2 (syms 0 b.2.l1)).bind fun s1 =>
      (put0 s1 (syms 0 b.2.l0)).bind fun s0 =>
      Res.ok (finish_block 1 in_size tab (payload4 s0))

/-! ## Order-1 decoder -/

/-- Modelled from the spec: the type `RansDecSymbol32` of `rANS_byte.h`, as set
by `RansDecSymbolInit32(&s, start, freq)`. -/
structure RansDecSymbol32 where
  start : Nat
  freq : Nat
deriving DecidableEq, Repr

/-- The tables of `rans_uncompress_O1`: the reverse lookups `D[c].R[slot]` and
`syms[c][j]`, which are cached per thread and so enter a call with the contents
an earlier call left, and the context map `map` with its counter `map_i`. -/
structure Dec1 where
  D : Nat → Nat → Nat
  syms : Nat → Nat → RansDecSymbol32
  map : Nat → Int
  map_i : Int

/-- The assignment `if (map[k] == -1) map[k] = map_i++;`. -/
def map_touch (S : Dec1) (k : Nat) : Dec1 :=
  if S.map k = -1 then { S with map := fun a => if a = k then S.map_i else S.map a, map_i := S.map_i + 1 }
  else S

/-- The inner loop `do { ... } while(j)` of `rans_uncompress_O1`, which parses
the row of the context with dense id `m_i`.  The result is the tables, the
cumulative sum `x` and the cursor. -/
def dec1_row_loop (m_i : Nat) : Nat → Dec1 → Nat → Nat → Nat → List Nat → Res (Dec1 × Nat × List Nat)
  | 0, _, _, _, _, _ => Res.diverge
  | fuel + 1, S, j, rle_j, x, cp =>
    let S1 := map_touch S j
    if cp.length < 16 then Res.fail
    else
      (rd_freq cp).bind fun fc =>
      let F := if fc.1 = 0 then TOTFREQ else fc.1
      let S2 : Dec1 := { S1 with syms := store2 S1.syms m_i j { start := x, freq := F } }
      if x + F > TOTFREQ then Res.fail
      else
        let S3 : Dec1 :=
          { S2 with D := fun a => if a = m_i then fill_loop (S2.D m_i) x (fun _ => j % 256) F else S2.D a }
        let x1 := x + F
        if rle_j = 0 then
          (peek fc.2).bind fun c =>
          if j + 1 = c then
            (rd fc.2).bind fun jc => (rd jc.2).bind fun rc =>
              if jc.1 ≠ 0 then dec1_row_loop m_i fuel S3 jc.1 rc.1 x1 rc.2
              else Res.ok (S3, x1, rc.2)
          else
            (rd fc.2).bind fun jc =>
              if jc.1 ≠ 0 then dec1_row_loop m_i fuel S3 jc.1 rle_j x1 jc.2
              else Res.ok (S3, x1, jc.2)
        else
          if j + 1 > 255 then Res.fail
          else dec1_row_loop m_i fuel S3 (j + 1) (rle_j - 1) x1 fc.2

/-- The outer loop `do { ... } while (i)` of `rans_uncompress_O1` over the
contexts.  The fill of the slot `x = TOTFREQ - 1` is made in `D[i]`, as in the
source.  The result is the tables and the cursor. -/
def dec1_table_loop : Nat → Dec1 → Nat → Nat → List Nat → Res (Dec1 × List Nat)
  | 0, _, _, _, _ => Res.diverge
  | fuel + 1, S, i, rle_i, cp =>
    let S1 := map_touch S i
    let m_i := (S1.map i).toNat
    (rd cp).bind fun jc =>
    (dec1_row_loop m_i (cp.length) S1 jc.1 0 0 jc.2).bind fun r =>
    let x := r.2.1
    if x < TOTFREQ - 1 ∨ x > TOTFREQ then Res.fail
    else
      let S2 : Dec1 :=
        if x < TOTFREQ then
          { r.1 with D := fun a => if a = i then store (r.1.D i) x (r.1.D i (x - 1)) else r.1.D a }
        else r.1
      let cp2 := r.2.2
      if rle_i = 0 then
        (peek cp2).bind fun c =>
        if i + 1 = c then
          (rd cp2).bind fun ic => (rd ic.2).bind fun rc =>
            if ic.1 ≠ 0 then dec1_table_loop fuel S2 ic.1 rc.1 rc.2
            else Res.ok (S2, rc.2)
        else
          (rd cp2).bind fun ic =>
            if ic.1 ≠ 0 then dec1_table_loop fuel S2 ic.1 rle_i ic.2
            else Res.ok (S2, ic.2)
      else
        if i + 1 > 255 then Res.fail
        else dec1_table_loop fuel S2 (i + 1) (rle_i - 1) cp2

/-- The advance of one state in the decode loops of `rans_uncompress_O1`:
`m = R & mask; R = freq * (R >> TF_SHIFT); R += m - start`, in 32 bits. -/
def dec1_adv (sy : RansDecSymbol32) (R : Nat) : Nat :=
  let m := R &&& ((1 <<< TF_SHIFT) - 1)
  (sy.freq * (R >>> TF_SHIFT) + m + (2 ^ 32 - sy.start % 2 ^ 32)) % 2 ^ 32

/-- The lookup `D[l].R[R & ((1u << TF_SHIFT)-1)]`. -/
def dec1_get (S : Dec1) (l : Nat) (R : Nat) : Nat :=
  S.D l (R &&& ((1 <<< TF_SHIFT) - 1)) % 256

/-- The loop `for (; i4[0] < isz4; i4[0]++, ...)` of `rans_uncompress_O1`, `n`
rounds from offset `t` (`i4[k] = k*isz4 + t`); `cc` holds the four symbols
looked up before the round. -/
def dec1_loop (S : Dec1) (isz4 : Nat) :
    Nat → Nat → Rans4 → Last4 → Last4 → (Nat → Nat) → Res (Rans4 × Last4 × (Nat → Nat))
  | 0, _, st, l, _, out => Res.ok (st, l, out)
  | n + 1, t, st, l, cc, out =>
    let out1 := store (store (store (store out (0 * isz4 + t) cc.l0) (1 * isz4 + t) cc.l1)
      (2 * isz4 + t) cc.l2) (3 * isz4 + t) cc.l3
    let R0 := dec1_adv (S.syms l.l0 cc.l0) st.r0
    let R1 := dec1_adv (S.syms l.l1 cc.l1) st.r1
    let R2 := dec1_adv (S.syms l.l2 cc.l2) st.r2
    let R3 := dec1_adv (S.syms l.l3 cc.l3) st.r3
    let l1 : Last4 :=
      { l0 := (S.map cc.l0).toNat, l1 := (S.map cc.l1).toNat, l2 := (S.map cc.l2).toNat,
        l3 := (S.map cc.l3).toNat }
    (dec_renorm4 R0 R1 R2 R3 st.ptr).bind fun st1 =>
    dec1_loop S isz4 n (t + 1) st1 l1
      { l0 := dec1_get S l1.l0 st1.r0, l1 := dec1_get S l1.l1 st1.r1,
        l2 := dec1_get S l1.l2 st1.r2, l3 := dec1_get S l1.l3 st1.r3 } out1

/-- The loop `for (; i4[3] < out_sz; i4[3]++)` of `rans_uncompress_O1` for the
remainder, `n` rounds from index `i`, on stream 3. -/
def dec1_rem (S : Dec1) : Nat → Nat → Nat → List Nat → Nat → (Nat → Nat) → (Nat → Nat)
  | 0, _, _, _, _, out => out
  | n + 1, i, R3, ptr, l3, out =>
    let c3 := dec1_get S l3 R3
    let a := RansDecRenormSafe (dec1_adv (S.syms l3 c3) R3) ptr
    dec1_rem S n (i + 1) a.1 a.2 (S.map c3).toNat (store out i c3)

/-- The function `rans_uncompress_O1`; `D` and `syms` are the contents of the
cached tables on entry.  The allocations are taken to succeed, and the bytes
returned are `out_buf[0 .. out_sz)`. -/
def rans_uncompress_O1 (D : Nat → Nat → Nat) (syms : Nat → Nat → RansDecSymbol32)
    (inp : List Nat) : Res (List Nat) :=
  let in_size := inp.length
  if in_size < 27 then Res.fail
  else if inp.getD 0 0 ≠ 1 then Res.fail
  else
    let in_sz := rd_le32 inp 1
    let out_sz := rd_le32 inp 5
    if in_sz ≠ in_size - 9 then Res.fail
    else if out_sz ≥ INT_MAX then Res.fail
    else
      (rd (inp.drop 9)).bind fun ic =>
      (dec1_table_loop in_size { D := D, syms := syms, map := fun _ => -1, map_i := 0 } ic.1 0 ic.2).bind
      fun r =>
      let S : Dec1 := { r.1 with map := fun a => if a < 256 ∧ r.1.map a = -1 then 0 else r.1.map a }
      if r.2.length < 16 then Res.fail
      else
        (dec_init4 r.2).bind fun st =>
        let isz4 := out_sz >>> 2
        let l : Last4 := { l0 := 0, l1 := 0, l2 := 0, l3 := 0 }
        let cc : Last4 :=
          { l0 := dec1_get S (S.map l.l0).toNat st.r0, l1 := dec1_get S (S.map l.l1).toNat st.r1,
            l2 := dec1_get S (S.map l.l2).toNat st.r2, l3 := dec1_get S (S.map l.l3).toNat st.r3 }
        (dec1_loop S isz4 isz4 0 st l cc (fun _ => 0)).bind fun e =>
        Res.ok ((List.range out_sz).map
          (dec1_rem S (out_sz - 4 * isz4) (4 * isz4) e.1.r3 e.1.ptr e.2.1.l3 e.2.2))

/-! ## Public interface -/

/-- The function `rans_compress`; `fl` stands for the floating-point
normalisation of the order-1 compressor. -/
def rans_compress (fl : FloatOps) (inp : List Nat) (order : Int) : Res (List Nat) :=
  if order ≠ 0 then rans_compress_O1 fl inp else rans_compress_O0 inp

/-- The function `rans_uncompress`; `T`, `D` and `syms` are the contents on
entry of the tables of the two decoders. -/
def rans_uncompress (T : DecTab0) (D : Nat → Nat → Nat) (syms : Nat → Nat → RansDecSymbol32)
    (inp : List Nat) : Res (List Nat) :=
  if inp.length < 9 then Res.fail
  else if inp.getD 0 0 ≠ 0 then rans_uncompress_O1 D syms inp
  else rans_uncompress_O0 T inp

/-! ## Notions used by the statements -/

/-- Sum of the entries `F 0 .. F (k - 1)` of a row. -/
def cumul (F : Nat → Nat) : Nat → Nat
  | 0 => 0
  | k + 1 => cumul F k + F k

/-- The four states are in the normalised interval `[RANS_BYTE_L, 2^31)`. -/
def StOK (st : Rans4) : Prop :=
  (RANS_BYTE_L ≤ st.r0 ∧ st.r0 < 2 ^ 31) ∧ (RANS_BYTE_L ≤ st.r1 ∧ st.r1 < 2 ^ 31) ∧
  (RANS_BYTE_L ≤ st.r2 ∧ st.r2 < 2 ^ 31) ∧ (RANS_BYTE_L ≤ st.r3 ∧ st.r3 < 2 ^ 31)

/-- An encoder symbol that can be coded: a positive frequency and a slot range
inside `[0, TOTFREQ)`. -/
def EncOK (e : RansEncSymbol) : Prop :=
  1 ≤ e.freq ∧ e.start + e.freq ≤ 4096

/-- The state the decoder computes from a state `y` whose slot belongs to `e`:
`freq * (y >> TF_SHIFT) + (y & mask) - start`. -/
def dec_adv (e : RansEncSymbol) (y : Nat) : Nat :=
  e.freq * (y / 4096) + (y % 4096 - e.start)

/-- The slot of the state `y` lies in the range of `e`. -/
def InSlot (e : RansEncSymbol) (y : Nat) : Prop :=
  e.start ≤ y % 4096 ∧ y % 4096 < e.start + e.freq

/-- The encoder symbol of the byte `b` and the lookup arrays of the order-0
decoder agree: every slot of the range of `b` gives `b`, its frequency and the
offset in the range. -/
def SymOK0 (syms : Nat → RansEncSymbol) (T : DecTab0) (b : Nat) : Prop :=
  EncOK (syms b) ∧ b < 256 ∧
  ∀ m, (syms b).start ≤ m → m < (syms b).start + (syms b).freq →
    T.ssym m = b ∧ T.sfreq m = (syms b).freq ∧ T.sbase m = m - (syms b).start

/-- The value a non-zero entry takes in a pass of a normaliser whose scaling
is `g`: the scaled value, or 1 when that is 0. -/
def bump (g : Nat → Nat) (f : Nat) : Nat := if g f = 0 then 1 else g f

/-- The fixed-point scaling `(F[j]*tr)>>31` of the order-0 normaliser. -/
def scale0 (tr : Nat) (f : Nat) : Nat := ((f * tr) % 2 ^ 64) >>> 31

/-- The invariant of `m` and `M` in a pass of a normaliser that has reached the
symbol `j`. -/
def MInv (j : Nat) (st : NormState) : Prop :=
  st.M < 256 ∧ (st.m = 0 → ∀ k, k < j → st.F k = 0) ∧ (0 < st.m → st.F st.M ≠ 0 ∧ st.M < j)

/-- What the embedding asks of the floating-point normalisation of order 1: a
count at most the total of its row is scaled to at most `TOTFREQ`, and the
multiplication by `.98` lowers every positive value. -/
def FloatOK (fl : FloatOps) : Prop :=
  (∀ t f, f ≤ t → fl.scale t f ≤ 4096) ∧ (∀ f, 1 ≤ f → fl.scale98 f < f)

/-- A normalised row `F1` of the counts `F`, with the symbol `M` that took the
adjustment: the entries below 256 sum to `TOTFREQ - 1`, the support is that of
`F`, and `F1 M` is positive. -/
def RowOK (F F1 : Nat → Nat) (M : Nat) : Prop :=
  cumul F1 256 = 4095 ∧ (∀ k, F1 k ≠ 0 ↔ F k ≠ 0) ∧ F1 M ≠ 0 ∧ M < 256

/-- The bytes that the table loop of the encoders writes from the symbol `j`
on, `n` symbols remaining, when it enters with the run counter `rle`. -/
def tab_bytes (F : Nat → Nat) : Nat → Nat → Nat → List Nat
  | 0, _, _ => []
  | n + 1, j, rle =>
    if F j = 0 then tab_bytes F n (j + 1) rle
    else
      let hdr : List Nat × Nat :=
        if rle ≠ 0 then ([], rle - 1)
        else if j ≠ 0 ∧ F (j - 1) ≠ 0 then
          let r := rle_scan F 256 (j + 1) - (j + 1)
          ([j % 256, r % 256], r)
        else ([j % 256], 0)
      hdr.1 ++ freq_bytes (F j) ++ tab_bytes F n (j + 1) hdr.2

/-- The symbols `j + 1 .. j + rle` of a run are present. -/
def RunOK (F : Nat → Nat) (j rle : Nat) : Prop :=
  ∀ i, j < i → i ≤ j + rle → i < 256 ∧ F i ≠ 0

/-- The lookup arrays `T1` hold the row `F` on the slots of the symbols from `j`
on, and are those of `T` below the slots of `j`. -/
def TabFrom (F : Nat → Nat) (j : Nat) (T T1 : DecTab0) : Prop :=
  (∀ m, m < cumul F j → T1.ssym m = T.ssym m ∧ T1.sfreq m = T.sfreq m ∧ T1.sbase m = T.sbase m) ∧
  ∀ k, j ≤ k → k < 256 → F k ≠ 0 → ∀ m, cumul F k ≤ m → m < cumul F k + F k →
    T1.ssym m = k ∧ T1.sfreq m = F k ∧ T1.sbase m = m - cumul F k

/-- The bytes that a table loop of the encoders writes from the entry `j` on,
`n` entries remaining, when it enters with the run counter `rle`; `F` tells the
entries that are present and `pay j` is what is written after the header of the
entry `j`. -/
def tab_gen (F : Nat → Nat) (pay : Nat → List Nat) : Nat → Nat → Nat → List Nat
  | 0, _, _ => []
  | n + 1, j, rle =>
    if F j = 0 then tab_gen F pay n (j + 1) rle
    else
      let hdr : List Nat × Nat :=
        if rle ≠ 0 then ([], rle - 1)
        else if j ≠ 0 ∧ F (j - 1) ≠ 0 then
          let r := rle_scan F 256 (j + 1) - (j + 1)
          ([j % 256, r % 256], r)
        else ([j % 256], 0)
      hdr.1 ++ pay j ++ tab_gen F pay n (j + 1) hdr.2

/-- The row of the context `i` after the normalisation of order 1 (the row as
counted when the normalisation does not come to an end). -/
def nrow (fl : FloatOps) (T : Nat → Nat) (F : Nat → Nat → Nat) (i : Nat) : Nat → Nat :=
  match normalise1 fl NORM_FUEL (fl.scale (T i)) (F i) with
  | some r => r
  | none => F i

/-- The bytes of the row `R i` in an order-1 table, with its terminating zero. -/
def row_pay (R : Nat → Nat → Nat) (i : Nat) : List Nat :=
  tab_bytes (R i) 256 0 0 ++ [0]

/-- The tables of order 1 after one round of the inner table loop: the symbol
`j` gets a dense id if it has none, `syms[m][j]` is set and the slots
`x .. x + f - 1` of `D[m]` are filled with `j`. -/
def dec1_fill (m : Nat) (S : Dec1) (x j f : Nat) : Dec1 :=
  { D := fun a =>
      if a = m then fill_loop ((map_touch S j).D m) x (fun _ => j % 256) f else (map_touch S j).D a,
    syms := store2 (map_touch S j).syms m j { start := x, freq := f },
    map := (map_touch S j).map,
    map_i := (map_touch S j).map_i }

/-- The tables of order 1 after the fill `D[i].R[x] = D[i].R[x-1]` of the outer
table loop. -/
def dec1_pad (i x : Nat) (S : Dec1) : Dec1 :=
  { S with D := fun a => if a = i then store (S.D i) x (S.D i (x - 1)) else S.D a }

/-- The context map is sound: the ids given out are below the counter and no
two symbols share one. -/
def MapOK (S : Dec1) : Prop :=
  0 ≤ S.map_i ∧ (∀ a, S.map a = -1 ∨ (0 ≤ S.map a ∧ S.map a < S.map_i)) ∧
  ∀ a b, S.map a ≠ -1 → S.map a = S.map b → a = b

/-- The map of `S1` extends the map of `S`. -/
def MapExt (S S1 : Dec1) : Prop :=
  (∀ a, S.map a ≠ -1 → S1.map a = S.map a) ∧ (MapOK S → MapOK S1)

/-- The tables `S1` hold the row `R` under the dense id `m` for the symbols from
`j` on, and are those of `S` in the other rows and below `j`. -/
def RowFrom (R : Nat → Nat) (m j : Nat) (S S1 : Dec1) : Prop :=
  (∀ a, a ≠ m → S1.D a = S.D a ∧ S1.syms a = S.syms a) ∧
  (∀ slot, slot < cumul R j → S1.D m slot = S.D m slot) ∧
  (∀ b, b < j → S1.syms m b = S.syms m b) ∧
  (∀ k, j ≤ k → k < 256 → R k ≠ 0 →
    S1.syms m k = { start := cumul R k, freq := R k } ∧
    ∀ slot, cumul R k ≤ slot → slot < cumul R k + R k → S1.D m slot = k) ∧
  MapExt S S1

/-- The tables `S` hold the row of the context `c` under its dense id. -/
def CtxOK (R : Nat → Nat → Nat) (S : Dec1) (c : Nat) : Prop :=
  0 ≤ S.map c ∧ ∀ k, k < 256 → R c k ≠ 0 →
    S.syms (S.map c).toNat k = { start := cumul (R c) k, freq := R c k } ∧
    ∀ slot, cumul (R c) k ≤ slot → slot < cumul (R c) k + R c k → S.D (S.map c).toNat slot = k

/-- What one round of the outer table loop of the decoder of order 1 does to
the tables. -/
def CtxStep (R : Nat → Nat → Nat) (i : Nat) (S S2 : Dec1) : Prop :=
  MapOK S2 ∧ (∀ a, S.map a ≠ -1 → S2.map a = S.map a) ∧ S2.map i = (map_touch S i).map i ∧
  CtxOK R S2 i ∧
  ∀ c, c ≠ i → cumul (R c) 256 ≤ 4095 → CtxOK R S c → CtxOK R S2 c

/-- What the outer table loop of the decoder of order 1 does to the tables when
it runs from the context `i` to the end of the table. -/
def CtxFrom (T : Nat → Nat) (R : Nat → Nat → Nat) (i : Nat) (S S1 : Dec1) : Prop :=
  MapOK S1 ∧ (∀ a, S.map a ≠ -1 → S1.map a = S.map a) ∧ S1.map i = (map_touch S i).map i ∧
  (∀ c, i ≤ c → c < 256 → T c ≠ 0 → CtxOK R S1 c) ∧
  ∀ c, c < i → T c ≠ 0 → CtxOK R S c → CtxOK R S1 c

/-- The encoder symbol of the byte `b` in the context `c` and the tables of the
decoder of order 1 agree: the context has a dense id, and under it every slot of
the range of `b` gives `b`, and `syms` holds its start and frequency. -/
def SymOK1 (syms : Nat → Nat → RansEncSymbol) (S : Dec1) (c b : Nat) : Prop :=
  EncOK (syms c b) ∧ b < 256 ∧ 0 ≤ S.map c ∧
  S.syms (S.map c).toNat b = { start := (syms c b).start, freq := (syms c b).freq } ∧
  ∀ m, (syms c b).start ≤ m → m < (syms c b).start + (syms c b).freq →
    S.D (S.map c).toNat m = b

/-- The four lookups `D[l].R[R & mask]` made before a round of the decode loop
of order 1. -/
def gets4 (S : Dec1) (l : Last4) (st : Rans4) : Last4 :=
  { l0 := dec1_get S l.l0 st.r0, l1 := dec1_get S l.l1 st.r1,
    l2 := dec1_get S l.l2 st.r2, l3 := dec1_get S l.l3 st.r3 }

/-- The dense ids of four symbols. -/
def maps4 (S : Dec1) (c : Last4) : Last4 :=
  { l0 := (S.map c.l0).toNat, l1 := (S.map c.l1).toNat, l2 := (S.map c.l2).toNat,
    l3 := (S.map c.l3).toNat }

/-- The remainder loop of the decoder of order 1 with the state it ends in: the
state of stream 3, the cursor, the context and the output. -/
def dec1_rem_st (S : Dec1) :
    Nat → Nat → Nat → List Nat → Nat → (Nat → Nat) → Nat × List Nat × Nat × (Nat → Nat)
  | 0, _, R3, ptr, l3, out => (R3, ptr, l3, out)
  | n + 1, i, R3, ptr, l3, out =>
    dec1_rem_st S n (i + 1) (RansDecRenormSafe (dec1_adv (S.syms l3 (dec1_get S l3 R3)) R3) ptr).1
      (RansDecRenormSafe (dec1_adv (S.syms l3 (dec1_get S l3 R3)) R3) ptr).2
      (S.map (dec1_get S l3 R3)).toNat (store out i (dec1_get S l3 R3))

/-- The normalised rows of the compressor of order 1 on the input `s`. -/
def rows_O1 (fl : FloatOps) (s : List Nat) : Nat → Nat → Nat :=
  nrow fl (stats_O1 s).2 (stats_O1 s).1

/-- The frequency table that the compressor of order 1 writes for the input
`s`, with its terminating zero. -/
def tab_O1 (fl : FloatOps) (s : List Nat) : List Nat :=
  tab_gen (stats_O1 s).2 (row_pay (rows_O1 fl s)) 256 0 0 ++ [0]

/-- The encoder symbols that the compressor of order 1 sets for the input `s`. -/
def syms_O1 (fl : FloatOps) (s : List Nat) : Nat → Nat → RansEncSymbol :=
  match enc1_table_loop fl (stats_O1 s).2 (stats_O1 s).1 256 0 0
      (fun _ _ => { start := 0, freq := 0 }) with
  | Res.ok tb => tb.2
  | _ => fun _ _ => { start := 0, freq := 0 }

/-- The tables of the decoder of order 1 after `for (i = 0; i < 256; i++)
if (map[i] == -1) map[i] = 0;`. -/
def map_fix (S1 : Dec1) : Dec1 :=
  { S1 with map := fun a => if a < 256 ∧ S1.map a = -1 then 0 else S1.map a }

/-- A normalisation of order 1 computed in exact integer arithmetic, an
instance of `FloatOps` on which the statements can be evaluated. -/
def intOps : FloatOps :=
  { scale := fun t f => f * 4096 / t, scale98 := fun f => f * 98 / 100 }

/-- An outcome that is a return: a result or the failure return, neither an
undefined read nor an exhausted budget of rounds. -/
def Returns {α : Type} (r : Res α) : Prop := r ≠ Res.ub ∧ r ≠ Res.diverge

/-- The outer loop of `rans_uncompress_O1` with a ghost list: the loop
`dec1_table_loop`, which here also returns the cumulative sums `x` of the rows it
has parsed, in the order of the table, after those of `acc`. -/
def dec1_table_sums : Nat → Dec1 → Nat → Nat → List Nat → List Nat → Res (Dec1 × List Nat × List Nat)
  | 0, _, _, _, _, _ => Res.diverge
  | fuel + 1, S, i, rle_i, cp, acc =>
    let S1 := map_touch S i
    let m_i := (S1.map i).toNat
    (rd cp).bind fun jc =>
    (dec1_row_loop m_i (cp.length) S1 jc.1 0 0 jc.2).bind fun r =>
    let x := r.2.1
    if x < TOTFREQ - 1 ∨ x > TOTFREQ then Res.fail
    else
      let S2 : Dec1 :=
        if x < TOTFREQ then
          { r.1 with D := fun a => if a = i then store (r.1.D i) x (r.1.D i (x - 1)) else r.1.D a }
        else r.1
      let cp2 := r.2.2
      if rle_i = 0 then
        (peek cp2).bind fun c =>
        if i + 1 = c then
          (rd cp2).bind fun ic => (rd ic.2).bind fun rc =>
            if ic.1 ≠ 0 then dec1_table_sums fuel S2 ic.1 rc.1 rc.2 (acc ++ [x])
            else Res.ok (S2, rc.2, acc ++ [x])
        else
          (rd cp2).bind fun ic =>
            if ic.1 ≠ 0 then dec1_table_sums fuel S2 ic.1 rle_i ic.2 (acc ++ [x])
            else Res.ok (S2, ic.2, acc ++ [x])
      else
        if i + 1 > 255 then Res.fail
        else dec1_table_sums fuel S2 (i + 1) (rle_i - 1) cp2 (acc ++ [x])

/-- The byte before position `k` as `hist1_4` sees it from the start of the
input: `last_0 = 0` before the first byte, `in[k-1]` elsewhere. -/
def prev_byte (inp : List Nat) (k : Nat) : Nat := if k = 0 then 0 else inp.getD (k - 1) 0

/-- The number of positions `k` in `lo .. lo + n - 1` whose byte is `b` and whose
previous byte (`prev_byte`) is `a`. -/
def pairs_in (inp : List Nat) (a b lo n : Nat) : Nat :=
  (List.range' lo n).countP (fun k => decide (prev_byte inp k = a ∧ inp.getD k 0 = b))

/-- The state `R[k]` of stream `k` (`k = 0 .. 3`). -/
def Rans4.R (st : Rans4) (k : Nat) : Nat :=
  if k = 0 then st.r0 else if k = 1 then st.r1 else if k = 2 then st.r2 else st.r3

/-- The four states after one round of the loop `for (i=0; i < out_end; i+=4)`
of `rans_uncompress_O0`: the four advances and the renormalisation, without the
stores into `out_buf`. -/
def dec0_round (T : DecTab0) (st : Rans4) : Res Rans4 :=
  dec_renorm4 (dec0_sym T st.r0).2 (dec0_sym T st.r1).2 (dec0_sym T st.r2).2 (dec0_sym T st.r3).2
    st.ptr

/-- The four states after `t` rounds of the loop of `rans_uncompress_O0`, that
is, at the start of step `t`. -/
def dec0_states (T : DecTab0) : Nat → Rans4 → Res Rans4
  | 0, st => Res.ok st
  | t + 1, st => (dec0_round T st).bind fun st1 => dec0_states T t st1

/-- An access to an array: `r` when the index condition `c` holds, the undefined
outcome when it does not. -/
def access {α : Type} (c : Prop) [Decidable c] (r : Res α) : Res α :=
  if c then r else Res.ub

/-- The loop `dec0_table_loop` with its array accesses checked: the loop
`for (y = 0; y < F; y++)` stores into `ssym`, `sfreq` and `sbase` at the indices
`y + C`, which are to be below `TOTFREQ`. -/
def dec0_table_loop_chk : Nat → DecTab0 → Nat → Nat → Nat → List Nat → Res (DecTab0 × Nat × List Nat)
  | 0, _, _, _, _, _ => Res.diverge
  | fuel + 1, T, j, rle, x, cp =>
    if cp.length < 16 then Res.fail
    else
      (rd_freq cp).bind fun fc =>
      if fc.1 + x > TOTFREQ then Res.fail
      else
        access (∀ y, y < fc.1 → y + x < TOTFREQ) (
        let T1 := dec0_fill T x j fc.1
        let x1 := x + fc.1
        if rle = 0 then
          (peek fc.2).bind fun c =>
          if j + 1 = c then
            (rd fc.2).bind fun jc => (rd jc.2).bind fun rc =>
              if jc.1 ≠ 0 then dec0_table_loop_chk fuel T1 jc.1 rc.1 x1 rc.2
              else Res.ok (T1, x1, rc.2)
          else
            (rd fc.2).bind fun jc =>
              if jc.1 ≠ 0 then dec0_table_loop_chk fuel T1 jc.1 rle x1 jc.2
              else Res.ok (T1, x1, jc.2)
        else
          if j + 1 > 255 then Res.fail
          else dec0_table_loop_chk fuel T1 (j + 1) (rle - 1) x1 fc.2)

/-- The table decoder `dec0_table` with its array accesses checked. -/
def dec0_table_chk (fuel : Nat) (T : DecTab0) (cp : List Nat) : Res (DecTab0 × Nat × List Nat) :=
  (rd cp).bind fun jc => dec0_table_loop_chk fuel T jc.1 0 0 jc.2

/-- The loop `dec0_loop` with its array accesses checked: a round reads `ssym`,
`sfreq` and `sbase` at the four slots `R[k] & mask`, which are to be below
`TOTFREQ`, and stores into `out_buf[i+0 .. i+3]`, which has `out_sz` bytes. -/
def dec0_loop_chk (T : DecTab0) (out_sz : Nat) :
    Nat → Nat → Rans4 → (Nat → Nat) → Res (Rans4 × (Nat → Nat))
  | 0, _, st, out => Res.ok (st, out)
  | n + 1, i, st, out =>
    access (st.r0 &&& ((1 <<< TF_SHIFT) - 1) < TOTFREQ ∧ st.r1 &&& ((1 <<< TF_SHIFT) - 1) < TOTFREQ ∧
        st.r2 &&& ((1 <<< TF_SHIFT) - 1) < TOTFREQ ∧ st.r3 &&& ((1 <<< TF_SHIFT) - 1) < TOTFREQ ∧
        i + 0 < out_sz ∧ i + 1 < out_sz ∧ i + 2 < out_sz ∧ i + 3 < out_sz) (
    let d0 := dec0_sym T st.r0
    let d1 := dec0_sym T st.r1
    let d2 := dec0_sym T st.r2
    let d3 := dec0_sym T st.r3
    let out1 := store (store (store (store out (i + 0) d0.1) (i + 1) d1.1) (i + 2) d2.1) (i + 3) d3.1
    (dec_renorm4 d0.2 d1.2 d2.2 d3.2 st.ptr).bind fun st1 =>
    dec0_loop_chk T out_sz n (i + 4) st1 out1)

/-- The `switch(out_sz&3)` of `dec0_tail` with its array accesses checked: each
case reads `ssym` at a slot `R[k] & mask` and stores into `out_buf[out_end + k]`. -/
def dec0_tail_chk (T : DecTab0) (out_sz out_end : Nat) (st : Rans4) (out : Nat → Nat) :
    Res (Nat → Nat) :=
  let mask := (1 <<< TF_SHIFT) - 1
  let k := out_sz &&& 3
  (if k = 3 then
      access (st.r2 &&& mask < TOTFREQ ∧ out_end + 2 < out_sz)
        (Res.ok (store out (out_end + 2) (T.ssym (st.r2 &&& mask) % 256)))
    else Res.ok out).bind fun o1 =>
  (if k = 3 ∨ k = 2 then
      access (st.r1 &&& mask < TOTFREQ ∧ out_end + 1 < out_sz)
        (Res.ok (store o1 (out_end + 1) (T.ssym (st.r1 &&& mask) % 256)))
    else Res.ok o1).bind fun o2 =>
  if k = 3 ∨ k = 2 ∨ k = 1 then
    access (st.r0 &&& mask < TOTFREQ ∧ out_end < out_sz)
      (Res.ok (store o2 out_end (T.ssym (st.r0 &&& mask) % 256)))
  else Res.ok o2

/-- The function `rans_uncompress_O0` with its array accesses checked: the
header reads `in[0 .. 8]` are to be below `in_size`, and the table parse, the
decode loop and the `switch` are the checked ones. -/
def rans_uncompress_O0_chk (T : DecTab0) (inp : List Nat) : Res (List Nat) :=
  let in_size := inp.length
  if in_size < 26 then Res.fail
  else
    access (8 < in_size) (
    if inp.getD 0 0 ≠ 0 then Res.fail
    else
      let in_sz := rd_le32 inp 1
      let out_sz := rd_le32 inp 5
      if in_sz ≠ in_size - 9 then Res.fail
      else if out_sz ≥ INT_MAX then Res.fail
      else
        (dec0_table_chk in_size T (inp.drop 9)).bind fun r =>
        if r.2.1 < TOTFREQ - 1 ∨ r.2.1 > TOTFREQ then Res.fail
        else if r.2.2.length < 16 then Res.fail
        else
          (dec_init4 r.2.2).bind fun st =>
          let out_end := out_sz &&& 0xFFFFFFFC
          (dec0_loop_chk r.1 out_sz (out_end / 4) 0 st (fun _ => 0)).bind fun e =>
          (dec0_tail_chk r.1 out_sz out_end e.1 e.2).bind fun o =>
          Res.ok ((List.range out_sz).map o))

/-- The loop `dec1_row_loop` with its array accesses checked: the
`memset(&D[m_i].R[x], j, F)` stores at the slots `x .. x + F - 1`, which are to
be below `TOTFREQ`. -/
def dec1_row_loop_chk (m_i : Nat) :
    Nat → Dec1 → Nat → Nat → Nat → List Nat → Res (Dec1 × Nat × List Nat)
  | 0, _, _, _, _, _ => Res.diverge
  | fuel + 1, S, j, rle_j, x, cp =>
    let S1 := map_touch S j
    if cp.length < 16 then Res.fail
    else
      (rd_freq cp).bind fun fc =>
      let F := if fc.1 = 0 then TOTFREQ else fc.1
      let S2 : Dec1 := { S1 with syms := store2 S1.syms m_i j { start := x, freq := F } }
      if x + F > TOTFREQ then Res.fail
      else
        access (∀ y, y < F → x + y < TOTFREQ) (
        let S3 : Dec1 :=
          { S2 with D := fun a => if a = m_i then fill_loop (S2.D m_i) x (fun _ => j % 256) F else S2.D a }
        let x1 := x + F
        if rle_j = 0 then
          (peek fc.2).bind fun c =>
          if j + 1 = c then
            (rd fc.2).bind fun jc => (rd jc.2).bind fun rc =>
              if jc.1 ≠ 0 then dec1_row_loop_chk m_i fuel S3 jc.1 rc.1 x1 rc.2
              else Res.ok (S3, x1, rc.2)
          else
            (rd fc.2).bind fun jc =>
              if jc.1 ≠ 0 then dec1_row_loop_chk m_i fuel S3 jc.1 rle_j x1 jc.2
              else Res.ok (S3, x1, jc.2)
        else
          if j + 1 > 255 then Res.fail
          else dec1_row_loop_chk m_i fuel S3 (j + 1) (rle_j - 1) x1 fc.2)

/-- The loop `dec1_table_loop` with its array accesses checked: the rows are
parsed by the checked loop, and the fill `D[i].R[x] = D[i].R[x-1]` is made at the
slots `x` and `x - 1`, which are to be in `[0, TOTFREQ)`. -/
def dec1_table_loop_chk : Nat → Dec1 → Nat → Nat → List Nat → Res (Dec1 × List Nat)
  | 0, _, _, _, _ => Res.diverge
  | fuel + 1, S, i, rle_i, cp =>
    let S1 := map_touch S i
    let m_i := (S1.map i).toNat
    (rd cp).bind fun jc =>
    (dec1_row_loop_chk m_i (cp.length) S1 jc.1 0 0 jc.2).bind fun r =>
    let x := r.2.1
    if x < TOTFREQ - 1 ∨ x > TOTFREQ then Res.fail
    else
      access (x < TOTFREQ → 1 ≤ x ∧ x - 1 < TOTFREQ ∧ x < TOTFREQ) (
      let S2 : Dec1 :=
        if x < TOTFREQ then
          { r.1 with D := fun a => if a = i then store (r.1.D i) x (r.1.D i (x - 1)) else r.1.D a }
        else r.1
      let cp2 := r.2.2
      if rle_i = 0 then
        (peek cp2).bind fun c =>
        if i + 1 = c then
          (rd cp2).bind fun ic => (rd ic.2).bind fun rc =>
            if ic.1 ≠ 0 then dec1_table_loop_chk fuel S2 ic.1 rc.1 rc.2
            else Res.ok (S2, rc.2)
        else
          (rd cp2).bind fun ic =>
            if ic.1 ≠ 0 then dec1_table_loop_chk fuel S2 ic.1 rle_i ic.2
            else Res.ok (S2, ic.2)
      else
        if i + 1 > 255 then Res.fail
        else dec1_table_loop_chk fuel S2 (i + 1) (rle_i - 1) cp2)

/-- The loop `dec1_loop` with its array accesses checked: a round stores into
`out_buf[i4[0]] .. out_buf[i4[3]]`, which has `out_sz` bytes, and after the
renormalisation reads `D[l].R` at the four slots `R[k] & mask`. -/
def dec1_loop_chk (S : Dec1) (isz4 out_sz : Nat) :
    Nat → Nat → Rans4 → Last4 → Last4 → (Nat → Nat) → Res (Rans4 × Last4 × (Nat → Nat))
  | 0, _, st, l, _, out => Res.ok (st, l, out)
  | n + 1, t, st, l, cc, out =>
    access (0 * isz4 + t < out_sz ∧ 1 * isz4 + t < out_sz ∧ 2 * isz4 + t < out_sz ∧
        3 * isz4 + t < out_sz) (
    let out1 := store (store (store (store out (0 * isz4 + t) cc.l0) (1 * isz4 + t) cc.l1)
      (2 * isz4 + t) cc.l2) (3 * isz4 + t) cc.l3
    let R0 := dec1_adv (S.syms l.l0 cc.l0) st.r0
    let R1 := dec1_adv (S.syms l.l1 cc.l1) st.r1
    let R2 := dec1_adv (S.syms l.l2 cc.l2) st.r2
    let R3 := dec1_adv (S.syms l.l3 cc.l3) st.r3
    let l1 : Last4 :=
      { l0 := (S.map cc.l0).toNat, l1 := (S.map cc.l1).toNat, l2 := (S.map cc.l2).toNat,
        l3 := (S.map cc.l3).toNat }
    (dec_renorm4 R0 R1 R2 R3 st.ptr).bind fun st1 =>
    access (st1.r0 &&& ((1 <<< TF_SHIFT) - 1) < TOTFREQ ∧
        st1.r1 &&& ((1 <<< TF_SHIFT) - 1) < TOTFREQ ∧
        st1.r2 &&& ((1 <<< TF_SHIFT) - 1) < TOTFREQ ∧
        st1.r3 &&& ((1 <<< TF_SHIFT) - 1) < TOTFREQ) (
    dec1_loop_chk S isz4 out_sz n (t + 1) st1 l1
      { l0 := dec1_get S l1.l0 st1.r0, l1 := dec1_get S l1.l1 st1.r1,
        l2 := dec1_get S l1.l2 st1.r2, l3 := dec1_get S l1.l3 st1.r3 } out1))

/-- The loop `dec1_rem` with its array accesses checked: a round reads `D[l3].R`
at the slot `R[3] & mask` and stores into `out_buf[i4[3]]`. -/
def dec1_rem_chk (S : Dec1) (out_sz : Nat) :
    Nat → Nat → Nat → List Nat → Nat → (Nat → Nat) → Res (Nat → Nat)
  | 0, _, _, _, _, out => Res.ok out
  | n + 1, i, R3, ptr, l3, out =>
    access (R3 &&& ((1 <<< TF_SHIFT) - 1) < TOTFREQ ∧ i < out_sz) (
    let c3 := dec1_get S l3 R3
    let a := RansDecRenormSafe (dec1_adv (S.syms l3 c3) R3) ptr
    dec1_rem_chk S out_sz n (i + 1) a.1 a.2 (S.map c3).toNat (store out i c3))

/-- The function `rans_uncompress_O1` with its array accesses checked: the
header reads `in[0 .. 8]` are to be below `in_size`, the four lookups before the
loop are at slots below `TOTFREQ`, and the table parse and the decode loops are
the checked ones. -/
def rans_uncompress_O1_chk (D : Nat → Nat → Nat) (syms : Nat → Nat → RansDecSymbol32)
    (inp : List Nat) : Res (List Nat) :=
  let in_size := inp.length
  if in_size < 27 then Res.fail
  else
    access (8 < in_size) (
    if inp.getD 0 0 ≠ 1 then Res.fail
    else
      let in_sz := rd_le32 inp 1
      let out_sz := rd_le32 inp 5
      if in_sz ≠ in_size - 9 then Res.fail
      else if out_sz ≥ INT_MAX then Res.fail
      else
        (rd (inp.drop 9)).bind fun ic =>
        (dec1_table_loop_chk in_size { D := D, syms := syms, map := fun _ => -1, map_i := 0 }
          ic.1 0 ic.2).bind
        fun r =>
        let S : Dec1 := { r.1 with map := fun a => if a < 256 ∧ r.1.map a = -1 then 0 else r.1.map a }
        if r.2.length < 16 then Res.fail
        else
          (dec_init4 r.2).bind fun st =>
          let isz4 := out_sz >>> 2
          let l : Last4 := { l0 := 0, l1 := 0, l2 := 0, l3 := 0 }
          access (st.r0 &&& ((1 <<< TF_SHIFT) - 1) < TOTFREQ ∧
              st.r1 &&& ((1 <<< TF_SHIFT) - 1) < TOTFREQ ∧
              st.r2 &&& ((1 <<< TF_SHIFT) - 1) < TOTFREQ ∧
              st.r3 &&& ((1 <<< TF_SHIFT) - 1) < TOTFREQ) (
          let cc : Last4 :=
            { l0 := dec1_get S (S.map l.l0).toNat st.r0, l1 := dec1_get S (S.map l.l1).toNat st.r1,
              l2 := dec1_get S (S.map l.l2).toNat st.r2, l3 := dec1_get S (S.map l.l3).toNat st.r3 }
          (dec1_loop_chk S isz4 out_sz isz4 0 st l cc (fun _ => 0)).bind fun e =>
          (dec1_rem_chk S out_sz (out_sz - 4 * isz4) (4 * isz4) e.1.r3 e.1.ptr e.2.1.l3 e.2.2).bind
          fun o => Res.ok ((List.range out_sz).map o)))

/-- The function `rans_uncompress` with its array accesses checked: the read of
`in[0]` is to be below `in_size`. -/
def rans_uncompress_chk (T : DecTab0) (D : Nat → Nat → Nat) (syms : Nat → Nat → RansDecSymbol32)
    (inp : List Nat) : Res (List Nat) :=
  if inp.length < 9 then Res.fail
  else
    access (0 < inp.length) (
    if inp.getD 0 0 ≠ 0 then rans_uncompress_O1_chk D syms inp
    else rans_uncompress_O0_chk T inp)

/-- Lookup arrays with all cells zero. -/
def zeroTab0 : DecTab0 := { ssym := fun _ => 0, sfreq := fun _ => 0, sbase := fun _ => 0 }

end RansStatic

namespace RansStatic

@[simp] theorem Res.bind_ok {α β : Type} (a : α) (f : α → Res β) : (Res.ok a).bind f = f a := rfl
@[simp] theorem Res.bind_fail {α β : Type} (f : α → Res β) : (Res.fail : Res α).bind f = Res.fail := rfl
@[simp] theorem Res.bind_ub {α β : Type} (f : α → Res β) : (Res.ub : Res α).bind f = Res.ub := rfl
@[simp] theorem Res.bind_diverge {α β : Type} (f : α → Res β) : (Res.diverge : Res α).bind f = Res.diverge := rfl

theorem TOTFREQ_eq : TOTFREQ = 4096 := by decide
theorem RANS_BYTE_L_eq : RANS_BYTE_L = 8388608 := by decide
theorem TF_SHIFT_eq : TF_SHIFT = 12 := rfl

theorem shl_or_byte (x b : Nat) (hb : b < 256) : (x <<< 8) ||| b = x * 256 + b := by
  rw [Nat.shiftLeft_eq]
  have h := @Nat.mul_add_lt_is_or 8 b (by simpa using hb) x
  rw [Nat.mul_comm] at h
  simpa using h.symm

theorem and_255 (x : Nat) : x &&& 255 = x % 256 := by
  have h := Nat.and_pow_two_sub_one_eq_mod x 8
  simpa using h

theorem and_mask (x : Nat) : x &&& ((1 <<< TF_SHIFT) - 1) = x % 4096 := by
  have h := Nat.and_pow_two_sub_one_eq_mod x 12
  simpa [TF_SHIFT] using h

theorem and_3 (x : Nat) : x &&& 3 = x % 4 := by
  have h := Nat.and_pow_two_sub_one_eq_mod x 2
  simpa using h

theorem shr_8 (x : Nat) : x >>> 8 = x / 256 := by
  rw [Nat.shiftRight_eq_div_pow]

theorem shr_12 (x : Nat) : x >>> TF_SHIFT = x / 4096 := by
  rw [Nat.shiftRight_eq_div_pow]; rfl

theorem shl_12 (x : Nat) : x <<< TF_SHIFT = x * 4096 := by
  rw [Nat.shiftLeft_eq]; rfl

/-- Reading back with `RansDecRenorm` a state that needs no byte. -/
theorem RansDecRenorm_ge (x : Nat) (cp : List Nat) (h : RANS_BYTE_L ≤ x) :
    RansDecRenorm x cp = Res.ok (x, cp) := by
  cases cp <;> simp [RansDecRenorm, Nat.not_lt.mpr h]

theorem RansDecRenormSafe_ge (x : Nat) (cp : List Nat) (h : RANS_BYTE_L ≤ x) :
    RansDecRenormSafe x cp = (x, cp) := by
  cases cp <;> simp [RansDecRenormSafe, Nat.not_lt.mpr h]

theorem RansDecRenorm_lt (x b : Nat) (cp : List Nat) (h : x < RANS_BYTE_L) (hb : b < 256) :
    RansDecRenorm x (b :: cp) = RansDecRenorm (x * 256 + b) cp := by
  have h2 : (x * 256 + b) % 4294967296 = x * 256 + b :=
    Nat.mod_eq_of_lt (by rw [RANS_BYTE_L_eq] at h; omega)
  simp [RansDecRenorm, h, shl_or_byte x b hb, h2]

theorem RansDecRenorm2_one_ge (x : Nat) (cp : List Nat) (h : RANS_BYTE_L ≤ x) :
    RansDecRenorm2_one x cp = Res.ok (x, cp) := by
  unfold RansDecRenorm2_one
  rw [if_neg (Nat.not_lt.mpr h)]

theorem RansDecRenorm2_one_lt1 (x b : Nat) (cp : List Nat) (h : x < RANS_BYTE_L) (hb : b < 256)
    (h1 : RANS_BYTE_L ≤ x * 256 + b) :
    RansDecRenorm2_one x (b :: cp) = Res.ok (x * 256 + b, cp) := by
  have h2 : (x * 256 + b) % 2 ^ 32 = x * 256 + b :=
    Nat.mod_eq_of_lt (by rw [RANS_BYTE_L_eq] at h; omega)
  unfold RansDecRenorm2_one
  rw [if_pos h]
  simp only [shl_or_byte x b hb, h2]
  rw [if_neg (Nat.not_lt.mpr h1)]

theorem RansDecRenorm2_one_lt2 (x b c : Nat) (cp : List Nat) (hb : b < 256) (hc : c < 256)
    (h1 : x * 256 + b < RANS_BYTE_L) :
    RansDecRenorm2_one x (b :: c :: cp) = Res.ok ((x * 256 + b) * 256 + c, cp) := by
  have h : x < RANS_BYTE_L := by omega
  have h2 : (x * 256 + b) % 2 ^ 32 = x * 256 + b :=
    Nat.mod_eq_of_lt (by rw [RANS_BYTE_L_eq] at h; omega)
  have h3 : ((x * 256 + b) * 256 + c) % 2 ^ 32 = (x * 256 + b) * 256 + c :=
    Nat.mod_eq_of_lt (by rw [RANS_BYTE_L_eq] at h1; omega)
  unfold RansDecRenorm2_one
  rw [if_pos h]
  simp only [shl_or_byte x b hb, h2]
  rw [if_pos h1]
  simp only [shl_or_byte _ c hc, h3]

theorem RansDecRenormSafe_lt (x b : Nat) (cp : List Nat) (h : x < RANS_BYTE_L) (hb : b < 256) :
    RansDecRenormSafe x (b :: cp) = RansDecRenormSafe (x * 256 + b) cp := by
  have h2 : (x * 256 + b) % 4294967296 = x * 256 + b :=
    Nat.mod_eq_of_lt (by rw [RANS_BYTE_L_eq] at h; omega)
  simp [RansDecRenormSafe, h, shl_or_byte x b hb, h2]

/-- The renormalisation of the encoder and what the decoder reads back. -/
theorem enc_renorm_spec (f x : Nat) (ptr : List Nat) (hf : 1 ≤ f) (hf2 : f ≤ 4096)
    (hx : RANS_BYTE_L ≤ x) (hx2 : x < 2 ^ 31) :
    ∃ y bs, enc_renorm (524288 * f) 5 x ptr = Res.ok (y, bs ++ ptr) ∧
      2048 * f ≤ y ∧ y < 524288 * f ∧ bs.length ≤ 2 ∧
      (∀ rest, RansDecRenorm2_one y (bs ++ rest) = Res.ok (x, rest)) ∧
      (∀ rest, RansDecRenormSafe y (bs ++ rest) = (x, rest)) := by
  rw [RANS_BYTE_L_eq] at hx
  by_cases h1 : 524288 * f ≤ x
  · by_cases h2 : 524288 * f ≤ x / 256
    · refine ⟨x / 256 / 256, [x / 256 % 256, x % 256], ?_, ?_, ?_, ?_, ?_, ?_⟩
      · have h3 : ¬ 524288 * f ≤ x / 256 / 256 := by omega
        simp [enc_renorm, h1, h2, h3, shr_8, and_255]
      · omega
      · omega
      · simp
      · intro rest
        have e1 : x / 256 / 256 * 256 + x / 256 % 256 = x / 256 := by omega
        have e2 : x / 256 * 256 + x % 256 = x := by omega
        simp only [List.cons_append, List.nil_append]
        rw [RansDecRenorm2_one_lt2 _ _ _ _ (by omega) (by omega)
          (by rw [RANS_BYTE_L_eq, e1]; omega), e1, e2]
      · intro rest
        have e1 : x / 256 / 256 * 256 + x / 256 % 256 = x / 256 := by omega
        have e2 : x / 256 * 256 + x % 256 = x := by omega
        simp only [List.cons_append, List.nil_append]
        rw [RansDecRenormSafe_lt _ _ _ (by rw [RANS_BYTE_L_eq]; omega) (by omega), e1,
          RansDecRenormSafe_lt _ _ _ (by rw [RANS_BYTE_L_eq]; omega) (by omega), e2,
          RansDecRenormSafe_ge _ _ (by rw [RANS_BYTE_L_eq]; omega)]
    · refine ⟨x / 256, [x % 256], ?_, ?_, ?_, ?_, ?_, ?_⟩
      · simp [enc_renorm, h1, h2, shr_8, and_255]
      · omega
      · omega
      · simp
      · intro rest
        have e2 : x / 256 * 256 + x % 256 = x := by omega
        simp only [List.cons_append, List.nil_append]
        rw [RansDecRenorm2_one_lt1 _ _ _ (by rw [RANS_BYTE_L_eq]; omega) (by omega)
          (by rw [RANS_BYTE_L_eq, e2]; omega), e2]
      · intro rest
        have e2 : x / 256 * 256 + x % 256 = x := by omega
        simp only [List.cons_append, List.nil_append]
        rw [RansDecRenormSafe_lt _ _ _ (by rw [RANS_BYTE_L_eq]; omega) (by omega), e2,
          RansDecRenormSafe_ge _ _ (by rw [RANS_BYTE_L_eq]; omega)]
  · refine ⟨x, [], ?_, ?_, ?_, ?_, ?_, ?_⟩
    · simp [enc_renorm, h1]
    · omega
    · omega
    · simp
    · intro rest
      simpa using RansDecRenorm2_one_ge x rest (by rw [RANS_BYTE_L_eq]; omega)
    · intro rest
      simpa using RansDecRenormSafe_ge x rest (by rw [RANS_BYTE_L_eq]; omega)


/-- One encoder put, and the decoder step that undoes it. -/
theorem put_spec (x : Nat) (ptr : List Nat) (start f : Nat) (hf : 1 ≤ f)
    (hsf : start + f ≤ 4096) (hx : RANS_BYTE_L ≤ x) (hx2 : x < 2 ^ 31) :
    ∃ y bs, RansEncPutSymbol x ptr { start := start, freq := f } = Res.ok (y, bs ++ ptr) ∧
      RANS_BYTE_L ≤ y ∧ y < 2 ^ 31 ∧ start ≤ y % 4096 ∧ y % 4096 < start + f ∧
      bs.length ≤ 2 ∧
      f * (y / 4096) + (y % 4096 - start) < 2 ^ 31 ∧
      (∀ rest, RansDecRenorm2_one (f * (y / 4096) + (y % 4096 - start)) (bs ++ rest)
        = Res.ok (x, rest)) ∧
      (∀ rest, RansDecRenormSafe (f * (y / 4096) + (y % 4096 - start)) (bs ++ rest) = (x, rest)) := by
  obtain ⟨x1, bs, he, hlo, hhi, hlen, hd, hs⟩ := enc_renorm_spec f x ptr hf (by omega) hx hx2
  have hxm : (RANS_BYTE_L >>> TF_SHIFT <<< 8) * f % 2 ^ 32 = 524288 * f := by
    have : (RANS_BYTE_L >>> TF_SHIFT <<< 8) = 524288 := by decide
    rw [this]; omega
  have hq1 : 2048 ≤ x1 / f := (Nat.le_div_iff_mul_le (by omega)).mpr (by omega)
  have hq2 : x1 / f < 524288 := (Nat.div_lt_iff_lt_mul (by omega)).mpr (by omega)
  have hr : x1 % f < f := Nat.mod_lt _ (by omega)
  have hdm : f * (x1 / f) + x1 % f = x1 := Nat.div_add_mod x1 f
  generalize hq : x1 / f = q at *
  generalize hrr : x1 % f = r at *
  have hy : (q * 4096 + r + start) % 2 ^ 32 = q * 4096 + r + start := Nat.mod_eq_of_lt (by omega)
  have hyd : (q * 4096 + r + start) / 4096 = q := by omega
  have hym : (q * 4096 + r + start) % 4096 = r + start := by omega
  refine ⟨q * 4096 + r + start, bs, ?_, ?_, ?_, ?_, ?_, hlen, ?_, ?_, ?_⟩
  · unfold RansEncPutSymbol
    simp only [hxm, he, Res.bind_ok, shl_12, hq, hrr, hy]
    rw [if_neg (by omega)]
  · rw [RANS_BYTE_L_eq]; omega
  · omega
  · omega
  · omega
  · rw [hyd, hym]
    have : r + start - start = r := by omega
    rw [this, hdm]; omega
  · intro rest
    rw [hyd, hym]
    have : r + start - start = r := by omega
    rw [this, hdm]; exact hd rest
  · intro rest
    rw [hyd, hym]
    have : r + start - start = r := by omega
    rw [this, hdm]; exact hs rest

end RansStatic

namespace RansStatic

theorem and_not3 (n : Nat) (h : n < 2 ^ 32) : n &&& 0xFFFFFFFC = 4 * (n / 4) := by
  have e1 : (0xFFFFFFFC : Nat) = (2 ^ 30 - 1) <<< 2 := by decide
  have e2 : 4 * (n / 4) = (n >>> 2) <<< 2 := by
    rw [Nat.shiftLeft_eq, Nat.shiftRight_eq_div_pow]; omega
  rw [e1, e2]
  apply Nat.eq_of_testBit_eq
  intro i
  rw [Nat.testBit_and, Nat.testBit_shiftLeft, Nat.testBit_shiftLeft, Nat.testBit_shiftRight,
    Nat.testBit_two_pow_sub_one]
  by_cases h2 : i ≥ 2
  · have e3 : 2 + (i - 2) = i := by omega
    rw [e3]
    by_cases h3 : i < 32
    · have : i - 2 < 30 := by omega
      simp [h2, this]
    · have hn : n.testBit i = false := by
        apply Nat.testBit_lt_two_pow
        calc n < 2 ^ 32 := h
          _ ≤ 2 ^ i := Nat.pow_le_pow_right (by decide) (by omega)
      simp [hn]
  · simp [h2]

theorem and_not3_div (n : Nat) (h : n < 2 ^ 32) : (n &&& 0xFFFFFFFC) / 4 = n / 4 := by
  rw [and_not3 n h]; omega

theorem le_bytes (b0 b1 b2 b3 : Nat) (h0 : b0 < 256) (h1 : b1 < 256) (h2 : b2 < 256)
    (_h3 : b3 < 256) :
    (b0 <<< 0) ||| (b1 <<< 8) ||| (b2 <<< 16) ||| (b3 <<< 24)
      = b0 + 256 * b1 + 65536 * b2 + 16777216 * b3 := by
  have a1 : (b0 <<< 0) ||| (b1 <<< 8) = 256 * b1 + b0 := by
    rw [Nat.shiftLeft_eq, Nat.shiftLeft_eq, Nat.or_comm]
    have := @Nat.mul_add_lt_is_or 8 b0 (by simpa using h0) b1
    simp at this ⊢
    rw [Nat.mul_comm b1 256]; exact this.symm
  have a2 : (256 * b1 + b0) ||| (b2 <<< 16) = 65536 * b2 + (256 * b1 + b0) := by
    rw [Nat.shiftLeft_eq, Nat.or_comm]
    have := @Nat.mul_add_lt_is_or 16 (256 * b1 + b0) (by simp; omega) b2
    simp at this ⊢
    rw [Nat.mul_comm b2 65536]; exact this.symm
  have a3 : (65536 * b2 + (256 * b1 + b0)) ||| (b3 <<< 24)
      = 16777216 * b3 + (65536 * b2 + (256 * b1 + b0)) := by
    rw [Nat.shiftLeft_eq, Nat.or_comm]
    have := @Nat.mul_add_lt_is_or 24 (65536 * b2 + (256 * b1 + b0)) (by simp; omega) b3
    simp at this ⊢
    rw [Nat.mul_comm b3 16777216]; exact this.symm
  rw [a1, a2, a3]; omega

theorem byte_of (r k : Nat) : (r >>> k) &&& 0xff = r / 2 ^ k % 256 := by
  rw [Nat.shiftRight_eq_div_pow]
  exact and_255 _

/-- Reading back a flushed state. -/
theorem RansDecInit_flush (r : Nat) (ptr : List Nat) (h : r < 2 ^ 32) :
    RansDecInit (RansEncFlush r ptr) = Res.ok (r, ptr) := by
  unfold RansEncFlush RansDecInit
  simp only [byte_of]
  rw [le_bytes _ _ _ _ (Nat.mod_lt _ (by decide)) (Nat.mod_lt _ (by decide))
    (Nat.mod_lt _ (by decide)) (Nat.mod_lt _ (by decide))]
  have : (r / 2 ^ 0 % 256 + 256 * (r / 2 ^ 8 % 256) + 65536 * (r / 2 ^ 16 % 256)
      + 16777216 * (r / 2 ^ 24 % 256)) % 2 ^ 32 = r := by
    norm_num; omega
  rw [this]

theorem dec_init_chk_flush (r : Nat) (ptr : List Nat) (h : r < 2 ^ 31) (hl : RANS_BYTE_L ≤ r) :
    dec_init_chk (RansEncFlush r ptr) = Res.ok (r, ptr) := by
  unfold dec_init_chk
  rw [RansDecInit_flush r ptr (by omega)]
  simp [Nat.not_lt.mpr hl]

theorem le32_val (v : Nat) (h : v < 2 ^ 32) :
    ((v / 2 ^ 0 % 256) <<< 0 ||| (v / 2 ^ 8 % 256) <<< 8 ||| (v / 2 ^ 16 % 256) <<< 16
      ||| (v / 2 ^ 24 % 256) <<< 24) % 2 ^ 32 = v := by
  rw [le_bytes _ _ _ _ (Nat.mod_lt _ (by decide)) (Nat.mod_lt _ (by decide))
    (Nat.mod_lt _ (by decide)) (Nat.mod_lt _ (by decide))]
  norm_num; omega

/-- Reading back the two header fields. -/
theorem rd_le32_hdr (o a b : Nat) (rest : List Nat) (ha : a < 2 ^ 32) (hb : b < 2 ^ 32) :
    rd_le32 ([o] ++ le32 a ++ le32 b ++ rest) 1 = a ∧
    rd_le32 ([o] ++ le32 a ++ le32 b ++ rest) 5 = b := by
  constructor
  · have := le32_val a ha
    simp only [rd_le32, le32, List.cons_append, List.nil_append, List.getD_cons_succ,
      List.getD_cons_zero, byte_of]
    exact this
  · have := le32_val b hb
    simp only [rd_le32, le32, List.cons_append, List.nil_append, List.getD_cons_succ,
      List.getD_cons_zero, byte_of]
    exact this

end RansStatic

namespace RansStatic

theorem put_enc (x : Nat) (ptr : List Nat) (e : RansEncSymbol) (he : EncOK e)
    (hx : RANS_BYTE_L ≤ x ∧ x < 2 ^ 31) :
    ∃ y bs, RansEncPutSymbol x ptr e = Res.ok (y, bs ++ ptr) ∧
      (RANS_BYTE_L ≤ y ∧ y < 2 ^ 31) ∧ InSlot e y ∧ bs.length ≤ 2 ∧ dec_adv e y < 2 ^ 31 ∧
      (∀ rest, RansDecRenorm2_one (dec_adv e y) (bs ++ rest) = Res.ok (x, rest)) ∧
      (∀ rest, RansDecRenormSafe (dec_adv e y) (bs ++ rest) = (x, rest)) := by
  obtain ⟨y, bs, h1, h2, h3, h4, h5, h6, h7, h8, h9⟩ :=
    put_spec x ptr e.start e.freq he.1 he.2 hx.1 hx.2
  exact ⟨y, bs, h1, ⟨h2, h3⟩, ⟨h4, h5⟩, h6, h7, h8, h9⟩

/-- Four puts, on streams 3, 2, 1, 0, and the renormalisation of the decoder
that reads back what they emitted. -/
theorem round_generic (e0 e1 e2 e3 : RansEncSymbol) (st : Rans4) (h0 : EncOK e0)
    (h1 : EncOK e1) (h2 : EncOK e2) (h3 : EncOK e3) (hst : StOK st) :
    ∃ st1 bs, ((put3 st e3).bind fun s3 => (put2 s3 e2).bind fun s2 =>
        (put1 s2 e1).bind fun s1 => put0 s1 e0) = Res.ok st1 ∧
      StOK st1 ∧ st1.ptr = bs ++ st.ptr ∧ bs.length ≤ 8 ∧
      InSlot e0 st1.r0 ∧ InSlot e1 st1.r1 ∧ InSlot e2 st1.r2 ∧ InSlot e3 st1.r3 ∧
      dec_renorm4 (dec_adv e0 st1.r0) (dec_adv e1 st1.r1) (dec_adv e2 st1.r2)
        (dec_adv e3 st1.r3) st1.ptr = Res.ok st := by
  obtain ⟨hs0, hs1, hs2, hs3⟩ := hst
  obtain ⟨y3, b3, p3, r3, i3, l3, a3, d3, f3⟩ := put_enc st.r3 st.ptr e3 h3 hs3
  obtain ⟨y2, b2, p2, r2, i2, l2, a2, d2, f2⟩ := put_enc st.r2 (b3 ++ st.ptr) e2 h2 hs2
  obtain ⟨y1, b1, p1, r1, i1, l1, a1, d1, f1⟩ := put_enc st.r1 (b2 ++ (b3 ++ st.ptr)) e1 h1 hs1
  obtain ⟨y0, b0, p0, r0, i0, l0, a0, d0, f0⟩ :=
    put_enc st.r0 (b1 ++ (b2 ++ (b3 ++ st.ptr))) e0 h0 hs0
  refine ⟨{ r0 := y0, r1 := y1, r2 := y2, r3 := y3, ptr := b0 ++ (b1 ++ (b2 ++ (b3 ++ st.ptr))) },
    b0 ++ (b1 ++ (b2 ++ b3)), ?_, ⟨r0, r1, r2, r3⟩, by simp, by simp; omega, i0, i1, i2, i3, ?_⟩
  · simp [put3, put2, put1, put0, p3, p2, p1, p0]
  · unfold dec_renorm4 RansDecRenorm2
    simp only [d0, d1, d2, d3, f0, f1, f2, f3, Res.bind_ok]
    split <;> rfl

end RansStatic

namespace RansStatic

theorem Res.bind_assoc {α β γ : Type} (r : Res α) (f : α → Res β) (g : β → Res γ) :
    (r.bind f).bind g = r.bind (fun a => (f a).bind g) := by
  cases r <;> rfl

theorem dec_adv_lt (e : RansEncSymbol) (y : Nat) (he : EncOK e) (hy : y < 2 ^ 31) :
    dec_adv e y < 2 ^ 32 := by
  unfold dec_adv
  have h1 : e.freq * (y / 4096) ≤ 4096 * (y / 4096) := Nat.mul_le_mul_right _ (by have := he.2; omega)
  have h2 : 4096 * (y / 4096) ≤ y := Nat.mul_div_le y 4096
  have h3 : y % 4096 < 4096 := Nat.mod_lt _ (by decide)
  omega

/-- The decoder step of order 0 on a state whose slot belongs to the byte `b`. -/
theorem dec0_sym_of (syms : Nat → RansEncSymbol) (T : DecTab0) (b y : Nat)
    (h : SymOK0 syms T b) (hs : InSlot (syms b) y) (hy : y < 2 ^ 31) :
    dec0_sym T y = (b, dec_adv (syms b) y) := by
  obtain ⟨he, hb, ht⟩ := h
  obtain ⟨t1, t2, t3⟩ := ht (y % 4096) hs.1 hs.2
  have hlt := dec_adv_lt (syms b) y he hy
  unfold dec0_sym
  simp only [and_mask, shr_12, t1, t2, t3]
  rw [Nat.mod_eq_of_lt hb]
  unfold dec_adv at hlt ⊢
  rw [Nat.mod_eq_of_lt hlt]

theorem ssym_of (syms : Nat → RansEncSymbol) (T : DecTab0) (b y : Nat)
    (h : SymOK0 syms T b) (hs : InSlot (syms b) y) :
    T.ssym (y &&& ((1 <<< TF_SHIFT) - 1)) % 256 = b := by
  obtain ⟨_, hb, ht⟩ := h
  obtain ⟨t1, _, _⟩ := ht (y % 4096) hs.1 hs.2
  rw [and_mask, t1, Nat.mod_eq_of_lt hb]

theorem dec0_loop_succ (T : DecTab0) (n i : Nat) (st : Rans4) (out : Nat → Nat) :
    dec0_loop T (n + 1) i st out
      = (dec_renorm4 (dec0_sym T st.r0).2 (dec0_sym T st.r1).2 (dec0_sym T st.r2).2
          (dec0_sym T st.r3).2 st.ptr).bind fun st1 =>
        dec0_loop T n (i + 4) st1
          (store (store (store (store out (i + 0) (dec0_sym T st.r0).1) (i + 1) (dec0_sym T st.r1).1)
            (i + 2) (dec0_sym T st.r2).1) (i + 3) (dec0_sym T st.r3).1) := rfl

theorem dec0_loop_snoc (T : DecTab0) (n : Nat) : ∀ (i : Nat) (st : Rans4) (out : Nat → Nat),
    dec0_loop T (n + 1) i st out
      = (dec0_loop T n i st out).bind fun r => dec0_loop T 1 (i + 4 * n) r.1 r.2 := by
  induction n with
  | zero => intro i st out; simp [dec0_loop]
  | succ n ih =>
    intro i st out
    rw [dec0_loop_succ T (n + 1), dec0_loop_succ T n, Res.bind_assoc]
    have e : i + 4 + 4 * n = i + 4 * (n + 1) := by omega
    simp only [ih, e]

theorem round_assoc {β : Type} (e0 e1 e2 e3 : RansEncSymbol) (st : Rans4) (f : Rans4 → Res β) :
    ((put3 st e3).bind fun s3 => (put2 s3 e2).bind fun s2 =>
        (put1 s2 e1).bind fun s1 => (put0 s1 e0).bind f)
      = ((put3 st e3).bind fun s3 => (put2 s3 e2).bind fun s2 =>
        (put1 s2 e1).bind fun s1 => put0 s1 e0).bind f := by
  simp only [Res.bind_assoc]

/-- The encoder loop of order 0 and the decoder loop that undoes it. -/
theorem enc0_dec0_loop (inp : List Nat) (syms : Nat → RansEncSymbol) (T : DecTab0) (k : Nat) :
    ∀ st, StOK st → (∀ i, i < 4 * k → SymOK0 syms T (inp.getD i 0)) →
    ∃ st1, enc0_loop inp syms k st = Res.ok st1 ∧ StOK st1 ∧
      (∃ bs, st1.ptr = bs ++ st.ptr ∧ bs.length ≤ 8 * k) ∧
      ∀ out, ∃ out1, dec0_loop T k 0 st1 out = Res.ok (st, out1) ∧
        (∀ i, i < 4 * k → out1 i = inp.getD i 0) ∧ (∀ i, 4 * k ≤ i → out1 i = out i) := by
  induction k with
  | zero =>
    intro st hst _
    exact ⟨st, rfl, hst, ⟨[], rfl, by simp⟩, fun out => ⟨out, rfl, by simp, by simp⟩⟩
  | succ k ih =>
    intro st hst hs
    have s0 := hs (4 * k) (by omega)
    have s1 := hs (4 * k + 1) (by omega)
    have s2 := hs (4 * k + 2) (by omega)
    have s3 := hs (4 * k + 3) (by omega)
    obtain ⟨stR, bsR, hR, hRok, hRptr, hRlen, i0, i1, i2, i3, hRd⟩ :=
      round_generic _ _ _ _ st s0.1 s1.1 s2.1 s3.1 hst
    obtain ⟨st1, hE, hok1, ⟨bs1, hptr1, hlen1⟩, hD⟩ := ih stR hRok (fun i hi => hs i (by omega))
    refine ⟨st1, ?_, hok1, ⟨bs1 ++ bsR, by simp [hptr1, hRptr], by simp; omega⟩, ?_⟩
    · rw [enc0_loop]
      have e1 : 4 * (k + 1) - 1 = 4 * k + 3 := by omega
      have e2 : 4 * (k + 1) - 2 = 4 * k + 2 := by omega
      have e3 : 4 * (k + 1) - 3 = 4 * k + 1 := by omega
      have e4 : 4 * (k + 1) - 4 = 4 * k := by omega
      simp only [e1, e2, e3, e4]
      rw [round_assoc, hR]
      exact hE
    · intro out
      obtain ⟨out1, hd1, ho1, ho2⟩ := hD out
      rw [dec0_loop_snoc, hd1]
      simp only [Res.bind_ok, Nat.zero_add]
      rw [dec0_loop]
      have q0 := dec0_sym_of syms T _ _ s0 i0 hRok.1.2
      have q1 := dec0_sym_of syms T _ _ s1 i1 hRok.2.1.2
      have q2 := dec0_sym_of syms T _ _ s2 i2 hRok.2.2.1.2
      have q3 := dec0_sym_of syms T _ _ s3 i3 hRok.2.2.2.2
      simp only [q0, q1, q2, q3, hRd, Res.bind_ok, dec0_loop]
      refine ⟨_, rfl, ?_, ?_⟩
      · intro i hi
        simp only [store]
        by_cases c3 : i = 4 * k + 3
        · simp [c3]
        · by_cases c2 : i = 4 * k + 2
          · simp [c2]
          · by_cases c1 : i = 4 * k + 1
            · simp [c1]
            · by_cases c0 : i = 4 * k + 0
              · simp [c0]
              · simp only [c3, c2, c1, c0, if_false]
                exact ho1 i (by omega)
      · intro i hi
        simp only [store]
        rw [if_neg (by omega), if_neg (by omega), if_neg (by omega), if_neg (by omega)]
        exact ho2 i (by omega)

end RansStatic

namespace RansStatic

/-- The `switch` of the encoder of order 0 and the one of the decoder. -/
theorem enc0_tail_spec (inp : List Nat) (syms : Nat → RansEncSymbol) (T : DecTab0) (st : Rans4)
    (hst : StOK st)
    (hs : ∀ i, 4 * (inp.length / 4) ≤ i → i < inp.length → SymOK0 syms T (inp.getD i 0)) :
    ∃ st1, enc0_tail inp syms st = Res.ok st1 ∧ StOK st1 ∧
      (∃ bs, st1.ptr = bs ++ st.ptr ∧ bs.length ≤ 6) ∧
      ∀ out, (∀ i, 4 * (inp.length / 4) ≤ i → i < inp.length →
          dec0_tail T inp.length (4 * (inp.length / 4)) st1 out i = inp.getD i 0) ∧
        (∀ i, i < 4 * (inp.length / 4) →
          dec0_tail T inp.length (4 * (inp.length / 4)) st1 out i = out i) := by
  obtain ⟨hs0, hs1, hs2, hs3⟩ := hst
  have hcases : inp.length % 4 = 0 ∨ inp.length % 4 = 1 ∨ inp.length % 4 = 2 ∨ inp.length % 4 = 3 := by
    omega
  unfold enc0_tail dec0_tail
  simp only [and_3]
  rcases hcases with h | h | h | h
  · refine ⟨st, by simp [h], ⟨hs0, hs1, hs2, hs3⟩, ⟨[], rfl, by simp⟩, fun out => ⟨?_, ?_⟩⟩
    · intro i h1 h2; omega
    · intro i _; simp [h]
  · have e0 : inp.length - (1 - 0) = 4 * (inp.length / 4) := by omega
    have k0 := hs (4 * (inp.length / 4)) (by omega) (by omega)
    obtain ⟨y0, b0, p0, r0, i0, l0, -, -, -⟩ := put_enc st.r0 st.ptr _ k0.1 hs0
    refine ⟨{ st with r0 := y0, ptr := b0 ++ st.ptr }, ?_, ⟨r0, hs1, hs2, hs3⟩,
      ⟨b0, rfl, by omega⟩, fun out => ⟨?_, ?_⟩⟩
    · simp [h, e0, put0, p0, -List.getD_eq_getElem?_getD]
    · intro i h1 h2
      have : i = 4 * (inp.length / 4) := by omega
      subst this
      simp [h, store, ssym_of syms T _ _ k0 i0, -List.getD_eq_getElem?_getD]
    · intro i h1
      simp [h, store]
      omega
  · have e0 : inp.length - (2 - 0) = 4 * (inp.length / 4) := by omega
    have e1 : inp.length - (2 - 1) = 4 * (inp.length / 4) + 1 := by omega
    have k0 := hs (4 * (inp.length / 4)) (by omega) (by omega)
    have k1 := hs (4 * (inp.length / 4) + 1) (by omega) (by omega)
    obtain ⟨y1, b1, p1, r1, i1, l1, -, -, -⟩ := put_enc st.r1 st.ptr _ k1.1 hs1
    obtain ⟨y0, b0, p0, r0, i0, l0, -, -, -⟩ := put_enc st.r0 (b1 ++ st.ptr) _ k0.1 hs0
    refine ⟨{ st with r0 := y0, r1 := y1, ptr := b0 ++ (b1 ++ st.ptr) }, ?_, ⟨r0, r1, hs2, hs3⟩,
      ⟨b0 ++ b1, by simp, by simp; omega⟩, fun out => ⟨?_, ?_⟩⟩
    · simp [h, e0, e1, put0, put1, p0, p1, -List.getD_eq_getElem?_getD]
    · intro i h1 h2
      have : i = 4 * (inp.length / 4) ∨ i = 4 * (inp.length / 4) + 1 := by omega
      rcases this with c | c
      · subst c
        simp [h, store, ssym_of syms T _ _ k0 i0, -List.getD_eq_getElem?_getD]
      · rw [c]
        simp [h, store, ssym_of syms T _ _ k1 i1, -List.getD_eq_getElem?_getD]
    · intro i h1
      simp [h, store]
      rw [if_neg (by omega), if_neg (by omega)]
  · have e0 : inp.length - (3 - 0) = 4 * (inp.length / 4) := by omega
    have e1 : inp.length - (3 - 1) = 4 * (inp.length / 4) + 1 := by omega
    have e2 : inp.length - (3 - 2) = 4 * (inp.length / 4) + 2 := by omega
    have k0 := hs (4 * (inp.length / 4)) (by omega) (by omega)
    have k1 := hs (4 * (inp.length / 4) + 1) (by omega) (by omega)
    have k2 := hs (4 * (inp.length / 4) + 2) (by omega) (by omega)
    obtain ⟨y2, b2, p2, r2, i2, l2, -, -, -⟩ := put_enc st.r2 st.ptr _ k2.1 hs2
    obtain ⟨y1, b1, p1, r1, i1, l1, -, -, -⟩ := put_enc st.r1 (b2 ++ st.ptr) _ k1.1 hs1
    obtain ⟨y0, b0, p0, r0, i0, l0, -, -, -⟩ := put_enc st.r0 (b1 ++ (b2 ++ st.ptr)) _ k0.1 hs0
    refine ⟨{ st with r0 := y0, r1 := y1, r2 := y2, ptr := b0 ++ (b1 ++ (b2 ++ st.ptr)) }, ?_,
      ⟨r0, r1, r2, hs3⟩, ⟨b0 ++ (b1 ++ b2), by simp, by simp; omega⟩, fun out => ⟨?_, ?_⟩⟩
    · simp [h, e0, e1, e2, put0, put1, put2, p0, p1, p2, -List.getD_eq_getElem?_getD]
    · intro i h1 h2
      have : i = 4 * (inp.length / 4) ∨ i = 4 * (inp.length / 4) + 1
          ∨ i = 4 * (inp.length / 4) + 2 := by omega
      rcases this with c | c | c
      · subst c
        simp [h, store, ssym_of syms T _ _ k0 i0, -List.getD_eq_getElem?_getD]
      · rw [c]
        simp [h, store, ssym_of syms T _ _ k1 i1, -List.getD_eq_getElem?_getD]
      · rw [c]
        simp [h, store, ssym_of syms T _ _ k2 i2, -List.getD_eq_getElem?_getD]
    · intro i h1
      simp [h, store]
      rw [if_neg (by omega), if_neg (by omega), if_neg (by omega)]

end RansStatic

namespace RansStatic

theorem foldl_count (l : List Nat) : ∀ (F : Nat → Nat) (c : Nat),
    (l.foldl (fun F b => store F b (F b + 1)) F) c = F c + l.count c := by
  induction l with
  | nil => intro F c; simp
  | cons b l ih =>
    intro F c
    rw [List.foldl_cons, ih, List.count_cons]
    unfold store
    by_cases h : c = b
    · subst h; simp; omega
    · have h2 : ¬ (b == c) = true := by simpa using fun h3 => h h3.symm
      simp [h, h2]

theorem store_inc (F : Nat → Nat) (b c : Nat) :
    store F b (F b + 1) c = F c + (if b = c then 1 else 0) := by
  unfold store
  by_cases h : c = b
  · subst h; simp
  · have : ¬ b = c := fun h2 => h h2.symm
    simp [h, this]

theorem count_cons_ite (b c : Nat) (l : List Nat) :
    (b :: l).count c = l.count c + (if b = c then 1 else 0) := by
  rw [List.count_cons]
  by_cases h : b = c
  · simp [h]
  · have h2 : ¬ (b == c) = true := by simpa using h
    simp [h, h2]

/-- The sum of the eight partial counters after the counting loops of `hist8`. -/
theorem hist8_loops_count (l : List Nat) : ∀ (h : Hist8) (c : Nat),
    (hist8_loops l h).F0 c + ((hist8_loops l h).F1 c + (hist8_loops l h).F2 c
      + (hist8_loops l h).F3 c + (hist8_loops l h).F4 c + (hist8_loops l h).F5 c
      + (hist8_loops l h).F6 c + (hist8_loops l h).F7 c)
    = h.F0 c + (h.F1 c + h.F2 c + h.F3 c + h.F4 c + h.F5 c + h.F6 c + h.F7 c) + l.count c := by
  intro h c
  induction l, h using hist8_loops.induct with
  | case1 b0 b1 b2 b3 b4 b5 b6 b7 rest h ih =>
    rw [hist8_loops, ih]
    simp only [store_inc, count_cons_ite]
    omega
  | case2 t h hne =>
    rw [hist8_loops]
    · simp only [foldl_count]; omega
    · exact hne

theorem hist8_F0_ge (l : List Nat) : ∀ (h : Hist8) (c : Nat), 256 ≤ c → (∀ b ∈ l, b < 256) →
    (hist8_loops l h).F0 c = h.F0 c := by
  intro h c hc hb
  induction l, h using hist8_loops.induct with
  | case1 b0 b1 b2 b3 b4 b5 b6 b7 rest h ih =>
    rw [hist8_loops, ih]
    · simp only [store]
      have : b0 < 256 := hb b0 (by simp)
      rw [if_neg (by omega)]
    · intro b hm
      exact hb b (by simp [hm])
  | case2 t h hne =>
    rw [hist8_loops]
    · simp only [foldl_count]
      have : t.count c = 0 := by
        apply List.count_eq_zero_of_not_mem
        intro hm
        have := hb c hm
        omega
      omega
    · exact hne

/-- The histogram `hist8` counts the occurrences of each byte. -/
theorem hist8_count (inp : List Nat) (c : Nat) (hb : ∀ b ∈ inp, b < 256) :
    hist8 inp (fun _ => 0) c = inp.count c := by
  unfold hist8
  by_cases hc : c < 256
  · rw [if_pos hc, hist8_loops_count]
    simp only [Nat.zero_add, Nat.add_zero]
  · rw [if_neg hc, hist8_F0_ge _ _ _ (by omega) hb]
    symm
    apply List.count_eq_zero_of_not_mem
    intro hm
    exact hc (hb c hm)

end RansStatic

namespace RansStatic

theorem bump_ne_zero (g : Nat → Nat) (f : Nat) : bump g f ≠ 0 := by
  unfold bump; split <;> omega

theorem norm_pass_eq (tr : Nat) (n : Nat) : ∀ (j : Nat) (st : NormState),
    norm_pass tr n j st = norm1_pass (scale0 tr) n j st := by
  induction n with
  | zero => intro j st; rfl
  | succ n ih =>
    intro j st
    rw [norm_pass, norm1_pass]
    simp only [ih, scale0]

theorem norm1_pass_succ (g : Nat → Nat) (n j : Nat) (st : NormState) :
    norm1_pass g (n + 1) j st
      = norm1_pass g n (j + 1)
          (if st.F j = 0 then st
           else { F := store st.F j (bump g (st.F j)), fsum := st.fsum + bump g (st.F j),
                  m := if st.m < st.F j then st.F j else st.m,
                  M := if st.m < st.F j then j else st.M }) := by
  rw [norm1_pass]
  split <;> rfl

/-- The row after a pass. -/
theorem pass_F (g : Nat → Nat) (n : Nat) : ∀ (j : Nat) (st : NormState) (k : Nat),
    (norm1_pass g n j st).F k
      = if j ≤ k ∧ k < j + n ∧ st.F k ≠ 0 then bump g (st.F k) else st.F k := by
  induction n with
  | zero =>
    intro j st k
    rw [norm1_pass, if_neg (by omega)]
  | succ n ih =>
    intro j st k
    rw [norm1_pass_succ, ih]
    by_cases h0 : st.F j = 0
    · simp only [h0, if_true]
      by_cases hk : k = j
      · subst hk; simp [h0]
      · have e : (j + 1 ≤ k ∧ k < j + 1 + n ∧ st.F k ≠ 0) ↔ (j ≤ k ∧ k < j + (n + 1) ∧ st.F k ≠ 0) := by
          constructor <;> rintro ⟨a, b, c⟩ <;> exact ⟨by omega, by omega, c⟩
        simp only [e]
    · simp only [h0, if_false]
      by_cases hk : k = j
      · subst hk
        simp [store, h0]
      · have e : (j + 1 ≤ k ∧ k < j + 1 + n ∧ st.F k ≠ 0) ↔ (j ≤ k ∧ k < j + (n + 1) ∧ st.F k ≠ 0) := by
          constructor <;> rintro ⟨a, b, c⟩ <;> exact ⟨by omega, by omega, c⟩
        simp only [store, hk, if_false, e]

theorem pass_F_below (g : Nat → Nat) (n j : Nat) (st : NormState) (k : Nat) (h : k < j) :
    (norm1_pass g n j st).F k = st.F k := by
  rw [pass_F, if_neg (by omega)]

theorem cumul_congr (F G : Nat → Nat) (n : Nat) (h : ∀ k, k < n → F k = G k) :
    cumul F n = cumul G n := by
  induction n with
  | zero => rfl
  | succ n ih =>
    rw [cumul, cumul, ih (fun k hk => h k (by omega)), h n (by omega)]

theorem cumul_le (F : Nat → Nat) (B : Nat) (n : Nat) (h : ∀ k, k < n → F k ≤ B) :
    cumul F n ≤ n * B := by
  induction n with
  | zero => simp [cumul]
  | succ n ih =>
    rw [cumul]
    have := ih (fun k hk => h k (by omega))
    have := h n (by omega)
    rw [Nat.succ_mul]; omega

theorem cumul_mono (F : Nat → Nat) (a b : Nat) (h : a ≤ b) : cumul F a ≤ cumul F b := by
  induction b with
  | zero =>
    have : a = 0 := by omega
    subst this; exact Nat.le_refl _
  | succ b ih =>
    by_cases hb : a = b + 1
    · subst hb; exact Nat.le_refl _
    · have := ih (by omega)
      rw [cumul]; omega

theorem cumul_store (F : Nat → Nat) (M v : Nat) (n : Nat) :
    cumul (store F M v) n + (if M < n then F M else 0) = cumul F n + (if M < n then v else 0) := by
  induction n with
  | zero => simp [cumul]
  | succ n ih =>
    rw [cumul, cumul]
    by_cases h1 : M < n
    · have h2 : M < n + 1 := by omega
      have h3 : ¬ n = M := by omega
      simp only [h1, h2, if_true] at ih ⊢
      simp only [store, h3, if_false]
      omega
    · by_cases h2 : M = n
      · subst h2
        simp only [Nat.lt_irrefl, if_false, Nat.add_zero] at ih
        simp [store, ih]
        omega
      · have h3 : ¬ M < n + 1 := by omega
        have h4 : ¬ n = M := by omega
        simp only [h1, h3, if_false, Nat.add_zero] at ih ⊢
        simp only [store, h4, if_false]
        omega

/-- The sum accumulated by a pass. -/
theorem pass_fsum (g : Nat → Nat) (n : Nat) : ∀ (j : Nat) (st : NormState),
    (norm1_pass g n j st).fsum + cumul (norm1_pass g n j st).F j
      = st.fsum + cumul (norm1_pass g n j st).F (j + n) := by
  induction n with
  | zero => intro j st; simp [norm1_pass]
  | succ n ih =>
    intro j st
    rw [norm1_pass_succ]
    have e : j + 1 + n = j + (n + 1) := by omega
    by_cases h0 : st.F j = 0
    · simp only [h0, if_true]
      have h := ih (j + 1) st
      rw [e, cumul, pass_F_below g n (j + 1) st j (by omega)] at h
      omega
    · simp only [h0, if_false]
      have h := ih (j + 1)
        { F := store st.F j (bump g (st.F j)), fsum := st.fsum + bump g (st.F j),
          m := if st.m < st.F j then st.F j else st.m,
          M := if st.m < st.F j then j else st.M }
      rw [e, cumul, pass_F_below g n (j + 1) _ j (by omega)] at h
      simp only [store, if_true] at h
      omega

/-- The invariant of `m` and `M` along a pass. -/
theorem pass_M (g : Nat → Nat) (n : Nat) : ∀ (j : Nat) (st : NormState), j + n ≤ 256 →
    MInv j st → MInv (j + n) (norm1_pass g n j st) := by
  induction n with
  | zero => intro j st _ h; simpa [norm1_pass] using h
  | succ n ih =>
    intro j st hj h
    rw [norm1_pass_succ]
    have e : j + (n + 1) = j + 1 + n := by omega
    rw [e]
    apply ih (j + 1) _ (by omega)
    obtain ⟨h1, h2, h3⟩ := h
    by_cases h0 : st.F j = 0
    · simp only [h0, if_true]
      refine ⟨h1, ?_, ?_⟩
      · intro hm k hk
        by_cases hkj : k = j
        · subst hkj; exact h0
        · exact h2 hm k (by omega)
      · intro hm
        exact ⟨(h3 hm).1, by have := (h3 hm).2; omega⟩
    · simp only [h0, if_false]
      by_cases hm : st.m < st.F j
      · simp only [hm, if_true]
        refine ⟨?_, ?_, ?_⟩
        · show j < 256
          omega
        · intro hz
          have hz2 : st.F j = 0 := hz
          exact absurd hz2 h0
        · intro _
          refine ⟨?_, ?_⟩
          · show store st.F j (bump g (st.F j)) j ≠ 0
            simp [store, bump_ne_zero]
          · show j < j + 1
            omega
      · simp only [hm, if_false]
        have hpos : 0 < st.m := by omega
        have hM := h3 hpos
        refine ⟨h1, ?_, ?_⟩
        · intro hz
          have hz2 : st.m = 0 := hz
          omega
        · intro _
          have hne : ¬ st.M = j := by omega
          refine ⟨?_, ?_⟩
          · show store st.F j (bump g (st.F j)) st.M ≠ 0
            simp only [store, hne, if_false]; exact hM.1
          · show st.M < j + 1
            omega

end RansStatic

namespace RansStatic

theorem le_cumul (F : Nat → Nat) (n k : Nat) (h : k < n) : F k ≤ cumul F n := by
  have h1 := cumul_mono F (k + 1) n (by omega)
  rw [cumul] at h1
  omega

/-- A whole pass from the initial variables. -/
theorem full_pass (g : Nat → Nat) (F : Nat → Nat) :
    (norm1_pass g 256 0 { F := F, fsum := 0, m := 0, M := 0 }).fsum
      = cumul (norm1_pass g 256 0 { F := F, fsum := 0, m := 0, M := 0 }).F 256 ∧
    (∀ k, (norm1_pass g 256 0 { F := F, fsum := 0, m := 0, M := 0 }).F k
      = if k < 256 ∧ F k ≠ 0 then bump g (F k) else F k) ∧
    ((∃ k, k < 256 ∧ F k ≠ 0) →
      (norm1_pass g 256 0 { F := F, fsum := 0, m := 0, M := 0 }).F
        (norm1_pass g 256 0 { F := F, fsum := 0, m := 0, M := 0 }).M ≠ 0 ∧
      (norm1_pass g 256 0 { F := F, fsum := 0, m := 0, M := 0 }).M < 256) := by
  have hF : ∀ k, (norm1_pass g 256 0 { F := F, fsum := 0, m := 0, M := 0 }).F k
      = if k < 256 ∧ F k ≠ 0 then bump g (F k) else F k := by
    intro k
    rw [pass_F]
    have e : (0 ≤ k ∧ k < 0 + 256 ∧ F k ≠ 0) ↔ (k < 256 ∧ F k ≠ 0) := by
      constructor
      · rintro ⟨_, a, b⟩; exact ⟨by omega, b⟩
      · rintro ⟨a, b⟩; exact ⟨by omega, by omega, b⟩
    simp only [e]
  refine ⟨?_, hF, ?_⟩
  · have h := pass_fsum g 256 0 { F := F, fsum := 0, m := 0, M := 0 }
    have e0 : ∀ G : Nat → Nat, cumul G 0 = 0 := fun _ => rfl
    simp only [e0, Nat.zero_add, Nat.add_zero] at h
    exact h
  · rintro ⟨k, hk, hne⟩
    have hI : MInv 0 { F := F, fsum := 0, m := 0, M := 0 } := by
      refine ⟨by show (0 : Nat) < 256; omega, ?_, ?_⟩
      · intro _ k hk; omega
      · intro h
        have : (0 : Nat) < 0 := h
        omega
    have h := pass_M g 256 0 _ (by omega) hI
    obtain ⟨h1, h2, h3⟩ := h
    by_cases hm : (norm1_pass g 256 0 { F := F, fsum := 0, m := 0, M := 0 }).m = 0
    · have := h2 hm k (by omega)
      rw [hF k, if_pos ⟨hk, hne⟩] at this
      exact absurd this (bump_ne_zero g (F k))
    · exact ⟨(h3 (by omega)).1, h1⟩

theorem exit_lt (F1 : Nat → Nat) (M : Nat) (hM : M < 256) (hne : F1 M ≠ 0)
    (h : cumul F1 256 + 1 < 4096) :
    RowOK F1 (store F1 M (F1 M + (4096 - (cumul F1 256 + 1)))) M := by
  have hc := cumul_store F1 M (F1 M + (4096 - (cumul F1 256 + 1))) 256
  simp only [hM, if_true] at hc
  have hst : store F1 M (F1 M + (4096 - (cumul F1 256 + 1))) M
      = F1 M + (4096 - (cumul F1 256 + 1)) := by
    unfold store; rw [if_pos rfl]
  refine ⟨by omega, ?_, by rw [hst]; omega, hM⟩
  intro k
  by_cases hk : k = M
  · subst hk
    rw [hst]
    constructor
    · intro _; exact hne
    · intro _; omega
  · simp [store, hk]

theorem exit_ge (F1 : Nat → Nat) (M : Nat) (hM : M < 256) (hne : F1 M ≠ 0)
    (h1 : ¬ cumul F1 256 + 1 < 4096) (h2 : cumul F1 256 + 1 - 4096 ≤ F1 M / 2) :
    RowOK F1 (store F1 M (F1 M - (cumul F1 256 + 1 - 4096))) M := by
  have hc := cumul_store F1 M (F1 M - (cumul F1 256 + 1 - 4096)) 256
  simp only [hM, if_true] at hc
  have hle := le_cumul F1 256 M hM
  have hpos : F1 M - (cumul F1 256 + 1 - 4096) ≠ 0 := by omega
  have hst : store F1 M (F1 M - (cumul F1 256 + 1 - 4096)) M
      = F1 M - (cumul F1 256 + 1 - 4096) := by
    unfold store; rw [if_pos rfl]
  refine ⟨by omega, ?_, by rw [hst]; exact hpos, hM⟩
  intro k
  by_cases hk : k = M
  · subst hk
    rw [hst]
    constructor
    · intro _; exact hne
    · intro _; exact hpos
  · simp [store, hk]

theorem RowOK_trans (F F1 F2 : Nat → Nat) (M : Nat) (h1 : ∀ k, F1 k ≠ 0 ↔ F k ≠ 0)
    (h2 : RowOK F1 F2 M) : RowOK F F2 M :=
  ⟨h2.1, fun k => (h2.2.1 k).trans (h1 k), h2.2.2.1, h2.2.2.2⟩

theorem pass_support (g : Nat → Nat) (F : Nat → Nat) (k : Nat) :
    (norm1_pass g 256 0 { F := F, fsum := 0, m := 0, M := 0 }).F k ≠ 0 ↔ F k ≠ 0 := by
  rw [(full_pass g F).2.1 k]
  by_cases h : k < 256 ∧ F k ≠ 0
  · simp [h, bump_ne_zero]
  · simp only [h, if_false]

theorem scale98_bound (f : Nat) (h1 : 1 ≤ f) (h2 : f ≤ 4096) :
    bump (scale0 2104533975) f ≤ max 1 (f - 1) := by
  unfold bump scale0
  rw [Nat.shiftRight_eq_div_pow]
  have : f * 2104533975 % 2 ^ 64 = f * 2104533975 := Nat.mod_eq_of_lt (by omega)
  rw [this]
  split <;> omega

/-- The passes with `tr = 2104533975` come to an end, and give a normalised row. -/
theorem normalise_harder (fuel : Nat) : ∀ (B : Nat) (F : Nat → Nat),
    (∀ k, k < 256 → F k ≤ B) → B ≤ 4096 → B + 1 ≤ fuel → (∃ k, k < 256 ∧ F k ≠ 0) →
    ∃ F1 M, normalise fuel 2104533975 F = some (F1, M) ∧ RowOK F F1 M := by
  induction fuel with
  | zero => intro B F _ _ h; omega
  | succ fuel ih =>
    intro B F hB hB2 hfuel hex
    rw [normalise]
    simp only [norm_pass_eq, TOTFREQ_eq]
    obtain ⟨hs, hF, hM⟩ := full_pass (scale0 2104533975) F
    obtain ⟨hMne, hMlt⟩ := hM hex
    have hsup := pass_support (scale0 2104533975) F
    generalize norm1_pass (scale0 2104533975) 256 0 { F := F, fsum := 0, m := 0, M := 0 } = st at *
    rw [hs]
    by_cases c1 : cumul st.F 256 + 1 < 4096
    · rw [if_pos c1]
      exact ⟨_, _, rfl, RowOK_trans _ _ _ _ hsup (exit_lt st.F st.M hMlt hMne c1)⟩
    · rw [if_neg c1]
      by_cases c2 : cumul st.F 256 + 1 - 4096 > st.F st.M / 2
      · rw [if_pos c2]
        have hbound : ∀ k, k < 256 → st.F k ≤ max 1 (B - 1) := by
          intro k hk
          rw [hF k]
          by_cases hz : F k = 0
          · simp [hz]
          · rw [if_pos ⟨hk, hz⟩]
            have := scale98_bound (F k) (by omega) (by have := hB k hk; omega)
            have := hB k hk
            omega
        have hB1 : 2 ≤ B := by
          by_contra hlt
          have h1 : ∀ k, k < 256 → st.F k ≤ 1 := by
            intro k hk
            have := hbound k hk
            omega
          have := cumul_le st.F 1 256 h1
          omega
        have hmax : max 1 (B - 1) = B - 1 := by omega
        rw [hmax] at hbound
        obtain ⟨F1, M, hn, hrow⟩ := ih (B - 1) st.F hbound (by omega) (by omega)
          (by obtain ⟨k, hk, hne⟩ := hex; exact ⟨k, hk, (hsup k).mpr hne⟩)
        exact ⟨F1, M, hn, RowOK_trans _ _ _ _ hsup hrow⟩
      · rw [if_neg c2]
        exact ⟨_, _, rfl, RowOK_trans _ _ _ _ hsup (exit_ge st.F st.M hMlt hMne c1 (by omega))⟩

theorem tr0_bound (n f : Nat) (hf : f ≤ n) :
    bump (scale0 ((((TOTFREQ <<< 31) % 2 ^ 64) / n + (1 <<< 30) / n) % 2 ^ 64)) f ≤ 4096 := by
  have e1 : (TOTFREQ <<< 31) % 2 ^ 64 = 8796093022208 := by decide
  have e2 : (1 <<< 30 : Nat) = 1073741824 := by decide
  rw [e1, e2]
  have a1 : n * (8796093022208 / n) ≤ 8796093022208 := Nat.mul_div_le _ _
  have a2 : n * (1073741824 / n) ≤ 1073741824 := Nat.mul_div_le _ _
  have a3 : 8796093022208 / n ≤ 8796093022208 := Nat.div_le_self _ _
  have a4 : 1073741824 / n ≤ 1073741824 := Nat.div_le_self _ _
  have a5 : (8796093022208 / n + 1073741824 / n) % 2 ^ 64 = 8796093022208 / n + 1073741824 / n :=
    Nat.mod_eq_of_lt (by omega)
  rw [a5]
  have a6 : f * (8796093022208 / n + 1073741824 / n) ≤ n * (8796093022208 / n + 1073741824 / n) :=
    Nat.mul_le_mul_right _ hf
  have a7 : n * (8796093022208 / n + 1073741824 / n) ≤ 8796093022208 + 1073741824 := by
    rw [Nat.mul_add]; omega
  unfold bump scale0
  rw [Nat.shiftRight_eq_div_pow]
  generalize f * (8796093022208 / n + 1073741824 / n) = p at *
  have : p % 2 ^ 64 = p := Nat.mod_eq_of_lt (by omega)
  rw [this]
  split <;> omega

/-- The normaliser of order 0 comes to an end on the counts of a non-empty
input, and gives a normalised row. -/
theorem normalise_spec (n : Nat) (F : Nat → Nat) (hF : ∀ k, k < 256 → F k ≤ n)
    (hex : ∃ k, k < 256 ∧ F k ≠ 0) :
    ∃ F1 M, normalise NORM_FUEL ((((TOTFREQ <<< 31) % 2 ^ 64) / n + (1 <<< 30) / n) % 2 ^ 64) F
      = some (F1, M) ∧ RowOK F F1 M := by
  have hfu : NORM_FUEL = 4099 + 1 := rfl
  rw [hfu, normalise]
  simp only [norm_pass_eq, TOTFREQ_eq]
  generalize htr : ((4096 <<< 31) % 2 ^ 64 / n + 1 <<< 30 / n) % 2 ^ 64 = tr
  obtain ⟨hs, hFF, hM⟩ := full_pass (scale0 tr) F
  obtain ⟨hMne, hMlt⟩ := hM hex
  have hsup := pass_support (scale0 tr) F
  have hbound : ∀ k, k < 256 →
      (norm1_pass (scale0 tr) 256 0 { F := F, fsum := 0, m := 0, M := 0 }).F k ≤ 4096 := by
    intro k hk
    rw [hFF k]
    by_cases hz : F k = 0
    · simp [hz]
    · rw [if_pos ⟨hk, hz⟩, ← htr]
      have := tr0_bound n (F k) (hF k hk)
      rw [TOTFREQ_eq] at this
      exact this
  generalize norm1_pass (scale0 tr) 256 0 { F := F, fsum := 0, m := 0, M := 0 } = st at *
  rw [hs]
  by_cases c1 : cumul st.F 256 + 1 < 4096
  · rw [if_pos c1]
    exact ⟨_, _, rfl, RowOK_trans _ _ _ _ hsup (exit_lt st.F st.M hMlt hMne c1)⟩
  · rw [if_neg c1]
    by_cases c2 : cumul st.F 256 + 1 - 4096 > st.F st.M / 2
    · rw [if_pos c2]
      obtain ⟨F1, M, hn, hrow⟩ := normalise_harder 4099 4096 st.F hbound (by omega) (by omega)
        (by obtain ⟨k, hk, hne⟩ := hex; exact ⟨k, hk, (hsup k).mpr hne⟩)
      exact ⟨F1, M, hn, RowOK_trans _ _ _ _ hsup hrow⟩
    · rw [if_neg c2]
      exact ⟨_, _, rfl, RowOK_trans _ _ _ _ hsup (exit_ge st.F st.M hMlt hMne c1 (by omega))⟩

end RansStatic

namespace RansStatic

theorem enc_table_loop_bytes (F : Nat → Nat) (n : Nat) :
    ∀ (j rle x : Nat) (syms : Nat → RansEncSymbol),
    (enc_table_loop F n j rle x syms).1 = tab_bytes F n j rle := by
  induction n with
  | zero => intro j rle x syms; rfl
  | succ n ih =>
    intro j rle x syms
    rw [enc_table_loop, tab_bytes]
    split
    · exact ih _ _ _ _
    · simp only [ih]

theorem enc_table_loop_syms (F : Nat → Nat) (n : Nat) :
    ∀ (j rle : Nat) (syms : Nat → RansEncSymbol) (k : Nat),
    (enc_table_loop F n j rle (cumul F j) syms).2 k
      = if j ≤ k ∧ k < j + n ∧ F k ≠ 0 then { start := cumul F k, freq := F k } else syms k := by
  induction n with
  | zero =>
    intro j rle syms k
    rw [enc_table_loop, if_neg (by omega)]
  | succ n ih =>
    intro j rle syms k
    rw [enc_table_loop]
    by_cases h0 : F j = 0
    · rw [if_pos h0]
      have e : cumul F j = cumul F (j + 1) := by rw [cumul, h0]; rfl
      rw [e, ih]
      by_cases hk : k = j
      · subst hk
        rw [if_neg (by omega), if_neg (by intro h; exact h.2.2 h0)]
      · have e2 : (j + 1 ≤ k ∧ k < j + 1 + n ∧ F k ≠ 0) ↔ (j ≤ k ∧ k < j + (n + 1) ∧ F k ≠ 0) := by
          constructor <;> rintro ⟨a, b, c⟩ <;> exact ⟨by omega, by omega, c⟩
        simp only [e2]
    · rw [if_neg h0]
      have e : cumul F j + F j = cumul F (j + 1) := by rw [cumul]
      simp only [e]
      rw [ih]
      by_cases hk : k = j
      · subst hk
        simp [h0]
      · have e2 : (j + 1 ≤ k ∧ k < j + 1 + n ∧ F k ≠ 0) ↔ (j ≤ k ∧ k < j + (n + 1) ∧ F k ≠ 0) := by
          constructor <;> rintro ⟨a, b, c⟩ <;> exact ⟨by omega, by omega, c⟩
        simp only [e2, hk, if_false]

/-- The encoder symbols that `enc_table` sets. -/
theorem enc_table_syms (F : Nat → Nat) (k : Nat) (hk : k < 256) (h : F k ≠ 0) :
    (enc_table F).2 k = { start := cumul F k, freq := F k } := by
  unfold enc_table
  have := enc_table_loop_syms F 256 0 0 (fun _ => { start := 0, freq := 0 }) k
  have e0 : cumul F 0 = 0 := rfl
  rw [e0] at this
  simp only [this]
  rw [if_pos ⟨by omega, by omega, h⟩]

theorem enc_table_bytes (F : Nat → Nat) : (enc_table F).1 = tab_bytes F 256 0 0 ++ [0] := by
  unfold enc_table
  simp only [enc_table_loop_bytes]

theorem freq_lemma : ∀ q, q < 128 →
    128 ≤ (128 ||| q) % 256 ∧ (((128 ||| q) % 256) &&& 0xFFFFFF7F) &&& 127 = q := by
  decide

/-- Reading back one frequency. -/
theorem rd_freq_bytes (f : Nat) (cp : List Nat) (hf : f < 32768) :
    rd_freq (freq_bytes f ++ cp) = Res.ok (f, cp) := by
  unfold rd_freq freq_bytes
  by_cases h : f < 128
  · have : f % 256 = f := Nat.mod_eq_of_lt (by omega)
    simp [h, rd, this]
  · have hq : f >>> 8 < 128 := by rw [Nat.shiftRight_eq_div_pow]; omega
    obtain ⟨h1, h2⟩ := freq_lemma (f >>> 8) hq
    have h3 : (f &&& 255) % 256 = f % 256 := by rw [and_255]; omega
    have h4 : ((f >>> 8) <<< 8) ||| (f % 256) = f := by
      rw [shl_or_byte _ _ (Nat.mod_lt _ (by decide)), Nat.shiftRight_eq_div_pow]; omega
    simp only [h, if_false, List.cons_append, List.nil_append, rd, Res.bind_ok]
    rw [if_pos h1]
    simp only [Res.bind_ok, h2, h3, h4]

theorem freq_bytes_len (f : Nat) : 1 ≤ (freq_bytes f).length ∧ (freq_bytes f).length ≤ 2 := by
  unfold freq_bytes; split <;> simp

theorem rle_scan_spec (F : Nat → Nat) (n : Nat) : ∀ k,
    k ≤ rle_scan F n k ∧ (∀ i, k ≤ i → i < rle_scan F n k → i < 256 ∧ F i ≠ 0) := by
  induction n with
  | zero => intro k; simp only [rle_scan]; exact ⟨Nat.le_refl _, fun i h1 h2 => by omega⟩
  | succ n ih =>
    intro k
    rw [rle_scan]
    split
    · rename_i h
      obtain ⟨a, b⟩ := ih (k + 1)
      refine ⟨by omega, fun i h1 h2 => ?_⟩
      by_cases hi : i = k
      · subst hi; exact h
      · exact b i (by omega) h2
    · exact ⟨Nat.le_refl _, fun i h1 h2 => by omega⟩

theorem rle_scan_run (F : Nat → Nat) (j : Nat) (hj : j < 256) :
    RunOK F j (rle_scan F 256 (j + 1) - (j + 1)) ∧ rle_scan F 256 (j + 1) - (j + 1) < 256 := by
  obtain ⟨a, b⟩ := rle_scan_spec F 256 (j + 1)
  have hle : rle_scan F 256 (j + 1) ≤ 256 := by
    by_contra h
    have := b 256 (by omega) (by omega)
    omega
  refine ⟨fun i h1 h2 => b i (by omega) (by omega), by omega⟩

theorem tab_skip (F : Nat → Nat) (m : Nat) : ∀ (n j rle : Nat),
    (∀ i, j ≤ i → i < j + m → F i = 0) → tab_bytes F (m + n) j rle = tab_bytes F n (j + m) rle := by
  induction m with
  | zero => intro n j rle _; simp
  | succ m ih =>
    intro n j rle h
    have e : m + 1 + n = (m + n) + 1 := by omega
    rw [e, tab_bytes, if_pos (h j (by omega) (by omega)), ih n (j + 1) rle (fun i h1 h2 => h i (by omega) (by omega))]
    have e2 : j + 1 + m = j + (m + 1) := by omega
    rw [e2]

theorem cumul_skip (F : Nat → Nat) (m : Nat) : ∀ j, (∀ i, j ≤ i → i < j + m → F i = 0) →
    cumul F (j + m) = cumul F j := by
  induction m with
  | zero => intro j _; rfl
  | succ m ih =>
    intro j h
    have e : j + (m + 1) = (j + m) + 1 := by omega
    rw [e, cumul, h (j + m) (by omega) (by omega), ih j (fun i h1 h2 => h i h1 (by omega))]
    rfl

end RansStatic

namespace RansStatic

/-- The first symbol that the table loop writes from the symbol `a` on. -/
theorem tab_first (F : Nat → Nat) (a n : Nat) (han : a + n = 256) :
    ((∀ i, a ≤ i → i < 256 → F i = 0) ∧ tab_bytes F n a 0 = []) ∨
    ∃ k, a ≤ k ∧ k < 256 ∧ F k ≠ 0 ∧ (∀ i, a ≤ i → i < k → F i = 0) ∧
      tab_bytes F n a 0 = tab_bytes F (255 - k + 1) k 0 := by
  by_cases h : ∃ k, a ≤ k ∧ k < 256 ∧ F k ≠ 0
  · right
    have hs := Nat.find_spec h
    have hm := fun i => @Nat.find_min _ _ h i
    refine ⟨Nat.find h, hs.1, hs.2.1, hs.2.2, ?_, ?_⟩
    · intro i h1 h2
      by_contra hne
      exact hm i h2 ⟨h1, by omega, hne⟩
    · have hz : ∀ i, a ≤ i → i < a + (Nat.find h - a) → F i = 0 := by
        intro i h1 h2
        by_contra hne
        exact hm i (by omega) ⟨h1, by omega, hne⟩
      have := tab_skip F (Nat.find h - a) (255 - Nat.find h + 1) a 0 hz
      have e1 : Nat.find h - a + (255 - Nat.find h + 1) = n := by omega
      have e2 : a + (Nat.find h - a) = Nat.find h := by omega
      rw [e1, e2] at this
      exact this
  · left
    have hz : ∀ i, a ≤ i → i < 256 → F i = 0 := by
      intro i h1 h2
      by_contra hne
      exact h ⟨i, h1, h2, hne⟩
    refine ⟨hz, ?_⟩
    have := tab_skip F n 0 a 0 (fun i h1 h2 => hz i h1 (by omega))
    simp only [Nat.add_zero] at this
    rw [this]
    rfl

theorem tab_bytes_present (F : Nat → Nat) (n j rle : Nat) (h : F j ≠ 0) :
    tab_bytes F (n + 1) j rle
      = (if rle ≠ 0 then ([], rle - 1)
          else if j ≠ 0 ∧ F (j - 1) ≠ 0 then
            ([j % 256, (rle_scan F 256 (j + 1) - (j + 1)) % 256], rle_scan F 256 (j + 1) - (j + 1))
          else ([j % 256], 0)).1 ++ freq_bytes (F j) ++
        tab_bytes F n (j + 1)
          (if rle ≠ 0 then (([] : List Nat), rle - 1)
          else if j ≠ 0 ∧ F (j - 1) ≠ 0 then
            ([j % 256, (rle_scan F 256 (j + 1) - (j + 1)) % 256], rle_scan F 256 (j + 1) - (j + 1))
          else ([j % 256], 0)).2 := by
  rw [tab_bytes, if_neg h]

theorem tabfrom_step (F : Nat → Nat) (j k : Nat) (T T2 : DecTab0) (hj : j < 256) (hjk : j < k)
    (hz : ∀ i, j < i → i < k → F i = 0)
    (h2 : TabFrom F k (dec0_fill T (cumul F j) j (F j)) T2) :
    TabFrom F j T T2 := by
  have hc : cumul F k = cumul F j + F j := by
    have := cumul_skip F (k - (j + 1)) (j + 1) (fun i h1 h2 => hz i (by omega) (by omega))
    have e : j + 1 + (k - (j + 1)) = k := by omega
    rw [e] at this
    rw [this, cumul]
  obtain ⟨a, b⟩ := h2
  refine ⟨?_, ?_⟩
  · intro m hm
    have := a m (by omega)
    simp only [dec0_fill, fill_loop] at this
    rw [if_neg (by omega), if_neg (by omega), if_neg (by omega)] at this
    exact this
  · intro k1 h1 h3 h4 m h5 h6
    by_cases hk : k1 = j
    · subst hk
      have := a m (by omega)
      simp only [dec0_fill, fill_loop] at this
      rw [if_pos ⟨h5, h6⟩, if_pos ⟨h5, h6⟩, if_pos ⟨h5, h6⟩] at this
      exact this
    · have hk2 : k ≤ k1 := by
        by_contra hlt
        exact h4 (hz k1 (by omega) (by omega))
      exact b k1 hk2 h3 h4 m h5 h6

theorem tabfrom_refl (F : Nat → Nat) (T : DecTab0) : TabFrom F 256 T T :=
  ⟨fun _ _ => ⟨rfl, rfl, rfl⟩, fun k h1 h2 => by omega⟩

end RansStatic

namespace RansStatic

theorem dec0_step_run (fuel : Nat) (T : DecTab0) (j rle x f : Nat) (tail : List Nat)
    (hf : f < 32768) (hlen : 16 ≤ (freq_bytes f ++ tail).length) (hx : f + x ≤ 4096)
    (hr : rle ≠ 0) (hj : j + 1 ≤ 255) :
    dec0_table_loop (fuel + 1) T j rle x (freq_bytes f ++ tail)
      = dec0_table_loop fuel (dec0_fill T x j f) (j + 1) (rle - 1) (x + f) tail := by
  rw [dec0_table_loop, if_neg (by omega), rd_freq_bytes f tail hf]
  simp only [Res.bind_ok, TOTFREQ_eq]
  rw [if_neg (by omega), if_neg hr, if_neg (by omega)]

theorem dec0_step_pair (fuel : Nat) (T : DecTab0) (j x f r : Nat) (tail : List Nat)
    (hf : f < 32768) (hlen : 16 ≤ (freq_bytes f ++ (j + 1) :: r :: tail).length)
    (hx : f + x ≤ 4096) :
    dec0_table_loop (fuel + 1) T j 0 x (freq_bytes f ++ (j + 1) :: r :: tail)
      = dec0_table_loop fuel (dec0_fill T x j f) (j + 1) r (x + f) tail := by
  rw [dec0_table_loop, if_neg (by omega), rd_freq_bytes f _ hf]
  simp only [Res.bind_ok, TOTFREQ_eq, peek, rd]
  rw [if_neg (by omega), if_pos trivial, if_pos trivial, if_pos (by omega)]

theorem dec0_step_single (fuel : Nat) (T : DecTab0) (j x f k : Nat) (tail : List Nat)
    (hf : f < 32768) (hlen : 16 ≤ (freq_bytes f ++ k :: tail).length)
    (hx : f + x ≤ 4096) (hk : j + 1 ≠ k) (hk0 : k ≠ 0) :
    dec0_table_loop (fuel + 1) T j 0 x (freq_bytes f ++ k :: tail)
      = dec0_table_loop fuel (dec0_fill T x j f) k 0 (x + f) tail := by
  rw [dec0_table_loop, if_neg (by omega), rd_freq_bytes f _ hf]
  simp only [Res.bind_ok, TOTFREQ_eq, peek, rd]
  rw [if_neg (by omega), if_pos trivial, if_neg hk, if_pos hk0]

theorem dec0_step_end (fuel : Nat) (T : DecTab0) (j x f : Nat) (tail : List Nat)
    (hf : f < 32768) (hlen : 16 ≤ (freq_bytes f ++ 0 :: tail).length)
    (hx : f + x ≤ 4096) :
    dec0_table_loop (fuel + 1) T j 0 x (freq_bytes f ++ 0 :: tail)
      = Res.ok (dec0_fill T x j f, x + f, tail) := by
  rw [dec0_table_loop, if_neg (by omega), rd_freq_bytes f _ hf]
  simp only [Res.bind_ok, TOTFREQ_eq, peek, rd]
  rw [if_neg (by omega), if_pos trivial, if_neg (by omega), if_neg (by simp)]


/-- The table loop of the decoder of order 0 reads back, from the frequency of
the symbol `j` on, what the table loop of the encoder wrote. -/
theorem dec0_table_from (F : Nat → Nat) (rest : List Nat) (hsum : cumul F 256 ≤ 4096)
    (hrest : 16 ≤ rest.length) :
    ∀ n, ∀ (j rle fuel : Nat) (T : DecTab0), j + n = 255 → F j ≠ 0 → RunOK F j rle →
      (freq_bytes (F j) ++ tab_bytes F n (j + 1) rle).length ≤ fuel →
      ∃ T1, dec0_table_loop fuel T j rle (cumul F j)
          (freq_bytes (F j) ++ (tab_bytes F n (j + 1) rle ++ 0 :: rest))
        = Res.ok (T1, cumul F 256, rest) ∧ TabFrom F j T T1 := by
  intro n
  induction n using Nat.strong_induction_on with
  | _ n ih =>
    intro j rle fuel T hjn hFj hrun hfuel
    have hfl := freq_bytes_len (F j)
    have hj : j < 256 := by omega
    have hFle : F j ≤ cumul F 256 := le_cumul F 256 j hj
    have hc1 : cumul F j + F j ≤ cumul F 256 := by
      have := cumul_mono F (j + 1) 256 (by omega)
      rw [cumul] at this; exact this
    obtain ⟨fuel, rfl⟩ : ∃ f, fuel = f + 1 := ⟨fuel - 1, by
      simp only [List.length_append] at hfuel; omega⟩
    by_cases hr : rle = 0
    · subst hr
      rcases tab_first F (j + 1) n (by omega) with ⟨hz, hnil⟩ | ⟨k, hk1, hk2, hk3, hz, hk⟩
      · -- no further symbol
        rw [hnil, List.nil_append,
          dec0_step_end fuel T j _ _ rest (by omega) (by simp; omega) (by omega)]
        have e : cumul F j + F j = cumul F 256 := by
          have := cumul_skip F (255 - j) (j + 1) (fun i h1 h2 => hz i h1 (by omega))
          have e2 : j + 1 + (255 - j) = 256 := by omega
          rw [e2, cumul] at this
          exact this.symm
        rw [e]
        exact ⟨_, rfl, tabfrom_step F j 256 T _ hj (by omega)
          (fun i h1 h2 => hz i (by omega) h2) (tabfrom_refl F _)⟩
      · have hFk : F k ≤ cumul F 256 := le_cumul F 256 k hk2
        have ex : cumul F j + F j = cumul F k := by
          have := cumul_skip F (k - (j + 1)) (j + 1) (fun i h1 h2 => hz i h1 (by omega))
          have e2 : j + 1 + (k - (j + 1)) = k := by omega
          rw [e2, cumul] at this
          exact this.symm
        have hkm : k % 256 = k := Nat.mod_eq_of_lt hk2
        rw [hk, tab_bytes_present F _ k 0 hk3] at hfuel ⊢
        by_cases hadj : k = j + 1
        · -- the next symbol is adjacent: a run header
          subst hadj
          have hc : j + 1 ≠ 0 ∧ F (j + 1 - 1) ≠ 0 := ⟨by omega, by simpa using hFj⟩
          obtain ⟨hrun2, hr256⟩ := rle_scan_run F (j + 1) hk2
          have hrm : (rle_scan F 256 (j + 1 + 1) - (j + 1 + 1)) % 256
              = rle_scan F 256 (j + 1 + 1) - (j + 1 + 1) := Nat.mod_eq_of_lt hr256
          simp only [ne_eq, not_true_eq_false, if_false, hc, not_false_eq_true, and_self,
            if_true, hkm, hrm, List.cons_append, List.nil_append, List.append_assoc] at hfuel ⊢
          rw [dec0_step_pair fuel T j _ _ _ _ (by omega) (by simp; omega) (by omega), ex]
          simp only [List.length_append, List.length_cons] at hfuel
          obtain ⟨T1, h1, h2⟩ := ih (255 - (j + 1)) (by omega) (j + 1) _ fuel
            (dec0_fill T (cumul F j) j (F j)) (by omega) hk3 hrun2
            (by simp only [List.length_append]; omega)
          exact ⟨T1, h1, tabfrom_step F j (j + 1) T T1 hj (by omega) (fun i h1 h2 => by omega) h2⟩
        · -- the next symbol is further on: a plain header
          have hc : ¬ (k ≠ 0 ∧ F (k - 1) ≠ 0) := by
            intro h
            exact h.2 (hz (k - 1) (by omega) (by omega))
          simp only [ne_eq, not_true_eq_false, if_false, hc, hkm, List.cons_append,
            List.nil_append, List.append_assoc] at hfuel ⊢
          rw [dec0_step_single fuel T j _ _ k _ (by omega) (by simp; omega) (by omega)
            (by omega) (by omega), ex]
          simp only [List.length_append, List.length_cons] at hfuel
          obtain ⟨T1, h1, h2⟩ := ih (255 - k) (by omega) k 0 fuel
            (dec0_fill T (cumul F j) j (F j)) (by omega) hk3 (fun i h1 h2 => by omega)
            (by simp only [List.length_append]; omega)
          exact ⟨T1, h1, tabfrom_step F j k T T1 hj (by omega)
            (fun i h1 h2 => hz i (by omega) h2) h2⟩
    · -- inside a run
      obtain ⟨hj1, hF1⟩ := hrun (j + 1) (by omega) (by omega)
      obtain ⟨n, rfl⟩ : ∃ m, n = m + 1 := ⟨n - 1, by omega⟩
      rw [tab_bytes_present F n (j + 1) rle hF1] at hfuel ⊢
      simp only [ne_eq, hr, not_false_eq_true, if_true, List.nil_append,
        List.append_assoc] at hfuel ⊢
      rw [dec0_step_run fuel T j rle _ _ _ (by omega) (by simp; omega) (by omega) hr (by omega)]
      simp only [List.length_append] at hfuel
      obtain ⟨T1, h1, h2⟩ := ih n (by omega) (j + 1) (rle - 1) fuel
        (dec0_fill T (cumul F j) j (F j)) (by omega) hF1
        (fun i h1 h2 => hrun i (by omega) (by omega))
        (by simp only [List.length_append]; omega)
      exact ⟨T1, h1, tabfrom_step F j (j + 1) T T1 hj (by omega) (fun i h1 h2 => by omega) h2⟩

end RansStatic

namespace RansStatic

/-- The table decoder of order 0 reads back the table of a row. -/
theorem dec0_table_enc (F : Nat → Nat) (T : DecTab0) (rest : List Nat) (fuel : Nat)
    (hex : ∃ k, k < 256 ∧ F k ≠ 0) (hsum : cumul F 256 ≤ 4096) (hrest : 16 ≤ rest.length)
    (hfuel : (enc_table F).1.length ≤ fuel) :
    ∃ T1, dec0_table fuel T ((enc_table F).1 ++ rest) = Res.ok (T1, cumul F 256, rest) ∧
      TabFrom F 0 T T1 := by
  rw [enc_table_bytes] at hfuel ⊢
  rcases tab_first F 0 256 (by omega) with ⟨hz, _⟩ | ⟨k, _, hk2, hk3, hz, hk⟩
  · obtain ⟨k, h1, h2⟩ := hex
    exact absurd (hz k (by omega) h1) h2
  · have hc : ¬ (k ≠ 0 ∧ F (k - 1) ≠ 0) := by
      intro h
      exact h.2 (hz (k - 1) (by omega) (by omega))
    have hkm : k % 256 = k := Nat.mod_eq_of_lt hk2
    have e0 : cumul F k = 0 := by
      have := cumul_skip F k 0 (fun i h1 h2 => hz i h1 (by omega))
      simp only [Nat.zero_add] at this
      rw [this]; rfl
    rw [hk, tab_bytes_present F _ k 0 hk3] at hfuel ⊢
    simp only [ne_eq, not_true_eq_false, if_false, hc, hkm, List.cons_append,
      List.nil_append, List.append_assoc, List.length_append, List.length_cons,
      List.length_nil] at hfuel ⊢
    unfold dec0_table
    simp only [rd, Res.bind_ok]
    have h := dec0_table_from F rest hsum hrest (255 - k) k 0 fuel T (by omega) hk3
      (fun i h1 h2 => by omega) (by simp only [List.length_append]; omega)
    rw [e0] at h
    obtain ⟨T1, h1, h2⟩ := h
    refine ⟨T1, h1, ⟨fun m hm => ?_, fun k1 _ h4 h5 m h6 h7 => ?_⟩⟩
    · have : cumul F 0 = 0 := rfl
      omega
    · have hk1 : k ≤ k1 := by
        by_contra hlt
        exact h5 (hz k1 (by omega) (by omega))
      exact h2.2 k1 hk1 h4 h5 m h6 h7

/-- The encoder symbols and the decoded lookup arrays of a row agree. -/
theorem symok_of_tab (F : Nat → Nat) (T T1 : DecTab0) (h : TabFrom F 0 T T1)
    (hsum : cumul F 256 ≤ 4096) (b : Nat) (hb : b < 256) (hF : F b ≠ 0) :
    SymOK0 (enc_table F).2 T1 b := by
  rw [SymOK0, enc_table_syms F b hb hF]
  have h1 : cumul F b + F b ≤ cumul F 256 := by
    have := cumul_mono F (b + 1) 256 (by omega)
    rw [cumul] at this; exact this
  exact ⟨⟨by show 1 ≤ F b; omega, by show cumul F b + F b ≤ 4096; omega⟩, hb,
    fun m h2 h3 => h.2 b (by omega) hb hF m h2 h3⟩

end RansStatic

namespace RansStatic

theorem tab_bytes_len (F : Nat → Nat) (n : Nat) : ∀ (j rle : Nat),
    (tab_bytes F n j rle).length ≤ 4 * n := by
  induction n with
  | zero => intro j rle; simp [tab_bytes]
  | succ n ih =>
    intro j rle
    rw [tab_bytes]
    split
    · have := ih (j + 1) rle; omega
    · have h2 := freq_bytes_len (F j)
      simp only [List.length_append]
      split
      · have := ih (j + 1) (rle - 1); simp; omega
      · split
        · have := ih (j + 1) (rle_scan F 256 (j + 1) - (j + 1)); simp; omega
        · have := ih (j + 1) 0; simp; omega

theorem enc_table_len (F : Nat → Nat) :
    1 ≤ (enc_table F).1.length ∧ (enc_table F).1.length ≤ 1025 := by
  rw [enc_table_bytes]
  have := tab_bytes_len F 256 0 0
  simp only [List.length_append, List.length_cons, List.length_nil]
  omega

theorem map_range_eq (s : List Nat) (f : Nat → Nat) (h : ∀ i, i < s.length → f i = s.getD i 0) :
    (List.range s.length).map f = s := by
  apply List.ext_getElem
  · simp
  · intro i h1 h2
    have hi : i < s.length := by simpa using h1
    simp only [List.getElem_map, List.getElem_range]
    rw [h i hi, List.getD_eq_getElem _ _ hi]

theorem flush_len (r : Nat) (ptr : List Nat) : (RansEncFlush r ptr).length = ptr.length + 4 := by
  simp [RansEncFlush]

theorem finish_block_eq (order n : Nat) (tab ptr : List Nat)
    (h : ptr.length + (9 + tab.length) < 2 ^ 32) (hn : n < 2 ^ 32) :
    finish_block order n tab ptr
      = [order] ++ le32 (ptr.length + tab.length) ++ le32 n ++ (tab ++ ptr) := by
  unfold finish_block
  simp only [Nat.mod_eq_of_lt h, Nat.mod_eq_of_lt hn]
  have e : (ptr.length + (9 + tab.length) + (2 ^ 32 - 9)) % 2 ^ 32 = ptr.length + tab.length := by
    omega
  rw [e]
  have hl : ([order] ++ le32 (ptr.length + tab.length) ++ le32 n ++ tab ++ ptr).length
      = ptr.length + (9 + tab.length) := by
    simp [le32]; omega
  rw [← hl, List.take_length]
  simp

end RansStatic

namespace RansStatic

/-- The statistics of the compressor of order 0 on a non-empty input. -/
theorem norm_row_O0_spec (s : List Nat) (hne : s ≠ []) (hb : ∀ b ∈ s, b < 256) :
    ∃ F1 M, norm_row_O0 s = some (F1, M) ∧ RowOK (fun k => s.count k) F1 M := by
  unfold norm_row_O0
  have hh : hist8 s (fun _ => 0) = fun k => s.count k := funext fun k => hist8_count s k hb
  rw [hh]
  apply normalise_spec
  · intro k _
    exact List.count_le_length _ _
  · cases s with
    | nil => exact absurd rfl hne
    | cons b t =>
      refine ⟨b, hb b (by simp), ?_⟩
      simp

theorem st0_ok :
    StOK { r0 := RANS_BYTE_L, r1 := RANS_BYTE_L, r2 := RANS_BYTE_L, r3 := RANS_BYTE_L, ptr := [] } := by
  have : RANS_BYTE_L < 2 ^ 31 := by decide
  exact ⟨⟨Nat.le_refl _, this⟩, ⟨Nat.le_refl _, this⟩, ⟨Nat.le_refl _, this⟩, ⟨Nat.le_refl _, this⟩⟩

/-- The whole payload coder of order 0, and the decoder loops that undo it. -/
theorem enc0_all (s : List Nat) (syms : Nat → RansEncSymbol) (T1 : DecTab0)
    (hs : ∀ i, i < s.length → SymOK0 syms T1 (s.getD i 0)) :
    ∃ st_t st1,
      enc0_tail s syms
        { r0 := RANS_BYTE_L, r1 := RANS_BYTE_L, r2 := RANS_BYTE_L, r3 := RANS_BYTE_L, ptr := [] }
        = Res.ok st_t ∧
      enc0_loop s syms (s.length / 4) st_t = Res.ok st1 ∧ StOK st1 ∧
      st1.ptr.length ≤ 6 + 8 * (s.length / 4) ∧
      ∀ out, ∃ out1, dec0_loop T1 (s.length / 4) 0 st1 out = Res.ok (st_t, out1) ∧
        ∀ i, i < s.length → dec0_tail T1 s.length (4 * (s.length / 4)) st_t out1 i = s.getD i 0 := by
  obtain ⟨st_t, ht, hok, ⟨bs, hptr, hlen⟩, hdt⟩ :=
    enc0_tail_spec s syms T1 _ st0_ok (fun i _ h2 => hs i h2)
  obtain ⟨st1, hl, hok1, ⟨bs1, hptr1, hlen1⟩, hdl⟩ :=
    enc0_dec0_loop s syms T1 (s.length / 4) st_t hok (fun i hi => hs i (by omega))
  refine ⟨st_t, st1, ht, hl, hok1, ?_, ?_⟩
  · rw [hptr1, hptr]; simp; omega
  · intro out
    obtain ⟨out1, hd, ho1, _⟩ := hdl out
    refine ⟨out1, hd, fun i hi => ?_⟩
    by_cases h : i < 4 * (s.length / 4)
    · rw [(hdt out1).2 i h]
      exact ho1 i h
    · exact (hdt out1).1 i (by omega) hi

end RansStatic

namespace RansStatic

theorem payload4_len (st : Rans4) : (payload4 st).length = st.ptr.length + 16 := by
  simp [payload4, flush_len]

theorem dec_init4_payload (st : Rans4) (h : StOK st) : dec_init4 (payload4 st) = Res.ok st := by
  obtain ⟨h0, h1, h2, h3⟩ := h
  unfold payload4 dec_init4
  rw [dec_init_chk_flush _ _ h0.2 h0.1]
  simp only [Res.bind_ok]
  rw [dec_init_chk_flush _ _ h1.2 h1.1]
  simp only [Res.bind_ok]
  rw [dec_init_chk_flush _ _ h2.2 h2.1]
  simp only [Res.bind_ok]
  rw [dec_init_chk_flush _ _ h3.2 h3.1]
  simp only [Res.bind_ok]

/-- The block that the compressor of order 0 returns. -/
theorem compress0_eq (s : List Nat) (hne : s ≠ []) (hsz : 21 * s.length < 20 * 2 ^ 31)
    (F1 : Nat → Nat) (M : Nat) (hrow : norm_row_O0 s = some (F1, M)) (hM : F1 M ≠ 0)
    (st_t st1 : Rans4)
    (ht : enc0_tail s (enc_table F1).2
      { r0 := RANS_BYTE_L, r1 := RANS_BYTE_L, r2 := RANS_BYTE_L, r3 := RANS_BYTE_L, ptr := [] }
      = Res.ok st_t)
    (hl : enc0_loop s (enc_table F1).2 (s.length / 4) st_t = Res.ok st1)
    (hlen : st1.ptr.length ≤ 6 + 8 * (s.length / 4)) :
    rans_compress_O0 s = Res.ok ([0] ++ le32 ((payload4 st1).length + (enc_table F1).1.length)
      ++ le32 s.length ++ ((enc_table F1).1 ++ payload4 st1)) := by
  have hn : s.length ≠ 0 := by
    intro h; exact hne (List.length_eq_zero.mp h)
  have htl := enc_table_len F1
  unfold rans_compress_O0
  simp only [hn, if_false, hrow, hM, ht, Res.bind_ok, and_not3_div s.length (by omega), hl]
  have h1 := payload4_len st1
  rw [← finish_block_eq 0 s.length _ _ (by omega) (by omega)]

/-- The decoder of order 0 on a block that the compressor of order 0 returns. -/
theorem uncompress0_block (T : DecTab0) (s : List Nat) (hsz : 21 * s.length < 20 * 2 ^ 31)
    (F1 : Nat → Nat) (hsum : cumul F1 256 = 4095)
    (hpres : ∀ i, i < s.length → s.getD i 0 < 256 ∧ F1 (s.getD i 0) ≠ 0)
    (st_t st1 : Rans4)
    (ht : enc0_tail s (enc_table F1).2
      { r0 := RANS_BYTE_L, r1 := RANS_BYTE_L, r2 := RANS_BYTE_L, r3 := RANS_BYTE_L, ptr := [] }
      = Res.ok st_t)
    (hl : enc0_loop s (enc_table F1).2 (s.length / 4) st_t = Res.ok st1)
    (hok : StOK st1) (hlen : st1.ptr.length ≤ 6 + 8 * (s.length / 4)) :
    rans_uncompress_O0 T ([0] ++ le32 ((payload4 st1).length + (enc_table F1).1.length)
      ++ le32 s.length ++ ((enc_table F1).1 ++ payload4 st1)) = Res.ok s := by
  have htl := enc_table_len F1
  have hpl := payload4_len st1
  have hex : ∃ k, k < 256 ∧ F1 k ≠ 0 := by
    by_contra hno
    have : cumul F1 256 ≤ 256 * 0 := cumul_le F1 0 256 (fun k hk => by
      by_contra h
      exact hno ⟨k, hk, by omega⟩)
    omega
  generalize hblk : [0] ++ le32 ((payload4 st1).length + (enc_table F1).1.length)
      ++ le32 s.length ++ ((enc_table F1).1 ++ payload4 st1) = blk
  have hbl : blk.length = 9 + (enc_table F1).1.length + (payload4 st1).length := by
    rw [← hblk]; simp [le32]; omega
  have hb0 : blk.getD 0 0 = 0 := by rw [← hblk]; rfl
  obtain ⟨hd1, hd2⟩ := rd_le32_hdr 0 ((payload4 st1).length + (enc_table F1).1.length)
    s.length ((enc_table F1).1 ++ payload4 st1) (by omega) (by omega)
  rw [hblk] at hd1 hd2
  have hdrop : blk.drop 9 = (enc_table F1).1 ++ payload4 st1 := by
    rw [← hblk]; rfl
  obtain ⟨T1, hT1, hTab⟩ := dec0_table_enc F1 T (payload4 st1) blk.length hex (by omega)
    (by omega) (by omega)
  have hsym : ∀ i, i < s.length → SymOK0 (enc_table F1).2 T1 (s.getD i 0) := fun i hi =>
    symok_of_tab F1 T T1 hTab (by omega) _ (hpres i hi).1 (hpres i hi).2
  obtain ⟨st_t2, st12, ht2, hl2, -, -, hdec⟩ := enc0_all s (enc_table F1).2 T1 hsym
  rw [ht] at ht2
  cases ht2
  rw [hl] at hl2
  cases hl2
  obtain ⟨out1, hd, ho⟩ := hdec (fun _ => 0)
  unfold rans_uncompress_O0
  simp only [hbl, hb0, hd1, hd2, hdrop]
  rw [if_neg (by omega), if_neg (by simp), if_neg (by omega),
    if_neg (by unfold INT_MAX; omega), ← hbl, hT1]
  simp only [Res.bind_ok, hsum, TOTFREQ_eq]
  rw [if_neg (by omega), if_neg (by omega), dec_init4_payload st1 hok]
  simp only [Res.bind_ok, and_not3 s.length (by omega)]
  have e : 4 * (s.length / 4) / 4 = s.length / 4 := by omega
  rw [e, hd]
  simp only [Res.bind_ok]
  rw [map_range_eq s _ ho]

end RansStatic

namespace RansStatic

theorem getD_mem (s : List Nat) (i : Nat) (h : i < s.length) : s.getD i 0 ∈ s := by
  rw [List.getD_eq_getElem _ _ h]
  exact List.getElem_mem _

/-- What the compressor of order 0 does on a non-empty input: the statistics,
the payload coder, and the block it returns. -/
theorem compress0_facts (s : List Nat) (hne : s ≠ []) (hsz : 21 * s.length < 20 * 2 ^ 31)
    (hb : ∀ b ∈ s, b < 256) :
    ∃ F1 M st_t st1, norm_row_O0 s = some (F1, M) ∧ RowOK (fun k => s.count k) F1 M ∧
      (∀ i, i < s.length → s.getD i 0 < 256 ∧ F1 (s.getD i 0) ≠ 0) ∧
      enc0_tail s (enc_table F1).2
        { r0 := RANS_BYTE_L, r1 := RANS_BYTE_L, r2 := RANS_BYTE_L, r3 := RANS_BYTE_L, ptr := [] }
        = Res.ok st_t ∧
      enc0_loop s (enc_table F1).2 (s.length / 4) st_t = Res.ok st1 ∧ StOK st1 ∧
      st1.ptr.length ≤ 6 + 8 * (s.length / 4) ∧
      rans_compress_O0 s = Res.ok ([0] ++ le32 ((payload4 st1).length + (enc_table F1).1.length)
        ++ le32 s.length ++ ((enc_table F1).1 ++ payload4 st1)) := by
  obtain ⟨F1, M, hrow, hR⟩ := norm_row_O0_spec s hne hb
  have hpres : ∀ i, i < s.length → s.getD i 0 < 256 ∧ F1 (s.getD i 0) ≠ 0 := by
    intro i hi
    have hm := getD_mem s i hi
    refine ⟨hb _ hm, (hR.2.1 _).mpr ?_⟩
    have : 0 < s.count (s.getD i 0) := List.count_pos_iff.mpr hm
    show s.count (s.getD i 0) ≠ 0
    omega
  have hex : ∃ k, k < 256 ∧ F1 k ≠ 0 := ⟨M, hR.2.2.2, hR.2.2.1⟩
  obtain ⟨T1, -, hTab⟩ := dec0_table_enc F1 zeroTab0 (List.replicate 16 0) 1025 hex
    (by have := hR.1; omega) (by simp) (enc_table_len F1).2
  have hsym : ∀ i, i < s.length → SymOK0 (enc_table F1).2 T1 (s.getD i 0) := fun i hi =>
    symok_of_tab F1 zeroTab0 T1 hTab (by have := hR.1; omega) _ (hpres i hi).1 (hpres i hi).2
  obtain ⟨st_t, st1, ht, hl, hok, hlen, -⟩ := enc0_all s (enc_table F1).2 T1 hsym
  exact ⟨F1, M, st_t, st1, hrow, hR, hpres, ht, hl, hok, hlen,
    compress0_eq s hne hsz F1 M hrow hR.2.2.1 st_t st1 ht hl hlen⟩

/-- The round trip of order 0, for the two entry points of order 0. -/
theorem round_trip_O0 (T : DecTab0) (s : List Nat) (hne : s ≠ [])
    (hsz : 21 * s.length < 20 * 2 ^ 31) (hb : ∀ b ∈ s, b < 256) :
    ∃ blk, rans_compress_O0 s = Res.ok blk ∧ blk.length ≥ 26 ∧ blk.getD 0 0 = 0 ∧
      rans_uncompress_O0 T blk = Res.ok s := by
  obtain ⟨F1, M, st_t, st1, -, hR, hpres, ht, hl, hok, hlen, hc⟩ := compress0_facts s hne hsz hb
  refine ⟨_, hc, ?_, rfl, uncompress0_block T s hsz F1 hR.1 hpres st_t st1 ht hl hok hlen⟩
  have := (enc_table_len F1).1
  have := payload4_len st1
  simp [le32]
  omega

end RansStatic

namespace RansStatic

theorem cumul_store2 (F : Nat → Nat → Nat) (a c : Nat) (hc : c < 256) (i : Nat) :
    cumul (store2 F a c (F a c + 1) i) 256 = cumul (F i) 256 + (if i = a then 1 else 0) := by
  by_cases h : i = a
  · subst h
    have e : store2 F i c (F i c + 1) i = store (F i) c (F i c + 1) := by
      funext q; simp [store2, store]
    have := cumul_store (F i) c (F i c + 1) 256
    rw [e]
    simp only [hc, if_true] at this ⊢
    omega
  · have e : store2 F a c (F a c + 1) i = F i := by
      funext q; simp [store2, h]
    rw [e]; simp [h]

theorem store2_ge (F : Nat → Nat → Nat) (a c p q : Nat) :
    F p q ≤ store2 F a c (F a c + 1) p q := by
  unfold store2
  split
  · rename_i h; rw [h.1, h.2]; omega
  · exact Nat.le_refl _

theorem store2_pos (F : Nat → Nat → Nat) (a c : Nat) : 1 ≤ store2 F a c (F a c + 1) a c := by
  simp [store2]

theorem store_inc_sum (T : Nat → Nat) (a i : Nat) :
    store T a (T a + 1) i = T i + (if i = a then 1 else 0) := by
  unfold store
  split
  · rename_i h; rw [h]
  · rfl

theorem getD_lt (s : List Nat) (hb : ∀ b ∈ s, b < 256) (i : Nat) : s.getD i 0 < 256 := by
  by_cases h : i < s.length
  · exact hb _ (getD_mem s i h)
  · rw [List.getD_eq_default _ _ (by omega)]; omega

/-- The marginal counters of `hist1_4` sum to the row sums of the pair counts. -/
theorem hist1_4_loop_T (inp : List Nat) (hb : ∀ b ∈ inp, b < 256) (idiv4 : Nat) (n : Nat) :
    ∀ (k : Nat) (h : Hist1),
    (∀ i, h.T0 i + h.T1 i + h.T2 i + h.T3 i = cumul (h.F i) 256) →
    ∀ i, (hist1_4_loop inp idiv4 n k h).T0 i + (hist1_4_loop inp idiv4 n k h).T1 i
        + (hist1_4_loop inp idiv4 n k h).T2 i + (hist1_4_loop inp idiv4 n k h).T3 i
      = cumul ((hist1_4_loop inp idiv4 n k h).F i) 256 := by
  induction n with
  | zero => intro k h hT i; exact hT i
  | succ n ih =>
    intro k h hT
    rw [hist1_4_loop]
    apply ih
    intro i
    simp only [hist1_4_round, cumul_store2 _ _ _ (getD_lt inp hb _), store_inc_sum]
    have := hT i
    omega

theorem hist1_4_tail_T (inp : List Nat) (hb : ∀ b ∈ inp, b < 256) (n : Nat) :
    ∀ (k : Nat) (h : Hist1),
    (∀ i, h.T0 i + h.T1 i + h.T2 i + h.T3 i = cumul (h.F i) 256) →
    ∀ i, (hist1_4_tail inp n k h).T0 i + (hist1_4_tail inp n k h).T1 i
        + (hist1_4_tail inp n k h).T2 i + (hist1_4_tail inp n k h).T3 i
      = cumul ((hist1_4_tail inp n k h).F i) 256 := by
  induction n with
  | zero => intro k h hT i; exact hT i
  | succ n ih =>
    intro k h hT
    rw [hist1_4_tail]
    apply ih
    intro i
    simp only [hist1_4_tail_round, cumul_store2 _ _ _ (getD_lt inp hb _), store_inc_sum]
    have := hT i
    omega


theorem hist1_4_round_ge (inp : List Nat) (idiv4 k : Nat) (h : Hist1) :
    (∀ p q, h.F p q ≤ (hist1_4_round inp idiv4 k h).F p q) ∧
    1 ≤ (hist1_4_round inp idiv4 k h).F h.last_0 (inp.getD k 0) ∧
    1 ≤ (hist1_4_round inp idiv4 k h).F h.last_1 (inp.getD (idiv4 + k) 0) ∧
    1 ≤ (hist1_4_round inp idiv4 k h).F h.last_2 (inp.getD (idiv4 * 2 + k) 0) ∧
    1 ≤ (hist1_4_round inp idiv4 k h).F h.last_3 (inp.getD (idiv4 * 3 + k) 0) := by
  unfold hist1_4_round
  refine ⟨fun p q => ?_, ?_, ?_, ?_, ?_⟩
  · exact Nat.le_trans (Nat.le_trans (Nat.le_trans (store2_ge _ _ _ _ _) (store2_ge _ _ _ _ _))
      (store2_ge _ _ _ _ _)) (store2_ge _ _ _ _ _)
  · exact Nat.le_trans (Nat.le_trans (Nat.le_trans (store2_pos _ _ _) (store2_ge _ _ _ _ _))
      (store2_ge _ _ _ _ _)) (store2_ge _ _ _ _ _)
  · exact Nat.le_trans (Nat.le_trans (store2_pos _ _ _) (store2_ge _ _ _ _ _))
      (store2_ge _ _ _ _ _)
  · exact Nat.le_trans (store2_pos _ _ _) (store2_ge _ _ _ _ _)
  · exact store2_pos _ _ _

theorem hist1_4_loop_ge (inp : List Nat) (idiv4 : Nat) (n : Nat) : ∀ (k : Nat) (h : Hist1),
    (∀ p q, h.F p q ≤ (hist1_4_loop inp idiv4 n k h).F p q) ∧
    (∀ t, t < n →
      1 ≤ (hist1_4_loop inp idiv4 n k h).F
        (if t = 0 then h.last_0 else inp.getD (k + t - 1) 0) (inp.getD (k + t) 0) ∧
      1 ≤ (hist1_4_loop inp idiv4 n k h).F
        (if t = 0 then h.last_1 else inp.getD (idiv4 + k + t - 1) 0) (inp.getD (idiv4 + k + t) 0) ∧
      1 ≤ (hist1_4_loop inp idiv4 n k h).F
        (if t = 0 then h.last_2 else inp.getD (idiv4 * 2 + k + t - 1) 0)
        (inp.getD (idiv4 * 2 + k + t) 0) ∧
      1 ≤ (hist1_4_loop inp idiv4 n k h).F
        (if t = 0 then h.last_3 else inp.getD (idiv4 * 3 + k + t - 1) 0)
        (inp.getD (idiv4 * 3 + k + t) 0)) ∧
    (hist1_4_loop inp idiv4 n k h).last_3
      = (if n = 0 then h.last_3 else inp.getD (idiv4 * 3 + k + n - 1) 0) := by
  induction n with
  | zero =>
    intro k h
    exact ⟨fun p q => Nat.le_refl _, fun t ht => by omega, rfl⟩
  | succ n ih =>
    intro k h
    rw [hist1_4_loop]
    obtain ⟨hge, hpairs, hlast⟩ := ih (k + 1) (hist1_4_round inp idiv4 k h)
    obtain ⟨rge, r0, r1, r2, r3⟩ := hist1_4_round_ge inp idiv4 k h
    have l0 : (hist1_4_round inp idiv4 k h).last_0 = inp.getD k 0 := rfl
    have l1 : (hist1_4_round inp idiv4 k h).last_1 = inp.getD (idiv4 + k) 0 := rfl
    have l2 : (hist1_4_round inp idiv4 k h).last_2 = inp.getD (idiv4 * 2 + k) 0 := rfl
    have l3 : (hist1_4_round inp idiv4 k h).last_3 = inp.getD (idiv4 * 3 + k) 0 := rfl
    refine ⟨fun p q => Nat.le_trans (rge p q) (hge p q), fun t ht => ?_, ?_⟩
    · by_cases h0 : t = 0
      · subst h0
        simp only [if_true, Nat.add_zero]
        exact ⟨Nat.le_trans r0 (hge _ _), Nat.le_trans r1 (hge _ _), Nat.le_trans r2 (hge _ _),
          Nat.le_trans r3 (hge _ _)⟩
      · obtain ⟨t, rfl⟩ : ∃ u, t = u + 1 := ⟨t - 1, by omega⟩
        have hp := hpairs t (by omega)
        rw [l0, l1, l2, l3] at hp
        have e0 : k + (t + 1) - 1 = k + t := by omega
        have e1 : idiv4 + k + (t + 1) - 1 = idiv4 + k + t := by omega
        have e2 : idiv4 * 2 + k + (t + 1) - 1 = idiv4 * 2 + k + t := by omega
        have e3 : idiv4 * 3 + k + (t + 1) - 1 = idiv4 * 3 + k + t := by omega
        have f0 : k + 1 + t = k + (t + 1) := by omega
        have f1 : idiv4 + (k + 1) + t = idiv4 + k + (t + 1) := by omega
        have f2 : idiv4 * 2 + (k + 1) + t = idiv4 * 2 + k + (t + 1) := by omega
        have f3 : idiv4 * 3 + (k + 1) + t = idiv4 * 3 + k + (t + 1) := by omega
        simp only [h0, if_false, e0, e1, e2, e3]
        rw [f0, f1, f2, f3] at hp
        by_cases ht0 : t = 0
        · subst ht0
          simpa using hp
        · have g0 : k + (t + 1) - 1 = k + t := by omega
          have g1 : idiv4 + k + (t + 1) - 1 = idiv4 + k + t := by omega
          have g2 : idiv4 * 2 + k + (t + 1) - 1 = idiv4 * 2 + k + t := by omega
          have g3 : idiv4 * 3 + k + (t + 1) - 1 = idiv4 * 3 + k + t := by omega
          have q0 : k + 1 + t - 1 = k + t := by omega
          have q1 : idiv4 + (k + 1) + t - 1 = idiv4 + k + t := by omega
          have q2 : idiv4 * 2 + (k + 1) + t - 1 = idiv4 * 2 + k + t := by omega
          have q3 : idiv4 * 3 + (k + 1) + t - 1 = idiv4 * 3 + k + t := by omega
          simp only [ht0, if_false, q0, q1, q2, q3] at hp
          exact hp
    · rw [hlast, l3]
      by_cases hn : n = 0
      · subst hn; simp
      · have e : idiv4 * 3 + (k + 1) + n - 1 = idiv4 * 3 + k + (n + 1) - 1 := by omega
        simp [hn, e]

theorem hist1_4_tail_ge (inp : List Nat) (n : Nat) : ∀ (k : Nat) (h : Hist1),
    (∀ p q, h.F p q ≤ (hist1_4_tail inp n k h).F p q) ∧
    (∀ t, t < n →
      1 ≤ (hist1_4_tail inp n k h).F
        (if t = 0 then h.last_3 else inp.getD (k + t - 1) 0) (inp.getD (k + t) 0)) := by
  induction n with
  | zero =>
    intro k h
    exact ⟨fun p q => Nat.le_refl _, fun t ht => by omega⟩
  | succ n ih =>
    intro k h
    rw [hist1_4_tail]
    obtain ⟨hge, hpairs⟩ := ih (k + 1) (hist1_4_tail_round inp k h)
    have rge : ∀ p q, h.F p q ≤ (hist1_4_tail_round inp k h).F p q :=
      fun p q => store2_ge _ _ _ _ _
    have r3 : 1 ≤ (hist1_4_tail_round inp k h).F h.last_3 (inp.getD k 0) := store2_pos _ _ _
    have l3 : (hist1_4_tail_round inp k h).last_3 = inp.getD k 0 := rfl
    refine ⟨fun p q => Nat.le_trans (rge p q) (hge p q), fun t ht => ?_⟩
    by_cases h0 : t = 0
    · subst h0
      simp only [if_true, Nat.add_zero]
      exact Nat.le_trans r3 (hge _ _)
    · obtain ⟨t, rfl⟩ : ∃ u, t = u + 1 := ⟨t - 1, by omega⟩
      have hp := hpairs t (by omega)
      rw [l3] at hp
      have e0 : k + (t + 1) - 1 = k + t := by omega
      have f0 : k + 1 + t = k + (t + 1) := by omega
      simp only [h0, if_false, e0]
      rw [f0] at hp
      by_cases ht0 : t = 0
      · subst ht0
        simpa using hp
      · have q0 : k + 1 + t - 1 = k + t := by omega
        simp only [ht0, if_false, q0] at hp
        exact hp

end RansStatic

namespace RansStatic

/-- The statistics of the compressor of order 1: the marginals are the row
sums, and every pair that the payload coder codes has been counted. -/
theorem stats_O1_spec (inp : List Nat) (hn : 4 ≤ inp.length) (hb : ∀ b ∈ inp, b < 256) :
    (∀ i, i < 256 → (stats_O1 inp).2 i = cumul ((stats_O1 inp).1 i) 256) ∧
    1 ≤ (stats_O1 inp).1 0 (inp.getD 0 0) ∧
    1 ≤ (stats_O1 inp).1 0 (inp.getD (inp.length / 4) 0) ∧
    1 ≤ (stats_O1 inp).1 0 (inp.getD (2 * (inp.length / 4)) 0) ∧
    1 ≤ (stats_O1 inp).1 0 (inp.getD (3 * (inp.length / 4)) 0) ∧
    ∀ k, 1 ≤ k → k < inp.length → 1 ≤ (stats_O1 inp).1 (inp.getD (k - 1) 0) (inp.getD k 0) := by
  have hq : inp.length >>> 2 = inp.length / 4 := by rw [Nat.shiftRight_eq_div_pow]
  unfold stats_O1
  simp only [hq, Nat.one_mul]
  generalize hq4 : inp.length / 4 = q at *
  have hq1 : 1 ≤ q := by omega
  -- the histogram
  have hT0 : ∀ i, (hist1_4_init inp q (fun _ _ => 0) (fun _ => 0)).T0 i
      + (hist1_4_init inp q (fun _ _ => 0) (fun _ => 0)).T1 i
      + (hist1_4_init inp q (fun _ _ => 0) (fun _ => 0)).T2 i
      + (hist1_4_init inp q (fun _ _ => 0) (fun _ => 0)).T3 i
      = cumul ((hist1_4_init inp q (fun _ _ => 0) (fun _ => 0)).F i) 256 := by
    intro i
    show 0 + 0 + 0 + 0 = cumul (fun _ => 0) 256
    have := cumul_le (fun _ => 0) 0 256 (fun k _ => Nat.le_refl _)
    omega
  have hl0 : (hist1_4_init inp q (fun _ _ => 0) (fun _ => 0)).last_0 = 0 := rfl
  have hl1 : (hist1_4_init inp q (fun _ _ => 0) (fun _ => 0)).last_1 = inp.getD (q - 1) 0 := rfl
  have hl2 : (hist1_4_init inp q (fun _ _ => 0) (fun _ => 0)).last_2
      = inp.getD (q * 2 - 1) 0 := rfl
  have hl3 : (hist1_4_init inp q (fun _ _ => 0) (fun _ => 0)).last_3
      = inp.getD (q * 3 - 1) 0 := rfl
  generalize hh0 : hist1_4_init inp q (fun _ _ => 0) (fun _ => 0) = h0 at hT0 hl0 hl1 hl2 hl3
  have hT1 := hist1_4_loop_T inp hb q q 0 h0 hT0
  have hT2 := hist1_4_tail_T inp hb (inp.length - q * 4) (q * 4) _ hT1
  obtain ⟨g1, p1, last1⟩ := hist1_4_loop_ge inp q q 0 h0
  obtain ⟨g2, p2⟩ := hist1_4_tail_ge inp (inp.length - q * 4) (q * 4) (hist1_4_loop inp q q 0 h0)
  have hF : (hist1_4 inp (fun _ _ => 0) (fun _ => 0)).1
      = (hist1_4_tail inp (inp.length - q * 4) (q * 4) (hist1_4_loop inp q q 0 h0)).F := by
    unfold hist1_4; simp only [hq4, hh0]
  have hTT : ∀ i, i < 256 → (hist1_4 inp (fun _ _ => 0) (fun _ => 0)).2 i
      = cumul ((hist1_4 inp (fun _ _ => 0) (fun _ => 0)).1 i) 256 := by
    intro i hi
    rw [hF, ← hT2 i]
    unfold hist1_4; simp only [hq4, hi, if_true, hh0]
    omega
  generalize hist1_4 inp (fun _ _ => 0) (fun _ => 0) = hh at hF hTT ⊢
  generalize hist1_4_tail inp (inp.length - q * 4) (q * 4) (hist1_4_loop inp q q 0 h0) = h2
    at hF g2 p2 hT2
  -- pairs counted by the histogram
  have hpair : ∀ k, 1 ≤ k → k < inp.length → 1 ≤ hh.1 (inp.getD (k - 1) 0) (inp.getD k 0) := by
    intro k hk1 hk2
    rw [hF]
    by_cases c4 : k < q * 4
    · refine Nat.le_trans ?_ (g2 _ _)
      by_cases c1 : k < q
      · have := (p1 k c1).1
        simpa [show ¬ k = 0 by omega] using this
      · by_cases c2 : k < q * 2
        · have := (p1 (k - q) (by omega)).2.1
          by_cases hz : k - q = 0
          · have e : k = q := by omega
            subst e
            simpa [hl0, hl1, hl2, hl3] using this
          · have e1 : q + (k - q) - 1 = k - 1 := by omega
            have e2 : q + (k - q) = k := by omega
            simpa [hz, e1, e2] using this
        · by_cases c3 : k < q * 3
          · have := (p1 (k - q * 2) (by omega)).2.2.1
            by_cases hz : k - q * 2 = 0
            · have e : k = q * 2 := by omega
              subst e
              simpa [hl0, hl1, hl2, hl3] using this
            · have e1 : q * 2 + (k - q * 2) - 1 = k - 1 := by omega
              have e2 : q * 2 + (k - q * 2) = k := by omega
              simpa [hz, e1, e2] using this
          · have := (p1 (k - q * 3) (by omega)).2.2.2
            by_cases hz : k - q * 3 = 0
            · have e : k = q * 3 := by omega
              subst e
              simpa [hl0, hl1, hl2, hl3] using this
            · have e1 : q * 3 + (k - q * 3) - 1 = k - 1 := by omega
              have e2 : q * 3 + (k - q * 3) = k := by omega
              simpa [hz, e1, e2] using this
    · have := p2 (k - q * 4) (by omega)
      by_cases hz : k - q * 4 = 0
      · have e : k = q * 4 := by omega
        subst e
        rw [last1] at this
        have e3 : q * 3 + q - 1 = q * 4 - 1 := by omega
        simpa [show ¬ q = 0 by omega, e3] using this
      · have e1 : q * 4 + (k - q * 4) - 1 = k - 1 := by omega
        have e2 : q * 4 + (k - q * 4) = k := by omega
        simpa [hz, e1, e2] using this
  have hfirst : 1 ≤ hh.1 0 (inp.getD 0 0) := by
    rw [hF]
    refine Nat.le_trans ?_ (g2 _ _)
    have := (p1 0 (by omega)).1
    simpa [hl0, hl1, hl2, hl3] using this
  -- the seeds
  refine ⟨fun i hi => ?_, ?_, ?_, ?_, ?_, fun k h1 h2 => ?_⟩
  · rw [cumul_store2 _ _ _ (getD_lt inp hb _), cumul_store2 _ _ _ (getD_lt inp hb _),
      cumul_store2 _ _ _ (getD_lt inp hb _), ← hTT i hi]
    unfold store
    split <;> rename_i h
    · subst h; simp
    · simp [h]
  · exact Nat.le_trans (Nat.le_trans (Nat.le_trans hfirst (store2_ge _ _ _ _ _))
      (store2_ge _ _ _ _ _)) (store2_ge _ _ _ _ _)
  · exact Nat.le_trans (Nat.le_trans (store2_pos _ _ _) (store2_ge _ _ _ _ _))
      (store2_ge _ _ _ _ _)
  · exact Nat.le_trans (store2_pos _ _ _) (store2_ge _ _ _ _ _)
  · exact store2_pos _ _ _
  · exact Nat.le_trans (Nat.le_trans (Nat.le_trans (hpair k h1 h2) (store2_ge _ _ _ _ _))
      (store2_ge _ _ _ _ _)) (store2_ge _ _ _ _ _)

end RansStatic

namespace RansStatic

/-- The passes with `p = .98` of the order-1 normaliser come to an end, and
give a normalised row. -/
theorem normalise1_harder (fl : FloatOps) (h98 : ∀ f, 1 ≤ f → fl.scale98 f < f) (fuel : Nat) :
    ∀ (B : Nat) (F : Nat → Nat),
    (∀ k, k < 256 → F k ≤ B) → B + 1 ≤ fuel → (∃ k, k < 256 ∧ F k ≠ 0) →
    ∃ F1 M, normalise1 fl fuel fl.scale98 F = some F1 ∧ RowOK F F1 M := by
  induction fuel with
  | zero => intro B F _ h; omega
  | succ fuel ih =>
    intro B F hB hfuel hex
    rw [normalise1]
    simp only [TOTFREQ_eq]
    obtain ⟨hs, hF, hM⟩ := full_pass fl.scale98 F
    obtain ⟨hMne, hMlt⟩ := hM hex
    have hsup := pass_support fl.scale98 F
    generalize norm1_pass fl.scale98 256 0 { F := F, fsum := 0, m := 0, M := 0 } = st at *
    rw [hs]
    by_cases c1 : cumul st.F 256 + 1 < 4096
    · rw [if_pos c1]
      exact ⟨_, _, rfl, RowOK_trans _ _ _ _ hsup (exit_lt st.F st.M hMlt hMne c1)⟩
    · rw [if_neg c1]
      by_cases c2 : cumul st.F 256 + 1 - 4096 ≥ st.F st.M / 2
      · rw [if_pos c2]
        have hbound : ∀ k, k < 256 → st.F k ≤ max 1 (B - 1) := by
          intro k hk
          rw [hF k]
          by_cases hz : F k = 0
          · simp [hz]
          · rw [if_pos ⟨hk, hz⟩]
            have h1 := h98 (F k) (by omega)
            have h2 := hB k hk
            unfold bump
            split <;> omega
        have hB1 : 2 ≤ B := by
          by_contra hlt
          have h1 : ∀ k, k < 256 → st.F k ≤ 1 := by
            intro k hk
            have := hbound k hk
            omega
          have := cumul_le st.F 1 256 h1
          omega
        have hmax : max 1 (B - 1) = B - 1 := by omega
        rw [hmax] at hbound
        obtain ⟨F1, M, hn, hrow⟩ := ih (B - 1) st.F hbound (by omega)
          (by obtain ⟨k, hk, hne⟩ := hex; exact ⟨k, hk, (hsup k).mpr hne⟩)
        exact ⟨F1, M, hn, RowOK_trans _ _ _ _ hsup hrow⟩
      · rw [if_neg c2]
        exact ⟨_, _, rfl, RowOK_trans _ _ _ _ hsup (exit_ge st.F st.M hMlt hMne c1 (by omega))⟩

/-- The normaliser of order 1 comes to an end on a row with a non-zero count,
and gives a normalised row. -/
theorem normalise1_spec (fl : FloatOps) (hfl : FloatOK fl) (t : Nat) (F : Nat → Nat)
    (hF : ∀ k, k < 256 → F k ≤ t) (hex : ∃ k, k < 256 ∧ F k ≠ 0) :
    ∃ F1 M, normalise1 fl NORM_FUEL (fl.scale t) F = some F1 ∧ RowOK F F1 M := by
  have hfu : NORM_FUEL = 4099 + 1 := rfl
  rw [hfu, normalise1]
  simp only [TOTFREQ_eq]
  obtain ⟨hs, hFF, hM⟩ := full_pass (fl.scale t) F
  obtain ⟨hMne, hMlt⟩ := hM hex
  have hsup := pass_support (fl.scale t) F
  have hbound : ∀ k, k < 256 →
      (norm1_pass (fl.scale t) 256 0 { F := F, fsum := 0, m := 0, M := 0 }).F k ≤ 4096 := by
    intro k hk
    rw [hFF k]
    by_cases hz : F k = 0
    · simp [hz]
    · rw [if_pos ⟨hk, hz⟩]
      have := hfl.1 t (F k) (hF k hk)
      unfold bump
      split <;> omega
  generalize norm1_pass (fl.scale t) 256 0 { F := F, fsum := 0, m := 0, M := 0 } = st at *
  rw [hs]
  by_cases c1 : cumul st.F 256 + 1 < 4096
  · rw [if_pos c1]
    exact ⟨_, _, rfl, RowOK_trans _ _ _ _ hsup (exit_lt st.F st.M hMlt hMne c1)⟩
  · rw [if_neg c1]
    by_cases c2 : cumul st.F 256 + 1 - 4096 ≥ st.F st.M / 2
    · rw [if_pos c2]
      obtain ⟨F1, M, hn, hrow⟩ := normalise1_harder fl hfl.2 4099 4096 st.F hbound (by omega)
        (by obtain ⟨k, hk, hne⟩ := hex; exact ⟨k, hk, (hsup k).mpr hne⟩)
      exact ⟨F1, M, hn, RowOK_trans _ _ _ _ hsup hrow⟩
    · rw [if_neg c2]
      exact ⟨_, _, rfl, RowOK_trans _ _ _ _ hsup (exit_ge st.F st.M hMlt hMne c1 (by omega))⟩

end RansStatic

namespace RansStatic

theorem tab_gen_skip (F : Nat → Nat) (pay : Nat → List Nat) (m : Nat) : ∀ (n j rle : Nat),
    (∀ i, j ≤ i → i < j + m → F i = 0) →
    tab_gen F pay (m + n) j rle = tab_gen F pay n (j + m) rle := by
  induction m with
  | zero => intro n j rle _; simp
  | succ m ih =>
    intro n j rle h
    have e : m + 1 + n = (m + n) + 1 := by omega
    rw [e, tab_gen, if_pos (h j (by omega) (by omega)),
      ih n (j + 1) rle (fun i h1 h2 => h i (by omega) (by omega))]
    have e2 : j + 1 + m = j + (m + 1) := by omega
    rw [e2]

theorem tab_gen_first (F : Nat → Nat) (pay : Nat → List Nat) (a n : Nat) (han : a + n = 256) :
    ((∀ i, a ≤ i → i < 256 → F i = 0) ∧ tab_gen F pay n a 0 = []) ∨
    ∃ k, a ≤ k ∧ k < 256 ∧ F k ≠ 0 ∧ (∀ i, a ≤ i → i < k → F i = 0) ∧
      tab_gen F pay n a 0 = tab_gen F pay (255 - k + 1) k 0 := by
  by_cases h : ∃ k, a ≤ k ∧ k < 256 ∧ F k ≠ 0
  · right
    have hs := Nat.find_spec h
    have hm := fun i => @Nat.find_min _ _ h i
    refine ⟨Nat.find h, hs.1, hs.2.1, hs.2.2, ?_, ?_⟩
    · intro i h1 h2
      by_contra hne
      exact hm i h2 ⟨h1, by omega, hne⟩
    · have hz : ∀ i, a ≤ i → i < a + (Nat.find h - a) → F i = 0 := by
        intro i h1 h2
        by_contra hne
        exact hm i (by omega) ⟨h1, by omega, hne⟩
      have := tab_gen_skip F pay (Nat.find h - a) (255 - Nat.find h + 1) a 0 hz
      have e1 : Nat.find h - a + (255 - Nat.find h + 1) = n := by omega
      have e2 : a + (Nat.find h - a) = Nat.find h := by omega
      rw [e1, e2] at this
      exact this
  · left
    have hz : ∀ i, a ≤ i → i < 256 → F i = 0 := by
      intro i h1 h2
      by_contra hne
      exact h ⟨i, h1, h2, hne⟩
    refine ⟨hz, ?_⟩
    have := tab_gen_skip F pay n 0 a 0 (fun i h1 h2 => hz i h1 (by omega))
    simp only [Nat.add_zero] at this
    rw [this]
    rfl

theorem tab_gen_present (F : Nat → Nat) (pay : Nat → List Nat) (n j rle : Nat) (h : F j ≠ 0) :
    tab_gen F pay (n + 1) j rle
      = (if rle ≠ 0 then ([], rle - 1)
          else if j ≠ 0 ∧ F (j - 1) ≠ 0 then
            ([j % 256, (rle_scan F 256 (j + 1) - (j + 1)) % 256], rle_scan F 256 (j + 1) - (j + 1))
          else ([j % 256], 0)).1 ++ pay j ++
        tab_gen F pay n (j + 1)
          (if rle ≠ 0 then (([] : List Nat), rle - 1)
          else if j ≠ 0 ∧ F (j - 1) ≠ 0 then
            ([j % 256, (rle_scan F 256 (j + 1) - (j + 1)) % 256], rle_scan F 256 (j + 1) - (j + 1))
          else ([j % 256], 0)).2 := by
  rw [tab_gen, if_neg h]

theorem nrow_spec (fl : FloatOps) (hfl : FloatOK fl) (T : Nat → Nat) (F : Nat → Nat → Nat)
    (hT : ∀ i, i < 256 → T i = cumul (F i) 256) (i : Nat) (hi : i < 256) (h : T i ≠ 0) :
    normalise1 fl NORM_FUEL (fl.scale (T i)) (F i) = some (nrow fl T F i) ∧
    ∃ M, RowOK (F i) (nrow fl T F i) M := by
  have hF : ∀ k, k < 256 → F i k ≤ T i := by
    intro k hk
    rw [hT i hi]
    exact le_cumul (F i) 256 k hk
  have hex : ∃ k, k < 256 ∧ F i k ≠ 0 := by
    by_contra hno
    have : cumul (F i) 256 ≤ 256 * 0 := cumul_le (F i) 0 256 (fun k hk => by
      by_contra h2
      exact hno ⟨k, hk, by omega⟩)
    have := hT i hi
    omega
  obtain ⟨F1, M, h1, h2⟩ := normalise1_spec fl hfl (T i) (F i) hF hex
  unfold nrow
  rw [h1]
  exact ⟨rfl, M, h2⟩

/-- The table loop of the compressor of order 1: the bytes it writes and the
encoder symbols it sets. -/
theorem enc1_table_loop_eq (fl : FloatOps) (hfl : FloatOK fl) (T : Nat → Nat)
    (F : Nat → Nat → Nat) (hT : ∀ i, i < 256 → T i = cumul (F i) 256) (n : Nat) :
    ∀ (i rle : Nat) (syms : Nat → Nat → RansEncSymbol), i + n ≤ 256 →
    ∃ syms1, enc1_table_loop fl T F n i rle syms
        = Res.ok (tab_gen T (row_pay (nrow fl T F)) n i rle, syms1) ∧
      (∀ a, a < i → syms1 a = syms a) ∧
      ∀ a, i ≤ a → a < i + n → T a ≠ 0 → ∀ k, k < 256 → nrow fl T F a k ≠ 0 →
        syms1 a k = { start := cumul (nrow fl T F a) k, freq := nrow fl T F a k } := by
  induction n with
  | zero =>
    intro i rle syms _
    exact ⟨syms, rfl, fun _ _ => rfl, fun a h1 h2 => by omega⟩
  | succ n ih =>
    intro i rle syms hin
    rw [enc1_table_loop, tab_gen]
    by_cases h0 : T i = 0
    · rw [if_pos h0, if_pos h0]
      obtain ⟨syms1, h1, hfr, h2⟩ := ih (i + 1) rle syms (by omega)
      refine ⟨syms1, h1, fun a ha => hfr a (by omega), fun a h3 h4 h5 => ?_⟩
      by_cases ha : a = i
      · subst ha; exact absurd h0 h5
      · exact h2 a (by omega) (by omega) h5
    · rw [if_neg h0, if_neg h0]
      obtain ⟨hn1, -⟩ := nrow_spec fl hfl T F hT i (by omega) h0
      rw [hn1]
      simp only
      obtain ⟨syms1, h1, hfr, h2⟩ := ih (i + 1)
        (if rle ≠ 0 then (([] : List Nat), rle - 1)
          else if i ≠ 0 ∧ T (i - 1) ≠ 0 then
            ([i % 256, (rle_scan T 256 (i + 1) - (i + 1)) % 256], rle_scan T 256 (i + 1) - (i + 1))
          else ([i % 256], 0)).2
        (fun a => if a = i then (enc_table_loop (nrow fl T F i) 256 0 0 0 (syms i)).2 else syms a)
        (by omega)
      rw [h1]
      refine ⟨syms1, ?_, ?_, ?_⟩
      · simp only [Res.bind_ok, enc_table_loop_bytes, row_pay, List.append_assoc]
      · intro a ha
        rw [hfr a (by omega), if_neg (by omega)]
      · intro a h3 h4 h5 k hk hk0
        by_cases ha : a = i
        · subst ha
          rw [hfr a (by omega), if_pos rfl]
          have := enc_table_loop_syms (nrow fl T F a) 256 0 0 (syms a) k
          have e0 : cumul (nrow fl T F a) 0 = 0 := rfl
          rw [e0] at this
          rw [this, if_pos ⟨by omega, by omega, hk0⟩]
        · exact h2 a (by omega) (by omega) h5 k hk hk0

theorem map_touch_ok (S : Dec1) (k : Nat) (h : MapOK S) : MapOK (map_touch S k) := by
  obtain ⟨h0, h1, h2⟩ := h
  unfold map_touch
  by_cases hk : S.map k = -1
  · rw [if_pos hk]
    refine ⟨by show 0 ≤ S.map_i + 1; omega, fun a => ?_, fun a b ha hab => ?_⟩
    · show (if a = k then S.map_i else S.map a) = -1 ∨
        (0 ≤ (if a = k then S.map_i else S.map a) ∧ (if a = k then S.map_i else S.map a) < S.map_i + 1)
      by_cases ha : a = k
      · rw [if_pos ha]; right; omega
      · rw [if_neg ha]
        rcases h1 a with h | h
        · left; exact h
        · right; omega
    · have ha1 : (if a = k then S.map_i else S.map a) ≠ -1 := ha
      have hab1 : (if a = k then S.map_i else S.map a) = (if b = k then S.map_i else S.map b) := hab
      by_cases ha : a = k
      · by_cases hb : b = k
        · rw [ha, hb]
        · rw [if_pos ha, if_neg hb] at hab1
          rcases h1 b with h | h
          · omega
          · omega
      · rw [if_neg ha] at ha1 hab1
        by_cases hb : b = k
        · rw [if_pos hb] at hab1
          rcases h1 a with h | h
          · omega
          · omega
        · rw [if_neg hb] at hab1
          exact h2 a b ha1 hab1
  · rw [if_neg hk]
    exact ⟨h0, h1, h2⟩

theorem map_touch_keep (S : Dec1) (k a : Nat) (h : S.map a ≠ -1) :
    (map_touch S k).map a = S.map a := by
  unfold map_touch
  by_cases hk : S.map k = -1
  · rw [if_pos hk]
    show (if a = k then S.map_i else S.map a) = S.map a
    rw [if_neg (fun (e : a = k) => h (by rw [e]; exact hk))]
  · rw [if_neg hk]

theorem map_touch_D (S : Dec1) (k : Nat) : (map_touch S k).D = S.D := by
  unfold map_touch
  split <;> rfl

theorem map_touch_syms (S : Dec1) (k : Nat) : (map_touch S k).syms = S.syms := by
  unfold map_touch
  split <;> rfl

theorem map_touch_set (S : Dec1) (k : Nat) (h : MapOK S) :
    0 ≤ (map_touch S k).map k := by
  unfold map_touch
  by_cases hk : S.map k = -1
  · rw [if_pos hk]
    show 0 ≤ (if k = k then S.map_i else S.map k)
    rw [if_pos rfl]; exact h.1
  · rw [if_neg hk]
    rcases h.2.1 k with h1 | h1
    · exact absurd h1 hk
    · exact h1.1

theorem map_touch_ext (S : Dec1) (k : Nat) : MapExt S (map_touch S k) :=
  ⟨fun a h => map_touch_keep S k a h, map_touch_ok S k⟩

theorem mapext_refl (S : Dec1) : MapExt S S := ⟨fun _ _ => rfl, fun h => h⟩

theorem mapext_trans (S S1 S2 : Dec1) (h1 : MapExt S S1) (h2 : MapExt S1 S2) : MapExt S S2 := by
  refine ⟨fun a ha => ?_, fun h => h2.2 (h1.2 h)⟩
  have e := h1.1 a ha
  rw [h2.1 a (by rw [e]; exact ha), e]

theorem dec1_fill_ext (m : Nat) (S : Dec1) (x j f : Nat) : MapExt S (dec1_fill m S x j f) :=
  map_touch_ext S j

theorem rowfrom_step (R : Nat → Nat) (m j k : Nat) (S S2 : Dec1) (hj : j < 256) (hjk : j < k)
    (hz : ∀ i, j < i → i < k → R i = 0)
    (h2 : RowFrom R m k (dec1_fill m S (cumul R j) j (R j)) S2) :
    RowFrom R m j S S2 := by
  have hc : cumul R k = cumul R j + R j := by
    have := cumul_skip R (k - (j + 1)) (j + 1) (fun i h1 h2 => hz i (by omega) (by omega))
    have e : j + 1 + (k - (j + 1)) = k := by omega
    rw [e] at this
    rw [this, cumul]
  obtain ⟨a, b, c, d, e⟩ := h2
  have hD : ∀ slot, (dec1_fill m S (cumul R j) j (R j)).D m slot
      = if cumul R j ≤ slot ∧ slot < cumul R j + R j then j % 256 else S.D m slot := by
    intro slot
    show (if m = m then fill_loop ((map_touch S j).D m) (cumul R j) (fun _ => j % 256) (R j)
      else (map_touch S j).D m) slot = _
    rw [if_pos rfl, map_touch_D]
    rfl
  have hS : ∀ q, (dec1_fill m S (cumul R j) j (R j)).syms m q
      = if q = j then { start := cumul R j, freq := R j } else S.syms m q := by
    intro q
    show store2 (map_touch S j).syms m j _ m q = _
    rw [map_touch_syms]
    unfold store2
    by_cases hq : q = j
    · rw [if_pos ⟨rfl, hq⟩, if_pos hq]
    · rw [if_neg (fun h => hq h.2), if_neg hq]
  refine ⟨?_, ?_, ?_, ?_, ?_⟩
  · intro a1 ha
    obtain ⟨a2, a3⟩ := a a1 ha
    refine ⟨?_, ?_⟩
    · rw [a2]
      show (fun a => if a = m then _ else (map_touch S j).D a) a1 = _
      simp only [if_neg ha, map_touch_D]
    · rw [a3]
      show store2 (map_touch S j).syms m j _ a1 = _
      rw [map_touch_syms]
      funext q
      unfold store2
      rw [if_neg (fun h => ha h.1)]
  · intro slot hs
    rw [b slot (by omega), hD, if_neg (by omega)]
  · intro q hq
    rw [c q (by omega), hS, if_neg (by omega)]
  · intro k1 h1 h3 h4
    by_cases hk : k1 = j
    · subst hk
      refine ⟨?_, ?_⟩
      · rw [c k1 hjk, hS, if_pos rfl]
      · intro slot h5 h6
        rw [b slot (by omega), hD, if_pos ⟨h5, h6⟩]
        exact Nat.mod_eq_of_lt hj
    · have hk2 : k ≤ k1 := by
        by_contra hlt
        exact h4 (hz k1 (by omega) (by omega))
      exact d k1 hk2 h3 h4
  · exact mapext_trans _ _ _ (dec1_fill_ext m S _ j _) e

theorem rowfrom_refl (R : Nat → Nat) (m : Nat) (S : Dec1) : RowFrom R m 256 S S :=
  ⟨fun _ _ => ⟨rfl, rfl⟩, fun _ _ => rfl, fun _ _ => rfl, fun k h1 h2 => by omega, mapext_refl S⟩

theorem dec1_step_run (m fuel : Nat) (S : Dec1) (j rle x f : Nat) (tail : List Nat)
    (hf : f < 32768) (hf0 : f ≠ 0) (hlen : 16 ≤ (freq_bytes f ++ tail).length) (hx : f + x ≤ 4096)
    (hr : rle ≠ 0) (hj : j + 1 ≤ 255) :
    dec1_row_loop m (fuel + 1) S j rle x (freq_bytes f ++ tail)
      = dec1_row_loop m fuel (dec1_fill m S x j f) (j + 1) (rle - 1) (x + f) tail := by
  rw [dec1_row_loop, if_neg (by omega), rd_freq_bytes f tail hf]
  simp only [Res.bind_ok, TOTFREQ_eq, if_neg hf0]
  rw [if_neg (by omega), if_neg hr, if_neg (by omega)]
  rfl

theorem dec1_step_pair (m fuel : Nat) (S : Dec1) (j x f r : Nat) (tail : List Nat)
    (hf : f < 32768) (hf0 : f ≠ 0) (hlen : 16 ≤ (freq_bytes f ++ (j + 1) :: r :: tail).length)
    (hx : f + x ≤ 4096) :
    dec1_row_loop m (fuel + 1) S j 0 x (freq_bytes f ++ (j + 1) :: r :: tail)
      = dec1_row_loop m fuel (dec1_fill m S x j f) (j + 1) r (x + f) tail := by
  rw [dec1_row_loop, if_neg (by omega), rd_freq_bytes f _ hf]
  simp only [Res.bind_ok, TOTFREQ_eq, peek, rd, if_neg hf0]
  rw [if_neg (by omega), if_pos trivial, if_pos trivial, if_pos (by omega)]
  rfl

theorem dec1_step_single (m fuel : Nat) (S : Dec1) (j x f k : Nat) (tail : List Nat)
    (hf : f < 32768) (hf0 : f ≠ 0) (hlen : 16 ≤ (freq_bytes f ++ k :: tail).length)
    (hx : f + x ≤ 4096) (hk : j + 1 ≠ k) (hk0 : k ≠ 0) :
    dec1_row_loop m (fuel + 1) S j 0 x (freq_bytes f ++ k :: tail)
      = dec1_row_loop m fuel (dec1_fill m S x j f) k 0 (x + f) tail := by
  rw [dec1_row_loop, if_neg (by omega), rd_freq_bytes f _ hf]
  simp only [Res.bind_ok, TOTFREQ_eq, peek, rd, if_neg hf0]
  rw [if_neg (by omega), if_pos trivial, if_neg hk, if_pos hk0]
  rfl

theorem dec1_step_end (m fuel : Nat) (S : Dec1) (j x f : Nat) (tail : List Nat)
    (hf : f < 32768) (hf0 : f ≠ 0) (hlen : 16 ≤ (freq_bytes f ++ 0 :: tail).length)
    (hx : f + x ≤ 4096) :
    dec1_row_loop m (fuel + 1) S j 0 x (freq_bytes f ++ 0 :: tail)
      = Res.ok (dec1_fill m S x j f, x + f, tail) := by
  rw [dec1_row_loop, if_neg (by omega), rd_freq_bytes f _ hf]
  simp only [Res.bind_ok, TOTFREQ_eq, peek, rd, if_neg hf0]
  rw [if_neg (by omega), if_pos trivial, if_neg (by omega), if_neg (by simp)]
  rfl

/-- The inner table loop of the decoder of order 1 reads back, from the
frequency of the symbol `j` on, what the table loop of the encoder wrote for a
row. -/
theorem dec1_row_from (R : Nat → Nat) (m : Nat) (rest : List Nat) (hsum : cumul R 256 ≤ 4096)
    (hrest : 16 ≤ rest.length) :
    ∀ n, ∀ (j rle fuel : Nat) (S : Dec1), j + n = 255 → R j ≠ 0 → RunOK R j rle →
      (freq_bytes (R j) ++ tab_bytes R n (j + 1) rle).length ≤ fuel →
      ∃ S1, dec1_row_loop m fuel S j rle (cumul R j)
          (freq_bytes (R j) ++ (tab_bytes R n (j + 1) rle ++ 0 :: rest))
        = Res.ok (S1, cumul R 256, rest) ∧ RowFrom R m j S S1 := by
  intro n
  induction n using Nat.strong_induction_on with
  | _ n ih =>
    intro j rle fuel S hjn hFj hrun hfuel
    have hfl := freq_bytes_len (R j)
    have hj : j < 256 := by omega
    have hFle : R j ≤ cumul R 256 := le_cumul R 256 j hj
    have hc1 : cumul R j + R j ≤ cumul R 256 := by
      have := cumul_mono R (j + 1) 256 (by omega)
      rw [cumul] at this; exact this
    obtain ⟨fuel, rfl⟩ : ∃ f, fuel = f + 1 := ⟨fuel - 1, by
      simp only [List.length_append] at hfuel; omega⟩
    by_cases hr : rle = 0
    · subst hr
      rcases tab_first R (j + 1) n (by omega) with ⟨hz, hnil⟩ | ⟨k, hk1, hk2, hk3, hz, hk⟩
      · -- no further symbol
        rw [hnil, List.nil_append,
          dec1_step_end m fuel S j _ _ rest (by omega) hFj (by simp; omega) (by omega)]
        have e : cumul R j + R j = cumul R 256 := by
          have := cumul_skip R (255 - j) (j + 1) (fun i h1 h2 => hz i h1 (by omega))
          have e2 : j + 1 + (255 - j) = 256 := by omega
          rw [e2, cumul] at this
          exact this.symm
        rw [e]
        exact ⟨_, rfl, rowfrom_step R m j 256 S _ hj (by omega)
          (fun i h1 h2 => hz i (by omega) h2) (rowfrom_refl R m _)⟩
      · have hFk : R k ≤ cumul R 256 := le_cumul R 256 k hk2
        have ex : cumul R j + R j = cumul R k := by
          have := cumul_skip R (k - (j + 1)) (j + 1) (fun i h1 h2 => hz i h1 (by omega))
          have e2 : j + 1 + (k - (j + 1)) = k := by omega
          rw [e2, cumul] at this
          exact this.symm
        have hkm : k % 256 = k := Nat.mod_eq_of_lt hk2
        rw [hk, tab_bytes_present R _ k 0 hk3] at hfuel ⊢
        by_cases hadj : k = j + 1
        · -- the next symbol is adjacent: a run header
          subst hadj
          have hc : j + 1 ≠ 0 ∧ R (j + 1 - 1) ≠ 0 := ⟨by omega, by simpa using hFj⟩
          obtain ⟨hrun2, hr256⟩ := rle_scan_run R (j + 1) hk2
          have hrm : (rle_scan R 256 (j + 1 + 1) - (j + 1 + 1)) % 256
              = rle_scan R 256 (j + 1 + 1) - (j + 1 + 1) := Nat.mod_eq_of_lt hr256
          simp only [ne_eq, not_true_eq_false, if_false, hc, not_false_eq_true, and_self,
            if_true, hkm, hrm, List.cons_append, List.nil_append, List.append_assoc] at hfuel ⊢
          rw [dec1_step_pair m fuel S j _ _ _ _ (by omega) hFj (by simp; omega) (by omega), ex]
          simp only [List.length_append, List.length_cons] at hfuel
          obtain ⟨S1, h1, h2⟩ := ih (255 - (j + 1)) (by omega) (j + 1) _ fuel
            (dec1_fill m S (cumul R j) j (R j)) (by omega) hk3 hrun2
            (by simp only [List.length_append]; omega)
          exact ⟨S1, h1, rowfrom_step R m j (j + 1) S S1 hj (by omega) (fun i h1 h2 => by omega) h2⟩
        · -- the next symbol is further on: a plain header
          have hc : ¬ (k ≠ 0 ∧ R (k - 1) ≠ 0) := by
            intro h
            exact h.2 (hz (k - 1) (by omega) (by omega))
          simp only [ne_eq, not_true_eq_false, if_false, hc, hkm, List.cons_append,
            List.nil_append, List.append_assoc] at hfuel ⊢
          rw [dec1_step_single m fuel S j _ _ k _ (by omega) hFj (by simp; omega) (by omega)
            (by omega) (by omega), ex]
          simp only [List.length_append, List.length_cons] at hfuel
          obtain ⟨S1, h1, h2⟩ := ih (255 - k) (by omega) k 0 fuel
            (dec1_fill m S (cumul R j) j (R j)) (by omega) hk3 (fun i h1 h2 => by omega)
            (by simp only [List.length_append]; omega)
          exact ⟨S1, h1, rowfrom_step R m j k S S1 hj (by omega)
            (fun i h1 h2 => hz i (by omega) h2) h2⟩
    · -- inside a run
      obtain ⟨hj1, hF1⟩ := hrun (j + 1) (by omega) (by omega)
      obtain ⟨n, rfl⟩ : ∃ m, n = m + 1 := ⟨n - 1, by omega⟩
      rw [tab_bytes_present R n (j + 1) rle hF1] at hfuel ⊢
      simp only [ne_eq, hr, not_false_eq_true, if_true, List.nil_append,
        List.append_assoc] at hfuel ⊢
      rw [dec1_step_run m fuel S j rle _ _ _ (by omega) hFj (by simp; omega) (by omega) hr (by omega)]
      simp only [List.length_append] at hfuel
      obtain ⟨S1, h1, h2⟩ := ih n (by omega) (j + 1) (rle - 1) fuel
        (dec1_fill m S (cumul R j) j (R j)) (by omega) hF1
        (fun i h1 h2 => hrun i (by omega) (by omega))
        (by simp only [List.length_append]; omega)
      exact ⟨S1, h1, rowfrom_step R m j (j + 1) S S1 hj (by omega) (fun i h1 h2 => by omega) h2⟩

/-- The row of a context, read back by the decoder of order 1 from its first
symbol on. -/
theorem dec1_row_enc (R : Nat → Nat) (m : Nat) (S : Dec1) (rest : List Nat) (fuel : Nat)
    (hex : ∃ k, k < 256 ∧ R k ≠ 0) (hsum : cumul R 256 ≤ 4096) (hrest : 16 ≤ rest.length)
    (hfuel : (tab_bytes R 256 0 0).length ≤ fuel) :
    ∃ j tl S1, tab_bytes R 256 0 0 ++ 0 :: rest = j :: tl ∧
      dec1_row_loop m fuel S j 0 0 tl = Res.ok (S1, cumul R 256, rest) ∧
      (∀ a, a ≠ m → S1.D a = S.D a ∧ S1.syms a = S.syms a) ∧
      (∀ k, k < 256 → R k ≠ 0 →
        S1.syms m k = { start := cumul R k, freq := R k } ∧
        ∀ slot, cumul R k ≤ slot → slot < cumul R k + R k → S1.D m slot = k) ∧
      MapExt S S1 := by
  rcases tab_first R 0 256 (by omega) with ⟨hz, _⟩ | ⟨k, _, hk2, hk3, hz, hk⟩
  · obtain ⟨k, h1, h2⟩ := hex
    exact absurd (hz k (by omega) h1) h2
  · have hc : ¬ (k ≠ 0 ∧ R (k - 1) ≠ 0) := by
      intro h
      exact h.2 (hz (k - 1) (by omega) (by omega))
    have hkm : k % 256 = k := Nat.mod_eq_of_lt hk2
    have e0 : cumul R k = 0 := by
      have := cumul_skip R k 0 (fun i h1 h2 => hz i h1 (by omega))
      simp only [Nat.zero_add] at this
      rw [this]; rfl
    rw [hk, tab_bytes_present R _ k 0 hk3] at hfuel ⊢
    simp only [ne_eq, not_true_eq_false, if_false, hc, hkm, List.cons_append,
      List.nil_append, List.append_assoc, List.length_append, List.length_cons,
      List.length_nil] at hfuel ⊢
    have h := dec1_row_from R m rest hsum hrest (255 - k) k 0 fuel S (by omega) hk3
      (fun i h1 h2 => by omega) (by simp only [List.length_append]; omega)
    rw [e0] at h
    obtain ⟨S1, h1, h2⟩ := h
    refine ⟨k, _, S1, rfl, h1, h2.1, fun k1 h4 h5 => ?_, h2.2.2.2.2⟩
    have hk1 : k ≤ k1 := by
      by_contra hlt
      exact h5 (hz k1 (by omega) (by omega))
    exact h2.2.2.2.1 k1 hk1 h4 h5

theorem cum_top (F : Nat → Nat) (k : Nat) (hk : k < 256) : cumul F k + F k ≤ cumul F 256 := by
  have := cumul_mono F (k + 1) 256 (by omega)
  rw [cumul] at this; exact this

theorem dec1_ctx_step (R : Nat → Nat → Nat) (S : Dec1) (i rle fuel : Nat) (tail : List Nat)
    (hsum : cumul (R i) 256 = 4095) (hex : ∃ k, k < 256 ∧ R i k ≠ 0)
    (htail : 16 ≤ tail.length) (hS : MapOK S) :
    ∃ S2, CtxStep R i S S2 ∧
      dec1_table_loop (fuel + 1) S i rle (row_pay R i ++ tail) =
        (if rle = 0 then
          (peek tail).bind fun c =>
          if i + 1 = c then
            (rd tail).bind fun ic => (rd ic.2).bind fun rc =>
              if ic.1 ≠ 0 then dec1_table_loop fuel S2 ic.1 rc.1 rc.2
              else Res.ok (S2, rc.2)
          else
            (rd tail).bind fun ic =>
              if ic.1 ≠ 0 then dec1_table_loop fuel S2 ic.1 rle ic.2
              else Res.ok (S2, ic.2)
        else
          if i + 1 > 255 then Res.fail
          else dec1_table_loop fuel S2 (i + 1) (rle - 1) tail) := by
  have hS1 := map_touch_ok S i hS
  have h0 := map_touch_set S i hS
  obtain ⟨j, tl, Sr, hb, hrun, hoth, hset, hext⟩ :=
    dec1_row_enc (R i) ((map_touch S i).map i).toNat (map_touch S i) tail
      (row_pay R i ++ tail).length hex (by omega) htail
      (by simp only [row_pay, List.length_append]; omega)
  have hb2 : row_pay R i ++ tail = j :: tl := by
    rw [← hb, row_pay, List.append_assoc]; rfl
  have hmr : ∀ a, (map_touch S i).map a ≠ -1 → Sr.map a = (map_touch S i).map a := hext.1
  have hSr := hext.2 hS1
  refine ⟨dec1_pad i 4095 Sr, ⟨hSr, fun a ha => ?_, ?_, ?_, ?_⟩, ?_⟩
  · show Sr.map a = S.map a
    have e := map_touch_keep S i a ha
    rw [hmr a (by rw [e]; exact ha), e]
  · show Sr.map i = _
    exact hmr i (by omega)
  · have e : Sr.map i = (map_touch S i).map i := hmr i (by omega)
    refine ⟨by show 0 ≤ Sr.map i; omega, fun k hk hk0 => ?_⟩
    show Sr.syms (Sr.map i).toNat k = _ ∧
      ∀ slot, _ → _ → (if (Sr.map i).toNat = i then store (Sr.D i) 4095 (Sr.D i (4095 - 1))
        else Sr.D (Sr.map i).toNat) slot = k
    rw [e]
    obtain ⟨h1, h2⟩ := hset k hk hk0
    refine ⟨h1, fun slot hs1 hs2 => ?_⟩
    have := cum_top (R i) k hk
    by_cases hm : ((map_touch S i).map i).toNat = i
    · rw [if_pos hm]
      unfold store
      rw [if_neg (by omega), ← h2 slot hs1 hs2, hm]
    · rw [if_neg hm]
      exact h2 slot hs1 hs2
  · intro c hc hsc ⟨hc0, hck⟩
    have e1 : (map_touch S i).map c = S.map c := map_touch_keep S i c (by omega)
    have e : Sr.map c = S.map c := by
      rw [hmr c (by omega), e1]
    have hne : (S.map c).toNat ≠ ((map_touch S i).map i).toNat := by
      intro h
      have : (map_touch S i).map c = (map_touch S i).map i := by omega
      exact hc (hS1.2.2 c i (by omega) this)
    obtain ⟨hD, hsy⟩ := hoth _ hne
    rw [map_touch_D] at hD
    rw [map_touch_syms] at hsy
    refine ⟨by show 0 ≤ Sr.map c; omega, fun k hk hk0 => ?_⟩
    show Sr.syms (Sr.map c).toNat k = _ ∧
      ∀ slot, _ → _ → (if (Sr.map c).toNat = i then store (Sr.D i) 4095 (Sr.D i (4095 - 1))
        else Sr.D (Sr.map c).toNat) slot = k
    rw [e]
    obtain ⟨h1, h2⟩ := hck k hk hk0
    refine ⟨by rw [hsy]; exact h1, fun slot hs1 hs2 => ?_⟩
    have := cum_top (R c) k hk
    by_cases hm : (S.map c).toNat = i
    · rw [if_pos hm]
      unfold store
      rw [if_neg (by omega), ← h2 slot hs1 hs2, ← hm, hD]
    · rw [if_neg hm, hD]
      exact h2 slot hs1 hs2
  · rw [dec1_table_loop]
    rw [hb2] at hrun ⊢
    rw [hsum] at hrun
    have hrd : rd (j :: tl) = Res.ok (j, tl) := rfl
    rw [hrd]
    simp only [Res.bind_ok, hrun, TOTFREQ_eq]
    rw [if_neg (by omega)]
    simp only [if_pos (show 4095 < 4096 by omega)]
    rfl

theorem ctx_last (T : Nat → Nat) (R : Nat → Nat → Nat)
    (hrows : ∀ c, c < 256 → T c ≠ 0 → cumul (R c) 256 = 4095 ∧ ∃ k, k < 256 ∧ R c k ≠ 0)
    (i : Nat) (hi : i < 256) (S S2 : Dec1) (h : CtxStep R i S S2)
    (hz : ∀ c, i < c → c < 256 → T c = 0) : CtxFrom T R i S S2 := by
  obtain ⟨h1, h2, h3, h4, h5⟩ := h
  refine ⟨h1, h2, h3, fun c hc1 hc2 hc3 => ?_, fun c hc1 hc2 hc3 => ?_⟩
  · by_cases hc : c = i
    · rw [hc]; exact h4
    · exact absurd (hz c (by omega) hc2) hc3
  · exact h5 c (by omega) (by have := (hrows c (by omega) hc2).1; omega) hc3

theorem ctx_chain (T : Nat → Nat) (R : Nat → Nat → Nat)
    (hrows : ∀ c, c < 256 → T c ≠ 0 → cumul (R c) 256 = 4095 ∧ ∃ k, k < 256 ∧ R c k ≠ 0)
    (i k : Nat) (hik : i < k) (hk : k < 256) (hTi : T i ≠ 0) (S S2 S1 : Dec1) (hS : MapOK S)
    (h : CtxStep R i S S2) (hz : ∀ c, i < c → c < k → T c = 0) (h2 : CtxFrom T R k S2 S1) :
    CtxFrom T R i S S1 := by
  obtain ⟨a1, a2, a3, a4, a5⟩ := h
  obtain ⟨b1, b2, b3, b4, b5⟩ := h2
  have h0 := map_touch_set S i hS
  refine ⟨b1, fun a ha => ?_, ?_, fun c hc1 hc2 hc3 => ?_, fun c hc1 hc2 hc3 => ?_⟩
  · have e := a2 a ha
    rw [b2 a (by rw [e]; exact ha), e]
  · rw [b2 i (by rw [a3]; omega), a3]
  · by_cases hc : c = i
    · rw [hc]
      exact b5 i hik hTi a4
    · have : k ≤ c := by
        by_contra hlt
        exact hc3 (hz c (by omega) (by omega))
      exact b4 c this hc2 hc3
  · exact b5 c (by omega) hc2
      (a5 c (by omega) (by have := (hrows c (by omega) hc2).1; omega) hc3)

theorem row_pay_len (R : Nat → Nat → Nat) (i : Nat) : 1 ≤ (row_pay R i).length := by
  simp [row_pay]

/-- The outer table loop of the decoder of order 1 reads back, from the row of
the context `i` on, what the table loop of the encoder wrote. -/
theorem dec1_table_from (T : Nat → Nat) (R : Nat → Nat → Nat)
    (hrows : ∀ c, c < 256 → T c ≠ 0 → cumul (R c) 256 = 4095 ∧ ∃ k, k < 256 ∧ R c k ≠ 0)
    (rest : List Nat) (hrest : 16 ≤ rest.length) :
    ∀ n, ∀ (i rle fuel : Nat) (S : Dec1), i + n = 255 → T i ≠ 0 → RunOK T i rle → MapOK S →
      (row_pay R i ++ tab_gen T (row_pay R) n (i + 1) rle).length ≤ fuel →
      ∃ S1, dec1_table_loop fuel S i rle
          (row_pay R i ++ (tab_gen T (row_pay R) n (i + 1) rle ++ 0 :: rest))
        = Res.ok (S1, rest) ∧ CtxFrom T R i S S1 := by
  intro n
  induction n using Nat.strong_induction_on with
  | _ n ih =>
    intro i rle fuel S hin hTi hrun hS hfuel
    have hi : i < 256 := by omega
    have hpl := row_pay_len R i
    obtain ⟨hsum, hex⟩ := hrows i hi hTi
    obtain ⟨fuel, rfl⟩ : ∃ f, fuel = f + 1 := ⟨fuel - 1, by
      simp only [List.length_append] at hfuel; omega⟩
    obtain ⟨S2, hstep, heq⟩ := dec1_ctx_step R S i rle fuel
      (tab_gen T (row_pay R) n (i + 1) rle ++ 0 :: rest) hsum hex
      (by simp only [List.length_append, List.length_cons]; omega) hS
    rw [heq]
    have hS2 : MapOK S2 := hstep.1
    by_cases hr : rle = 0
    · subst hr
      rw [if_pos rfl]
      rcases tab_gen_first T (row_pay R) (i + 1) n (by omega) with
        ⟨hz, hnil⟩ | ⟨k, hk1, hk2, hk3, hz, hk⟩
      · rw [hnil]
        simp only [List.nil_append, peek, rd, Res.bind_ok]
        rw [if_neg (by omega), if_neg (by simp)]
        exact ⟨S2, rfl, ctx_last T R hrows i hi S S2 hstep (fun c h1 h2 => hz c (by omega) h2)⟩
      · have hkm : k % 256 = k := Nat.mod_eq_of_lt hk2
        rw [hk, tab_gen_present T _ _ k 0 hk3] at hfuel ⊢
        by_cases hadj : k = i + 1
        · subst hadj
          have hc : i + 1 ≠ 0 ∧ T (i + 1 - 1) ≠ 0 := ⟨by omega, by simpa using hTi⟩
          obtain ⟨hrun2, hr256⟩ := rle_scan_run T (i + 1) hk2
          have hrm : (rle_scan T 256 (i + 1 + 1) - (i + 1 + 1)) % 256
              = rle_scan T 256 (i + 1 + 1) - (i + 1 + 1) := Nat.mod_eq_of_lt hr256
          simp only [ne_eq, not_true_eq_false, if_false, hc, not_false_eq_true, and_self,
            if_true, hkm, hrm, List.cons_append, List.nil_append, List.append_assoc, peek, rd,
            Res.bind_ok] at hfuel ⊢
          simp only [List.length_append, List.length_cons] at hfuel
          obtain ⟨S1, h1, h2⟩ := ih (255 - (i + 1)) (by omega) (i + 1) _ fuel S2 (by omega) hk3
            hrun2 hS2 (by simp only [List.length_append]; omega)
          exact ⟨S1, h1, ctx_chain T R hrows i (i + 1) (by omega) hk2 hTi S S2 S1 hS hstep
            (fun c h1 h2 => by omega) h2⟩
        · have hc : ¬ (k ≠ 0 ∧ T (k - 1) ≠ 0) := by
            intro h
            exact h.2 (hz (k - 1) (by omega) (by omega))
          simp only [ne_eq, not_true_eq_false, if_false, hc, hkm, List.cons_append,
            List.nil_append, List.append_assoc, peek, rd, Res.bind_ok] at hfuel ⊢
          simp only [List.length_append, List.length_cons] at hfuel
          rw [if_neg (by omega), if_pos (by omega)]
          obtain ⟨S1, h1, h2⟩ := ih (255 - k) (by omega) k 0 fuel S2 (by omega) hk3
            (fun i h1 h2 => by omega) hS2 (by simp only [List.length_append]; omega)
          exact ⟨S1, h1, ctx_chain T R hrows i k (by omega) hk2 hTi S S2 S1 hS hstep
            (fun c h1 h2 => hz c (by omega) h2) h2⟩
    · rw [if_neg hr]
      obtain ⟨hj1, hF1⟩ := hrun (i + 1) (by omega) (by omega)
      obtain ⟨n, rfl⟩ : ∃ m, n = m + 1 := ⟨n - 1, by omega⟩
      rw [tab_gen_present T _ n (i + 1) rle hF1] at hfuel ⊢
      simp only [ne_eq, hr, not_false_eq_true, if_true, List.nil_append,
        List.append_assoc] at hfuel ⊢
      simp only [List.length_append] at hfuel
      rw [if_neg (by omega)]
      obtain ⟨S1, h1, h2⟩ := ih n (by omega) (i + 1) (rle - 1) fuel S2 (by omega) hF1
        (fun i h1 h2 => hrun i (by omega) (by omega)) hS2
        (by simp only [List.length_append]; omega)
      exact ⟨S1, h1, ctx_chain T R hrows i (i + 1) (by omega) hj1 hTi S S2 S1 hS hstep
        (fun c h1 h2 => by omega) h2⟩

theorem tab_bytes_gen (F : Nat → Nat) (n : Nat) : ∀ (j rle : Nat),
    tab_bytes F n j rle = tab_gen F (fun k => freq_bytes (F k)) n j rle := by
  induction n with
  | zero => intro j rle; rfl
  | succ n ih =>
    intro j rle
    rw [tab_bytes, tab_gen]
    simp only [ih]

theorem rle_scan_zero (F : Nat → Nat) (k : Nat) (h : rle_scan F 256 k - k = 0) (hk : k < 256) :
    F k = 0 := by
  by_contra hne
  have e : rle_scan F 256 k = rle_scan F 255 (k + 1) := by
    show (if k < 256 ∧ F k ≠ 0 then rle_scan F 255 (k + 1) else k) = _
    rw [if_pos ⟨hk, hne⟩]
  have := (rle_scan_spec F 255 (k + 1)).1
  omega

/-- The length of what a table loop writes, when no entry takes more than `P`
bytes after its header: a header byte is paid by each entry, and the second
byte of a run header by the entry after it. -/
theorem tab_gen_len (F : Nat → Nat) (pay : Nat → List Nat) (P : Nat)
    (hP : ∀ j, (pay j).length ≤ P) (n : Nat) :
    ∀ (j rle : Nat), j + n = 256 → (∀ i, j ≤ i → i < j + rle → i < 256 ∧ F i ≠ 0) →
      (tab_gen F pay n j rle).length + rle ≤ (P + 1) * n + 1 := by
  induction n using Nat.strong_induction_on with
  | _ n ih =>
    intro j rle hjn hrun
    cases n with
    | zero =>
      have : rle = 0 := by
        by_contra h
        have := (hrun j (by omega) (by omega)).1
        omega
      subst this
      simp [tab_gen]
    | succ n =>
      rw [tab_gen]
      have hmul : (P + 1) * (n + 1) = (P + 1) * n + P + 1 := by ring
      by_cases h0 : F j = 0
      · rw [if_pos h0]
        have hr : rle = 0 := by
          by_contra h
          exact (hrun j (by omega) (by omega)).2 h0
        subst hr
        have := ih n (by omega) (j + 1) 0 (by omega) (fun i h1 h2 => by omega)
        omega
      · rw [if_neg h0]
        have hp := hP j
        by_cases hr : rle = 0
        · subst hr
          by_cases hc : j ≠ 0 ∧ F (j - 1) ≠ 0
          · simp only [ne_eq, not_true_eq_false, if_false, hc, not_false_eq_true, and_self,
              if_true, List.length_append, List.length_cons, List.length_nil]
            obtain ⟨hrun2, _⟩ := rle_scan_run F j (by omega)
            by_cases hr0 : rle_scan F 256 (j + 1) - (j + 1) = 0
            · rw [hr0]
              cases n with
              | zero => simp [tab_gen]; omega
              | succ n =>
                have hz := rle_scan_zero F (j + 1) hr0 (by omega)
                rw [tab_gen, if_pos hz]
                have := ih n (by omega) (j + 1 + 1) 0 (by omega) (fun i h1 h2 => by omega)
                have hmul2 : (P + 1) * (n + 1) = (P + 1) * n + P + 1 := by ring
                omega
            · have := ih n (by omega) (j + 1) (rle_scan F 256 (j + 1) - (j + 1)) (by omega)
                (fun i h1 h2 => hrun2 i (by omega) (by omega))
              omega
          · simp only [ne_eq, not_true_eq_false, if_false, hc, List.length_append,
              List.length_cons, List.length_nil]
            have := ih n (by omega) (j + 1) 0 (by omega) (fun i h1 h2 => by omega)
            omega
        · simp only [ne_eq, hr, not_false_eq_true, if_true, List.length_append,
            List.length_nil]
          have := ih n (by omega) (j + 1) (rle - 1) (by omega)
            (fun i h1 h2 => hrun i (by omega) (by omega))
          omega

theorem row_pay_le (R : Nat → Nat → Nat) (i : Nat) : (row_pay R i).length ≤ 770 := by
  unfold row_pay
  rw [tab_bytes_gen]
  have := tab_gen_len (R i) (fun k => freq_bytes (R i k)) 2 (fun j => (freq_bytes_len _).2)
    256 0 0 (by omega) (fun i h1 h2 => by omega)
  simp only [List.length_append, List.length_cons, List.length_nil]
  omega

theorem tab1_len (T : Nat → Nat) (R : Nat → Nat → Nat) :
    (tab_gen T (row_pay R) 256 0 0).length ≤ 197377 := by
  have := tab_gen_len T (row_pay R) 770 (row_pay_le R) 256 0 0 (by omega)
    (fun i h1 h2 => by omega)
  omega

/-- The table of order 1, read back by the decoder: every context that occurs
gets its row, and the context 0 gets the dense id 0. -/
theorem dec1_table_enc (T : Nat → Nat) (R : Nat → Nat → Nat)
    (hrows : ∀ c, c < 256 → T c ≠ 0 → cumul (R c) 256 = 4095 ∧ ∃ k, k < 256 ∧ R c k ≠ 0)
    (hT0 : T 0 ≠ 0) (D : Nat → Nat → Nat) (syms : Nat → Nat → RansDecSymbol32)
    (rest : List Nat) (hrest : 16 ≤ rest.length) (fuel : Nat)
    (hfuel : (tab_gen T (row_pay R) 256 0 0).length ≤ fuel) :
    ∃ cp S1, tab_gen T (row_pay R) 256 0 0 ++ 0 :: rest = 0 :: cp ∧
      dec1_table_loop fuel { D := D, syms := syms, map := fun _ => -1, map_i := 0 } 0 0 cp
        = Res.ok (S1, rest) ∧
      S1.map 0 = 0 ∧ ∀ c, c < 256 → T c ≠ 0 → CtxOK R S1 c := by
  rw [tab_gen_present T _ 255 0 0 hT0] at hfuel ⊢
  simp only [ne_eq, not_true_eq_false, if_false, false_and, List.cons_append,
    List.nil_append, List.append_assoc, List.length_append, List.length_cons,
    List.length_nil, Nat.zero_mod] at hfuel ⊢
  have hS0 : MapOK { D := D, syms := syms, map := fun _ => -1, map_i := 0 } :=
    ⟨Int.le_refl 0, fun _ => Or.inl rfl, fun a b h _ => absurd rfl h⟩
  obtain ⟨S1, h1, h2, h3, h4, h5, h6⟩ := dec1_table_from T R hrows rest hrest 255 0 0 fuel
    { D := D, syms := syms, map := fun _ => -1, map_i := 0 } (by omega) hT0
    (fun i h1 h2 => by omega) hS0 (by simp only [List.length_append]; omega)
  refine ⟨_, S1, rfl, h1, ?_, fun c hc hTc => h5 c (by omega) hc hTc⟩
  rw [h4]
  rfl

theorem dec1_get_of (syms : Nat → Nat → RansEncSymbol) (S : Dec1) (c b y : Nat)
    (h : SymOK1 syms S c b) (hs : InSlot (syms c b) y) :
    dec1_get S (S.map c).toNat y = b := by
  obtain ⟨_, hb, _, _, ht⟩ := h
  unfold dec1_get
  rw [and_mask, ht (y % 4096) hs.1 hs.2, Nat.mod_eq_of_lt hb]

theorem dec1_adv_of (syms : Nat → Nat → RansEncSymbol) (S : Dec1) (c b y : Nat)
    (h : SymOK1 syms S c b) (hs : InSlot (syms c b) y) (hy : y < 2 ^ 31) :
    dec1_adv (S.syms (S.map c).toNat b) y = dec_adv (syms c b) y := by
  obtain ⟨he, _, _, hsy, _⟩ := h
  have hlt := dec_adv_lt (syms c b) y he hy
  unfold dec1_adv
  rw [hsy, and_mask, shr_12]
  unfold dec_adv at hlt ⊢
  have h1 := hs.1
  have h2 := he.2
  have h3 : (syms c b).start % 2 ^ 32 = (syms c b).start := Nat.mod_eq_of_lt (by omega)
  show ((syms c b).freq * (y / 4096) + y % 4096 + (2 ^ 32 - (syms c b).start % 2 ^ 32)) % 2 ^ 32 = _
  rw [h3]
  have e : (syms c b).freq * (y / 4096) + y % 4096 + (2 ^ 32 - (syms c b).start)
      = ((syms c b).freq * (y / 4096) + (y % 4096 - (syms c b).start)) + 2 ^ 32 := by omega
  rw [e, Nat.add_mod_right, Nat.mod_eq_of_lt hlt]

theorem dec1_loop_succ (S : Dec1) (q n t : Nat) (st : Rans4) (l cc : Last4) (out : Nat → Nat) :
    dec1_loop S q (n + 1) t st l cc out
      = (dec_renorm4 (dec1_adv (S.syms l.l0 cc.l0) st.r0) (dec1_adv (S.syms l.l1 cc.l1) st.r1)
          (dec1_adv (S.syms l.l2 cc.l2) st.r2) (dec1_adv (S.syms l.l3 cc.l3) st.r3) st.ptr).bind
        fun st1 => dec1_loop S q n (t + 1) st1 (maps4 S cc) (gets4 S (maps4 S cc) st1)
          (store (store (store (store out (0 * q + t) cc.l0) (1 * q + t) cc.l1)
            (2 * q + t) cc.l2) (3 * q + t) cc.l3) := rfl

theorem dec1_loop_snoc (S : Dec1) (q n : Nat) : ∀ (t : Nat) (st : Rans4) (l : Last4)
    (out : Nat → Nat),
    dec1_loop S q (n + 1) t st l (gets4 S l st) out
      = (dec1_loop S q n t st l (gets4 S l st) out).bind fun r =>
          dec1_loop S q 1 (t + n) r.1 r.2.1 (gets4 S r.2.1 r.1) r.2.2 := by
  induction n with
  | zero => intro t st l out; simp [dec1_loop]
  | succ n ih =>
    intro t st l out
    rw [dec1_loop_succ S q (n + 1), dec1_loop_succ S q n, Res.bind_assoc]
    have e : t + 1 + n = t + (n + 1) := by omega
    simp only [ih, e]

/-- One round of the decode loop of order 1 on states that a round of four puts
has left. -/
theorem dec1_round (syms : Nat → Nat → RansEncSymbol) (S : Dec1) (q t : Nat)
    (c lE : Last4) (st stR : Rans4) (out : Nat → Nat) (hR : StOK stR)
    (s0 : SymOK1 syms S c.l0 lE.l0) (s1 : SymOK1 syms S c.l1 lE.l1)
    (s2 : SymOK1 syms S c.l2 lE.l2) (s3 : SymOK1 syms S c.l3 lE.l3)
    (i0 : InSlot (syms c.l0 lE.l0) stR.r0) (i1 : InSlot (syms c.l1 lE.l1) stR.r1)
    (i2 : InSlot (syms c.l2 lE.l2) stR.r2) (i3 : InSlot (syms c.l3 lE.l3) stR.r3)
    (hd : dec_renorm4 (dec_adv (syms c.l0 lE.l0) stR.r0) (dec_adv (syms c.l1 lE.l1) stR.r1)
      (dec_adv (syms c.l2 lE.l2) stR.r2) (dec_adv (syms c.l3 lE.l3) stR.r3) stR.ptr = Res.ok st) :
    dec1_loop S q 1 t stR (maps4 S c) (gets4 S (maps4 S c) stR) out
      = Res.ok (st, maps4 S lE,
          store (store (store (store out (0 * q + t) lE.l0) (1 * q + t) lE.l1)
            (2 * q + t) lE.l2) (3 * q + t) lE.l3) := by
  have g0 := dec1_get_of syms S _ _ _ s0 i0
  have g1 := dec1_get_of syms S _ _ _ s1 i1
  have g2 := dec1_get_of syms S _ _ _ s2 i2
  have g3 := dec1_get_of syms S _ _ _ s3 i3
  have a0 := dec1_adv_of syms S _ _ _ s0 i0 hR.1.2
  have a1 := dec1_adv_of syms S _ _ _ s1 i1 hR.2.1.2
  have a2 := dec1_adv_of syms S _ _ _ s2 i2 hR.2.2.1.2
  have a3 := dec1_adv_of syms S _ _ _ s3 i3 hR.2.2.2.2
  have hg : gets4 S (maps4 S c) stR = lE := by
    show Last4.mk (dec1_get S (S.map c.l0).toNat stR.r0) (dec1_get S (S.map c.l1).toNat stR.r1)
      (dec1_get S (S.map c.l2).toNat stR.r2) (dec1_get S (S.map c.l3).toNat stR.r3) = lE
    rw [g0, g1, g2, g3]
  rw [hg, dec1_loop_succ]
  show (dec_renorm4 (dec1_adv (S.syms (S.map c.l0).toNat lE.l0) stR.r0)
    (dec1_adv (S.syms (S.map c.l1).toNat lE.l1) stR.r1)
    (dec1_adv (S.syms (S.map c.l2).toNat lE.l2) stR.r2)
    (dec1_adv (S.syms (S.map c.l3).toNat lE.l3) stR.r3) stR.ptr).bind _ = _
  rw [a0, a1, a2, a3, hd]
  rfl

theorem maps4_zero (S : Dec1) (hm0 : S.map 0 = 0) :
    maps4 S { l0 := 0, l1 := 0, l2 := 0, l3 := 0 } = { l0 := 0, l1 := 0, l2 := 0, l3 := 0 } := by
  unfold maps4
  simp only [hm0]
  rfl

theorem store4 (out : Nat → Nat) (a b c d x0 x1 x2 x3 i : Nat) :
    store (store (store (store out a x0) b x1) c x2) d x3 i
      = if i = d then x3 else if i = c then x2 else if i = b then x1 else if i = a then x0
        else out i := rfl

/-- The main loop and the final four puts of the encoder of order 1, and the
decode loop that undoes them. -/
theorem enc1_dec1_loop (inp : List Nat) (syms : Nat → Nat → RansEncSymbol) (S : Dec1) (q : Nat)
    (hm0 : S.map 0 = 0)
    (hh : SymOK1 syms S 0 (inp.getD 0 0) ∧ SymOK1 syms S 0 (inp.getD q 0) ∧
      SymOK1 syms S 0 (inp.getD (2 * q) 0) ∧ SymOK1 syms S 0 (inp.getD (3 * q) 0))
    (hp : ∀ p, p + 1 < inp.length → SymOK1 syms S (inp.getD p 0) (inp.getD (p + 1) 0))
    (hq : 4 * q ≤ inp.length) (k : Nat) :
    k < q → ∀ st, StOK st →
    ∃ stB s0,
      enc1_loop inp syms q k st (Last4.mk (inp.getD k 0) (inp.getD (q + k) 0)
        (inp.getD (2 * q + k) 0) (inp.getD (3 * q + k) 0))
        = Res.ok (stB, Last4.mk (inp.getD 0 0) (inp.getD q 0) (inp.getD (2 * q) 0)
            (inp.getD (3 * q) 0)) ∧
      ((put3 stB (syms 0 (inp.getD (3 * q) 0))).bind fun s3 =>
        (put2 s3 (syms 0 (inp.getD (2 * q) 0))).bind fun s2 =>
        (put1 s2 (syms 0 (inp.getD q 0))).bind fun s1 =>
        put0 s1 (syms 0 (inp.getD 0 0))) = Res.ok s0 ∧
      StOK s0 ∧ (∃ bs, s0.ptr = bs ++ st.ptr ∧ bs.length ≤ 8 * (k + 1)) ∧
      ∀ out, ∃ out1,
        dec1_loop S q (k + 1) 0 s0 (Last4.mk 0 0 0 0) (gets4 S (Last4.mk 0 0 0 0) s0) out
          = Res.ok (st, maps4 S (Last4.mk (inp.getD k 0) (inp.getD (q + k) 0)
              (inp.getD (2 * q + k) 0) (inp.getD (3 * q + k) 0)), out1) ∧
        ∀ t, t ≤ k → out1 t = inp.getD t 0 ∧ out1 (q + t) = inp.getD (q + t) 0 ∧
          out1 (2 * q + t) = inp.getD (2 * q + t) 0 ∧ out1 (3 * q + t) = inp.getD (3 * q + t) 0 := by
  induction k with
  | zero =>
    intro hk st hst
    obtain ⟨h0, h1, h2, h3⟩ := hh
    obtain ⟨stR, bsR, hR, hRok, hRptr, hRlen, i0, i1, i2, i3, hRd⟩ :=
      round_generic _ _ _ _ st h0.1 h1.1 h2.1 h3.1 hst
    refine ⟨st, stR, rfl, hR, hRok, ⟨bsR, hRptr, by omega⟩, fun out => ?_⟩
    have hz := maps4_zero S hm0
    have hr := dec1_round syms S q 0 (Last4.mk 0 0 0 0)
      (Last4.mk (inp.getD 0 0) (inp.getD q 0) (inp.getD (2 * q) 0) (inp.getD (3 * q) 0))
      st stR out hRok h0 h1 h2 h3 i0 i1 i2 i3 hRd
    rw [hz] at hr
    refine ⟨_, hr, fun t ht => ?_⟩
    have ht0 : t = 0 := by omega
    subst ht0
    simp only [store4]
    refine ⟨?_, ?_, ?_, ?_⟩ <;> split_ifs <;> first | rfl | omega
  | succ k ih =>
    intro hk st hst
    have p0 := hp k (by omega)
    have p1 := hp (q + k) (by omega)
    have p2 := hp (2 * q + k) (by omega)
    have p3 := hp (3 * q + k) (by omega)
    obtain ⟨stR, bsR, hR, hRok, hRptr, hRlen, i0, i1, i2, i3, hRd⟩ :=
      round_generic _ _ _ _ st p0.1 p1.1 p2.1 p3.1 hst
    obtain ⟨stB, s0, hE, hH, hok0, ⟨bs1, hptr1, hlen1⟩, hD⟩ := ih (by omega) stR hRok
    refine ⟨stB, s0, ?_, hH, hok0, ⟨bs1 ++ bsR, by simp [hptr1, hRptr], by simp; omega⟩, ?_⟩
    · rw [enc1_loop]
      simp only [← Nat.add_assoc]
      rw [round_assoc, hR]
      exact hE
    · intro out
      obtain ⟨out1, hd1, ho1⟩ := hD out
      rw [dec1_loop_snoc, hd1]
      simp only [Res.bind_ok]
      have hr := dec1_round syms S q (0 + (k + 1))
        (Last4.mk (inp.getD k 0) (inp.getD (q + k) 0) (inp.getD (2 * q + k) 0)
          (inp.getD (3 * q + k) 0))
        (Last4.mk (inp.getD (k + 1) 0) (inp.getD (q + k + 1) 0) (inp.getD (2 * q + k + 1) 0)
          (inp.getD (3 * q + k + 1) 0))
        st stR out1 hRok p0 p1 p2 p3 i0 i1 i2 i3 hRd
      refine ⟨_, hr, fun t ht => ?_⟩
      simp only [store4]
      by_cases htk : t = k + 1
      · subst htk
        refine ⟨?_, ?_, ?_, ?_⟩ <;> split_ifs <;> first | rfl | omega
      · obtain ⟨o0, o1, o2, o3⟩ := ho1 t (by omega)
        refine ⟨?_, ?_, ?_, ?_⟩ <;> split_ifs <;> first | assumption | omega

theorem dec1_rem_eq (S : Dec1) (n : Nat) : ∀ (i R3 : Nat) (ptr : List Nat) (l3 : Nat)
    (out : Nat → Nat),
    dec1_rem S n i R3 ptr l3 out = (dec1_rem_st S n i R3 ptr l3 out).2.2.2 := by
  induction n with
  | zero => intro i R3 ptr l3 out; rfl
  | succ n ih =>
    intro i R3 ptr l3 out
    rw [dec1_rem, dec1_rem_st]
    exact ih _ _ _ _ _

theorem dec1_rem_snoc (S : Dec1) (n : Nat) : ∀ (i R3 : Nat) (ptr : List Nat) (l3 : Nat)
    (out : Nat → Nat),
    dec1_rem_st S (n + 1) i R3 ptr l3 out
      = dec1_rem_st S 1 (i + n) (dec1_rem_st S n i R3 ptr l3 out).1
          (dec1_rem_st S n i R3 ptr l3 out).2.1 (dec1_rem_st S n i R3 ptr l3 out).2.2.1
          (dec1_rem_st S n i R3 ptr l3 out).2.2.2 := by
  induction n with
  | zero => intro i R3 ptr l3 out; rfl
  | succ n ih =>
    intro i R3 ptr l3 out
    rw [dec1_rem_st, ih]
    have e : i + 1 + n = i + (n + 1) := by omega
    rw [e]
    rfl

theorem put3_enc (st : Rans4) (e : RansEncSymbol) (he : EncOK e) (hst : StOK st) :
    ∃ st1 bs, put3 st e = Res.ok st1 ∧ StOK st1 ∧ st1.r0 = st.r0 ∧ st1.r1 = st.r1 ∧
      st1.r2 = st.r2 ∧ st1.ptr = bs ++ st.ptr ∧ bs.length ≤ 2 ∧ InSlot e st1.r3 ∧
      RansDecRenormSafe (dec_adv e st1.r3) st1.ptr = (st.r3, st.ptr) := by
  obtain ⟨hs0, hs1, hs2, hs3⟩ := hst
  obtain ⟨y3, b3, p3, r3, i3, l3, _, _, f3⟩ := put_enc st.r3 st.ptr e he hs3
  refine ⟨{ st with r3 := y3, ptr := b3 ++ st.ptr }, b3, ?_, ⟨hs0, hs1, hs2, r3⟩, rfl, rfl, rfl,
    rfl, l3, i3, f3 st.ptr⟩
  simp [put3, p3]

/-- The remainder loop of the encoder of order 1 and the one of the decoder
that undoes it. -/
theorem enc1_dec1_rem (inp : List Nat) (syms : Nat → Nat → RansEncSymbol) (S : Dec1) (q : Nat)
    (hp : ∀ p, p + 1 < inp.length → SymOK1 syms S (inp.getD p 0) (inp.getD (p + 1) 0))
    (hq1 : 1 ≤ q) (n : Nat) :
    4 * q + n ≤ inp.length → ∀ st, StOK st →
    ∃ st1, enc1_rem inp syms q n st (inp.getD (4 * q - 1 + n) 0)
        = Res.ok (st1, inp.getD (4 * q - 1) 0) ∧
      StOK st1 ∧ st1.r0 = st.r0 ∧ st1.r1 = st.r1 ∧ st1.r2 = st.r2 ∧
      (∃ bs, st1.ptr = bs ++ st.ptr ∧ bs.length ≤ 2 * n) ∧
      ∀ out, ∃ out1,
        dec1_rem_st S n (4 * q) st1.r3 st1.ptr (S.map (inp.getD (4 * q - 1) 0)).toNat out
          = (st.r3, st.ptr, (S.map (inp.getD (4 * q - 1 + n) 0)).toNat, out1) ∧
        (∀ i, 4 * q ≤ i → i < 4 * q + n → out1 i = inp.getD i 0) ∧
        (∀ i, i < 4 * q → out1 i = out i) := by
  induction n with
  | zero =>
    intro _ st hst
    exact ⟨st, rfl, hst, rfl, rfl, rfl, ⟨[], rfl, by simp⟩,
      fun out => ⟨out, rfl, fun i h1 h2 => by omega, fun _ _ => rfl⟩⟩
  | succ n ih =>
    intro hn st hst
    have e1 : 4 * q - 2 + (n + 1) = 4 * q - 1 + n := by omega
    have e2 : 4 * q - 1 + (n + 1) = 4 * q - 1 + n + 1 := by omega
    have hpp := hp (4 * q - 1 + n) (by omega)
    obtain ⟨stR, bsR, hR, hRok, q0, q1, q2, hRptr, hRlen, hin, hRd⟩ :=
      put3_enc st (syms (inp.getD (4 * q - 1 + n) 0) (inp.getD (4 * q - 1 + n + 1) 0)) hpp.1 hst
    obtain ⟨st1, hE, hok1, r0, r1, r2, ⟨bs1, hptr1, hlen1⟩, hD⟩ := ih (by omega) stR hRok
    refine ⟨st1, ?_, hok1, by rw [r0, q0], by rw [r1, q1], by rw [r2, q2],
      ⟨bs1 ++ bsR, by simp [hptr1, hRptr], by simp; omega⟩, fun out => ?_⟩
    · rw [enc1_rem]
      simp only [e1, e2, hR, Res.bind_ok]
      exact hE
    · obtain ⟨out1, hd1, ho1, ho2⟩ := hD out
      rw [dec1_rem_snoc, hd1]
      have g := dec1_get_of syms S _ _ _ hpp hin
      have a := dec1_adv_of syms S _ _ _ hpp hin hRok.2.2.2.2
      refine ⟨store out1 (4 * q + n) (inp.getD (4 * q - 1 + n + 1) 0), ?_, ?_, ?_⟩
      · show dec1_rem_st S 1 (4 * q + n) stR.r3 stR.ptr (S.map (inp.getD (4 * q - 1 + n) 0)).toNat out1
          = _
        rw [dec1_rem_st, g, a, hRd, e2]
        rfl
      · intro i h1 h2
        unfold store
        by_cases hi : i = 4 * q + n
        · rw [if_pos hi, hi]
          have : 4 * q - 1 + n + 1 = 4 * q + n := by omega
          rw [this]
        · rw [if_neg hi]
          exact ho1 i h1 (by omega)
      · intro i h1
        unfold store
        rw [if_neg (by omega)]
        exact ho2 i h1

theorem rows_O1_ok (fl : FloatOps) (hfl : FloatOK fl) (s : List Nat) (hn : 4 ≤ s.length)
    (hb : ∀ b ∈ s, b < 256) :
    ∀ c, c < 256 → (stats_O1 s).2 c ≠ 0 →
      cumul (rows_O1 fl s c) 256 = 4095 ∧ ∃ k, k < 256 ∧ rows_O1 fl s c k ≠ 0 := by
  intro c hc hT
  obtain ⟨hT1, _⟩ := stats_O1_spec s hn hb
  obtain ⟨_, M, h1, _, h3, h4⟩ := nrow_spec fl hfl _ _ hT1 c hc hT
  exact ⟨h1, M, h4, h3⟩

/-- The table loop of the compressor of order 1 on the statistics of `s`. -/
theorem o1_table (fl : FloatOps) (hfl : FloatOK fl) (s : List Nat) (hn : 4 ≤ s.length)
    (hb : ∀ b ∈ s, b < 256) :
    enc1_table_loop fl (stats_O1 s).2 (stats_O1 s).1 256 0 0 (fun _ _ => { start := 0, freq := 0 })
      = Res.ok (tab_gen (stats_O1 s).2 (row_pay (rows_O1 fl s)) 256 0 0, syms_O1 fl s) ∧
    ∀ c b, c < 256 → b < 256 → 1 ≤ (stats_O1 s).1 c b →
      (stats_O1 s).2 c ≠ 0 ∧ rows_O1 fl s c b ≠ 0 ∧
      syms_O1 fl s c b = { start := cumul (rows_O1 fl s c) b, freq := rows_O1 fl s c b } := by
  obtain ⟨hT1, _⟩ := stats_O1_spec s hn hb
  obtain ⟨syms1, h1, _, h3⟩ := enc1_table_loop_eq fl hfl _ _ hT1 256 0 0
    (fun _ _ => { start := 0, freq := 0 }) (by omega)
  have hs : syms_O1 fl s = syms1 := by
    unfold syms_O1
    rw [h1]
  rw [hs]
  refine ⟨h1, fun c b hc hb1 hF => ?_⟩
  have hT : (stats_O1 s).2 c ≠ 0 := by
    have := le_cumul ((stats_O1 s).1 c) 256 b hb1
    rw [hT1 c hc]
    omega
  obtain ⟨_, M, _, h5, _, _⟩ := nrow_spec fl hfl _ _ hT1 c hc hT
  have hR : rows_O1 fl s c b ≠ 0 := (h5 b).mpr (by omega)
  exact ⟨hT, hR, h3 c (by omega) (by omega) hT b hb1 hR⟩

/-- The decoder of order 1 reads the table of the compressor back, whatever
follows it, and its tables then agree with the encoder symbols on every pair of
a context and a byte that was counted. -/
theorem o1_table_dec (fl : FloatOps) (hfl : FloatOK fl) (s : List Nat) (hn : 4 ≤ s.length)
    (hb : ∀ b ∈ s, b < 256) (D : Nat → Nat → Nat) (syms : Nat → Nat → RansDecSymbol32)
    (rest : List Nat) (hrest : 16 ≤ rest.length) (fuel : Nat)
    (hfuel : (tab_O1 fl s).length ≤ fuel) :
    ∃ cp S1, tab_O1 fl s ++ rest = 0 :: cp ∧
      dec1_table_loop fuel { D := D, syms := syms, map := fun _ => -1, map_i := 0 } 0 0 cp
        = Res.ok (S1, rest) ∧
      S1.map 0 = 0 ∧
      ∀ c b, c < 256 → b < 256 → 1 ≤ (stats_O1 s).1 c b →
        SymOK1 (syms_O1 fl s)
          { S1 with map := fun a => if a < 256 ∧ S1.map a = -1 then 0 else S1.map a } c b := by
  obtain ⟨hT1, hF0, _⟩ := stats_O1_spec s hn hb
  have hrows := rows_O1_ok fl hfl s hn hb
  obtain ⟨_, hsy⟩ := o1_table fl hfl s hn hb
  have hb0 : s.getD 0 0 < 256 := hb _ (getD_mem s 0 (by omega))
  have hT0 := (hsy 0 (s.getD 0 0) (by omega) hb0 hF0).1
  obtain ⟨cp, S1, h1, h2, h3, h4⟩ := dec1_table_enc (stats_O1 s).2 (rows_O1 fl s) hrows hT0 D syms
    rest hrest fuel (by unfold tab_O1 at hfuel; simp only [List.length_append] at hfuel; omega)
  refine ⟨cp, S1, ?_, h2, h3, fun c b hc hb1 hF => ?_⟩
  · rw [← h1]
    unfold tab_O1
    simp
  · obtain ⟨hT, hR, he⟩ := hsy c b hc hb1 hF
    obtain ⟨hm, hk⟩ := h4 c hc hT
    obtain ⟨k1, k2⟩ := hk b hb1 hR
    have hsum := (hrows c hc hT).1
    have htop := cum_top (rows_O1 fl s c) b hb1
    have hmap : (if c < 256 ∧ S1.map c = -1 then (0 : Int) else S1.map c) = S1.map c := by
      rw [if_neg (fun h => by omega)]
    refine ⟨?_, hb1, ?_, ?_, ?_⟩
    · rw [he]
      exact ⟨by show 1 ≤ rows_O1 fl s c b; omega,
        by show cumul (rows_O1 fl s c) b + rows_O1 fl s c b ≤ 4096; omega⟩
    · show 0 ≤ (if c < 256 ∧ S1.map c = -1 then (0 : Int) else S1.map c)
      rw [hmap]; exact hm
    · show S1.syms (if c < 256 ∧ S1.map c = -1 then (0 : Int) else S1.map c).toNat b = _
      rw [hmap, he]
      exact k1
    · intro m hm1 hm2
      show S1.D (if c < 256 ∧ S1.map c = -1 then (0 : Int) else S1.map c).toNat m = b
      rw [hmap]
      rw [he] at hm1 hm2
      exact k2 m hm1 hm2

/-- The payload coder of order 1, and the decoder loops that undo it. -/
theorem payload_O1 (s : List Nat) (syms : Nat → Nat → RansEncSymbol) (S : Dec1) (q : Nat)
    (hq1 : 1 ≤ q) (hq : 4 * q ≤ s.length) (hm0 : S.map 0 = 0)
    (hh : SymOK1 syms S 0 (s.getD 0 0) ∧ SymOK1 syms S 0 (s.getD q 0) ∧
      SymOK1 syms S 0 (s.getD (2 * q) 0) ∧ SymOK1 syms S 0 (s.getD (3 * q) 0))
    (hp : ∀ p, p + 1 < s.length → SymOK1 syms S (s.getD p 0) (s.getD (p + 1) 0)) :
    ∃ a b s0,
      enc1_rem s syms q (s.length - 4 * q)
        { r0 := RANS_BYTE_L, r1 := RANS_BYTE_L, r2 := RANS_BYTE_L, r3 := RANS_BYTE_L, ptr := [] }
        (s.getD (s.length - 1) 0) = Res.ok a ∧
      enc1_loop s syms q (q - 1) a.1 (Last4.mk (s.getD (1 * q - 1) 0) (s.getD (2 * q - 1) 0)
        (s.getD (3 * q - 1) 0) a.2) = Res.ok b ∧
      ((put3 b.1 (syms 0 b.2.l3)).bind fun s3 =>
        (put2 s3 (syms 0 b.2.l2)).bind fun s2 =>
        (put1 s2 (syms 0 b.2.l1)).bind fun s1 =>
        put0 s1 (syms 0 b.2.l0)) = Res.ok s0 ∧
      StOK s0 ∧ s0.ptr.length ≤ 2 * s.length + 8 ∧
      ∀ out, ∃ e,
        dec1_loop S q q 0 s0 (Last4.mk 0 0 0 0) (gets4 S (Last4.mk 0 0 0 0) s0) out = Res.ok e ∧
        ∀ i, i < s.length →
          dec1_rem S (s.length - 4 * q) (4 * q) e.1.r3 e.1.ptr e.2.1.l3 e.2.2 i = s.getD i 0 := by
  obtain ⟨st1, hE1, hok1, _, _, _, ⟨bs1, hptr1, hlen1⟩, hD1⟩ :=
    enc1_dec1_rem s syms S q hp hq1 (s.length - 4 * q) (by omega) _ st0_ok
  obtain ⟨stB, s0, hE2, hH, hok0, ⟨bs2, hptr2, hlen2⟩, hD2⟩ :=
    enc1_dec1_loop s syms S q hm0 hh hp hq (q - 1) (by omega) st1 hok1
  have e0 : 4 * q - 1 + (s.length - 4 * q) = s.length - 1 := by omega
  have e1 : 1 * q - 1 = q - 1 := by omega
  have e2 : 2 * q - 1 = q + (q - 1) := by omega
  have e3 : 3 * q - 1 = 2 * q + (q - 1) := by omega
  have e4 : 4 * q - 1 = 3 * q + (q - 1) := by omega
  have e5 : q - 1 + 1 = q := by omega
  rw [e0] at hE1 hD1
  rw [e4] at hE1 hD1
  rw [e5] at hD2
  refine ⟨(st1, s.getD (3 * q + (q - 1)) 0),
    (stB, Last4.mk (s.getD 0 0) (s.getD q 0) (s.getD (2 * q) 0) (s.getD (3 * q) 0)), s0, hE1, ?_,
    hH, hok0, ?_, fun out => ?_⟩
  · show enc1_loop s syms q (q - 1) st1 _ = _
    rw [e1, e2, e3]
    exact hE2
  · rw [hptr2, hptr1]
    simp only [List.length_append, List.length_nil]
    have : 8 * (q - 1 + 1) = 8 * q := by rw [e5]
    omega
  · obtain ⟨out1, hd2, ho2⟩ := hD2 out
    obtain ⟨out2, hd1, ho3, ho4⟩ := hD1 out1
    refine ⟨_, hd2, fun i hi => ?_⟩
    rw [dec1_rem_eq]
    show (dec1_rem_st S (s.length - 4 * q) (4 * q) st1.r3 st1.ptr
      (S.map (s.getD (3 * q + (q - 1)) 0)).toNat out1).2.2.2 i = _
    rw [hd1]
    show out2 i = _
    by_cases h4 : i < 4 * q
    · rw [ho4 i h4]
      by_cases c1 : i < q
      · exact (ho2 i (by omega)).1
      · by_cases c2 : i < 2 * q
        · have := (ho2 (i - q) (by omega)).2.1
          have e : q + (i - q) = i := by omega
          rw [e] at this; exact this
        · by_cases c3 : i < 3 * q
          · have := (ho2 (i - 2 * q) (by omega)).2.2.1
            have e : 2 * q + (i - 2 * q) = i := by omega
            rw [e] at this; exact this
          · have := (ho2 (i - 3 * q) (by omega)).2.2.2
            have e : 3 * q + (i - 3 * q) = i := by omega
            rw [e] at this; exact this
    · exact ho3 i (by omega) (by omega)

theorem shr_2 (x : Nat) : x >>> 2 = x / 4 := by
  rw [Nat.shiftRight_eq_div_pow]

/-- The decoder of order 1 reads the table of the compressor back, and is then
ready to decode every pair of bytes that the compressor codes. -/
theorem o1_dec_ready (fl : FloatOps) (hfl : FloatOK fl) (s : List Nat) (hn : 4 ≤ s.length)
    (hb : ∀ b ∈ s, b < 256) (D : Nat → Nat → Nat) (syms : Nat → Nat → RansDecSymbol32)
    (rest : List Nat) (hrest : 16 ≤ rest.length) (fuel : Nat)
    (hfuel : (tab_O1 fl s).length ≤ fuel) :
    ∃ cp S1, tab_O1 fl s ++ rest = 0 :: cp ∧
      dec1_table_loop fuel { D := D, syms := syms, map := fun _ => -1, map_i := 0 } 0 0 cp
        = Res.ok (S1, rest) ∧
      (map_fix S1).map 0 = 0 ∧
      (SymOK1 (syms_O1 fl s) (map_fix S1) 0 (s.getD 0 0) ∧
        SymOK1 (syms_O1 fl s) (map_fix S1) 0 (s.getD (s.length / 4) 0) ∧
        SymOK1 (syms_O1 fl s) (map_fix S1) 0 (s.getD (2 * (s.length / 4)) 0) ∧
        SymOK1 (syms_O1 fl s) (map_fix S1) 0 (s.getD (3 * (s.length / 4)) 0)) ∧
      ∀ p, p + 1 < s.length →
        SymOK1 (syms_O1 fl s) (map_fix S1) (s.getD p 0) (s.getD (p + 1) 0) := by
  obtain ⟨_, f0, f1, f2, f3, fp⟩ := stats_O1_spec s hn hb
  obtain ⟨cp, S1, h1, h2, h3, h4⟩ := o1_table_dec fl hfl s hn hb D syms rest hrest fuel hfuel
  have hlt : ∀ i, i < s.length → s.getD i 0 < 256 := fun i hi => hb _ (getD_mem s i hi)
  refine ⟨cp, S1, h1, h2, ?_, ⟨?_, ?_, ?_, ?_⟩, fun p hp => ?_⟩
  · show (if 0 < 256 ∧ S1.map 0 = -1 then (0 : Int) else S1.map 0) = 0
    rw [h3]; simp
  · exact h4 0 _ (by omega) (hlt 0 (by omega)) f0
  · exact h4 0 _ (by omega) (hlt _ (by omega)) f1
  · exact h4 0 _ (by omega) (hlt _ (by omega)) f2
  · exact h4 0 _ (by omega) (hlt _ (by omega)) f3
  · have := fp (p + 1) (by omega) hp
    exact h4 _ _ (hlt p (by omega)) (hlt (p + 1) hp) this

theorem tab_O1_len (fl : FloatOps) (s : List Nat) :
    1 ≤ (tab_O1 fl s).length ∧ (tab_O1 fl s).length ≤ 197378 := by
  unfold tab_O1
  have := tab1_len (stats_O1 s).2 (rows_O1 fl s)
  simp only [List.length_append, List.length_cons, List.length_nil]
  omega

/-- The block that the compressor of order 1 returns on four bytes or more, and
what a decoder whose tables agree with the encoder symbols makes of its
payload. -/
theorem compress1_eq (fl : FloatOps) (hfl : FloatOK fl) (s : List Nat) (hn : 4 ≤ s.length)
    (hsz : 21 * s.length < 20 * 2 ^ 31) (hb : ∀ b ∈ s, b < 256) (S : Dec1)
    (hm0 : S.map 0 = 0)
    (hh : SymOK1 (syms_O1 fl s) S 0 (s.getD 0 0) ∧
      SymOK1 (syms_O1 fl s) S 0 (s.getD (s.length / 4) 0) ∧
      SymOK1 (syms_O1 fl s) S 0 (s.getD (2 * (s.length / 4)) 0) ∧
      SymOK1 (syms_O1 fl s) S 0 (s.getD (3 * (s.length / 4)) 0))
    (hp : ∀ p, p + 1 < s.length → SymOK1 (syms_O1 fl s) S (s.getD p 0) (s.getD (p + 1) 0)) :
    ∃ s0, rans_compress_O1 fl s
        = Res.ok ([1] ++ le32 ((payload4 s0).length + (tab_O1 fl s).length) ++ le32 s.length
            ++ (tab_O1 fl s ++ payload4 s0)) ∧
      StOK s0 ∧ s0.ptr.length ≤ 2 * s.length + 8 ∧
      ∀ out, ∃ e,
        dec1_loop S (s.length / 4) (s.length / 4) 0 s0 (Last4.mk 0 0 0 0)
          (gets4 S (Last4.mk 0 0 0 0) s0) out = Res.ok e ∧
        ∀ i, i < s.length →
          dec1_rem S (s.length - 4 * (s.length / 4)) (4 * (s.length / 4)) e.1.r3 e.1.ptr
            e.2.1.l3 e.2.2 i = s.getD i 0 := by
  obtain ⟨a, b, s0, hE1, hE2, hH, hok, hlen, hD⟩ :=
    payload_O1 s (syms_O1 fl s) S (s.length / 4) (by omega) (by omega) hm0 hh hp
  obtain ⟨htab, _⟩ := o1_table fl hfl s hn hb
  have htl := tab_O1_len fl s
  have hpl := payload4_len s0
  refine ⟨s0, ?_, hok, hlen, hD⟩
  unfold rans_compress_O1
  rw [if_neg (by omega)]
  simp only [htab, Res.bind_ok, shr_2]
  have ht : tab_gen (stats_O1 s).2 (row_pay (rows_O1 fl s)) 256 0 0 ++ [0] = tab_O1 fl s := rfl
  rw [ht, if_neg (by omega), hE1]
  simp only [Res.bind_ok]
  rw [hE2]
  simp only [Res.bind_ok]
  rw [round_assoc, hH]
  simp only [Res.bind_ok]
  rw [← finish_block_eq 1 s.length _ _ (by omega) (by omega)]

theorem tab_O1_ge (fl : FloatOps) (s : List Nat) (hn : 4 ≤ s.length) (hb : ∀ b ∈ s, b < 256) :
    3 ≤ (tab_O1 fl s).length := by
  obtain ⟨hT1, hF0, _⟩ := stats_O1_spec s hn hb
  have hb0 : s.getD 0 0 < 256 := hb _ (getD_mem s 0 (by omega))
  have hT0 : (stats_O1 s).2 0 ≠ 0 := by
    have := le_cumul ((stats_O1 s).1 0) 256 _ hb0
    rw [hT1 0 (by omega)]
    omega
  unfold tab_O1
  rw [tab_gen_present _ _ 255 0 0 hT0]
  have := row_pay_len (rows_O1 fl s) 0
  simp only [ne_eq, not_true_eq_false, if_false, false_and, List.length_append,
    List.length_cons, List.length_nil]
  omega

/-- The decoder of order 1 on a block made of a header, the table of the
compressor and a payload that its loops decode to `s`. -/
theorem uncompress1_block (fl : FloatOps) (hfl : FloatOK fl) (D : Nat → Nat → Nat)
    (syms : Nat → Nat → RansDecSymbol32) (s : List Nat) (hn : 4 ≤ s.length)
    (hsz : 21 * s.length < 20 * 2 ^ 31) (hb : ∀ b ∈ s, b < 256) (s0 : Rans4) (hok : StOK s0)
    (hlen : s0.ptr.length ≤ 2 * s.length + 8)
    (hc : rans_compress_O1 fl s
      = Res.ok ([1] ++ le32 ((payload4 s0).length + (tab_O1 fl s).length) ++ le32 s.length
          ++ (tab_O1 fl s ++ payload4 s0))) :
    rans_uncompress_O1 D syms ([1] ++ le32 ((payload4 s0).length + (tab_O1 fl s).length)
      ++ le32 s.length ++ (tab_O1 fl s ++ payload4 s0)) = Res.ok s := by
  have htl := tab_O1_len fl s
  have htg := tab_O1_ge fl s hn hb
  have hpl := payload4_len s0
  generalize hblk : [1] ++ le32 ((payload4 s0).length + (tab_O1 fl s).length)
      ++ le32 s.length ++ (tab_O1 fl s ++ payload4 s0) = blk at hc ⊢
  have hbl : blk.length = 9 + (tab_O1 fl s).length + (payload4 s0).length := by
    rw [← hblk]; simp [le32]; omega
  have hb0 : blk.getD 0 0 = 1 := by rw [← hblk]; rfl
  obtain ⟨hd1, hd2⟩ := rd_le32_hdr 1 ((payload4 s0).length + (tab_O1 fl s).length)
    s.length (tab_O1 fl s ++ payload4 s0) (by omega) (by omega)
  rw [hblk] at hd1 hd2
  have hdrop : blk.drop 9 = tab_O1 fl s ++ payload4 s0 := by
    rw [← hblk]; rfl
  obtain ⟨cp, S1, h1, h2, hm0, hh, hp⟩ := o1_dec_ready fl hfl s hn hb D syms (payload4 s0)
    (by omega) blk.length (by omega)
  obtain ⟨s1, hc1, _, _, hD⟩ := compress1_eq fl hfl s hn hsz hb (map_fix S1) hm0 hh hp
  have hs : s1 = s0 := by
    rw [hc1] at hc
    have h3 := Res.ok.inj hc
    rw [← hblk] at h3
    have h4 := List.append_inj_right h3 (by simp [le32])
    have h5 := List.append_cancel_left h4
    have h6 := dec_init4_payload s0 hok
    rw [← h5, dec_init4_payload s1 (by assumption)] at h6
    exact Res.ok.inj h6
  subst hs
  obtain ⟨e, hd, ho⟩ := hD (fun _ => 0)
  have hm1 : (if 0 < 256 ∧ S1.map 0 = -1 then (0 : Int) else S1.map 0) = 0 := hm0
  simp only [gets4] at hd
  have hrd : rd (tab_O1 fl s ++ payload4 s1) = Res.ok (0, cp) := by
    rw [h1]; rfl
  unfold rans_uncompress_O1
  simp only [hbl, hb0, hd1, hd2, hdrop]
  rw [if_neg (by omega), if_neg (by simp), if_neg (by omega),
    if_neg (by unfold INT_MAX; omega), ← hbl, hrd]
  simp only [Res.bind_ok, h2]
  rw [if_neg (by omega), dec_init4_payload s1 hok]
  simp only [Res.bind_ok, shr_2]
  have hS : ({ S1 with map := fun a => if a < 256 ∧ S1.map a = -1 then 0 else S1.map a } : Dec1)
      = map_fix S1 := rfl
  simp only [hS, hm1, Int.toNat_zero, hd, Res.bind_ok]
  rw [map_range_eq s _ ho]

/-- What the compressor of order 1 does on four bytes or more: the block it
returns, made of the header, the table and the payload, and the decoder of
order 1 on that block. -/
theorem compress1_facts (fl : FloatOps) (hfl : FloatOK fl) (D : Nat → Nat → Nat)
    (syms : Nat → Nat → RansDecSymbol32) (s : List Nat) (hn : 4 ≤ s.length)
    (hsz : 21 * s.length < 20 * 2 ^ 31) (hb : ∀ b ∈ s, b < 256) :
    ∃ s0, StOK s0 ∧
      rans_compress_O1 fl s
        = Res.ok ([1] ++ le32 ((payload4 s0).length + (tab_O1 fl s).length) ++ le32 s.length
            ++ (tab_O1 fl s ++ payload4 s0)) ∧
      rans_uncompress_O1 D syms ([1] ++ le32 ((payload4 s0).length + (tab_O1 fl s).length)
        ++ le32 s.length ++ (tab_O1 fl s ++ payload4 s0)) = Res.ok s := by
  obtain ⟨_, S1, _, _, hm0, hh, hp⟩ := o1_dec_ready fl hfl s hn hb D syms (List.replicate 16 0)
    (by simp) (tab_O1 fl s).length (Nat.le_refl _)
  obtain ⟨s0, hc, hok, hlen, _⟩ := compress1_eq fl hfl s hn hsz hb (map_fix S1) hm0 hh hp
  exact ⟨s0, hok, hc, uncompress1_block fl hfl D syms s hn hsz hb s0 hok hlen hc⟩

/-- The round trip of order 1 on four bytes or more. -/
theorem round_trip_O1 (fl : FloatOps) (hfl : FloatOK fl) (D : Nat → Nat → Nat)
    (syms : Nat → Nat → RansDecSymbol32) (s : List Nat) (hn : 4 ≤ s.length)
    (hsz : 21 * s.length < 20 * 2 ^ 31) (hb : ∀ b ∈ s, b < 256) :
    ∃ blk, rans_compress_O1 fl s = Res.ok blk ∧ blk.length ≥ 27 ∧ blk.getD 0 0 = 1 ∧
      rans_uncompress_O1 D syms blk = Res.ok s := by
  obtain ⟨s0, _, hc, hd⟩ := compress1_facts fl hfl D syms s hn hsz hb
  refine ⟨_, hc, ?_, rfl, hd⟩
  have := tab_O1_ge fl s hn hb
  have := payload4_len s0
  simp [le32]
  omega

/-! ## The claims -/

theorem intOps_ok : FloatOK intOps := by
  refine ⟨fun t f h => ?_, fun f h => ?_⟩
  · show f * 4096 / t ≤ 4096
    by_cases ht : t = 0
    · subst ht; simp
    · apply Nat.div_le_of_le_mul
      exact Nat.mul_le_mul_right 4096 h
  · show f * 98 / 100 < f
    omega

/-- The dispatch of `rans_compress` on the order 0. -/
theorem compress_order0 (fl : FloatOps) (s : List Nat) :
    rans_compress fl s 0 = rans_compress_O0 s := by
  simp [rans_compress]

/-- The dispatch of `rans_compress` on the order 1. -/
theorem compress_order1 (fl : FloatOps) (s : List Nat) :
    rans_compress fl s 1 = rans_compress_O1 fl s := by
  simp [rans_compress]

/-- The dispatch of `rans_uncompress` on a block of nine bytes or more whose
first byte is 0. -/
theorem uncompress_head0 (T : DecTab0) (D : Nat → Nat → Nat)
    (syms : Nat → Nat → RansDecSymbol32) (blk : List Nat) (hl : 9 ≤ blk.length)
    (h0 : blk.getD 0 0 = 0) : rans_uncompress T D syms blk = rans_uncompress_O0 T blk := by
  unfold rans_uncompress
  rw [if_neg (by omega), if_neg (not_not.mpr h0)]

/-- The dispatch of `rans_uncompress` on a block of nine bytes or more whose
first byte is not 0. -/
theorem uncompress_head1 (T : DecTab0) (D : Nat → Nat → Nat)
    (syms : Nat → Nat → RansDecSymbol32) (blk : List Nat) (hl : 9 ≤ blk.length)
    (h0 : blk.getD 0 0 ≠ 0) : rans_uncompress T D syms blk = rans_uncompress_O1 D syms blk := by
  unfold rans_uncompress
  rw [if_neg (by omega), if_pos h0]

theorem cumul_single (F : Nat → Nat) (b : Nat) (hb : b < 256) (hz : ∀ k, k ≠ b → F k = 0) :
    cumul F 256 = F b := by
  have h1 := cumul_skip F b 0 (fun i _ h2 => hz i (by omega))
  have h2 := cumul_skip F (255 - b) (b + 1) (fun i h1 _ => hz i (by omega))
  have e1 : 0 + b = b := by omega
  have e2 : b + 1 + (255 - b) = 256 := by omega
  have e0 : cumul F 0 = 0 := rfl
  rw [e1, e0] at h1
  rw [e2] at h2
  have h3 : cumul F (b + 1) = cumul F b + F b := rfl
  omega

/-- The table of a row with a single symbol `b`, of frequency 4095. -/
theorem single_table (F : Nat → Nat) (b : Nat) (hb : b < 256) (hz : ∀ k, k ≠ b → F k = 0)
    (hF : F b = 4095) : (enc_table F).1 = [b, 0x8F, 0xFF, 0x00] := by
  have hb0 : F b ≠ 0 := by omega
  rw [enc_table_bytes]
  rcases tab_first F 0 256 (by omega) with ⟨hzz, _⟩ | ⟨k, _, hk2, hk3, _, hk⟩
  · exact absurd (hzz b (by omega) hb) hb0
  · have hkb : k = b := by
      by_contra hne
      exact hk3 (hz k hne)
    subst hkb
    rw [hk, tab_bytes_present F _ k 0 hk3]
    have hc : ¬ (k ≠ 0 ∧ F (k - 1) ≠ 0) := by
      intro h
      exact h.2 (hz (k - 1) (by omega))
    have hnil : tab_bytes F (255 - k) (k + 1) 0 = [] := by
      rcases tab_first F (k + 1) (255 - k) (by omega) with ⟨_, h⟩ | ⟨j, hj1, _, hj3, _, _⟩
      · exact h
      · exact absurd (hz j (by omega)) hj3
    have hfb : freq_bytes 4095 = [143, 255] := by decide
    simp only [ne_eq, not_true_eq_false, if_false, hc, hnil, hF, hfb,
      Nat.mod_eq_of_lt hb, List.cons_append, List.nil_append, List.append_nil]

/-- The compressor of order 0 on an input that repeats one byte `b`: the row has
the single entry 4095 at `b`, and the table is `b, 0x8F, 0xFF, 0x00`. -/
theorem single_symbol_block (s : List Nat) (b : Nat) (hne : s ≠ [])
    (hsz : 21 * s.length < 20 * 2 ^ 31) (hb : b < 256) (hall : ∀ x ∈ s, x = b) :
    ∃ F1 M st, norm_row_O0 s = some (F1, M) ∧ F1 b = 4095 ∧ (∀ k, k ≠ b → F1 k = 0) ∧
      (enc_table F1).1 = [b, 0x8F, 0xFF, 0x00] ∧
      rans_compress_O0 s = Res.ok ([0] ++ le32 ((payload4 st).length + 4) ++ le32 s.length
        ++ ([b, 0x8F, 0xFF, 0x00] ++ payload4 st)) := by
  have hbs : ∀ x ∈ s, x < 256 := fun x hx => by rw [hall x hx]; exact hb
  obtain ⟨F1, M, _, st1, hrow, hR, _, _, _, _, _, hc⟩ := compress0_facts s hne hsz hbs
  have hz : ∀ k, k ≠ b → F1 k = 0 := by
    intro k hk
    by_contra h
    have hcnt := (hR.2.1 k).mp h
    have : k ∈ s := by
      by_contra hn
      exact hcnt (List.count_eq_zero_of_not_mem hn)
    exact hk (hall k this)
  have hF : F1 b = 4095 := by
    rw [← cumul_single F1 b hb hz]; exact hR.1
  have ht := single_table F1 b hb hz hF
  rw [ht] at hc
  exact ⟨F1, M, st1, hrow, hF, hz, ht, hc⟩

theorem rd_le32_block (o a b : Nat) (rest : List Nat) (ha : a < 2 ^ 32) (hb : b < 2 ^ 32) :
    rd_le32 ([o] ++ le32 a ++ le32 b ++ rest) 1 = a ∧
    rd_le32 ([o] ++ le32 a ++ le32 b ++ rest) 5 = b ∧
    ([o] ++ le32 a ++ le32 b ++ rest).length = 9 + rest.length := by
  obtain ⟨h1, h2⟩ := rd_le32_hdr o a b rest ha hb
  refine ⟨h1, h2, ?_⟩
  simp [le32]
  omega

/-- Claim C1: for every non-empty byte string `s` in the range of sizes of the
compressor, `rans_compress` with order 0 returns a block, and `rans_uncompress`
on that block returns exactly `s` (so `out_size = |s|`), whatever the contents of
the tables of the decoders on entry. -/
theorem order0_round_trip (fl : FloatOps) (T : DecTab0) (D : Nat → Nat → Nat)
    (syms : Nat → Nat → RansDecSymbol32) (s : List Nat) (hne : s ≠ [])
    (hsz : 21 * s.length < 20 * 2 ^ 31) (hb : ∀ b ∈ s, b < 256) :
    ∃ blk, rans_compress fl s 0 = Res.ok blk ∧ rans_uncompress T D syms blk = Res.ok s ∧
      (∀ out, rans_uncompress T D syms blk = Res.ok out → out.length = s.length) := by
  obtain ⟨blk, hc, hl, h0, hd⟩ := round_trip_O0 T s hne hsz hb
  have hu : rans_uncompress T D syms blk = Res.ok s := by
    rw [uncompress_head0 T D syms blk (by omega) h0, hd]
  refine ⟨blk, by rw [compress_order0, hc], hu, fun out ho => ?_⟩
  rw [hu] at ho
  rw [← Res.ok.inj ho]

theorem order0_round_trip_witness :
    [65, 66, 65] ≠ [] ∧ 21 * [65, 66, 65].length < 20 * 2 ^ 31 ∧ (∀ b ∈ [65, 66, 65], b < 256) ∧
    ∃ blk, rans_compress intOps [65, 66, 65] 0 = Res.ok blk ∧
      rans_uncompress zeroTab0 (fun _ _ => 0) (fun _ _ => { start := 0, freq := 0 }) blk
        = Res.ok [65, 66, 65] ∧
      (∀ out, rans_uncompress zeroTab0 (fun _ _ => 0) (fun _ _ => { start := 0, freq := 0 }) blk
        = Res.ok out → out.length = [65, 66, 65].length) :=
  ⟨by decide, by decide, by decide,
    order0_round_trip intOps zeroTab0 (fun _ _ => 0) (fun _ _ => { start := 0, freq := 0 })
      [65, 66, 65] (by decide) (by decide) (by decide)⟩

/-- Claim C2: for every byte string `s` of four bytes or more in the range of
sizes of the compressor, `rans_compress` with order 1 returns a block whose first
byte is 1, and `rans_uncompress` on that block returns exactly `s`; this holds for
every normalisation `fl` that scales a count to at most `TOTFREQ` and that the
factor `.98` lowers, and whatever the cached tables of the decoder hold on
entry. -/
theorem order1_round_trip (fl : FloatOps) (hfl : FloatOK fl) (T : DecTab0)
    (D : Nat → Nat → Nat) (syms : Nat → Nat → RansDecSymbol32) (s : List Nat)
    (hn : 4 ≤ s.length) (hsz : 21 * s.length < 20 * 2 ^ 31) (hb : ∀ b ∈ s, b < 256) :
    ∃ blk, rans_compress fl s 1 = Res.ok blk ∧ blk.getD 0 0 = 1 ∧
      rans_uncompress T D syms blk = Res.ok s := by
  obtain ⟨blk, hc, hl, h0, hd⟩ := round_trip_O1 fl hfl D syms s hn hsz hb
  refine ⟨blk, by rw [compress_order1, hc], h0, ?_⟩
  rw [uncompress_head1 T D syms blk (by omega) (by omega), hd]

theorem order1_round_trip_witness :
    FloatOK intOps ∧ 4 ≤ [65, 66, 65, 66, 67].length ∧
    21 * [65, 66, 65, 66, 67].length < 20 * 2 ^ 31 ∧ (∀ b ∈ [65, 66, 65, 66, 67], b < 256) ∧
    ∃ blk, rans_compress intOps [65, 66, 65, 66, 67] 1 = Res.ok blk ∧ blk.getD 0 0 = 1 ∧
      rans_uncompress zeroTab0 (fun _ _ => 0) (fun _ _ => { start := 0, freq := 0 }) blk
        = Res.ok [65, 66, 65, 66, 67] :=
  ⟨intOps_ok, by decide, by decide, by decide,
    order1_round_trip intOps intOps_ok zeroTab0 (fun _ _ => 0)
      (fun _ _ => { start := 0, freq := 0 }) [65, 66, 65, 66, 67] (by decide) (by decide)
      (by decide)⟩

/-- Claim C3: for every byte string `s` of fewer than four bytes,
`rans_compress` with order 1 is the call of `rans_compress` with order 0 and so
returns the same block; when `s` is not empty that block has the first byte 0,
`rans_uncompress` hands it to the decoder of order 0, and the decoder returns
`s`. -/
theorem short_input_fallback (fl : FloatOps) (s : List Nat) (h : s.length < 4) :
    rans_compress fl s 1 = rans_compress fl s 0 ∧
    (s ≠ [] → (∀ b ∈ s, b < 256) →
      ∃ blk, rans_compress fl s 1 = Res.ok blk ∧ rans_compress fl s 0 = Res.ok blk ∧
        blk.getD 0 0 = 0 ∧
        ∀ (T : DecTab0) (D : Nat → Nat → Nat) (syms : Nat → Nat → RansDecSymbol32),
          rans_uncompress T D syms blk = rans_uncompress_O0 T blk ∧
          rans_uncompress T D syms blk = Res.ok s) := by
  have he : rans_compress fl s 1 = rans_compress fl s 0 := by
    rw [compress_order1, compress_order0]
    unfold rans_compress_O1
    rw [if_pos h]
  refine ⟨he, fun hne hb => ?_⟩
  obtain ⟨blk, hc, hl, h0, _⟩ := round_trip_O0 zeroTab0 s hne (by omega) hb
  refine ⟨blk, by rw [he, compress_order0, hc], by rw [compress_order0, hc], h0,
    fun T D syms => ?_⟩
  have hu := uncompress_head0 T D syms blk (by omega) h0
  obtain ⟨blk2, hc2, _, _, hd2⟩ := round_trip_O0 T s hne (by omega) hb
  rw [hc] at hc2
  rw [← Res.ok.inj hc2] at hd2
  exact ⟨hu, by rw [hu, hd2]⟩

theorem short_input_fallback_witness :
    [65, 66, 67].length < 4 ∧
    rans_compress intOps [65, 66, 67] 1 = rans_compress intOps [65, 66, 67] 0 ∧
    ([65, 66, 67] ≠ [] → (∀ b ∈ [65, 66, 67], b < 256) →
      ∃ blk, rans_compress intOps [65, 66, 67] 1 = Res.ok blk ∧
        rans_compress intOps [65, 66, 67] 0 = Res.ok blk ∧ blk.getD 0 0 = 0 ∧
        ∀ (T : DecTab0) (D : Nat → Nat → Nat) (syms : Nat → Nat → RansDecSymbol32),
          rans_uncompress T D syms blk = rans_uncompress_O0 T blk ∧
          rans_uncompress T D syms blk = Res.ok [65, 66, 67]) :=
  ⟨by decide, short_input_fallback intOps [65, 66, 67] (by decide)⟩

/-- Claim C4: on the empty byte string `rans_compress` with order 0 does not
return a block: `rans_compress_O0` divides by `in_size = 0` when it computes
`tr`, which is undefined. -/
theorem empty_input_undefined (fl : FloatOps) : rans_compress fl [] 0 = Res.ub := by
  rw [compress_order0]
  unfold rans_compress_O0
  rfl

/-- Claim C5, as the code has it: `rans_uncompress` rejects every block of fewer
than 9 bytes, every block of fewer than 26 bytes whose first byte is 0, and every
block of fewer than 27 bytes whose first byte is not 0. -/
theorem uncompress_min_size (T : DecTab0) (D : Nat → Nat → Nat)
    (syms : Nat → Nat → RansDecSymbol32) (inp : List Nat)
    (h : inp.length < 9 ∨ (inp.getD 0 0 = 0 ∧ inp.length < 26) ∨
      (inp.getD 0 0 ≠ 0 ∧ inp.length < 27)) :
    rans_uncompress T D syms inp = Res.fail := by
  unfold rans_uncompress
  by_cases h9 : inp.length < 9
  · rw [if_pos h9]
  · rw [if_neg h9]
    rcases h with h | ⟨h0, h⟩ | ⟨h0, h⟩
    · exact absurd h h9
    · rw [if_neg (not_not.mpr h0)]; unfold rans_uncompress_O0; simp only [if_pos h]
    · rw [if_pos h0]; unfold rans_uncompress_O1; simp only [if_pos h]

theorem uncompress_min_size_witness :
    ((0 :: List.replicate 24 7).getD 0 0 = 0 ∧ (0 :: List.replicate 24 7).length < 26) ∧
    rans_uncompress zeroTab0 (fun _ _ => 0) (fun _ _ => { start := 0, freq := 0 })
      (0 :: List.replicate 24 7) = Res.fail :=
  ⟨⟨by decide, by decide⟩,
    uncompress_min_size zeroTab0 (fun _ _ => 0) (fun _ _ => { start := 0, freq := 0 })
      (0 :: List.replicate 24 7) (Or.inr (Or.inl ⟨by decide, by decide⟩))⟩

/-- Claim C5, counterexample: the block of nine zero bytes is not accepted;
`rans_uncompress` hands it to `rans_uncompress_O0`, which rejects it because
`in_size < 26`. -/
theorem nine_zero_bytes_rejected :
    rans_uncompress zeroTab0 (fun _ _ => 0) (fun _ _ => { start := 0, freq := 0 })
      [0, 0, 0, 0, 0, 0, 0, 0, 0] = Res.fail ∧
    rans_uncompress zeroTab0 (fun _ _ => 0) (fun _ _ => { start := 0, freq := 0 })
      [0, 0, 0, 0, 0, 0, 0, 0, 0] ≠ Res.ok [] := by
  have h : rans_uncompress zeroTab0 (fun _ _ => 0) (fun _ _ => { start := 0, freq := 0 })
      [0, 0, 0, 0, 0, 0, 0, 0, 0] = Res.fail := by
    unfold rans_uncompress rans_uncompress_O0
    rfl
  refine ⟨h, ?_⟩
  rw [h]
  exact fun hh => Res.noConfusion hh

theorem layout_facts (o n : Nat) (tab pay : List Nat) (h : pay.length + tab.length < 2 ^ 32)
    (hn : n < 2 ^ 32) (blk : List Nat)
    (hblk : blk = [o] ++ le32 (pay.length + tab.length) ++ le32 n ++ (tab ++ pay)) :
    blk = [o] ++ le32 (blk.length - 9) ++ le32 n ++ (tab ++ pay) ∧
    blk.length = 9 + tab.length + pay.length ∧
    rd_le32 blk 1 = blk.length - 9 ∧ rd_le32 blk 5 = n := by
  obtain ⟨h1, h2, h3⟩ := rd_le32_block o (pay.length + tab.length) n (tab ++ pay) h hn
  rw [← hblk] at h1 h2 h3
  have hl : blk.length = 9 + tab.length + pay.length := by
    rw [h3]; simp only [List.length_append]; omega
  have e : blk.length - 9 = pay.length + tab.length := by omega
  rw [e]
  exact ⟨hblk, hl, h1, h2⟩

/-- The block of the compressor of order 1 on four bytes or more, with the
bound on its payload. -/
theorem compress1_layout (fl : FloatOps) (hfl : FloatOK fl) (s : List Nat) (hn : 4 ≤ s.length)
    (hsz : 21 * s.length < 20 * 2 ^ 31) (hb : ∀ b ∈ s, b < 256) :
    ∃ s0, StOK s0 ∧ s0.ptr.length ≤ 2 * s.length + 8 ∧
      rans_compress_O1 fl s
        = Res.ok ([1] ++ le32 ((payload4 s0).length + (tab_O1 fl s).length) ++ le32 s.length
            ++ (tab_O1 fl s ++ payload4 s0)) := by
  obtain ⟨_, S1, _, _, hm0, hh, hp⟩ := o1_dec_ready fl hfl s hn hb (fun _ _ => 0)
    (fun _ _ => { start := 0, freq := 0 }) (List.replicate 16 0)
    (by simp) (tab_O1 fl s).length (Nat.le_refl _)
  obtain ⟨s0, hc, hok, hlen, _⟩ := compress1_eq fl hfl s hn hsz hb (map_fix S1) hm0 hh hp
  exact ⟨s0, hok, hlen, hc⟩

/-- Claim C6: for every non-empty input `s` and every `order`, the block that
`rans_compress` returns is one byte that holds the order used (1 when `order` is
not 0 and `s` has four bytes or more, else 0), the four bytes of `out_size - 9`
and the four bytes of `|s|`, both little-endian, then the table and right after
it the payload, so that `out_size` is 9 plus the length of the table plus the
length of the payload. -/
theorem header_layout (fl : FloatOps) (hfl : FloatOK fl) (s : List Nat) (hne : s ≠ [])
    (hsz : 21 * s.length < 20 * 2 ^ 31) (hb : ∀ b ∈ s, b < 256) (order : Int) :
    ∃ tab pay blk, rans_compress fl s order = Res.ok blk ∧
      blk = [if order ≠ 0 ∧ 4 ≤ s.length then 1 else 0] ++ le32 (blk.length - 9)
        ++ le32 s.length ++ (tab ++ pay) ∧
      blk.length = 9 + tab.length + pay.length ∧
      rd_le32 blk 1 = blk.length - 9 ∧ rd_le32 blk 5 = s.length ∧
      (∃ st, StOK st ∧ pay = payload4 st) ∧
      (if order ≠ 0 ∧ 4 ≤ s.length then tab = tab_O1 fl s
        else ∃ F1 M, norm_row_O0 s = some (F1, M) ∧ tab = (enc_table F1).1) := by
  by_cases h1 : order ≠ 0 ∧ 4 ≤ s.length
  · obtain ⟨s0, hok, hlen, hc⟩ := compress1_layout fl hfl s h1.2 hsz hb
    have htl := tab_O1_len fl s
    have hpl := payload4_len s0
    have hrc : rans_compress fl s order = rans_compress_O1 fl s := by
      unfold rans_compress; rw [if_pos h1.1]
    obtain ⟨a, b, c, d⟩ := layout_facts 1 s.length (tab_O1 fl s) (payload4 s0) (by omega)
      (by omega) _ rfl
    refine ⟨tab_O1 fl s, payload4 s0, _, by rw [hrc, hc], ?_, b, c, d, ⟨s0, hok, rfl⟩, ?_⟩
    · rw [if_pos h1]; exact a
    · rw [if_pos h1]
  · obtain ⟨F1, M, _, st1, hrow, _, _, _, _, hok, hlen, hc⟩ := compress0_facts s hne hsz hb
    have htl := enc_table_len F1
    have hpl := payload4_len st1
    have hrc : rans_compress fl s order = rans_compress_O0 s := by
      unfold rans_compress
      by_cases ho : order ≠ 0
      · rw [if_pos ho]
        unfold rans_compress_O1
        rw [if_pos (by
          by_contra hh
          exact h1 ⟨ho, by omega⟩)]
      · rw [if_neg ho]
    obtain ⟨a, b, c, d⟩ := layout_facts 0 s.length (enc_table F1).1 (payload4 st1) (by omega)
      (by omega) _ rfl
    refine ⟨(enc_table F1).1, payload4 st1, _, by rw [hrc, hc], ?_, b, c, d, ⟨st1, hok, rfl⟩, ?_⟩
    · rw [if_neg h1]; exact a
    · rw [if_neg h1]; exact ⟨F1, M, hrow, rfl⟩

theorem header_layout_witness :
    FloatOK intOps ∧ [65, 66, 65, 66, 67] ≠ [] ∧
    21 * [65, 66, 65, 66, 67].length < 20 * 2 ^ 31 ∧ (∀ b ∈ [65, 66, 65, 66, 67], b < 256) ∧
    ∃ tab pay blk, rans_compress intOps [65, 66, 65, 66, 67] 1 = Res.ok blk ∧
      blk = [if (1 : Int) ≠ 0 ∧ 4 ≤ [65, 66, 65, 66, 67].length then 1 else 0]
        ++ le32 (blk.length - 9) ++ le32 [65, 66, 65, 66, 67].length ++ (tab ++ pay) ∧
      blk.length = 9 + tab.length + pay.length ∧
      rd_le32 blk 1 = blk.length - 9 ∧ rd_le32 blk 5 = [65, 66, 65, 66, 67].length ∧
      (∃ st, StOK st ∧ pay = payload4 st) ∧
      (if (1 : Int) ≠ 0 ∧ 4 ≤ [65, 66, 65, 66, 67].length then tab = tab_O1 intOps [65, 66, 65, 66, 67]
        else ∃ F1 M, norm_row_O0 [65, 66, 65, 66, 67] = some (F1, M) ∧ tab = (enc_table F1).1) :=
  ⟨intOps_ok, by decide, by decide, by decide,
    header_layout intOps intOps_ok [65, 66, 65, 66, 67] (by decide) (by decide) (by decide) 1⟩

/-- Claim C7, counterexample: the frequency row that `rans_compress_O0`
normalises for the input "AAAA" sums to 4095, not to `TOTFREQ = 4096`. -/
theorem row_total_not_4096 :
    ∃ F1 M, norm_row_O0 [65, 65, 65, 65] = some (F1, M) ∧ cumul F1 256 = 4095 ∧
      cumul F1 256 ≠ TOTFREQ := by
  obtain ⟨F1, M, h1, h2⟩ := norm_row_O0_spec [65, 65, 65, 65] (by decide) (by decide)
  refine ⟨F1, M, h1, h2.1, ?_⟩
  rw [h2.1]
  decide

/-- Claim C7, as the code has it: for every non-empty input the frequency row
that `rans_compress_O0` normalises and writes into the block sums to
`TOTFREQ - 1 = 4095`, and on four bytes or more the normalisation in
`rans_compress_O1` of the row of every context that occurs comes to an end with a
row that sums to 4095. -/
theorem row_total_4095 (fl : FloatOps) (hfl : FloatOK fl) (s : List Nat) (hne : s ≠ [])
    (hsz : 21 * s.length < 20 * 2 ^ 31) (hb : ∀ b ∈ s, b < 256) :
    (∃ F1 M st, norm_row_O0 s = some (F1, M) ∧ cumul F1 256 = TOTFREQ - 1 ∧
      rans_compress_O0 s = Res.ok ([0] ++ le32 ((payload4 st).length + (enc_table F1).1.length)
        ++ le32 s.length ++ ((enc_table F1).1 ++ payload4 st))) ∧
    (4 ≤ s.length → ∀ c, c < 256 → (stats_O1 s).2 c ≠ 0 →
      normalise1 fl NORM_FUEL (fl.scale ((stats_O1 s).2 c)) ((stats_O1 s).1 c)
        = some (rows_O1 fl s c) ∧
      cumul (rows_O1 fl s c) 256 = TOTFREQ - 1) := by
  refine ⟨?_, fun hn c hc hT => ?_⟩
  · obtain ⟨F1, M, _, st1, hrow, hR, _, _, _, _, _, hcmp⟩ := compress0_facts s hne hsz hb
    exact ⟨F1, M, st1, hrow, hR.1, hcmp⟩
  · obtain ⟨hT1, _⟩ := stats_O1_spec s hn hb
    obtain ⟨h1, M, h2, _⟩ := nrow_spec fl hfl _ _ hT1 c hc hT
    exact ⟨h1, h2⟩

theorem row_total_4095_witness :
    FloatOK intOps ∧ [65, 66, 65, 66, 67] ≠ [] ∧
    21 * [65, 66, 65, 66, 67].length < 20 * 2 ^ 31 ∧ (∀ b ∈ [65, 66, 65, 66, 67], b < 256) ∧
    (∃ F1 M st, norm_row_O0 [65, 66, 65, 66, 67] = some (F1, M) ∧ cumul F1 256 = TOTFREQ - 1 ∧
      rans_compress_O0 [65, 66, 65, 66, 67]
        = Res.ok ([0] ++ le32 ((payload4 st).length + (enc_table F1).1.length)
          ++ le32 [65, 66, 65, 66, 67].length ++ ((enc_table F1).1 ++ payload4 st))) ∧
    (4 ≤ [65, 66, 65, 66, 67].length → ∀ c, c < 256 → (stats_O1 [65, 66, 65, 66, 67]).2 c ≠ 0 →
      normalise1 intOps NORM_FUEL (intOps.scale ((stats_O1 [65, 66, 65, 66, 67]).2 c))
          ((stats_O1 [65, 66, 65, 66, 67]).1 c)
        = some (rows_O1 intOps [65, 66, 65, 66, 67] c) ∧
      cumul (rows_O1 intOps [65, 66, 65, 66, 67] c) 256 = TOTFREQ - 1) :=
  ⟨intOps_ok, by decide, by decide, by decide,
    row_total_4095 intOps intOps_ok [65, 66, 65, 66, 67] (by decide) (by decide) (by decide)⟩

/-- Claim C8: for every non-empty input the normalisation of order 0 comes to an
end with a row `F1` in which a symbol has `F1 k >= 1` if and only if its count is
positive, that is if and only if it occurs in the input; the symbol `M` that is
adjusted keeps `F1 M > 0`, so that `assert(F[M]>0)` holds and `rans_compress_O0`
returns a block, and every byte of the input has a non-zero frequency. -/
theorem support_preserved (s : List Nat) (hne : s ≠ []) (hsz : 21 * s.length < 20 * 2 ^ 31)
    (hb : ∀ b ∈ s, b < 256) :
    ∃ F1 M, norm_row_O0 s = some (F1, M) ∧
      (∀ k, 1 ≤ F1 k ↔ 0 < hist8 s (fun _ => 0) k) ∧
      (∀ k, 0 < hist8 s (fun _ => 0) k ↔ k ∈ s) ∧
      M < 256 ∧ 0 < F1 M ∧ (∀ b ∈ s, F1 b ≠ 0) ∧
      ∃ blk, rans_compress_O0 s = Res.ok blk := by
  obtain ⟨F1, M, _, st1, hrow, hR, _, _, _, _, _, hcmp⟩ := compress0_facts s hne hsz hb
  obtain ⟨_, hsup, hM, hM256⟩ := hR
  have hcnt : ∀ k, 0 < hist8 s (fun _ => 0) k ↔ k ∈ s := by
    intro k
    rw [hist8_count s k hb]
    exact List.count_pos_iff
  have hker : ∀ k, F1 k ≠ 0 ↔ 0 < hist8 s (fun _ => 0) k := by
    intro k
    rw [hist8_count s k hb]
    have hk : F1 k ≠ 0 ↔ List.count k s ≠ 0 := hsup k
    rw [hk]
    omega
  refine ⟨F1, M, hrow, fun k => ?_, hcnt, hM256, by omega, fun b hbs => ?_, _, hcmp⟩
  · rw [← hker k]; omega
  · exact (hker b).mpr ((hcnt b).mpr hbs)

theorem support_preserved_witness :
    [65, 66, 65] ≠ [] ∧ 21 * [65, 66, 65].length < 20 * 2 ^ 31 ∧ (∀ b ∈ [65, 66, 65], b < 256) ∧
    ∃ F1 M, norm_row_O0 [65, 66, 65] = some (F1, M) ∧
      (∀ k, 1 ≤ F1 k ↔ 0 < hist8 [65, 66, 65] (fun _ => 0) k) ∧
      (∀ k, 0 < hist8 [65, 66, 65] (fun _ => 0) k ↔ k ∈ [65, 66, 65]) ∧
      M < 256 ∧ 0 < F1 M ∧ (∀ b ∈ [65, 66, 65], F1 b ≠ 0) ∧
      ∃ blk, rans_compress_O0 [65, 66, 65] = Res.ok blk :=
  ⟨by decide, by decide, by decide,
    support_preserved [65, 66, 65] (by decide) (by decide) (by decide)⟩

/-- Claim C9: for every frequency row `F` with a non-zero entry among the
symbols 0..255 and with the row sum 4095 or 4096 (so that every entry is at most
4096), the bytes that the table encoder of `rans_compress_O0` writes, followed by
16 bytes or more, are parsed by the table decoder of `rans_uncompress_O0`, which
stops right after the terminating 0 with `x` equal to the row sum, and leaves a
lookup in which every slot of `[C_s, C_s + F s)` gives the symbol `s`, the
frequency `F s` and the offset `slot - C_s`, whatever the lookup arrays held
before. -/
theorem table_codec_round_trip (F : Nat → Nat) (T : DecTab0) (rest : List Nat) (fuel : Nat)
    (hex : ∃ k, k < 256 ∧ F k ≠ 0) (hsum : cumul F 256 = 4095 ∨ cumul F 256 = 4096)
    (hrest : 16 ≤ rest.length) (hfuel : (enc_table F).1.length ≤ fuel) :
    ∃ T1, dec0_table fuel T ((enc_table F).1 ++ rest) = Res.ok (T1, cumul F 256, rest) ∧
      ∀ s, s < 256 → F s ≠ 0 → F s ≤ 4096 ∧
        ∀ slot, cumul F s ≤ slot → slot < cumul F s + F s →
          T1.ssym slot = s ∧ T1.sfreq slot = F s ∧ T1.sbase slot = slot - cumul F s := by
  obtain ⟨T1, h1, h2⟩ := dec0_table_enc F T rest fuel hex (by omega) hrest hfuel
  refine ⟨T1, h1, fun s hs hF => ⟨?_, fun slot a b => h2.2 s (by omega) hs hF slot a b⟩⟩
  have := le_cumul F 256 s hs
  omega

theorem table_codec_round_trip_witness :
    (∃ k, k < 256 ∧ (fun k => if k = 65 then 4095 else 0) k ≠ 0) ∧
    (cumul (fun k => if k = 65 then 4095 else 0) 256 = 4095 ∨
      cumul (fun k => if k = 65 then 4095 else 0) 256 = 4096) ∧
    16 ≤ (List.replicate 16 0).length ∧
    (enc_table (fun k => if k = 65 then 4095 else 0)).1.length ≤ 1025 ∧
    ∃ T1, dec0_table 1025 zeroTab0
        ((enc_table (fun k => if k = 65 then 4095 else 0)).1 ++ List.replicate 16 0)
        = Res.ok (T1, cumul (fun k => if k = 65 then 4095 else 0) 256, List.replicate 16 0) ∧
      ∀ s, s < 256 → (fun k => if k = 65 then 4095 else 0) s ≠ 0 →
        (fun k => if k = 65 then 4095 else 0) s ≤ 4096 ∧
        ∀ slot, cumul (fun k => if k = 65 then 4095 else 0) s ≤ slot →
          slot < cumul (fun k => if k = 65 then 4095 else 0) s
            + (fun k => if k = 65 then 4095 else 0) s →
          T1.ssym slot = s ∧ T1.sfreq slot = (fun k => if k = 65 then 4095 else 0) s ∧
            T1.sbase slot = slot - cumul (fun k => if k = 65 then 4095 else 0) s :=
  ⟨⟨65, by decide, by decide⟩,
    Or.inl (cumul_single _ 65 (by decide) (fun k hk => if_neg hk)),
    by decide, (enc_table_len _).2,
    table_codec_round_trip (fun k => if k = 65 then 4095 else 0) zeroTab0 (List.replicate 16 0)
      1025 ⟨65, by decide, by decide⟩
      (Or.inl (cumul_single _ 65 (by decide) (fun k hk => if_neg hk))) (by decide)
      (enc_table_len _).2⟩

/-- Claim C10, counterexample: for the input "AAAA" the table that
`rans_compress` with order 0 writes after the header is `41 8F FF 00`, not
`41 90 00 00`. -/
theorem single_symbol_not_9000 :
    ∃ blk, rans_compress intOps [65, 65, 65, 65] 0 = Res.ok blk ∧
      (blk.drop 9).take 4 = [0x41, 0x8F, 0xFF, 0x00] ∧
      (blk.drop 9).take 4 ≠ [0x41, 0x90, 0x00, 0x00] := by
  obtain ⟨F1, M, st, _, _, _, _, hc⟩ := single_symbol_block [65, 65, 65, 65] 65 (by decide)
    (by decide) (by decide) (by decide)
  refine ⟨_, by rw [compress_order0, hc], ?_, ?_⟩
  · simp [le32]
  · simp [le32]

/-- Claim C10, as the code has it: for every non-empty input that repeats one
byte value `b`, the normalised row of order 0 has the single entry
`TOTFREQ - 1 = 4095` at `b`, and the table that `rans_compress` with order 0
writes after the header is the four bytes `b, 0x8F, 0xFF, 0x00`, the frequency
4095 being written as the two bytes `8F FF`; the payload follows it. -/
theorem single_symbol_row (fl : FloatOps) (s : List Nat) (b : Nat) (hne : s ≠ [])
    (hsz : 21 * s.length < 20 * 2 ^ 31) (hb : b < 256) (hall : ∀ x ∈ s, x = b) :
    ∃ F1 M st, norm_row_O0 s = some (F1, M) ∧ F1 b = TOTFREQ - 1 ∧ (∀ k, k ≠ b → F1 k = 0) ∧
      (enc_table F1).1 = [b, 0x8F, 0xFF, 0x00] ∧
      rans_compress fl s 0 = Res.ok ([0] ++ le32 ((payload4 st).length + 4) ++ le32 s.length
        ++ ([b, 0x8F, 0xFF, 0x00] ++ payload4 st)) := by
  obtain ⟨F1, M, st, h1, h2, h3, h4, h5⟩ := single_symbol_block s b hne hsz hb hall
  exact ⟨F1, M, st, h1, h2, h3, h4, by rw [compress_order0, h5]⟩

theorem single_symbol_row_witness :
    [65, 65, 65, 65] ≠ [] ∧ 21 * [65, 65, 65, 65].length < 20 * 2 ^ 31 ∧ 65 < 256 ∧
    (∀ x ∈ [65, 65, 65, 65], x = 65) ∧
    ∃ F1 M st, norm_row_O0 [65, 65, 65, 65] = some (F1, M) ∧ F1 65 = TOTFREQ - 1 ∧
      (∀ k, k ≠ 65 → F1 k = 0) ∧ (enc_table F1).1 = [65, 0x8F, 0xFF, 0x00] ∧
      rans_compress intOps [65, 65, 65, 65] 0
        = Res.ok ([0] ++ le32 ((payload4 st).length + 4) ++ le32 [65, 65, 65, 65].length
          ++ ([65, 0x8F, 0xFF, 0x00] ++ payload4 st)) :=
  ⟨by decide, by decide, by decide, by decide,
    single_symbol_row intOps [65, 65, 65, 65] 65 (by decide) (by decide) (by decide)
      (by decide)⟩

/-- The header checks of `rans_uncompress` and of the two decoders. -/
theorem header_fail (T : DecTab0) (D : Nat → Nat → Nat)
    (syms : Nat → Nat → RansDecSymbol32) (inp : List Nat)
    (h : inp.length < 9 ∨ (inp.getD 0 0 ≠ 0 ∧ inp.getD 0 0 ≠ 1) ∨
      rd_le32 inp 1 ≠ inp.length - 9 ∨ rd_le32 inp 5 ≥ INT_MAX) :
    rans_uncompress T D syms inp = Res.fail := by
  unfold rans_uncompress
  by_cases h9 : inp.length < 9
  · rw [if_pos h9]
  · rw [if_neg h9]
    by_cases h0 : inp.getD 0 0 ≠ 0
    · rw [if_pos h0]
      unfold rans_uncompress_O1
      by_cases c1 : inp.length < 27
      · simp only [if_pos c1]
      · by_cases c2 : inp.getD 0 0 ≠ 1
        · simp only [if_neg c1, if_pos c2]
        · by_cases c3 : rd_le32 inp 1 ≠ inp.length - 9
          · simp only [if_neg c1, if_neg c2, if_pos c3]
          · by_cases c4 : rd_le32 inp 5 ≥ INT_MAX
            · simp only [if_neg c1, if_neg c2, if_neg c3, if_pos c4]
            · exfalso
              rcases h with h | ⟨_, h⟩ | h | h
              · exact h9 h
              · exact c2 h
              · exact c3 h
              · exact c4 h
    · rw [if_neg h0]
      unfold rans_uncompress_O0
      by_cases c1 : inp.length < 26
      · simp only [if_pos c1]
      · by_cases c3 : rd_le32 inp 1 ≠ inp.length - 9
        · simp only [if_neg c1, if_neg h0, if_pos c3]
        · by_cases c4 : rd_le32 inp 5 ≥ INT_MAX
          · simp only [if_neg c1, if_neg h0, if_neg c3, if_pos c4]
          · exfalso
            rcases h with h | ⟨h, _⟩ | h | h
            · exact h9 h
            · exact h0 h
            · exact c3 h
            · exact c4 h

/-- Claim C12: `rans_uncompress` returns failure for every input of fewer than 9
bytes, and for every input whose first byte is neither 0 nor 1, or whose
little-endian field at bytes 1..4 differs from `in_size - 9`, or whose
little-endian field at bytes 5..8 is `INT_MAX` or more. -/
theorem malformed_header_rejected (T : DecTab0) (D : Nat → Nat → Nat)
    (syms : Nat → Nat → RansDecSymbol32) (inp : List Nat)
    (h : inp.length < 9 ∨ (inp.getD 0 0 ≠ 0 ∧ inp.getD 0 0 ≠ 1) ∨
      rd_le32 inp 1 ≠ inp.length - 9 ∨ rd_le32 inp 5 ≥ INT_MAX) :
    rans_uncompress T D syms inp = Res.fail :=
  header_fail T D syms inp h

theorem malformed_header_rejected_witness :
    ((2 :: List.replicate 40 0).getD 0 0 ≠ 0 ∧ (2 :: List.replicate 40 0).getD 0 0 ≠ 1) ∧
    rans_uncompress zeroTab0 (fun _ _ => 0) (fun _ _ => { start := 0, freq := 0 })
      (2 :: List.replicate 40 0) = Res.fail :=
  ⟨⟨by decide, by decide⟩,
    malformed_header_rejected zeroTab0 (fun _ _ => 0) (fun _ _ => { start := 0, freq := 0 })
      (2 :: List.replicate 40 0) (Or.inr (Or.inl ⟨by decide, by decide⟩))⟩

theorem tr0_eq (n : Nat) :
    (((TOTFREQ <<< 31) % 2 ^ 64) / n + (1 <<< 30) / n) % 2 ^ 64
      = 8796093022208 / n + 1073741824 / n := by
  have e1 : (TOTFREQ <<< 31) % 2 ^ 64 = 8796093022208 := by decide
  have e2 : (1 <<< 30 : Nat) = 1073741824 := by decide
  rw [e1, e2]
  have a3 : 8796093022208 / n ≤ 8796093022208 := Nat.div_le_self _ _
  have a4 : 1073741824 / n ≤ 1073741824 := Nat.div_le_self _ _
  exact Nat.mod_eq_of_lt (by omega)

/-- The fixed-point product of the first pass of the normaliser of order 0: it
does not overflow 64 bits, it is within one of the floor of `f * TOTFREQ / n`,
and it is that floor or more when `(1 << 30) / n` is positive. -/
theorem scale0_bounds (n f : Nat) (hf : f ≤ n) (hn1 : 1 ≤ n) (hn : n < 2 ^ 31) :
    scale0 (8796093022208 / n + 1073741824 / n) f
      = f * (8796093022208 / n + 1073741824 / n) / 2 ^ 31 ∧
    (n ≤ 2 ^ 30 → f * 4096 / n ≤ scale0 (8796093022208 / n + 1073741824 / n) f) ∧
    f * 4096 / n ≤ scale0 (8796093022208 / n + 1073741824 / n) f + 1 ∧
    scale0 (8796093022208 / n + 1073741824 / n) f ≤ f * 4096 / n + 1 := by
  have a1 : n * (8796093022208 / n) ≤ 8796093022208 := Nat.mul_div_le _ _
  have a2 : n * (1073741824 / n) ≤ 1073741824 := Nat.mul_div_le _ _
  have b1 : 8796093022208 < n * (8796093022208 / n) + n := by
    have := Nat.lt_mul_div_succ 8796093022208 (show 0 < n by omega)
    rw [Nat.mul_add, Nat.mul_one] at this
    exact this
  have b3 : n ≤ 2 ^ 30 → n ≤ n * (1073741824 / n) := by
    intro h
    have : 1 ≤ 1073741824 / n := (Nat.le_div_iff_mul_le (by omega)).mpr (by omega)
    calc n = n * 1 := (Nat.mul_one n).symm
      _ ≤ n * (1073741824 / n) := Nat.mul_le_mul_left _ this
  generalize 8796093022208 / n = A at *
  generalize 1073741824 / n = B at *
  have hAB : n * (A + B) ≤ 8796093022208 + 1073741824 := by rw [Nat.mul_add]; omega
  have hfAB : f * (A + B) ≤ n * (A + B) := Nat.mul_le_mul_right _ hf
  have hs : scale0 (A + B) f = f * (A + B) / 2 ^ 31 := by
    unfold scale0
    rw [Nat.shiftRight_eq_div_pow, Nat.mod_eq_of_lt (by omega)]
  rw [hs]
  have q1 : f * 4096 / n * n ≤ f * 4096 := Nat.div_mul_le_self _ _
  refine ⟨rfl, ?_, ?_, ?_⟩
  · -- the floor is a lower bound when (1 << 30) / n is positive
    intro h30
    have hb3 := b3 h30
    rw [Nat.le_div_iff_mul_le (by norm_num)]
    have q2 : f * 4096 / n * 2 ^ 31 * n ≤ f * (A + B) * n := by
      have e1 : f * 4096 / n * 2 ^ 31 * n = (f * 4096 / n * n) * 2 ^ 31 := by ring
      have e2 : f * (A + B) * n = f * (n * (A + B)) := by ring
      rw [e1, e2]
      have q3 : f * 4096 / n * n * 2 ^ 31 ≤ f * 4096 * 2 ^ 31 := Nat.mul_le_mul_right _ q1
      have q4 : f * 4096 * 2 ^ 31 ≤ f * (n * (A + B)) := by
        have e3 : f * 4096 * 2 ^ 31 = f * 8796093022208 := by ring
        rw [e3]
        apply Nat.mul_le_mul_left
        rw [Nat.mul_add]
        omega
      omega
    exact Nat.le_of_mul_le_mul_right q2 (by omega)
  · -- at most one below the floor
    by_contra hc
    have hc2 : f * (A + B) / 2 ^ 31 + 2 ≤ f * 4096 / n := by omega
    have r1 : f * (A + B) < (f * (A + B) / 2 ^ 31 + 1) * 2 ^ 31 := by
      have := Nat.lt_mul_div_succ (f * (A + B)) (show 0 < 2 ^ 31 by norm_num)
      rw [Nat.mul_comm (2 ^ 31)] at this
      exact this
    -- (v + 2) * n ≤ f * 4096, so (v + 2) * n * 2^31 ≤ f * 2^43 < f * (n * A + n)
    have r2 : (f * (A + B) / 2 ^ 31 + 2) * n ≤ f * 4096 :=
      Nat.le_trans (Nat.mul_le_mul_right _ hc2) q1
    have r3 : (f * (A + B) / 2 ^ 31 + 2) * n * 2 ^ 31 ≤ f * 4096 * 2 ^ 31 :=
      Nat.mul_le_mul_right _ r2
    have r4 : f * 4096 * 2 ^ 31 ≤ f * (n * A + n) := by
      have e3 : f * 4096 * 2 ^ 31 = f * 8796093022208 := by ring
      rw [e3]
      exact Nat.mul_le_mul_left _ (by omega)
    have r5 : f * (n * A + n) ≤ f * (A + B) * n + f * n := by
      have e : f * (n * A + n) = f * A * n + f * n := by ring
      have e2 : f * (A + B) * n = f * A * n + f * B * n := by ring
      rw [e, e2]
      omega
    have r6 : f * (A + B) * n < (f * (A + B) / 2 ^ 31 + 1) * 2 ^ 31 * n :=
      Nat.mul_lt_mul_of_pos_right r1 (by omega)
    have r7 : (f * (A + B) / 2 ^ 31 + 2) * n * 2 ^ 31
        = (f * (A + B) / 2 ^ 31 + 1) * 2 ^ 31 * n + n * 2 ^ 31 := by ring
    have r8 : f * n ≤ n * 2 ^ 31 := by
      rw [Nat.mul_comm f n]
      exact Nat.mul_le_mul_left _ (by omega)
    omega
  · -- at most one above the floor
    by_contra hc
    have hc2 : f * 4096 / n + 2 ≤ f * (A + B) / 2 ^ 31 := by omega
    have r1 : (f * 4096 / n + 2) * 2 ^ 31 ≤ f * (A + B) :=
      (Nat.le_div_iff_mul_le (by norm_num)).mp hc2
    have r2 : f * 4096 < (f * 4096 / n + 1) * n := by
      have := Nat.lt_mul_div_succ (f * 4096) (show 0 < n by omega)
      rw [Nat.mul_comm n] at this
      exact this
    have r3 : (f * 4096 / n + 2) * 2 ^ 31 * n ≤ f * (A + B) * n := Nat.mul_le_mul_right _ r1
    have r4 : f * (A + B) * n ≤ f * (8796093022208 + 1073741824) := by
      have e2 : f * (A + B) * n = f * (n * (A + B)) := by ring
      rw [e2]
      exact Nat.mul_le_mul_left _ hAB
    have r5 : (f * 4096 / n + 2) * 2 ^ 31 * n
        = (f * 4096 / n + 1) * n * 2 ^ 31 + n * 2 ^ 31 := by ring
    have r6 : f * 4096 * 2 ^ 31 < (f * 4096 / n + 1) * n * 2 ^ 31 :=
      Nat.mul_lt_mul_of_pos_right r2 (by norm_num)
    have r7 : f * (8796093022208 + 1073741824) = f * 4096 * 2 ^ 31 + f * 1073741824 := by ring
    have r8 : f * 1073741824 ≤ n * 2 ^ 31 := by
      have : f * 1073741824 ≤ n * 1073741824 := Nat.mul_le_mul_right _ hf
      have : n * 1073741824 ≤ n * 2 ^ 31 := Nat.mul_le_mul_left _ (by norm_num)
      omega
    omega

/-- Claim C16, counterexample: on the input "AAAAAAB" (`T = 7`, `F['A'] = 6`) the
first pass of the normaliser of `rans_compress_O0` leaves `F['A'] = 3511`, while
`floor(6 * 4096 / 7) = 3510`. -/
theorem scale_step_not_floor :
    (norm_pass ((((TOTFREQ <<< 31) % 2 ^ 64) / 7 + (1 <<< 30) / 7) % 2 ^ 64) 256 0
      { F := hist8 [65, 65, 65, 65, 65, 65, 66] (fun _ => 0), fsum := 0, m := 0, M := 0 }).F 65
      = 3511 ∧
    hist8 [65, 65, 65, 65, 65, 65, 66] (fun _ => 0) 65 = 6 ∧
    6 * TOTFREQ / 7 = 3510 := by
  have h6 : hist8 [65, 65, 65, 65, 65, 65, 66] (fun _ => 0) 65 = 6 := by
    rw [hist8_count _ _ (by decide)]
    decide
  refine ⟨?_, h6, by decide⟩
  rw [norm_pass_eq, (full_pass _ _).2.1 65, h6, if_pos ⟨by decide, by decide⟩]
  decide

/-- Claim C16, as the code has it: for every non-empty input of length
`T < 2^31` and every symbol `s` with `F[s] > 0`, the first pass of the normaliser
of `rans_compress_O0` leaves in `F[s]` the value `v = floor(F[s] * tr / 2^31)`
with `tr = (TOTFREQ << 31)/T + (1 << 30)/T`, replaced by 1 when it is 0; the
product does not overflow 64 bits, `v` differs from `floor(F[s] * TOTFREQ / T)`
by one at most, and `v` is that floor or the floor plus one when `T <= 2^30`. -/
theorem scale_step_bounds (inp : List Nat) (hne : inp ≠ []) (hlen : inp.length < 2 ^ 31)
    (hb : ∀ b ∈ inp, b < 256) (s : Nat) (hs : 0 < hist8 inp (fun _ => 0) s) :
    ∃ v, (norm_pass ((((TOTFREQ <<< 31) % 2 ^ 64) / inp.length + (1 <<< 30) / inp.length)
        % 2 ^ 64) 256 0 { F := hist8 inp (fun _ => 0), fsum := 0, m := 0, M := 0 }).F s
      = (if v = 0 then 1 else v) ∧
    v = hist8 inp (fun _ => 0) s
        * ((TOTFREQ <<< 31) / inp.length + (1 <<< 30) / inp.length) / 2 ^ 31 ∧
    hist8 inp (fun _ => 0) s * ((TOTFREQ <<< 31) / inp.length + (1 <<< 30) / inp.length) < 2 ^ 64 ∧
    hist8 inp (fun _ => 0) s * TOTFREQ / inp.length ≤ v + 1 ∧
    v ≤ hist8 inp (fun _ => 0) s * TOTFREQ / inp.length + 1 ∧
    (inp.length ≤ 2 ^ 30 → hist8 inp (fun _ => 0) s * TOTFREQ / inp.length ≤ v) := by
  have hn1 : 1 ≤ inp.length := by
    cases inp with
    | nil => exact absurd rfl hne
    | cons a l => simp
  have hcnt := hist8_count inp s hb
  have hs256 : s < 256 := by
    by_contra hge
    have : inp.count s = 0 := List.count_eq_zero_of_not_mem (fun hm => hge (hb s hm))
    omega
  have hf : hist8 inp (fun _ => 0) s ≤ inp.length := by
    rw [hcnt]; exact List.count_le_length _ _
  obtain ⟨b1, b2, b3, b4⟩ := scale0_bounds inp.length (hist8 inp (fun _ => 0) s) hf hn1 hlen
  have e1 : (TOTFREQ <<< 31 : Nat) = 8796093022208 := by decide
  have e2 : (1 <<< 30 : Nat) = 1073741824 := by decide
  refine ⟨scale0 (8796093022208 / inp.length + 1073741824 / inp.length)
    (hist8 inp (fun _ => 0) s), ?_, ?_, ?_, b3, b4, b2⟩
  · rw [norm_pass_eq, (full_pass _ _).2.1 s, if_pos ⟨hs256, by omega⟩, tr0_eq]
    rfl
  · rw [b1, e1, e2]
  · rw [e1, e2]
    have a1 : inp.length * (8796093022208 / inp.length) ≤ 8796093022208 := Nat.mul_div_le _ _
    have a2 : inp.length * (1073741824 / inp.length) ≤ 1073741824 := Nat.mul_div_le _ _
    have a3 : hist8 inp (fun _ => 0) s * (8796093022208 / inp.length + 1073741824 / inp.length)
        ≤ inp.length * (8796093022208 / inp.length + 1073741824 / inp.length) :=
      Nat.mul_le_mul_right _ hf
    have a4 : inp.length * (8796093022208 / inp.length + 1073741824 / inp.length)
        = inp.length * (8796093022208 / inp.length) + inp.length * (1073741824 / inp.length) :=
      Nat.mul_add _ _ _
    omega

theorem scale_step_bounds_witness :
    [65, 65, 65, 65, 65, 65, 66] ≠ [] ∧ [65, 65, 65, 65, 65, 65, 66].length < 2 ^ 31 ∧
    (∀ b ∈ [65, 65, 65, 65, 65, 65, 66], b < 256) ∧
    0 < hist8 [65, 65, 65, 65, 65, 65, 66] (fun _ => 0) 65 ∧
    ∃ v, (norm_pass ((((TOTFREQ <<< 31) % 2 ^ 64) / [65, 65, 65, 65, 65, 65, 66].length
        + (1 <<< 30) / [65, 65, 65, 65, 65, 65, 66].length) % 2 ^ 64) 256 0
        { F := hist8 [65, 65, 65, 65, 65, 65, 66] (fun _ => 0), fsum := 0, m := 0, M := 0 }).F 65
      = (if v = 0 then 1 else v) ∧
    v = hist8 [65, 65, 65, 65, 65, 65, 66] (fun _ => 0) 65
        * ((TOTFREQ <<< 31) / [65, 65, 65, 65, 65, 65, 66].length
          + (1 <<< 30) / [65, 65, 65, 65, 65, 65, 66].length) / 2 ^ 31 ∧
    hist8 [65, 65, 65, 65, 65, 65, 66] (fun _ => 0) 65
        * ((TOTFREQ <<< 31) / [65, 65, 65, 65, 65, 65, 66].length
          + (1 <<< 30) / [65, 65, 65, 65, 65, 65, 66].length) < 2 ^ 64 ∧
    hist8 [65, 65, 65, 65, 65, 65, 66] (fun _ => 0) 65 * TOTFREQ
        / [65, 65, 65, 65, 65, 65, 66].length ≤ v + 1 ∧
    v ≤ hist8 [65, 65, 65, 65, 65, 65, 66] (fun _ => 0) 65 * TOTFREQ
        / [65, 65, 65, 65, 65, 65, 66].length + 1 ∧
    ([65, 65, 65, 65, 65, 65, 66].length ≤ 2 ^ 30 →
      hist8 [65, 65, 65, 65, 65, 65, 66] (fun _ => 0) 65 * TOTFREQ
        / [65, 65, 65, 65, 65, 65, 66].length ≤ v) :=
  have h6 : hist8 [65, 65, 65, 65, 65, 65, 66] (fun _ => 0) 65 = 6 := by
    rw [hist8_count _ _ (by decide)]
    decide
  ⟨by decide, by decide, by decide, by rw [h6]; decide,
    scale_step_bounds [65, 65, 65, 65, 65, 65, 66] (by decide) (by decide) (by decide) 65
      (by rw [h6]; decide)⟩

/-- One round of the inner table loop of the decoder of order 1 that reads the
frequency `f` (already turned into `TOTFREQ` when it is 0 on the wire) from
`fb`, and then the end of the row. -/
theorem dec1_row_last (m fuel : Nat) (S : Dec1) (j x f0 f : Nat) (fb tail : List Nat)
    (hrd : rd_freq (fb ++ 0 :: tail) = Res.ok (f0, 0 :: tail))
    (hf : f = if f0 = 0 then TOTFREQ else f0)
    (hlen : 16 ≤ (fb ++ 0 :: tail).length) (hx : x + f ≤ TOTFREQ) :
    dec1_row_loop m (fuel + 1) S j 0 x (fb ++ 0 :: tail)
      = Res.ok (dec1_fill m S x j f, x + f, tail) := by
  rw [dec1_row_loop, if_neg (by omega), hrd]
  simp only [Res.bind_ok, ← hf, peek, rd]
  rw [if_neg (by omega), if_pos trivial, if_neg (by omega), if_neg (by simp)]
  rfl

theorem rd_freq_9000 (tl : List Nat) :
    rd_freq ([0x90, 0x00] ++ 0 :: tl) = Res.ok (4096, 0 :: tl) := by
  have := rd_freq_bytes 4096 (0 :: tl) (by decide)
  have e : freq_bytes 4096 = [0x90, 0x00] := by decide
  rw [e] at this
  exact this

/-- Claim C20: in the table decoder of order 1, a row that holds the single
symbol `j` with the one-byte frequency `0x00` is parsed to the same tables as
the row with the two-byte frequency `0x90 0x00`: `syms[m][j]` is
`(start 0, freq TOTFREQ)`, the `TOTFREQ` slots of `D[m]` hold `j`, the row sum is
`TOTFREQ`, and the outer loop accepts the row in both forms. -/
theorem f0_alias (m fuel : Nat) (S : Dec1) (i j : Nat) (rest : List Nat) (hj : j < 256)
    (hrest : 16 ≤ rest.length) :
    dec1_row_loop m (fuel + 1) S j 0 0 (0x00 :: 0 :: rest)
      = dec1_row_loop m (fuel + 1) S j 0 0 (0x90 :: 0x00 :: 0 :: rest) ∧
    (∃ S1, dec1_row_loop m (fuel + 1) S j 0 0 (0x00 :: 0 :: rest) = Res.ok (S1, TOTFREQ, rest) ∧
      S1.syms m j = { start := 0, freq := TOTFREQ } ∧ ∀ slot, slot < TOTFREQ → S1.D m slot = j) ∧
    dec1_table_loop (fuel + 1) S i 0 (j :: 0x00 :: 0 :: 0 :: rest)
      = dec1_table_loop (fuel + 1) S i 0 (j :: 0x90 :: 0x00 :: 0 :: 0 :: rest) ∧
    ∃ S2, dec1_table_loop (fuel + 1) S i 0 (j :: 0x00 :: 0 :: 0 :: rest) = Res.ok (S2, rest) := by
  have r1 : ∀ (mm fu : Nat) (S0 : Dec1) (tl : List Nat), 14 ≤ tl.length →
      dec1_row_loop mm (fu + 1) S0 j 0 0 (0x00 :: 0 :: tl)
        = Res.ok (dec1_fill mm S0 0 j TOTFREQ, TOTFREQ, tl) := by
    intro mm fu S0 tl htl
    have := dec1_row_last mm fu S0 j 0 0 TOTFREQ [0] tl rfl rfl
      (by simp only [List.length_append, List.length_cons, List.length_nil]; omega)
      (by decide)
    simpa using this
  have r2 : ∀ (mm fu : Nat) (S0 : Dec1) (tl : List Nat), 14 ≤ tl.length →
      dec1_row_loop mm (fu + 1) S0 j 0 0 (0x90 :: 0x00 :: 0 :: tl)
        = Res.ok (dec1_fill mm S0 0 j TOTFREQ, TOTFREQ, tl) := by
    intro mm fu S0 tl htl
    have := dec1_row_last mm fu S0 j 0 4096 TOTFREQ [0x90, 0x00] tl (rd_freq_9000 tl) rfl
      (by simp only [List.length_append, List.length_cons, List.length_nil]; omega)
      (by decide)
    simpa using this
  have fx : ∀ (S0 : Dec1), (dec1_fill m S0 0 j TOTFREQ).syms m j = { start := 0, freq := TOTFREQ } ∧
      ∀ slot, slot < TOTFREQ → (dec1_fill m S0 0 j TOTFREQ).D m slot = j := by
    intro S0
    refine ⟨?_, fun slot hs => ?_⟩
    · show store2 (map_touch S0 j).syms m j _ m j = _
      unfold store2
      rw [if_pos ⟨rfl, rfl⟩]
    · show (if m = m then fill_loop ((map_touch S0 j).D m) 0 (fun _ => j % 256) TOTFREQ
        else (map_touch S0 j).D m) slot = j
      rw [if_pos rfl]
      unfold fill_loop
      rw [if_pos ⟨by omega, by omega⟩]
      exact Nat.mod_eq_of_lt hj
  have t1 : ∀ (tl : List Nat),
      dec1_row_loop ((map_touch S i).map i).toNat (tl.length + 1) (map_touch S i) j 0 0 tl
        = Res.ok (dec1_fill ((map_touch S i).map i).toNat (map_touch S i) 0 j TOTFREQ, TOTFREQ,
            0 :: rest) →
      dec1_table_loop (fuel + 1) S i 0 (j :: tl)
        = Res.ok (dec1_fill ((map_touch S i).map i).toNat (map_touch S i) 0 j TOTFREQ, rest) := by
    intro tl h
    rw [dec1_table_loop]
    have hrd : rd (j :: tl) = Res.ok (j, tl) := rfl
    have hl : (j :: tl).length = tl.length + 1 := rfl
    rw [hrd]
    simp only [Res.bind_ok, hl, h, TOTFREQ_eq, peek, rd]
    rw [if_neg (by omega)]
    simp only [if_neg (show ¬ (4096 < 4096) by omega)]
    rw [if_pos trivial, if_neg (by omega), if_neg (by simp)]
  have hl1 : 14 ≤ (0 :: rest).length := by
    simp only [List.length_cons]; omega
  have u1 := t1 (0x00 :: 0 :: 0 :: rest) (r1 _ _ _ (0 :: rest) hl1)
  have u2 := t1 (0x90 :: 0x00 :: 0 :: 0 :: rest) (r2 _ _ _ (0 :: rest) hl1)
  refine ⟨?_, ⟨_, r1 m fuel S rest (by omega), (fx S).1, (fx S).2⟩, ?_, _, u1⟩
  · rw [r1 m fuel S rest (by omega), r2 m fuel S rest (by omega)]
  · rw [u1, u2]

theorem f0_alias_witness :
    65 < 256 ∧ 16 ≤ (List.replicate 16 0).length ∧
    dec1_row_loop 0 (0 + 1) { D := fun _ _ => 0, syms := fun _ _ => { start := 0, freq := 0 }, map := fun _ => -1, map_i := 0 } 65 0 0
        (0x00 :: 0 :: List.replicate 16 0)
      = dec1_row_loop 0 (0 + 1) { D := fun _ _ => 0, syms := fun _ _ => { start := 0, freq := 0 }, map := fun _ => -1, map_i := 0 } 65 0 0
        (0x90 :: 0x00 :: 0 :: List.replicate 16 0) ∧
    (∃ S1, dec1_row_loop 0 (0 + 1) { D := fun _ _ => 0, syms := fun _ _ => { start := 0, freq := 0 }, map := fun _ => -1, map_i := 0 } 65 0 0
        (0x00 :: 0 :: List.replicate 16 0) = Res.ok (S1, TOTFREQ, List.replicate 16 0) ∧
      S1.syms 0 65 = { start := 0, freq := TOTFREQ } ∧ ∀ slot, slot < TOTFREQ → S1.D 0 slot = 65) ∧
    dec1_table_loop (0 + 1) { D := fun _ _ => 0, syms := fun _ _ => { start := 0, freq := 0 }, map := fun _ => -1, map_i := 0 } 0 0
        (65 :: 0x00 :: 0 :: 0 :: List.replicate 16 0)
      = dec1_table_loop (0 + 1) { D := fun _ _ => 0, syms := fun _ _ => { start := 0, freq := 0 }, map := fun _ => -1, map_i := 0 } 0 0
        (65 :: 0x90 :: 0x00 :: 0 :: 0 :: List.replicate 16 0) ∧
    ∃ S2, dec1_table_loop (0 + 1) { D := fun _ _ => 0, syms := fun _ _ => { start := 0, freq := 0 }, map := fun _ => -1, map_i := 0 } 0 0
        (65 :: 0x00 :: 0 :: 0 :: List.replicate 16 0) = Res.ok (S2, List.replicate 16 0) :=
  ⟨by decide, by decide,
    f0_alias 0 0 { D := fun _ _ => 0, syms := fun _ _ => { start := 0, freq := 0 }, map := fun _ => -1, map_i := 0 } 0 65
      (List.replicate 16 0) (by decide) (by decide)⟩

/-- Claim C19: the block `01 | 22 | 4 | 41 42 8F FF 00 00 | FF FF 80 00 (x4)` of
order 1 has one context, `0x41`, whose row gives the symbol `0x42` the frequency
`TOTFREQ - 1`.  The context gets the dense id 0 and the row fills
`D[0].R[0 .. 4094]`, but the slot `TOTFREQ - 1` is filled in `D[0x41]`, the table
with the raw context as index: `D[0].R[4095]` keeps the content it had on entry
and `D[0x41].R[4095]` is overwritten with `D[0x41].R[4094]`.  The four states of
the block start in slot 4095, and with zeroed tables the call returns four bytes
`00` where the row has the symbol `0x42` only. -/
theorem fill_uses_raw_context (D : Nat → Nat → Nat) (syms : Nat → Nat → RansDecSymbol32) :
    (∃ S, dec1_table_loop 31 { D := D, syms := syms, map := fun _ => -1, map_i := 0 } 0x41 0
        [0x42, 0x8F, 0xFF, 0x00, 0x00, 0xFF, 0xFF, 0x80, 0x00, 0xFF, 0xFF, 0x80, 0x00,
          0xFF, 0xFF, 0x80, 0x00, 0xFF, 0xFF, 0x80, 0x00]
        = Res.ok (S, [0xFF, 0xFF, 0x80, 0x00, 0xFF, 0xFF, 0x80, 0x00,
          0xFF, 0xFF, 0x80, 0x00, 0xFF, 0xFF, 0x80, 0x00]) ∧
      S.map 0x41 = 0 ∧ S.D 0 (TOTFREQ - 2) = 0x42 ∧ S.D 0 (TOTFREQ - 1) = D 0 (TOTFREQ - 1) ∧
      S.D 0x41 (TOTFREQ - 1) = D 0x41 (TOTFREQ - 2)) ∧
    rans_uncompress zeroTab0 (fun _ _ => 0) (fun _ _ => { start := 0, freq := 0 })
        [1, 22, 0, 0, 0, 4, 0, 0, 0, 0x41, 0x42, 0x8F, 0xFF, 0x00, 0x00,
          0xFF, 0xFF, 0x80, 0x00, 0xFF, 0xFF, 0x80, 0x00, 0xFF, 0xFF, 0x80, 0x00,
          0xFF, 0xFF, 0x80, 0x00]
      = Res.ok [0, 0, 0, 0] :=
  ⟨⟨_, rfl, rfl, rfl, rfl, rfl⟩, rfl⟩

theorem returns_ok {α : Type} (a : α) : Returns (Res.ok a) :=
  ⟨fun h => Res.noConfusion h, fun h => Res.noConfusion h⟩

theorem returns_fail {α : Type} : Returns (Res.fail : Res α) :=
  ⟨fun h => Res.noConfusion h, fun h => Res.noConfusion h⟩

theorem returns_cases {α : Type} (r : Res α) (h : Returns r) : r = Res.fail ∨ ∃ a, r = Res.ok a := by
  cases r with
  | ok a => exact Or.inr ⟨a, rfl⟩
  | fail => exact Or.inl rfl
  | ub => exact absurd rfl h.1
  | diverge => exact absurd rfl h.2

theorem returns_bind {α β : Type} (r : Res α) (f : α → Res β) (hr : Returns r)
    (hf : ∀ a, r = Res.ok a → Returns (f a)) : Returns (r.bind f) := by
  cases r with
  | ok a => exact hf a rfl
  | fail => exact returns_fail
  | ub => exact absurd rfl hr.1
  | diverge => exact absurd rfl hr.2

theorem list_two (l : List Nat) (h : 2 ≤ l.length) : ∃ a b t, l = a :: b :: t := by
  match l, h with
  | a :: b :: t, _ => exact ⟨a, b, t, rfl⟩

/-- A frequency read with two bytes or more ahead reads one or two of them. -/
theorem rd_freq_ok (cp : List Nat) (h : 2 ≤ cp.length) :
    ∃ f rest, rd_freq cp = Res.ok (f, rest) ∧ rest.length < cp.length ∧
      cp.length ≤ rest.length + 2 := by
  obtain ⟨a, b, t, rfl⟩ := list_two cp h
  unfold rd_freq
  simp only [rd, Res.bind_ok]
  by_cases ha : a ≥ 128
  · rw [if_pos ha]
    exact ⟨_, _, rfl, by simp only [List.length_cons]; omega, by simp only [List.length_cons]; omega⟩
  · rw [if_neg ha]
    exact ⟨_, _, rfl, by simp only [List.length_cons]; omega, by simp only [List.length_cons]; omega⟩

theorem rd_ok (cp : List Nat) (h : 1 ≤ cp.length) :
    ∃ a t, cp = a :: t ∧ rd cp = Res.ok (a, t) ∧ peek cp = Res.ok a := by
  match cp, h with
  | a :: t, _ => exact ⟨a, t, rfl, rfl, rfl⟩

/-- The table loop of the decoder of order 0 on any bytes: with a budget above
the number of bytes ahead it returns, with a failure or with a result, and never
reads past the end of the input. -/
theorem dec0_table_loop_returns (fuel : Nat) : ∀ (T : DecTab0) (j rle x : Nat) (cp : List Nat),
    cp.length < fuel → Returns (dec0_table_loop fuel T j rle x cp) := by
  induction fuel with
  | zero => intro T j rle x cp h; omega
  | succ fuel ih =>
    intro T j rle x cp h
    rw [dec0_table_loop]
    by_cases h16 : cp.length < 16
    · rw [if_pos h16]; exact returns_fail
    · rw [if_neg h16]
      obtain ⟨f, rest, hrd, hl1, hl2⟩ := rd_freq_ok cp (by omega)
      rw [hrd]
      simp only [Res.bind_ok]
      by_cases hx : f + x > TOTFREQ
      · rw [if_pos hx]; exact returns_fail
      · rw [if_neg hx]
        obtain ⟨a, b, t, rfl⟩ := list_two rest (by omega)
        simp only [List.length_cons] at hl1 hl2
        simp only [peek, rd, Res.bind_ok]
        split_ifs
        · exact ih _ _ _ _ _ (by omega)
        · exact returns_ok _
        · exact ih _ _ _ _ _ (by simp only [List.length_cons]; omega)
        · exact returns_ok _
        · exact returns_fail
        · exact ih _ _ _ _ _ (by simp only [List.length_cons]; omega)

/-- A run of the table of order 0 that steps past the symbol 255 is rejected. -/
theorem dec0_run_past_255 (fuel : Nat) : ∀ (T : DecTab0) (j rle x : Nat) (cp : List Nat),
    0 < rle → 255 < j + rle → cp.length < fuel →
    dec0_table_loop fuel T j rle x cp = Res.fail := by
  induction fuel with
  | zero => intro T j rle x cp _ _ h; omega
  | succ fuel ih =>
    intro T j rle x cp hr hj h
    rw [dec0_table_loop]
    by_cases h16 : cp.length < 16
    · rw [if_pos h16]
    · rw [if_neg h16]
      obtain ⟨f, rest, hrd, hl1, hl2⟩ := rd_freq_ok cp (by omega)
      rw [hrd]
      simp only [Res.bind_ok]
      by_cases hx : f + x > TOTFREQ
      · rw [if_pos hx]
      · rw [if_neg hx, if_neg (by omega)]
        by_cases h255 : j + 1 > 255
        · rw [if_pos h255]
        · rw [if_neg h255]
          exact ih _ _ _ _ _ (by omega) (by omega) (by omega)

/-- The row loop of the decoder of order 1 on any bytes: with a budget above the
number of bytes ahead it returns, and a result leaves 12 bytes or more. -/
theorem dec1_row_loop_returns (m fuel : Nat) : ∀ (S : Dec1) (j rle x : Nat) (cp : List Nat),
    cp.length < fuel →
    dec1_row_loop m fuel S j rle x cp = Res.fail ∨
    ∃ S1 x1 cp1, dec1_row_loop m fuel S j rle x cp = Res.ok (S1, x1, cp1) ∧
      12 ≤ cp1.length ∧ cp1.length < cp.length := by
  induction fuel with
  | zero => intro S j rle x cp h; omega
  | succ fuel ih =>
    intro S j rle x cp h
    rw [dec1_row_loop]
    by_cases h16 : cp.length < 16
    · simp only [if_pos h16, true_or]
    · simp only [if_neg h16]
      obtain ⟨f, rest, hrd, hl1, hl2⟩ := rd_freq_ok cp (by omega)
      rw [hrd]
      simp only [Res.bind_ok]
      generalize (if f = 0 then TOTFREQ else f) = F
      by_cases hx : x + F > TOTFREQ
      · simp only [if_pos hx, true_or]
      · simp only [if_neg hx]
        obtain ⟨a, b, t, rfl⟩ := list_two rest (by omega)
        simp only [List.length_cons] at hl1 hl2
        simp only [peek, rd, Res.bind_ok]
        have step : ∀ (S0 : Dec1) (j0 r0 x0 : Nat) (c0 : List Nat), c0.length < fuel →
            c0.length < cp.length →
            dec1_row_loop m fuel S0 j0 r0 x0 c0 = Res.fail ∨
            ∃ S1 x1 cp1, dec1_row_loop m fuel S0 j0 r0 x0 c0 = Res.ok (S1, x1, cp1) ∧
              12 ≤ cp1.length ∧ cp1.length < cp.length := by
          intro S0 j0 r0 x0 c0 hc hc2
          rcases ih S0 j0 r0 x0 c0 hc with e | ⟨S1, x1, cp1, e, h1, h2⟩
          · exact Or.inl e
          · exact Or.inr ⟨S1, x1, cp1, e, h1, by omega⟩
        split_ifs
        · exact step _ _ _ _ _ (by omega) (by omega)
        · exact Or.inr ⟨_, _, _, rfl, by omega, by omega⟩
        · exact step _ _ _ _ _ (by simp only [List.length_cons]; omega)
            (by simp only [List.length_cons]; omega)
        · exact Or.inr ⟨_, _, _, rfl, by simp only [List.length_cons]; omega,
            by simp only [List.length_cons]; omega⟩
        · exact Or.inl rfl
        · exact step _ _ _ _ _ (by simp only [List.length_cons]; omega)
            (by simp only [List.length_cons]; omega)

/-- A run of a row of order 1 that steps past the symbol 255 is rejected. -/
theorem dec1_run_past_255 (m fuel : Nat) : ∀ (S : Dec1) (j rle x : Nat) (cp : List Nat),
    0 < rle → 255 < j + rle → cp.length < fuel →
    dec1_row_loop m fuel S j rle x cp = Res.fail := by
  induction fuel with
  | zero => intro S j rle x cp _ _ h; omega
  | succ fuel ih =>
    intro S j rle x cp hr hj h
    rw [dec1_row_loop]
    by_cases h16 : cp.length < 16
    · simp only [if_pos h16]
    · simp only [if_neg h16]
      obtain ⟨f, rest, hrd, hl1, hl2⟩ := rd_freq_ok cp (by omega)
      rw [hrd]
      simp only [Res.bind_ok]
      generalize (if f = 0 then TOTFREQ else f) = F
      by_cases hx : x + F > TOTFREQ
      · simp only [if_pos hx]
      · simp only [if_neg hx]
        rw [if_neg (by omega)]
        by_cases h255 : j + 1 > 255
        · rw [if_pos h255]
        · rw [if_neg h255]
          exact ih _ _ _ _ _ (by omega) (by omega) (by omega)

/-- The loop with the ghost list and the loop of the source return the same
tables and cursor. -/
theorem dec1_table_sums_loop (fuel : Nat) : ∀ (S : Dec1) (i rle : Nat) (cp acc : List Nat),
    (dec1_table_sums fuel S i rle cp acc).bind (fun r => Res.ok (r.1, r.2.1))
      = dec1_table_loop fuel S i rle cp := by
  induction fuel with
  | zero => intro S i rle cp acc; rfl
  | succ fuel ih =>
    intro S i rle cp acc
    rw [dec1_table_sums, dec1_table_loop]
    cases h1 : rd cp with
    | fail => rfl
    | ub => rfl
    | diverge => rfl
    | ok jc =>
      simp only [Res.bind_ok]
      cases h2 : dec1_row_loop ((map_touch S i).map i).toNat cp.length (map_touch S i) jc.1 0 0 jc.2 with
      | fail => rfl
      | ub => rfl
      | diverge => rfl
      | ok r =>
        simp only [Res.bind_ok]
        by_cases hx : r.2.1 < TOTFREQ - 1 ∨ r.2.1 > TOTFREQ
        · simp only [if_pos hx, Res.bind_fail]
        · simp only [if_neg hx]
          by_cases hr : rle = 0
          · simp only [if_pos hr]
            cases h3 : peek r.2.2 with
            | fail => rfl
            | ub => rfl
            | diverge => rfl
            | ok c =>
              simp only [Res.bind_ok]
              by_cases hc : i + 1 = c
              · simp only [if_pos hc]
                cases h4 : rd r.2.2 with
                | fail => rfl
                | ub => rfl
                | diverge => rfl
                | ok ic =>
                  simp only [Res.bind_ok]
                  cases h5 : rd ic.2 with
                  | fail => rfl
                  | ub => rfl
                  | diverge => rfl
                  | ok rc =>
                    simp only [Res.bind_ok]
                    by_cases hi : ic.1 ≠ 0
                    · simp only [if_pos hi]; exact ih _ _ _ _ _
                    · simp only [if_neg hi, Res.bind_ok]
              · simp only [if_neg hc]
                cases h4 : rd r.2.2 with
                | fail => rfl
                | ub => rfl
                | diverge => rfl
                | ok ic =>
                  simp only [Res.bind_ok]
                  by_cases hi : ic.1 ≠ 0
                  · simp only [if_pos hi]; exact ih _ _ _ _ _
                  · simp only [if_neg hi, Res.bind_ok]
          · simp only [if_neg hr]
            by_cases h255 : i + 1 > 255
            · simp only [if_pos h255, Res.bind_fail]
            · simp only [if_neg h255]; exact ih _ _ _ _ _

/-- Every row sum that the loop with the ghost list returns, beyond those it was
given, is `TOTFREQ - 1` or `TOTFREQ`, and there is one at least. -/
theorem dec1_table_sums_range (fuel : Nat) : ∀ (S : Dec1) (i rle : Nat) (cp acc : List Nat)
    (r : Dec1 × List Nat × List Nat), dec1_table_sums fuel S i rle cp acc = Res.ok r →
    ∃ l, r.2.2 = acc ++ l ∧ l ≠ [] ∧ ∀ x ∈ l, x = TOTFREQ - 1 ∨ x = TOTFREQ := by
  induction fuel with
  | zero => intro S i rle cp acc r h; exact Res.noConfusion h
  | succ fuel ih =>
    intro S i rle cp acc r h
    rw [dec1_table_sums] at h
    cases h1 : rd cp with
    | fail => rw [h1] at h; exact Res.noConfusion h
    | ub => rw [h1] at h; exact Res.noConfusion h
    | diverge => rw [h1] at h; exact Res.noConfusion h
    | ok jc =>
      rw [h1] at h
      simp only [Res.bind_ok] at h
      cases h2 : dec1_row_loop ((map_touch S i).map i).toNat cp.length (map_touch S i) jc.1 0 0 jc.2 with
      | fail => rw [h2] at h; exact Res.noConfusion h
      | ub => rw [h2] at h; exact Res.noConfusion h
      | diverge => rw [h2] at h; exact Res.noConfusion h
      | ok q =>
        rw [h2] at h
        simp only [Res.bind_ok] at h
        by_cases hx : q.2.1 < TOTFREQ - 1 ∨ q.2.1 > TOTFREQ
        · rw [if_pos hx] at h; exact Res.noConfusion h
        · rw [if_neg hx] at h
          have hq : q.2.1 = TOTFREQ - 1 ∨ q.2.1 = TOTFREQ := by
            rw [TOTFREQ_eq] at hx ⊢; omega
          have fin : ∀ (S2 : Dec1) (c2 : List Nat), Res.ok (S2, c2, acc ++ [q.2.1]) = Res.ok r →
              ∃ l, r.2.2 = acc ++ l ∧ l ≠ [] ∧ ∀ x ∈ l, x = TOTFREQ - 1 ∨ x = TOTFREQ := by
            intro S2 c2 e
            have e2 : (S2, c2, acc ++ [q.2.1]) = r := Res.ok.inj e
            refine ⟨[q.2.1], by rw [← e2], by simp, ?_⟩
            intro x hx2
            rw [List.mem_singleton] at hx2
            rw [hx2]; exact hq
          have rec : ∀ (S2 : Dec1) (i2 r2 : Nat) (c2 : List Nat),
              dec1_table_sums fuel S2 i2 r2 c2 (acc ++ [q.2.1]) = Res.ok r →
              ∃ l, r.2.2 = acc ++ l ∧ l ≠ [] ∧ ∀ x ∈ l, x = TOTFREQ - 1 ∨ x = TOTFREQ := by
            intro S2 i2 r2 c2 e
            obtain ⟨l, e1, -, e3⟩ := ih S2 i2 r2 c2 _ r e
            refine ⟨q.2.1 :: l, by rw [e1, List.append_assoc]; rfl, by simp, ?_⟩
            intro x hx2
            rcases List.mem_cons.mp hx2 with e4 | e4
            · rw [e4]; exact hq
            · exact e3 x e4
          by_cases hr : rle = 0
          · rw [if_pos hr] at h
            cases h3 : peek q.2.2 with
            | fail => rw [h3] at h; exact Res.noConfusion h
            | ub => rw [h3] at h; exact Res.noConfusion h
            | diverge => rw [h3] at h; exact Res.noConfusion h
            | ok c =>
              rw [h3] at h
              simp only [Res.bind_ok] at h
              by_cases hc : i + 1 = c
              · rw [if_pos hc] at h
                cases h4 : rd q.2.2 with
                | fail => rw [h4] at h; exact Res.noConfusion h
                | ub => rw [h4] at h; exact Res.noConfusion h
                | diverge => rw [h4] at h; exact Res.noConfusion h
                | ok ic =>
                  rw [h4] at h
                  simp only [Res.bind_ok] at h
                  cases h5 : rd ic.2 with
                  | fail => rw [h5] at h; exact Res.noConfusion h
                  | ub => rw [h5] at h; exact Res.noConfusion h
                  | diverge => rw [h5] at h; exact Res.noConfusion h
                  | ok rc =>
                    rw [h5] at h
                    simp only [Res.bind_ok] at h
                    by_cases hi : ic.1 ≠ 0
                    · rw [if_pos hi] at h; exact rec _ _ _ _ h
                    · rw [if_neg hi] at h; exact fin _ _ h
              · rw [if_neg hc] at h
                cases h4 : rd q.2.2 with
                | fail => rw [h4] at h; exact Res.noConfusion h
                | ub => rw [h4] at h; exact Res.noConfusion h
                | diverge => rw [h4] at h; exact Res.noConfusion h
                | ok ic =>
                  rw [h4] at h
                  simp only [Res.bind_ok] at h
                  by_cases hi : ic.1 ≠ 0
                  · rw [if_pos hi] at h; exact rec _ _ _ _ h
                  · rw [if_neg hi] at h; exact fin _ _ h
          · rw [if_neg hr] at h
            by_cases h255 : i + 1 > 255
            · rw [if_pos h255] at h; exact Res.noConfusion h
            · rw [if_neg h255] at h; exact rec _ _ _ _ h

/-- What a successful call of `rans_uncompress_O0` says about the table. -/
theorem uncompress0_ok_table (T : DecTab0) (inp out : List Nat)
    (h : rans_uncompress_O0 T inp = Res.ok out) :
    ∃ T1 x cp, dec0_table inp.length T (inp.drop 9) = Res.ok (T1, x, cp) ∧
      (x = TOTFREQ - 1 ∨ x = TOTFREQ) ∧ 16 ≤ cp.length ∧ inp.getD 0 0 = 0 ∧ 26 ≤ inp.length ∧
      rd_le32 inp 1 = inp.length - 9 ∧ rd_le32 inp 5 < INT_MAX ∧ out.length = rd_le32 inp 5 := by
  unfold rans_uncompress_O0 at h
  by_cases c1 : inp.length < 26
  · simp only [if_pos c1] at h; exact Res.noConfusion h
  by_cases c2 : inp.getD 0 0 ≠ 0
  · simp only [if_neg c1, if_pos c2] at h; exact Res.noConfusion h
  by_cases c3 : rd_le32 inp 1 ≠ inp.length - 9
  · simp only [if_neg c1, if_neg c2, if_pos c3] at h; exact Res.noConfusion h
  by_cases c4 : rd_le32 inp 5 ≥ INT_MAX
  · simp only [if_neg c1, if_neg c2, if_neg c3, if_pos c4] at h; exact Res.noConfusion h
  simp only [if_neg c1, if_neg c2, if_neg c3, if_neg c4] at h
  cases h1 : dec0_table inp.length T (inp.drop 9) with
  | fail => rw [h1] at h; exact Res.noConfusion h
  | ub => rw [h1] at h; exact Res.noConfusion h
  | diverge => rw [h1] at h; exact Res.noConfusion h
  | ok r =>
    rw [h1] at h
    simp only [Res.bind_ok] at h
    by_cases c5 : r.2.1 < TOTFREQ - 1 ∨ r.2.1 > TOTFREQ
    · rw [if_pos c5] at h; exact Res.noConfusion h
    rw [if_neg c5] at h
    by_cases c6 : r.2.2.length < 16
    · rw [if_pos c6] at h; exact Res.noConfusion h
    rw [if_neg c6] at h
    refine ⟨r.1, r.2.1, r.2.2, rfl, by rw [TOTFREQ_eq] at c5 ⊢; omega, by omega,
      not_not.mp c2, by omega, not_not.mp c3, by omega, ?_⟩
    cases h2 : dec_init4 r.2.2 with
    | fail => rw [h2] at h; exact Res.noConfusion h
    | ub => rw [h2] at h; exact Res.noConfusion h
    | diverge => rw [h2] at h; exact Res.noConfusion h
    | ok st =>
      rw [h2] at h
      simp only [Res.bind_ok] at h
      cases h3 : dec0_loop r.1 ((rd_le32 inp 5 &&& 0xFFFFFFFC) / 4) 0 st (fun _ => 0) with
      | fail => rw [h3] at h; exact Res.noConfusion h
      | ub => rw [h3] at h; exact Res.noConfusion h
      | diverge => rw [h3] at h; exact Res.noConfusion h
      | ok e =>
        rw [h3] at h
        simp only [Res.bind_ok] at h
        have := Res.ok.inj h
        rw [← this]
        simp

/-- What a successful call of `rans_uncompress_O1` says about the table. -/
theorem uncompress1_ok_table (D : Nat → Nat → Nat) (syms : Nat → Nat → RansDecSymbol32)
    (inp out : List Nat) (h : rans_uncompress_O1 D syms inp = Res.ok out) :
    ∃ i cp S1 cp1, rd (inp.drop 9) = Res.ok (i, cp) ∧
      dec1_table_loop inp.length { D := D, syms := syms, map := fun _ => -1, map_i := 0 } i 0 cp
        = Res.ok (S1, cp1) ∧ 16 ≤ cp1.length ∧ inp.getD 0 0 = 1 ∧ 27 ≤ inp.length ∧
      rd_le32 inp 1 = inp.length - 9 ∧ rd_le32 inp 5 < INT_MAX ∧ out.length = rd_le32 inp 5 := by
  unfold rans_uncompress_O1 at h
  by_cases c1 : inp.length < 27
  · simp only [if_pos c1] at h; exact Res.noConfusion h
  by_cases c2 : inp.getD 0 0 ≠ 1
  · simp only [if_neg c1, if_pos c2] at h; exact Res.noConfusion h
  by_cases c3 : rd_le32 inp 1 ≠ inp.length - 9
  · simp only [if_neg c1, if_neg c2, if_pos c3] at h; exact Res.noConfusion h
  by_cases c4 : rd_le32 inp 5 ≥ INT_MAX
  · simp only [if_neg c1, if_neg c2, if_neg c3, if_pos c4] at h; exact Res.noConfusion h
  simp only [if_neg c1, if_neg c2, if_neg c3, if_neg c4] at h
  cases h0 : rd (inp.drop 9) with
  | fail => rw [h0] at h; exact Res.noConfusion h
  | ub => rw [h0] at h; exact Res.noConfusion h
  | diverge => rw [h0] at h; exact Res.noConfusion h
  | ok ic =>
    rw [h0] at h
    simp only [Res.bind_ok] at h
    cases h1 : dec1_table_loop inp.length { D := D, syms := syms, map := fun _ => -1, map_i := 0 }
        ic.1 0 ic.2 with
    | fail => rw [h1] at h; exact Res.noConfusion h
    | ub => rw [h1] at h; exact Res.noConfusion h
    | diverge => rw [h1] at h; exact Res.noConfusion h
    | ok r =>
      rw [h1] at h
      simp only [Res.bind_ok] at h
      by_cases c6 : r.2.length < 16
      · rw [if_pos c6] at h; exact Res.noConfusion h
      rw [if_neg c6] at h
      refine ⟨ic.1, ic.2, r.1, r.2, rfl, h1, by omega, not_not.mp c2, by omega, not_not.mp c3,
        by omega, ?_⟩
      cases h2 : dec_init4 r.2 with
      | fail => rw [h2] at h; exact Res.noConfusion h
      | ub => rw [h2] at h; exact Res.noConfusion h
      | diverge => rw [h2] at h; exact Res.noConfusion h
      | ok st =>
        rw [h2] at h
        simp only [Res.bind_ok] at h
        revert h
        generalize dec1_loop _ _ _ _ _ _ _ _ = q
        intro h
        cases q with
        | fail => exact Res.noConfusion h
        | ub => exact Res.noConfusion h
        | diverge => exact Res.noConfusion h
        | ok e =>
          simp only [Res.bind_ok] at h
          have := Res.ok.inj h
          rw [← this]
          simp

/-- A row of order 1 that fails, or whose sum is out of range, makes the outer
loop fail. -/
theorem dec1_table_row_fail (fuel : Nat) (S : Dec1) (i rle : Nat) (cp : List Nat) (j : Nat)
    (cp1 : List Nat) (hrd : rd cp = Res.ok (j, cp1))
    (h : dec1_row_loop ((map_touch S i).map i).toNat cp.length (map_touch S i) j 0 0 cp1 = Res.fail ∨
      ∃ S1 x cp2, dec1_row_loop ((map_touch S i).map i).toNat cp.length (map_touch S i) j 0 0 cp1
        = Res.ok (S1, x, cp2) ∧ (x < TOTFREQ - 1 ∨ TOTFREQ < x)) :
    dec1_table_loop (fuel + 1) S i rle cp = Res.fail := by
  rw [dec1_table_loop, hrd]
  simp only [Res.bind_ok]
  rcases h with e | ⟨S1, x, cp2, e, hx⟩
  · rw [e]; rfl
  · rw [e]
    simp only [Res.bind_ok]
    rw [if_pos hx]

/-- Claim C15: when `rans_uncompress` returns a result, the cumulative sum of
every frequency row parsed from the table is `TOTFREQ - 1` or `TOTFREQ`: the one
row of order 0, and each row of a context of order 1 (the rows as the outer loop
parses them, collected in order by `dec1_table_sums`).  A table parse of order 0
or of order 1 that fails makes the call return the failure, and so does a row
sum of order 0 below `TOTFREQ - 1` or above `TOTFREQ`; a row of order 1 that
fails or has such a sum makes the outer loop fail; and a run of symbols that
steps past the symbol 255 makes the row loops fail. -/
theorem malformed_rows_rejected (T : DecTab0) (D : Nat → Nat → Nat)
    (syms : Nat → Nat → RansDecSymbol32) (inp : List Nat) :
    (∀ out, rans_uncompress T D syms inp = Res.ok out →
      (inp.getD 0 0 = 0 ∧ ∃ T1 x cp, dec0_table inp.length T (inp.drop 9) = Res.ok (T1, x, cp) ∧
        (x = TOTFREQ - 1 ∨ x = TOTFREQ)) ∨
      (inp.getD 0 0 ≠ 0 ∧ ∃ i cp S1 cp1 sums, rd (inp.drop 9) = Res.ok (i, cp) ∧
        dec1_table_sums inp.length { D := D, syms := syms, map := fun _ => -1, map_i := 0 } i 0 cp []
          = Res.ok (S1, cp1, sums) ∧
        dec1_table_loop inp.length { D := D, syms := syms, map := fun _ => -1, map_i := 0 } i 0 cp
          = Res.ok (S1, cp1) ∧
        sums ≠ [] ∧ ∀ x ∈ sums, x = TOTFREQ - 1 ∨ x = TOTFREQ)) ∧
    (∀ T1 x cp, inp.getD 0 0 = 0 → dec0_table inp.length T (inp.drop 9) = Res.ok (T1, x, cp) →
      (x < TOTFREQ - 1 ∨ TOTFREQ < x) → rans_uncompress T D syms inp = Res.fail) ∧
    (inp.getD 0 0 = 0 → dec0_table inp.length T (inp.drop 9) = Res.fail →
      rans_uncompress T D syms inp = Res.fail) ∧
    (∀ i cp, inp.getD 0 0 ≠ 0 → rd (inp.drop 9) = Res.ok (i, cp) →
      dec1_table_loop inp.length { D := D, syms := syms, map := fun _ => -1, map_i := 0 } i 0 cp
        = Res.fail →
      rans_uncompress T D syms inp = Res.fail) ∧
    (∀ (fuel : Nat) (S : Dec1) (i rle : Nat) (cp : List Nat) (j : Nat) (cp1 : List Nat),
      rd cp = Res.ok (j, cp1) →
      (dec1_row_loop ((map_touch S i).map i).toNat cp.length (map_touch S i) j 0 0 cp1 = Res.fail ∨
        ∃ S1 x cp2, dec1_row_loop ((map_touch S i).map i).toNat cp.length (map_touch S i) j 0 0 cp1
          = Res.ok (S1, x, cp2) ∧ (x < TOTFREQ - 1 ∨ TOTFREQ < x)) →
      dec1_table_loop (fuel + 1) S i rle cp = Res.fail) ∧
    (∀ (fuel : Nat) (T0 : DecTab0) (j rle x : Nat) (cp : List Nat), 0 < rle → 255 < j + rle →
      cp.length < fuel → dec0_table_loop fuel T0 j rle x cp = Res.fail) ∧
    (∀ (m fuel : Nat) (S : Dec1) (j rle x : Nat) (cp : List Nat), 0 < rle → 255 < j + rle →
      cp.length < fuel → dec1_row_loop m fuel S j rle x cp = Res.fail) := by
  refine ⟨?_, ?_, ?_, ?_, fun fuel S i rle cp j cp1 h1 h2 => dec1_table_row_fail fuel S i rle cp j cp1 h1 h2,
    fun fuel T0 j rle x cp h1 h2 h3 => dec0_run_past_255 fuel T0 j rle x cp h1 h2 h3,
    fun m fuel S j rle x cp h1 h2 h3 => dec1_run_past_255 m fuel S j rle x cp h1 h2 h3⟩
  · intro out h
    have h9 : 9 ≤ inp.length := by
      by_contra hc
      unfold rans_uncompress at h
      rw [if_pos (by omega)] at h
      exact Res.noConfusion h
    by_cases h0 : inp.getD 0 0 = 0
    · left
      rw [uncompress_head0 T D syms inp h9 h0] at h
      obtain ⟨T1, x, cp, e1, e2, -⟩ := uncompress0_ok_table T inp out h
      exact ⟨h0, T1, x, cp, e1, e2⟩
    · right
      rw [uncompress_head1 T D syms inp h9 h0] at h
      obtain ⟨i, cp, S1, cp1, e1, e2, -⟩ := uncompress1_ok_table D syms inp out h
      have e3 := dec1_table_sums_loop inp.length { D := D, syms := syms, map := fun _ => -1, map_i := 0 }
        i 0 cp []
      rw [e2] at e3
      cases e4 : dec1_table_sums inp.length { D := D, syms := syms, map := fun _ => -1, map_i := 0 }
          i 0 cp [] with
      | fail => rw [e4] at e3; exact Res.noConfusion e3
      | ub => rw [e4] at e3; exact Res.noConfusion e3
      | diverge => rw [e4] at e3; exact Res.noConfusion e3
      | ok r =>
        rw [e4] at e3
        simp only [Res.bind_ok] at e3
        have e5 := Res.ok.inj e3
        obtain ⟨l, g1, g2, g3⟩ := dec1_table_sums_range _ _ _ _ _ _ r e4
        rw [List.nil_append] at g1
        have e6 : r = (S1, cp1, r.2.2) := by
          have a1 : r.1 = S1 := congrArg Prod.fst e5
          have a2 : r.2.1 = cp1 := congrArg Prod.snd e5
          rw [← a1, ← a2]
        refine ⟨h0, i, cp, S1, cp1, r.2.2, e1, ?_, e2, by rw [g1]; exact g2, by rw [g1]; exact g3⟩
        rw [← e6]
        exact e4
  · intro T1 x cp h0 e hx
    by_cases h9 : inp.length < 9
    · unfold rans_uncompress; rw [if_pos h9]
    rw [uncompress_head0 T D syms inp (by omega) h0]
    unfold rans_uncompress_O0
    simp only [e, Res.bind_ok]
    rw [if_pos (show x < TOTFREQ - 1 ∨ x > TOTFREQ from hx)]
    simp only [ite_self]
  · intro h0 e
    by_cases h9 : inp.length < 9
    · unfold rans_uncompress; rw [if_pos h9]
    rw [uncompress_head0 T D syms inp (by omega) h0]
    unfold rans_uncompress_O0
    simp only [e, Res.bind_fail, ite_self]
  · intro i cp h0 e1 e2
    by_cases h9 : inp.length < 9
    · unfold rans_uncompress; rw [if_pos h9]
    rw [uncompress_head1 T D syms inp (by omega) h0]
    unfold rans_uncompress_O1
    simp only [e1, Res.bind_ok, e2, Res.bind_fail, ite_self]

theorem malformed_rows_rejected_witness :
    (∃ out, rans_uncompress zeroTab0 (fun _ _ => 0) (fun _ _ => { start := 0, freq := 0 })
      [0, 20, 0, 0, 0, 1, 0, 0, 0, 65, 0x8F, 0xFF, 0, 0, 8, 0x80, 0, 0, 0, 0x80, 0,
        0, 0, 0x80, 0, 0, 0, 0x80, 0] = Res.ok out) ∧
    ∃ T1 x cp, dec0_table 29 zeroTab0 [65, 0x8F, 0xFF, 0, 0, 8, 0x80, 0, 0, 0, 0x80, 0,
        0, 0, 0x80, 0, 0, 0, 0x80, 0] = Res.ok (T1, x, cp) ∧ (x = TOTFREQ - 1 ∨ x = TOTFREQ) := by
  have h : rans_uncompress zeroTab0 (fun _ _ => 0) (fun _ _ => { start := 0, freq := 0 })
      [0, 20, 0, 0, 0, 1, 0, 0, 0, 65, 0x8F, 0xFF, 0, 0, 8, 0x80, 0, 0, 0, 0x80, 0,
        0, 0, 0x80, 0, 0, 0, 0x80, 0] = Res.ok [65] := rfl
  refine ⟨⟨_, h⟩, ?_⟩
  rcases (malformed_rows_rejected zeroTab0 (fun _ _ => 0) (fun _ _ => { start := 0, freq := 0 })
    [0, 20, 0, 0, 0, 1, 0, 0, 0, 65, 0x8F, 0xFF, 0, 0, 8, 0x80, 0, 0, 0, 0x80, 0,
      0, 0, 0x80, 0, 0, 0, 0x80, 0]).1 [65] h with ⟨-, g⟩ | ⟨g, -⟩
  · exact g
  · exact absurd rfl g

theorem getD_take (l : List Nat) (k i : Nat) (h : i < k) : (l.take k).getD i 0 = l.getD i 0 := by
  rw [List.getD_eq_getElem?_getD, List.getD_eq_getElem?_getD, List.getElem?_take, if_pos h]

theorem rd_le32_take (l : List Nat) (k j : Nat) (h : j + 3 < k) :
    rd_le32 (l.take k) j = rd_le32 l j := by
  unfold rd_le32
  rw [getD_take l k j (by omega), getD_take l k (j + 1) (by omega),
    getD_take l k (j + 2) (by omega), getD_take l k (j + 3) (by omega)]

/-- The block of `rans_compress` for either order, what `rans_uncompress`
returns on it, and its field `in_sz`. -/
theorem compress_block (fl : FloatOps) (hfl : FloatOK fl) (T : DecTab0) (D : Nat → Nat → Nat)
    (syms : Nat → Nat → RansDecSymbol32) (s : List Nat) (hne : s ≠ [])
    (hsz : 21 * s.length < 20 * 2 ^ 31) (hb : ∀ b ∈ s, b < 256) (order : Int) :
    ∃ blk, rans_compress fl s order = Res.ok blk ∧ rans_uncompress T D syms blk = Res.ok s ∧
      26 ≤ blk.length ∧ rd_le32 blk 1 = blk.length - 9 ∧ rd_le32 blk 5 = s.length := by
  by_cases h1 : order ≠ 0 ∧ 4 ≤ s.length
  · obtain ⟨blk, hc, hl, h0, hd⟩ := round_trip_O1 fl hfl D syms s h1.2 hsz hb
    have hrc : rans_compress fl s order = rans_compress_O1 fl s := by
      unfold rans_compress; rw [if_pos h1.1]
    obtain ⟨_, _, _, _, _, _, _, _, _, e1, _, e2⟩ := uncompress1_ok_table D syms blk s hd
    refine ⟨blk, by rw [hrc, hc], ?_, by omega, e1, e2.symm⟩
    rw [uncompress_head1 T D syms blk (by omega) (by omega), hd]
  · obtain ⟨blk, hc, hl, h0, hd⟩ := round_trip_O0 T s hne hsz hb
    have hrc : rans_compress fl s order = rans_compress_O0 s := by
      unfold rans_compress
      by_cases ho : order ≠ 0
      · rw [if_pos ho]
        unfold rans_compress_O1
        rw [if_pos (by
          by_contra hh
          exact h1 ⟨ho, by omega⟩)]
      · rw [if_neg ho]
    obtain ⟨_, _, _, _, _, _, _, _, e1, _, e2⟩ := uncompress0_ok_table T blk s hd
    refine ⟨blk, by rw [hrc, hc], ?_, by omega, e1, e2.symm⟩
    rw [uncompress_head0 T D syms blk (by omega) h0, hd]

/-- A result of `rans_uncompress` has as many bytes as the header declares. -/
theorem uncompress_length (T : DecTab0) (D : Nat → Nat → Nat)
    (syms : Nat → Nat → RansDecSymbol32) (inp out : List Nat)
    (h : rans_uncompress T D syms inp = Res.ok out) : out.length = rd_le32 inp 5 := by
  have h9 : 9 ≤ inp.length := by
    by_contra hc
    unfold rans_uncompress at h
    rw [if_pos (by omega)] at h
    exact Res.noConfusion h
  by_cases h0 : inp.getD 0 0 = 0
  · rw [uncompress_head0 T D syms inp h9 h0] at h
    obtain ⟨_, _, _, _, _, _, _, _, _, _, e⟩ := uncompress0_ok_table T inp out h
    exact e
  · rw [uncompress_head1 T D syms inp h9 h0] at h
    obtain ⟨_, _, _, _, _, _, _, _, _, _, _, e⟩ := uncompress1_ok_table D syms inp out h
    exact e

set_option maxRecDepth 100000 in
/-- Claim C13, counterexample: the block that `rans_compress` with order 0
returns for the one byte `0x41` is still accepted when its byte 9 (the symbol of
the table) is changed to `0x42`, and then decodes to the byte `0x42`; and when
its field `orig_size` is changed from 1 to 2 it decodes to the two bytes
`0x41 0x41`.  Neither result is a failure nor the original byte string. -/
theorem flipped_block_decodes :
    rans_compress intOps [0x41] 0
      = Res.ok [0, 20, 0, 0, 0, 1, 0, 0, 0, 0x41, 0x8F, 0xFF, 0, 0, 8, 0x80, 0, 0, 0, 0x80, 0,
          0, 0, 0x80, 0, 0, 0, 0x80, 0] ∧
    rans_uncompress zeroTab0 (fun _ _ => 0) (fun _ _ => { start := 0, freq := 0 })
        ([0, 20, 0, 0, 0, 1, 0, 0, 0, 0x41, 0x8F, 0xFF, 0, 0, 8, 0x80, 0, 0, 0, 0x80, 0,
          0, 0, 0x80, 0, 0, 0, 0x80, 0].set 9 0x42) = Res.ok [0x42] ∧
    rans_uncompress zeroTab0 (fun _ _ => 0) (fun _ _ => { start := 0, freq := 0 })
        ([0, 20, 0, 0, 0, 1, 0, 0, 0, 0x41, 0x8F, 0xFF, 0, 0, 8, 0x80, 0, 0, 0, 0x80, 0,
          0, 0, 0x80, 0, 0, 0, 0x80, 0].set 5 2) = Res.ok [0x41, 0x41] ∧
    (Res.ok [0x42] : Res (List Nat)) ≠ Res.fail ∧ (Res.ok [0x42] : Res (List Nat)) ≠ Res.ok [0x41] ∧
    (Res.ok [0x41, 0x41] : Res (List Nat)) ≠ Res.fail ∧
    (Res.ok [0x41, 0x41] : Res (List Nat)) ≠ Res.ok [0x41] :=
  ⟨rfl, rfl, rfl, by decide, by decide, by decide, by decide⟩

/-- Claim C13, as the code has it: for every valid block `b = rans_compress(s,
order)`, `rans_uncompress` returns `s` on `b` and returns the failure on every
truncation of `b` (every proper prefix), since the field `in_sz` no longer is the
size less 9; and on any bytes at all, a result of `rans_uncompress` has exactly
the number of bytes that the field `orig_size` declares. -/
theorem truncated_block_rejected (fl : FloatOps) (hfl : FloatOK fl) (T : DecTab0)
    (D : Nat → Nat → Nat) (syms : Nat → Nat → RansDecSymbol32) (s : List Nat) (hne : s ≠ [])
    (hsz : 21 * s.length < 20 * 2 ^ 31) (hb : ∀ b ∈ s, b < 256) (order : Int) :
    ∃ blk, rans_compress fl s order = Res.ok blk ∧ rans_uncompress T D syms blk = Res.ok s ∧
      (∀ k, k < blk.length → rans_uncompress T D syms (blk.take k) = Res.fail) ∧
      ∀ inp out, rans_uncompress T D syms inp = Res.ok out → out.length = rd_le32 inp 5 := by
  obtain ⟨blk, hc, hd, hl, e1, -⟩ := compress_block fl hfl T D syms s hne hsz hb order
  refine ⟨blk, hc, hd, fun k hk => ?_, fun inp out h => uncompress_length T D syms inp out h⟩
  have hlen : (blk.take k).length = k := by
    rw [List.length_take]; omega
  apply header_fail
  by_cases h9 : k < 9
  · left; omega
  · right; right; left
    rw [rd_le32_take blk k 1 (by omega), e1, hlen]
    omega

theorem truncated_block_rejected_witness :
    FloatOK intOps ∧ [65, 66, 65, 66, 67] ≠ [] ∧ 21 * [65, 66, 65, 66, 67].length < 20 * 2 ^ 31 ∧
    (∀ b ∈ [65, 66, 65, 66, 67], b < 256) ∧
    ∃ blk, rans_compress intOps [65, 66, 65, 66, 67] 1 = Res.ok blk ∧
      rans_uncompress zeroTab0 (fun _ _ => 0) (fun _ _ => { start := 0, freq := 0 }) blk
        = Res.ok [65, 66, 65, 66, 67] ∧
      (∀ k, k < blk.length →
        rans_uncompress zeroTab0 (fun _ _ => 0) (fun _ _ => { start := 0, freq := 0 }) (blk.take k)
          = Res.fail) ∧
      ∀ inp out, rans_uncompress zeroTab0 (fun _ _ => 0) (fun _ _ => { start := 0, freq := 0 }) inp
        = Res.ok out → out.length = rd_le32 inp 5 :=
  ⟨intOps_ok, by decide, by decide, by decide,
    truncated_block_rejected intOps intOps_ok zeroTab0 (fun _ _ => 0)
      (fun _ _ => { start := 0, freq := 0 }) [65, 66, 65, 66, 67] (by decide) (by decide)
      (by decide) 1⟩

/-- The outer loop of the decoder of order 1 on any bytes: with a byte ahead and
a budget above the number of bytes ahead it returns, with a failure or with a
result, and never reads past the end of the input. -/
theorem dec1_table_loop_returns (fuel : Nat) : ∀ (S : Dec1) (i rle : Nat) (cp : List Nat),
    1 ≤ cp.length → cp.length < fuel → Returns (dec1_table_loop fuel S i rle cp) := by
  induction fuel with
  | zero => intro S i rle cp _ h; omega
  | succ fuel ih =>
    intro S i rle cp h1 h
    rw [dec1_table_loop]
    obtain ⟨j, cp1, rfl, hrd, -⟩ := rd_ok cp h1
    rw [hrd]
    simp only [Res.bind_ok]
    rcases dec1_row_loop_returns ((map_touch S i).map i).toNat (j :: cp1).length (map_touch S i) j 0 0
      cp1 (by simp only [List.length_cons]; omega) with e | ⟨S1, x, cp2, e, g1, g2⟩
    · rw [e]; exact returns_fail
    · rw [e]
      simp only [Res.bind_ok, List.length_cons] at h ⊢
      by_cases hx : x < TOTFREQ - 1 ∨ x > TOTFREQ
      · rw [if_pos hx]; exact returns_fail
      · rw [if_neg hx]
        obtain ⟨a, b, t, rfl⟩ := list_two cp2 (by omega)
        simp only [List.length_cons] at g1 g2
        simp only [peek, rd, Res.bind_ok]
        split_ifs <;> first
          | exact returns_ok _
          | exact returns_fail
          | exact ih _ _ _ _ (by omega) (by omega)
          | exact ih _ _ _ _ (by simp only [List.length_cons]; omega)
              (by simp only [List.length_cons]; omega)

theorem list_four (l : List Nat) (h : 4 ≤ l.length) : ∃ a b c d t, l = a :: b :: c :: d :: t := by
  match l, h with
  | a :: b :: c :: d :: t, _ => exact ⟨a, b, c, d, t, rfl⟩

/-- One state initialisation with four bytes or more ahead reads four bytes. -/
theorem dec_init_chk_returns (cp : List Nat) (h : 4 ≤ cp.length) :
    dec_init_chk cp = Res.fail ∨ ∃ R rest, dec_init_chk cp = Res.ok (R, rest) ∧
      rest.length + 4 = cp.length ∧ RANS_BYTE_L ≤ R ∧ R < 2 ^ 32 := by
  obtain ⟨a, b, c, d, t, rfl⟩ := list_four cp h
  unfold dec_init_chk RansDecInit
  simp only [Res.bind_ok]
  split_ifs with hc
  · exact Or.inl rfl
  · exact Or.inr ⟨_, _, rfl, by simp only [List.length_cons], by omega, Nat.mod_lt _ (by decide)⟩

/-- The four state initialisations with 16 bytes or more ahead read 16 bytes:
they return the failure, or four states in `[RANS_BYTE_L, 2^32)`. -/
theorem dec_init4_returns (cp : List Nat) (h : 16 ≤ cp.length) :
    dec_init4 cp = Res.fail ∨ ∃ st, dec_init4 cp = Res.ok st ∧ st.ptr.length + 16 = cp.length ∧
      (RANS_BYTE_L ≤ st.r0 ∧ st.r0 < 2 ^ 32) ∧ (RANS_BYTE_L ≤ st.r1 ∧ st.r1 < 2 ^ 32) ∧
      (RANS_BYTE_L ≤ st.r2 ∧ st.r2 < 2 ^ 32) ∧ (RANS_BYTE_L ≤ st.r3 ∧ st.r3 < 2 ^ 32) := by
  unfold dec_init4
  rcases dec_init_chk_returns cp (by omega) with e | ⟨R0, c0, e0, l0, b0⟩
  · rw [e]; exact Or.inl rfl
  rw [e0]; simp only [Res.bind_ok]
  rcases dec_init_chk_returns c0 (by omega) with e | ⟨R1, c1, e1, l1, b1⟩
  · rw [e]; exact Or.inl rfl
  rw [e1]; simp only [Res.bind_ok]
  rcases dec_init_chk_returns c1 (by omega) with e | ⟨R2, c2, e2, l2, b2⟩
  · rw [e]; exact Or.inl rfl
  rw [e2]; simp only [Res.bind_ok]
  rcases dec_init_chk_returns c2 (by omega) with e | ⟨R3, c3, e3, l3, b3⟩
  · rw [e]; exact Or.inl rfl
  rw [e3]; simp only [Res.bind_ok]
  exact Or.inr ⟨_, rfl, by show c3.length + 16 = cp.length; omega, ⟨b0, b1, b2, b3⟩⟩

/-- The bounds-checked renormalisation leaves a suffix of the bytes ahead. -/
theorem RansDecRenormSafe_suffix : ∀ (cp : List Nat) (x : Nat),
    ∃ pre, cp = pre ++ (RansDecRenormSafe x cp).2
  | [], x => ⟨[], rfl⟩
  | b :: cp, x => by
    unfold RansDecRenormSafe
    by_cases h : x < RANS_BYTE_L
    · rw [if_pos h]
      obtain ⟨pre, e⟩ := RansDecRenormSafe_suffix cp (((x <<< 8) ||| b) % 2 ^ 32)
      exact ⟨b :: pre, by rw [List.cons_append, ← e]⟩
    · rw [if_neg h]
      exact ⟨[], rfl⟩

/-- The share of one state in the fast renormalisation reads two bytes at most:
with two bytes ahead it returns. -/
theorem RansDecRenorm2_one_returns (x : Nat) (cp : List Nat) (hcp : 2 ≤ cp.length) :
    ∃ y rest, RansDecRenorm2_one x cp = Res.ok (y, rest) ∧ rest.length ≤ cp.length ∧
      cp.length ≤ rest.length + 2 := by
  obtain ⟨a, b, t, rfl⟩ := list_two cp hcp
  unfold RansDecRenorm2_one
  simp only [List.length_cons]
  split_ifs
  · exact ⟨_, _, rfl, by omega, by omega⟩
  · exact ⟨_, _, rfl, by simp only [List.length_cons]; omega, by simp only [List.length_cons]; omega⟩
  · exact ⟨_, _, rfl, by simp only [List.length_cons]; omega, by simp only [List.length_cons]; omega⟩

/-- On a state of 128 or more the share of one state in the fast
renormalisation is the loop `dec_renorm` of the spec: two bytes are enough. -/
theorem RansDecRenorm2_one_loop (x : Nat) (cp : List Nat) (hx : 128 ≤ x) (hcp : 2 ≤ cp.length)
    (hb : ∀ b ∈ cp, b < 256) : RansDecRenorm2_one x cp = RansDecRenorm x cp := by
  by_cases h1 : RANS_BYTE_L ≤ x
  · rw [RansDecRenorm_ge x cp h1, RansDecRenorm2_one_ge x cp h1]
  · obtain ⟨a, b, t, rfl⟩ := list_two cp hcp
    have ha : a < 256 := hb a (by simp)
    have hb2 : b < 256 := hb b (by simp)
    rw [RansDecRenorm_lt x a _ (by omega) ha]
    by_cases h2 : RANS_BYTE_L ≤ x * 256 + a
    · rw [RansDecRenorm_ge _ _ h2, RansDecRenorm2_one_lt1 x a _ (by omega) ha h2]
    · rw [RansDecRenorm_lt _ b _ (by omega) hb2,
        RansDecRenorm_ge _ _ (by rw [RANS_BYTE_L_eq]; omega),
        RansDecRenorm2_one_lt2 x a b t ha hb2 (by omega)]

/-- The renormalisation at the end of a round on any states and bytes: the fast
pairs read eight bytes at most of the nine or more ahead, and the bounds-checked
one does not read past the end. -/
theorem dec_renorm4_returns (R0 R1 R2 R3 : Nat) (cp : List Nat) :
    ∃ st, dec_renorm4 R0 R1 R2 R3 cp = Res.ok st ∧ st.ptr.length ≤ cp.length ∧
      cp.length ≤ st.ptr.length + 8 := by
  unfold dec_renorm4
  by_cases hl : cp.length > 8
  · rw [if_pos hl]
    unfold RansDecRenorm2
    obtain ⟨y0, c0, e0, l0, m0⟩ := RansDecRenorm2_one_returns R0 cp (by omega)
    obtain ⟨y1, c1, e1, l1, m1⟩ := RansDecRenorm2_one_returns R1 c0 (by omega)
    obtain ⟨y2, c2, e2, l2, m2⟩ := RansDecRenorm2_one_returns R2 c1 (by omega)
    obtain ⟨y3, c3, e3, l3, m3⟩ := RansDecRenorm2_one_returns R3 c2 (by omega)
    simp only [e0, e1, e2, e3, Res.bind_ok]
    exact ⟨_, rfl, by show c3.length ≤ cp.length; omega, by show cp.length ≤ c3.length + 8; omega⟩
  · rw [if_neg hl]
    refine ⟨_, rfl, ?_⟩
    obtain ⟨p0, e0⟩ := RansDecRenormSafe_suffix cp R0
    obtain ⟨p1, e1⟩ := RansDecRenormSafe_suffix (RansDecRenormSafe R0 cp).2 R1
    obtain ⟨p2, e2⟩ := RansDecRenormSafe_suffix (RansDecRenormSafe R1 (RansDecRenormSafe R0 cp).2).2 R2
    obtain ⟨p3, e3⟩ := RansDecRenormSafe_suffix
      (RansDecRenormSafe R2 (RansDecRenormSafe R1 (RansDecRenormSafe R0 cp).2).2).2 R3
    have g0 := congrArg List.length e0
    have g1 := congrArg List.length e1
    have g2 := congrArg List.length e2
    have g3 := congrArg List.length e3
    rw [List.length_append] at g0 g1 g2 g3
    show (RansDecRenormSafe R3 (RansDecRenormSafe R2 (RansDecRenormSafe R1
      (RansDecRenormSafe R0 cp).2).2).2).2.length ≤ cp.length ∧ cp.length ≤
      (RansDecRenormSafe R3 (RansDecRenormSafe R2 (RansDecRenormSafe R1
      (RansDecRenormSafe R0 cp).2).2).2).2.length + 8
    omega

/-- The decode loop of order 0 returns on any states, tables and bytes. -/
theorem dec0_loop_returns (T : DecTab0) (n : Nat) : ∀ (i : Nat) (st : Rans4) (out : Nat → Nat),
    ∃ r, dec0_loop T n i st out = Res.ok r := by
  induction n with
  | zero => intro i st out; exact ⟨_, rfl⟩
  | succ n ih =>
    intro i st out
    rw [dec0_loop]
    obtain ⟨st1, e, -⟩ := dec_renorm4_returns (dec0_sym T st.r0).2 (dec0_sym T st.r1).2
      (dec0_sym T st.r2).2 (dec0_sym T st.r3).2 st.ptr
    simp only [e, Res.bind_ok]
    exact ih _ _ _

/-- The decode loop of order 1 returns on any states, tables and bytes. -/
theorem dec1_loop_returns (S : Dec1) (q n : Nat) : ∀ (t : Nat) (st : Rans4) (l cc : Last4)
    (out : Nat → Nat), ∃ r, dec1_loop S q n t st l cc out = Res.ok r := by
  induction n with
  | zero => intro t st l cc out; exact ⟨_, rfl⟩
  | succ n ih =>
    intro t st l cc out
    rw [dec1_loop]
    obtain ⟨st1, e, -⟩ := dec_renorm4_returns (dec1_adv (S.syms l.l0 cc.l0) st.r0)
      (dec1_adv (S.syms l.l1 cc.l1) st.r1) (dec1_adv (S.syms l.l2 cc.l2) st.r2)
      (dec1_adv (S.syms l.l3 cc.l3) st.r3) st.ptr
    simp only [e, Res.bind_ok]
    exact ih _ _ _ _ _

/-- The table of order 0 is parsed without a read past the end of the input and
within the budget of rounds. -/
theorem dec0_table_returns (T : DecTab0) (inp : List Nat) (h : 10 ≤ inp.length) :
    Returns (dec0_table inp.length T (inp.drop 9)) := by
  unfold dec0_table
  obtain ⟨j, cp, e, hrd, -⟩ := rd_ok (inp.drop 9) (by rw [List.length_drop]; omega)
  rw [hrd]
  simp only [Res.bind_ok]
  apply dec0_table_loop_returns
  have := congrArg List.length e
  rw [List.length_drop, List.length_cons] at this
  omega

/-- The table of order 1 is parsed without a read past the end of the input and
within the budget of rounds. -/
theorem dec1_table_returns (S : Dec1) (inp : List Nat) (h : 11 ≤ inp.length) :
    ∃ i cp, rd (inp.drop 9) = Res.ok (i, cp) ∧ Returns (dec1_table_loop inp.length S i 0 cp) := by
  obtain ⟨i, cp, e, hrd, -⟩ := rd_ok (inp.drop 9) (by rw [List.length_drop]; omega)
  have := congrArg List.length e
  rw [List.length_drop, List.length_cons] at this
  exact ⟨i, cp, hrd, dec1_table_loop_returns _ _ _ _ _ (by omega) (by omega)⟩

/-- The call `rans_uncompress` returns on any bytes, with a result or with the
failure: it comes to an end and no read is past the end of the input. -/
theorem uncompress_returns (T : DecTab0) (D : Nat → Nat → Nat)
    (syms : Nat → Nat → RansDecSymbol32) (inp : List Nat) :
    Returns (rans_uncompress T D syms inp) := by
  unfold rans_uncompress
  by_cases c0 : inp.length < 9
  · rw [if_pos c0]; exact returns_fail
  rw [if_neg c0]
  by_cases c00 : inp.getD 0 0 ≠ 0
  · rw [if_pos c00]
    unfold rans_uncompress_O1
    by_cases c1 : inp.length < 27
    · simp only [if_pos c1]; exact returns_fail
    by_cases c2 : inp.getD 0 0 ≠ 1
    · simp only [if_neg c1, if_pos c2]; exact returns_fail
    by_cases c3 : rd_le32 inp 1 ≠ inp.length - 9
    · simp only [if_neg c1, if_neg c2, if_pos c3]; exact returns_fail
    by_cases c4 : rd_le32 inp 5 ≥ INT_MAX
    · simp only [if_neg c1, if_neg c2, if_neg c3, if_pos c4]; exact returns_fail
    simp only [if_neg c1, if_neg c2, if_neg c3, if_neg c4]
    obtain ⟨i, cp, hrd, hr⟩ := dec1_table_returns
      { D := D, syms := syms, map := fun _ => -1, map_i := 0 } inp (by omega)
    rw [hrd]
    simp only [Res.bind_ok]
    refine returns_bind _ _ hr fun r _ => ?_
    by_cases c6 : r.2.length < 16
    · simp only [if_pos c6]; exact returns_fail
    simp only [if_neg c6]
    rcases dec_init4_returns r.2 (by omega) with e | ⟨st, e, -⟩
    · rw [e]; exact returns_fail
    · rw [e]
      simp only [Res.bind_ok]
      refine returns_bind _ _ ?_ fun e _ => returns_ok _
      obtain ⟨q, hq⟩ := dec1_loop_returns _ _ _ _ _ _ _ _
      rw [hq]; exact returns_ok _
  · rw [if_neg c00]
    unfold rans_uncompress_O0
    by_cases c1 : inp.length < 26
    · simp only [if_pos c1]; exact returns_fail
    by_cases c3 : rd_le32 inp 1 ≠ inp.length - 9
    · simp only [if_neg c1, if_neg c00, if_pos c3]; exact returns_fail
    by_cases c4 : rd_le32 inp 5 ≥ INT_MAX
    · simp only [if_neg c1, if_neg c00, if_neg c3, if_pos c4]; exact returns_fail
    simp only [if_neg c1, if_neg c00, if_neg c3, if_neg c4]
    refine returns_bind _ _ (dec0_table_returns T inp (by omega)) fun r _ => ?_
    by_cases c5 : r.2.1 < TOTFREQ - 1 ∨ r.2.1 > TOTFREQ
    · simp only [if_pos c5]; exact returns_fail
    by_cases c6 : r.2.2.length < 16
    · simp only [if_neg c5, if_pos c6]; exact returns_fail
    simp only [if_neg c5, if_neg c6]
    rcases dec_init4_returns r.2.2 (by omega) with e | ⟨st, e, -⟩
    · rw [e]; exact returns_fail
    · rw [e]
      simp only [Res.bind_ok]
      refine returns_bind _ _ ?_ fun e _ => returns_ok _
      obtain ⟨q, hq⟩ := dec0_loop_returns _ _ _ _ _
      rw [hq]; exact returns_ok _

theorem store_ne (a : Nat → Nat) (i v k : Nat) (h : k ≠ i) : store a i v k = a k := by
  unfold store
  rw [if_neg h]

/-- The decode loop of order 0 writes the cells `i .. i + 4n - 1` only. -/
theorem dec0_loop_frame (T : DecTab0) (n : Nat) : ∀ (i : Nat) (st : Rans4) (out : Nat → Nat)
    (r : Rans4 × (Nat → Nat)), dec0_loop T n i st out = Res.ok r →
    ∀ k, k < i ∨ i + 4 * n ≤ k → r.2 k = out k := by
  induction n with
  | zero =>
    intro i st out r h k _
    rw [dec0_loop] at h
    rw [← Res.ok.inj h]
  | succ n ih =>
    intro i st out r h k hk
    rw [dec0_loop] at h
    cases h1 : dec_renorm4 (dec0_sym T st.r0).2 (dec0_sym T st.r1).2 (dec0_sym T st.r2).2
        (dec0_sym T st.r3).2 st.ptr with
    | fail => rw [h1] at h; exact Res.noConfusion h
    | ub => rw [h1] at h; exact Res.noConfusion h
    | diverge => rw [h1] at h; exact Res.noConfusion h
    | ok st1 =>
      rw [h1] at h
      simp only [Res.bind_ok] at h
      rw [ih _ _ _ r h k (by omega), store_ne _ _ _ _ (by omega), store_ne _ _ _ _ (by omega),
        store_ne _ _ _ _ (by omega), store_ne _ _ _ _ (by omega)]

/-- The `switch` of order 0 after the loop writes the cells
`out_end .. out_sz - 1` only. -/
theorem dec0_tail_frame (T : DecTab0) (out_sz : Nat) (hsz : out_sz < 2 ^ 32) (st : Rans4)
    (out : Nat → Nat) (k : Nat) (hk : k < out_sz &&& 0xFFFFFFFC ∨ out_sz ≤ k) :
    dec0_tail T out_sz (out_sz &&& 0xFFFFFFFC) st out k = out k := by
  have e1 := and_not3 out_sz hsz
  have e2 := and_3 out_sz
  unfold dec0_tail
  simp only [e1, e2] at hk ⊢
  split_ifs <;> simp only [store] <;> split_ifs <;> first | rfl | omega

/-- The decode loop of order 1 writes the cells `a * q + t .. a * q + t + n - 1`
of the four quarters `a = 0 .. 3` only. -/
theorem dec1_loop_frame (S : Dec1) (q n : Nat) : ∀ (t : Nat) (st : Rans4) (l cc : Last4)
    (out : Nat → Nat) (r : Rans4 × Last4 × (Nat → Nat)),
    dec1_loop S q n t st l cc out = Res.ok r →
    ∀ k, (∀ a, a < 4 → k < a * q + t ∨ a * q + t + n ≤ k) → r.2.2 k = out k := by
  induction n with
  | zero =>
    intro t st l cc out r h k _
    rw [dec1_loop] at h
    rw [← Res.ok.inj h]
  | succ n ih =>
    intro t st l cc out r h k hk
    rw [dec1_loop] at h
    simp only at h
    revert h
    generalize dec_renorm4 _ _ _ _ _ = q1
    intro h
    cases q1 with
    | fail => exact Res.noConfusion h
    | ub => exact Res.noConfusion h
    | diverge => exact Res.noConfusion h
    | ok st1 =>
      simp only [Res.bind_ok] at h
      have h0 := hk 0 (by omega)
      have h1 := hk 1 (by omega)
      have h2 := hk 2 (by omega)
      have h3 := hk 3 (by omega)
      rw [ih _ _ _ _ _ r h k (fun a ha => by have := hk a ha; omega),
        store_ne _ _ _ _ (by omega), store_ne _ _ _ _ (by omega),
        store_ne _ _ _ _ (by omega), store_ne _ _ _ _ (by omega)]

/-- The remainder loop of order 1 writes the cells `i .. i + n - 1` only. -/
theorem dec1_rem_frame (S : Dec1) (n : Nat) : ∀ (i R3 : Nat) (ptr : List Nat) (l3 : Nat)
    (out : Nat → Nat) (k : Nat), k < i ∨ i + n ≤ k → dec1_rem S n i R3 ptr l3 out k = out k := by
  induction n with
  | zero => intro i R3 ptr l3 out k _; rfl
  | succ n ih =>
    intro i R3 ptr l3 out k hk
    rw [dec1_rem]
    rw [ih _ _ _ _ _ k (by omega), store_ne _ _ _ _ (by omega)]

theorem store2_inc (F : Nat → Nat → Nat) (i j a b : Nat) :
    store2 F i j (F i j + 1) a b = F a b + (if a = i ∧ b = j then 1 else 0) := by
  unfold store2
  by_cases h : a = i ∧ b = j
  · rw [if_pos h, if_pos h, h.1, h.2]
  · rw [if_neg h, if_neg h]; rfl

theorem store2_inc4 (F : Nat → Nat → Nat) (i0 j0 i1 j1 i2 j2 i3 j3 a b : Nat) :
    store2 (store2 (store2 (store2 F i0 j0 (F i0 j0 + 1)) i1 j1
        (store2 F i0 j0 (F i0 j0 + 1) i1 j1 + 1)) i2 j2
        (store2 (store2 F i0 j0 (F i0 j0 + 1)) i1 j1
          (store2 F i0 j0 (F i0 j0 + 1) i1 j1 + 1) i2 j2 + 1)) i3 j3
        (store2 (store2 (store2 F i0 j0 (F i0 j0 + 1)) i1 j1
          (store2 F i0 j0 (F i0 j0 + 1) i1 j1 + 1)) i2 j2
          (store2 (store2 F i0 j0 (F i0 j0 + 1)) i1 j1
            (store2 F i0 j0 (F i0 j0 + 1) i1 j1 + 1) i2 j2 + 1) i3 j3 + 1) a b
      = F a b + (if a = i0 ∧ b = j0 then 1 else 0) + (if a = i1 ∧ b = j1 then 1 else 0)
        + (if a = i2 ∧ b = j2 then 1 else 0) + (if a = i3 ∧ b = j3 then 1 else 0) := by
  generalize hA : store2 F i0 j0 (F i0 j0 + 1) = Fa
  generalize hB : store2 Fa i1 j1 (Fa i1 j1 + 1) = Fb
  generalize hC : store2 Fb i2 j2 (Fb i2 j2 + 1) = Fc
  rw [store2_inc Fc i3 j3 a b, ← hC, store2_inc Fb i2 j2 a b, ← hB, store2_inc Fa i1 j1 a b, ← hA,
    store2_inc F i0 j0 a b]

theorem pairs_in_succ (inp : List Nat) (a b lo n : Nat) :
    pairs_in inp a b lo (n + 1)
      = (if prev_byte inp lo = a ∧ inp.getD lo 0 = b then 1 else 0) + pairs_in inp a b (lo + 1) n := by
  unfold pairs_in
  rw [List.range'_succ, List.countP_cons]
  simp only [decide_eq_true_eq]
  omega

theorem pairs_in_add (inp : List Nat) (a b lo m n : Nat) :
    pairs_in inp a b lo (m + n) = pairs_in inp a b lo m + pairs_in inp a b (lo + m) n := by
  unfold pairs_in
  have := List.range'_append lo m n 1
  rw [Nat.one_mul] at this
  rw [Nat.add_comm m n, ← this, List.countP_append]

theorem prev_byte_succ (inp : List Nat) (k : Nat) : prev_byte inp (k + 1) = inp.getD k 0 := by
  unfold prev_byte
  rw [if_neg (by omega)]
  rfl

/-- The loop of `hist1_4` over the four quarters counts, in each quarter, the
pairs of the positions it passes. -/
theorem hist1_4_loop_pairs (inp : List Nat) (q a b : Nat) (n : Nat) : ∀ (k : Nat) (h : Hist1),
    h.last_0 = prev_byte inp k → h.last_1 = prev_byte inp (q + k) →
    h.last_2 = prev_byte inp (q * 2 + k) → h.last_3 = prev_byte inp (q * 3 + k) →
    (hist1_4_loop inp q n k h).F a b
      = h.F a b + pairs_in inp a b k n + pairs_in inp a b (q + k) n
        + pairs_in inp a b (q * 2 + k) n + pairs_in inp a b (q * 3 + k) n ∧
    (hist1_4_loop inp q n k h).last_3 = prev_byte inp (q * 3 + k + n) := by
  induction n with
  | zero =>
    intro k h _ _ _ h3
    exact ⟨rfl, h3⟩
  | succ n ih =>
    intro k h h0 h1 h2 h3
    rw [hist1_4_loop]
    obtain ⟨e, e3⟩ := ih (k + 1) (hist1_4_round inp q k h) (prev_byte_succ inp k).symm
      (prev_byte_succ inp (q + k)).symm (prev_byte_succ inp (q * 2 + k)).symm
      (prev_byte_succ inp (q * 3 + k)).symm
    refine ⟨?_, by rw [e3]; congr 1; omega⟩
    rw [e, pairs_in_succ inp a b k, pairs_in_succ inp a b (q + k),
      pairs_in_succ inp a b (q * 2 + k), pairs_in_succ inp a b (q * 3 + k)]
    have er : (hist1_4_round inp q k h).F a b = h.F a b
        + (if a = h.last_0 ∧ b = inp.getD k 0 then 1 else 0)
        + (if a = h.last_1 ∧ b = inp.getD (q + k) 0 then 1 else 0)
        + (if a = h.last_2 ∧ b = inp.getD (q * 2 + k) 0 then 1 else 0)
        + (if a = h.last_3 ∧ b = inp.getD (q * 3 + k) 0 then 1 else 0) :=
      store2_inc4 h.F _ _ _ _ _ _ _ _ a b
    rw [er, h0, h1, h2, h3]
    have c : ∀ (x y u v : Nat), (if x = u ∧ y = v then 1 else 0) = (if u = x ∧ v = y then 1 else 0) := by
      intro x y u v
      by_cases hh : x = u ∧ y = v
      · rw [if_pos hh, if_pos ⟨hh.1.symm, hh.2.symm⟩]
      · rw [if_neg hh, if_neg (fun g => hh ⟨g.1.symm, g.2.symm⟩)]
    rw [c a b, c a b, c a b, c a b]
    have a1 : q + (k + 1) = q + k + 1 := by omega
    have a2 : q * 2 + (k + 1) = q * 2 + k + 1 := by omega
    have a3 : q * 3 + (k + 1) = q * 3 + k + 1 := by omega
    rw [a1, a2, a3]
    omega

/-- The loop of `hist1_4` over the remainder counts the pairs of the positions
it passes. -/
theorem hist1_4_tail_pairs (inp : List Nat) (a b : Nat) (n : Nat) : ∀ (k : Nat) (h : Hist1),
    h.last_3 = prev_byte inp k →
    (hist1_4_tail inp n k h).F a b = h.F a b + pairs_in inp a b k n := by
  induction n with
  | zero => intro k h _; rfl
  | succ n ih =>
    intro k h h3
    rw [hist1_4_tail, ih (k + 1) (hist1_4_tail_round inp k h) (prev_byte_succ inp k).symm,
      pairs_in_succ]
    have er : (hist1_4_tail_round inp k h).F a b = h.F a b
        + (if a = h.last_3 ∧ b = inp.getD k 0 then 1 else 0) :=
      store2_inc h.F _ _ a b
    rw [er, h3]
    by_cases hh : a = prev_byte inp k ∧ b = inp.getD k 0
    · rw [if_pos hh, if_pos ⟨hh.1.symm, hh.2.symm⟩]; omega
    · rw [if_neg hh, if_neg (fun g => hh ⟨g.1.symm, g.2.symm⟩)]; omega

/-- The pair counts of `hist1_4` on zeroed arrays: every position of the input
is counted once, with the byte before it. -/
theorem hist1_4_pairs (inp : List Nat) (hn : 4 ≤ inp.length) (a b : Nat) :
    (hist1_4 inp (fun _ _ => 0) (fun _ => 0)).1 a b = pairs_in inp a b 0 inp.length := by
  unfold hist1_4
  simp only
  generalize hq : inp.length / 4 = q
  have hq1 : 1 ≤ q := by omega
  have p : ∀ m, 1 ≤ m → inp.getD (m - 1) 0 = prev_byte inp m := by
    intro m hm
    unfold prev_byte
    rw [if_neg (by omega)]
  obtain ⟨e, e3⟩ := hist1_4_loop_pairs inp q a b q 0 (hist1_4_init inp q (fun _ _ => 0) (fun _ => 0))
    rfl (p q hq1) (p (q * 2) (by omega)) (p (q * 3) (by omega))
  have e4 : q * 3 + 0 + q = q * 4 := by omega
  rw [e4] at e3
  rw [hist1_4_tail_pairs inp a b _ _ _ e3, e]
  have s : inp.length = q + (q + (q + (q + (inp.length - q * 4)))) := by omega
  have z : (hist1_4_init inp q (fun _ _ => 0) (fun _ => 0)).F a b = 0 := rfl
  rw [z]
  conv => rhs; rw [s]
  rw [pairs_in_add, pairs_in_add, pairs_in_add, pairs_in_add]
  have b1 : q + 0 = 0 + q := by omega
  have b2 : q * 2 + 0 = 0 + q + q := by omega
  have b3 : q * 3 + 0 = 0 + q + q + q := by omega
  have b4 : q * 4 = 0 + q + q + q + q := by omega
  rw [b1, b2, b3, b4]
  omega

/-- The pairs of `hist1_4` from the start of the input: the count for the first
byte, whose previous byte is taken as 0, and the pairs of the positions
`k ≥ 1`. -/
theorem pairs_in_all (inp : List Nat) (hn : 1 ≤ inp.length) (a b : Nat) :
    pairs_in inp a b 0 inp.length
      = (List.range' 1 (inp.length - 1)).countP
          (fun k => decide (inp.getD (k - 1) 0 = a ∧ inp.getD k 0 = b))
        + (if a = 0 ∧ b = inp.getD 0 0 then 1 else 0) := by
  have e : inp.length = (inp.length - 1) + 1 := by omega
  conv => lhs; rw [e]
  rw [pairs_in_succ]
  have e1 : pairs_in inp a b (0 + 1) (inp.length - 1)
      = (List.range' 1 (inp.length - 1)).countP
          (fun k => decide (inp.getD (k - 1) 0 = a ∧ inp.getD k 0 = b)) := by
    unfold pairs_in
    apply List.countP_congr
    intro k hk
    have hk1 : 1 ≤ k := (List.mem_range'_1.mp hk).1
    simp only [decide_eq_true_eq, prev_byte, if_neg (show ¬ k = 0 by omega)]
  rw [e1]
  have e2 : prev_byte inp 0 = 0 := rfl
  rw [e2]
  by_cases h : a = 0 ∧ b = inp.getD 0 0
  · rw [if_pos h, if_pos ⟨h.1.symm, h.2.symm⟩]; omega
  · rw [if_neg h, if_neg (fun g => h ⟨g.1.symm, g.2.symm⟩)]; omega

/-- Claim C24: for every state `x` and every symbol with `1 <= freq`,
`start + freq <= TOTFREQ` and `x < freq * 2^(32 - TF_SHIFT)`, the state
`x' = ((x / freq) << TF_SHIFT) + (x mod freq) + start` of the encoder step fits
in 32 bits, its slot `x' & (TOTFREQ - 1)` lies in `[start, start + freq)`, and the
advance of the decoders, `freq * (x' >> TF_SHIFT) + (x' & (TOTFREQ - 1)) - start`,
is `x`, with every intermediate value below `2^32`: so the advance of
`rans_uncompress_O1` (`dec1_adv`) and the one of `rans_uncompress_O0`
(`dec0_sym`, on lookup arrays that hold `freq` and the offset `slot - start` at
the slot) return `x`.  When `x` is below the window bound of the encoder, so that
no byte is put out, `RansEncPutSymbol` returns the state `x'`. -/
theorem dec_step_inverts_enc_step (x start freq x1 : Nat) (hf : 1 ≤ freq)
    (hsf : start + freq ≤ TOTFREQ) (hx : x < freq * 2 ^ (32 - TF_SHIFT))
    (hx1 : x1 = ((x / freq) <<< TF_SHIFT) + x % freq + start) :
    x < 2 ^ 32 ∧ x1 < 2 ^ 32 ∧
    start ≤ x1 &&& (TOTFREQ - 1) ∧ x1 &&& (TOTFREQ - 1) < start + freq ∧
    freq * (x1 >>> TF_SHIFT) + (x1 &&& (TOTFREQ - 1)) - start = x ∧
    freq * (x1 >>> TF_SHIFT) < 2 ^ 32 ∧
    freq * (x1 >>> TF_SHIFT) + (x1 &&& (TOTFREQ - 1)) < 2 ^ 32 ∧
    dec1_adv { start := start, freq := freq } x1 = x ∧
    (∀ T : DecTab0, T.sfreq (x1 &&& (TOTFREQ - 1)) = freq →
      T.sbase (x1 &&& (TOTFREQ - 1)) = (x1 &&& (TOTFREQ - 1)) - start →
      (dec0_sym T x1).2 = x) ∧
    (x < ((RANS_BYTE_L >>> TF_SHIFT) <<< 8) * freq → ∀ ptr : List Nat,
      RansEncPutSymbol x ptr { start := start, freq := freq } = Res.ok (x1, ptr)) := by
  have e1 : (TOTFREQ - 1 : Nat) = (1 <<< TF_SHIFT) - 1 := by decide
  have e2 : (2 : Nat) ^ (32 - TF_SHIFT) = 1048576 := by decide
  rw [e1, and_mask, shr_12]
  rw [shl_12] at hx1
  rw [e2] at hx
  rw [TOTFREQ_eq] at hsf
  have hq : x / freq < 1048576 := (Nat.div_lt_iff_lt_mul (by omega)).mpr (by rw [Nat.mul_comm] at hx; exact hx)
  have hr : x % freq < freq := Nat.mod_lt _ (by omega)
  have hdm : freq * (x / freq) + x % freq = x := Nat.div_add_mod x freq
  have hput : x < ((RANS_BYTE_L >>> TF_SHIFT) <<< 8) * freq → ∀ ptr : List Nat,
      RansEncPutSymbol x ptr { start := start, freq := freq } = Res.ok (x1, ptr) := by
    intro hlt ptr
    have hc : ((RANS_BYTE_L >>> TF_SHIFT) <<< 8) = 524288 := by decide
    rw [hc] at hlt
    unfold RansEncPutSymbol
    simp only [hc]
    rw [if_neg (by omega)]
    have hm : 524288 * freq % 2 ^ 32 = 524288 * freq := Nat.mod_eq_of_lt (by omega)
    rw [hm, enc_renorm, if_neg (by omega)]
    simp only [Res.bind_ok, shl_12]
    rw [Nat.mod_eq_of_lt (by omega), hx1]
  generalize x / freq = q at *
  generalize x % freq = r at *
  have hd : x1 / 4096 = q := by omega
  have hm : x1 % 4096 = r + start := by omega
  have hfq : freq * q ≤ 4096 * q := Nat.mul_le_mul_right _ (by omega)
  have hfq2 : freq * q ≤ freq * 1048575 := Nat.mul_le_mul_left _ (by omega)
  rw [hd, hm]
  refine ⟨by omega, by omega, by omega, by omega, by omega, by omega, by omega, ?_, ?_, hput⟩
  · unfold dec1_adv
    simp only [and_mask, shr_12, hd, hm]
    have h3 : start % 2 ^ 32 = start := Nat.mod_eq_of_lt (by omega)
    rw [h3]
    have h7 : freq * q + (r + start) + (2 ^ 32 - start) = x + 2 ^ 32 := by omega
    rw [h7, Nat.add_mod_right, Nat.mod_eq_of_lt (by omega)]
  · intro T h1 h2
    unfold dec0_sym
    simp only [and_mask, shr_12, hd, hm] at h1 h2 ⊢
    rw [h1, h2]
    have : freq * q + (r + start - start) = x := by omega
    rw [this, Nat.mod_eq_of_lt (by omega)]

theorem dec_step_inverts_enc_step_witness :
    1 ≤ 32 ∧ 5 + 32 ≤ TOTFREQ ∧ 8388608 < 32 * 2 ^ (32 - TF_SHIFT) ∧
    1073741829 = ((8388608 / 32) <<< TF_SHIFT) + 8388608 % 32 + 5 ∧
    8388608 < 2 ^ 32 ∧ 1073741829 < 2 ^ 32 ∧
    5 ≤ 1073741829 &&& (TOTFREQ - 1) ∧ 1073741829 &&& (TOTFREQ - 1) < 5 + 32 ∧
    32 * (1073741829 >>> TF_SHIFT) + (1073741829 &&& (TOTFREQ - 1)) - 5 = 8388608 ∧
    32 * (1073741829 >>> TF_SHIFT) < 2 ^ 32 ∧
    32 * (1073741829 >>> TF_SHIFT) + (1073741829 &&& (TOTFREQ - 1)) < 2 ^ 32 ∧
    dec1_adv { start := 5, freq := 32 } 1073741829 = 8388608 ∧
    (∀ T : DecTab0, T.sfreq (1073741829 &&& (TOTFREQ - 1)) = 32 →
      T.sbase (1073741829 &&& (TOTFREQ - 1)) = (1073741829 &&& (TOTFREQ - 1)) - 5 →
      (dec0_sym T 1073741829).2 = 8388608) ∧
    (8388608 < ((RANS_BYTE_L >>> TF_SHIFT) <<< 8) * 32 → ∀ ptr : List Nat,
      RansEncPutSymbol 8388608 ptr { start := 5, freq := 32 } = Res.ok (1073741829, ptr)) :=
  ⟨by decide, by decide, by decide, by decide,
    dec_step_inverts_enc_step 8388608 5 32 1073741829 (by decide) (by decide) (by decide)
      (by decide)⟩

/-- A larger budget of passes does not change a result of the normaliser. -/
theorem normalise_fuel_succ (fuel : Nat) : ∀ (tr : Nat) (F : Nat → Nat) (r : (Nat → Nat) × Nat),
    normalise fuel tr F = some r → normalise (fuel + 1) tr F = some r := by
  induction fuel with
  | zero => intro tr F r h; rw [normalise] at h; exact Option.noConfusion h
  | succ fuel ih =>
    intro tr F r h
    rw [normalise] at h
    rw [normalise]
    by_cases c1 : (norm_pass tr 256 0 { F := F, fsum := 0, m := 0, M := 0 }).fsum + 1 < TOTFREQ
    · rw [if_pos c1] at h ⊢; exact h
    · rw [if_neg c1] at h ⊢
      by_cases c2 : (norm_pass tr 256 0 { F := F, fsum := 0, m := 0, M := 0 }).fsum + 1 - TOTFREQ
          > (norm_pass tr 256 0 { F := F, fsum := 0, m := 0, M := 0 }).F
              (norm_pass tr 256 0 { F := F, fsum := 0, m := 0, M := 0 }).M / 2
      · rw [if_pos c2] at h ⊢; exact ih _ _ _ h
      · rw [if_neg c2] at h ⊢; exact h

theorem normalise_fuel_le (tr : Nat) (F : Nat → Nat) (r : (Nat → Nat) × Nat) (fuel : Nat)
    (h : normalise fuel tr F = some r) : ∀ d, normalise (fuel + d) tr F = some r := by
  intro d
  induction d with
  | zero => exact h
  | succ d ih => exact normalise_fuel_succ _ _ _ _ ih

/-- What a pass with `tr = 2104533975` does to one entry. -/
theorem harder_pass_entry (F : Nat → Nat) (k : Nat) (hk : k < 256) :
    (2 ≤ F k → F k < 2 ^ 32 →
      1 ≤ (norm_pass 2104533975 256 0 { F := F, fsum := 0, m := 0, M := 0 }).F k ∧
      (norm_pass 2104533975 256 0 { F := F, fsum := 0, m := 0, M := 0 }).F k < F k) ∧
    (F k = 1 → (norm_pass 2104533975 256 0 { F := F, fsum := 0, m := 0, M := 0 }).F k = 1) ∧
    (F k = 0 → (norm_pass 2104533975 256 0 { F := F, fsum := 0, m := 0, M := 0 }).F k = 0) := by
  rw [norm_pass_eq, (full_pass (scale0 2104533975) F).2.1 k]
  unfold bump scale0
  rw [Nat.shiftRight_eq_div_pow]
  refine ⟨?_, ?_, ?_⟩
  · intro h2 h32
    rw [if_pos ⟨hk, by omega⟩]
    have : F k * 2104533975 % 2 ^ 64 = F k * 2104533975 := Nat.mod_eq_of_lt (by omega)
    rw [this]
    split <;> omega
  · intro h1
    rw [if_pos ⟨hk, by omega⟩, h1]
    decide
  · intro h0
    rw [if_neg (by omega)]
    exact h0

set_option maxRecDepth 100000 in
/-- Claim C21: two calls of `rans_uncompress` on one thread.  The first block,
`01 | 25 | 4 | 00 41 00 00 41 42 00 00 00 | 00 00 80 00 (x4)`, has a row for the
context `0x00` (symbol `0x41`) and one for the context `0x41` (symbol `0x42`);
with zeroed tables it decodes to `41 41 41 41`, and its table parse leaves the
tables `S1`, where the table of dense id 1 holds `0x42` in every slot.  The
second block, `01 | 21 | 8 | 00 41 00 00 00 | 00 00 80 00 (x4)`, has the row of
the context `0x00` only, and its payload passes to the context `0x41`: with
zeroed tables the call returns `41 00 41 00 41 00 41 00`, with the tables left
by the first call it returns `41 42 41 42 41 42 41 42`. -/
theorem stale_tables_change_result :
    ∃ S1 rest,
      dec1_table_loop 34
          { D := fun _ _ => 0, syms := fun _ _ => { start := 0, freq := 0 }, map := fun _ => -1,
            map_i := 0 } 0 0
          [0x41, 0, 0, 0x41, 0x42, 0, 0, 0,
            0, 0, 0x80, 0, 0, 0, 0x80, 0, 0, 0, 0x80, 0, 0, 0, 0x80, 0]
        = Res.ok (S1, rest) ∧
      S1.D 1 0 = 0x42 ∧ S1.syms 1 0x42 = { start := 0, freq := 4096 } ∧
      rans_uncompress zeroTab0 (fun _ _ => 0) (fun _ _ => { start := 0, freq := 0 })
          [1, 25, 0, 0, 0, 4, 0, 0, 0, 0, 0x41, 0, 0, 0x41, 0x42, 0, 0, 0,
            0, 0, 0x80, 0, 0, 0, 0x80, 0, 0, 0, 0x80, 0, 0, 0, 0x80, 0]
        = Res.ok [0x41, 0x41, 0x41, 0x41] ∧
      rans_uncompress zeroTab0 (fun _ _ => 0) (fun _ _ => { start := 0, freq := 0 })
          [1, 21, 0, 0, 0, 8, 0, 0, 0, 0, 0x41, 0, 0, 0,
            0, 0, 0x80, 0, 0, 0, 0x80, 0, 0, 0, 0x80, 0, 0, 0, 0x80, 0]
        = Res.ok [0x41, 0, 0x41, 0, 0x41, 0, 0x41, 0] ∧
      rans_uncompress zeroTab0 S1.D S1.syms
          [1, 21, 0, 0, 0, 8, 0, 0, 0, 0, 0x41, 0, 0, 0,
            0, 0, 0x80, 0, 0, 0, 0x80, 0, 0, 0, 0x80, 0, 0, 0, 0x80, 0]
        = Res.ok [0x41, 0x42, 0x41, 0x42, 0x41, 0x42, 0x41, 0x42] :=
  ⟨_, _, rfl, rfl, rfl, rfl, rfl, rfl⟩

theorem getD_map_range (f : Nat → Nat) (n j : Nat) (h : j < n) :
    ((List.range n).map f).getD j 0 = f j := by
  simp [List.getD_eq_getElem?_getD, h]

/-- The decode loop of order 0 stores the symbol of stream `k` at step `t` in
the cell `i + 4 t + k`. -/
theorem dec0_loop_positions (T : DecTab0) (n : Nat) : ∀ (i : Nat) (st : Rans4) (out : Nat → Nat)
    (r : Rans4 × (Nat → Nat)), dec0_loop T n i st out = Res.ok r →
    dec0_states T n st = Res.ok r.1 ∧
    ∀ t, t < n → ∃ s, dec0_states T t st = Res.ok s ∧
      ∀ k, k < 4 → r.2 (i + 4 * t + k) = (dec0_sym T (s.R k)).1 := by
  induction n with
  | zero =>
    intro i st out r h
    rw [dec0_loop] at h
    rw [← Res.ok.inj h]
    exact ⟨rfl, fun t ht => absurd ht (by omega)⟩
  | succ n ih =>
    intro i st out r h
    have hf := dec0_loop_frame T (n + 1) i st out r h
    rw [dec0_loop_succ] at h
    cases h1 : dec_renorm4 (dec0_sym T st.r0).2 (dec0_sym T st.r1).2 (dec0_sym T st.r2).2
        (dec0_sym T st.r3).2 st.ptr with
    | fail => rw [h1] at h; exact Res.noConfusion h
    | ub => rw [h1] at h; exact Res.noConfusion h
    | diverge => rw [h1] at h; exact Res.noConfusion h
    | ok st1 =>
      rw [h1] at h
      simp only [Res.bind_ok] at h
      obtain ⟨a, b⟩ := ih _ _ _ r h
      have hfr := dec0_loop_frame T n (i + 4) st1 _ r h
      have hs : ∀ t, dec0_states T (t + 1) st = dec0_states T t st1 := by
        intro t
        rw [dec0_states, dec0_round, h1]
        rfl
      refine ⟨by rw [hs]; exact a, ?_⟩
      intro t ht
      cases t with
      | zero =>
        refine ⟨st, rfl, ?_⟩
        intro k hk
        rw [hfr (i + 4 * 0 + k) (Or.inl (by omega))]
        have hk4 : k = 0 ∨ k = 1 ∨ k = 2 ∨ k = 3 := by omega
        rcases hk4 with e | e | e | e <;> subst e <;> simp [store, Rans4.R]
      | succ t =>
        obtain ⟨s, hs1, hs2⟩ := b t (by omega)
        refine ⟨s, by rw [hs]; exact hs1, ?_⟩
        intro k hk
        have e : i + 4 * (t + 1) + k = i + 4 + 4 * t + k := by omega
        rw [e]
        exact hs2 k hk

/-- The `switch` of order 0 stores in the cell `out_end + k`, for `k` below
`out_sz & 3`, the symbol at the state of stream `k`. -/
theorem dec0_tail_positions (T : DecTab0) (out_sz out_end : Nat) (st : Rans4) (out : Nat → Nat)
    (k : Nat) (hk : k < out_sz &&& 3) :
    dec0_tail T out_sz out_end st out (out_end + k) = (dec0_sym T (st.R k)).1 := by
  unfold dec0_tail dec0_sym Rans4.R
  have h3 := and_3 out_sz
  have hlt : out_sz % 4 < 4 := Nat.mod_lt _ (by omega)
  rw [h3] at hk
  simp only [h3]
  have hk4 : k = 0 ∨ k = 1 ∨ k = 2 := by omega
  have hm : out_sz % 4 = 1 ∨ out_sz % 4 = 2 ∨ out_sz % 4 = 3 := by omega
  rcases hk4 with e | e | e <;> subst e <;> rcases hm with m | m | m <;>
    first
    | omega
    | simp [m, store]

/-- What a successful call of `rans_uncompress_O0` says about its loops. -/
theorem uncompress0_ok_loop (T : DecTab0) (inp out : List Nat)
    (h : rans_uncompress_O0 T inp = Res.ok out) :
    ∃ T1 x cp st0 e, dec0_table inp.length T (inp.drop 9) = Res.ok (T1, x, cp) ∧
      dec_init4 cp = Res.ok st0 ∧
      dec0_loop T1 ((rd_le32 inp 5 &&& 0xFFFFFFFC) / 4) 0 st0 (fun _ => 0) = Res.ok e ∧
      out = (List.range (rd_le32 inp 5)).map
        (dec0_tail T1 (rd_le32 inp 5) (rd_le32 inp 5 &&& 0xFFFFFFFC) e.1 e.2) := by
  unfold rans_uncompress_O0 at h
  by_cases c1 : inp.length < 26
  · simp only [if_pos c1] at h; exact Res.noConfusion h
  by_cases c2 : inp.getD 0 0 ≠ 0
  · simp only [if_neg c1, if_pos c2] at h; exact Res.noConfusion h
  by_cases c3 : rd_le32 inp 1 ≠ inp.length - 9
  · simp only [if_neg c1, if_neg c2, if_pos c3] at h; exact Res.noConfusion h
  by_cases c4 : rd_le32 inp 5 ≥ INT_MAX
  · simp only [if_neg c1, if_neg c2, if_neg c3, if_pos c4] at h; exact Res.noConfusion h
  simp only [if_neg c1, if_neg c2, if_neg c3, if_neg c4] at h
  cases h1 : dec0_table inp.length T (inp.drop 9) with
  | fail => rw [h1] at h; exact Res.noConfusion h
  | ub => rw [h1] at h; exact Res.noConfusion h
  | diverge => rw [h1] at h; exact Res.noConfusion h
  | ok r =>
    rw [h1] at h
    simp only [Res.bind_ok] at h
    by_cases c5 : r.2.1 < TOTFREQ - 1 ∨ r.2.1 > TOTFREQ
    · rw [if_pos c5] at h; exact Res.noConfusion h
    rw [if_neg c5] at h
    by_cases c6 : r.2.2.length < 16
    · rw [if_pos c6] at h; exact Res.noConfusion h
    rw [if_neg c6] at h
    cases h2 : dec_init4 r.2.2 with
    | fail => rw [h2] at h; exact Res.noConfusion h
    | ub => rw [h2] at h; exact Res.noConfusion h
    | diverge => rw [h2] at h; exact Res.noConfusion h
    | ok st =>
      rw [h2] at h
      simp only [Res.bind_ok] at h
      cases h3 : dec0_loop r.1 ((rd_le32 inp 5 &&& 0xFFFFFFFC) / 4) 0 st (fun _ => 0) with
      | fail => rw [h3] at h; exact Res.noConfusion h
      | ub => rw [h3] at h; exact Res.noConfusion h
      | diverge => rw [h3] at h; exact Res.noConfusion h
      | ok e =>
        rw [h3] at h
        simp only [Res.bind_ok] at h
        exact ⟨r.1, r.2.1, r.2.2, st, e, rfl, h2, h3, (Res.ok.inj h).symm⟩

theorem rd_le32_lt (inp : List Nat) (k : Nat) : rd_le32 inp k < 2 ^ 32 := by
  unfold rd_le32
  exact Nat.mod_lt _ (by decide)

set_option maxRecDepth 100000 in
/-- Claim C22, counterexample: the block that `rans_compress` with order 0
returns for the nine bytes `41 42 .. 49` (`n = 9`, `q = 2`) decodes to these nine
bytes.  The symbol decoded from stream 1 at step 0 is `0x42`, and the cell
`out[1*q + 0] = out[2]` holds `0x43`: the symbol is in the cell `out[4*0 + 1]`.
The remainder byte `out[8] = 0x49` is the symbol at the state of stream 0 after
the two steps; the state of stream 3 there gives the symbol `0x41`. -/
theorem order0_not_striped :
    rans_compress intOps [0x41, 0x42, 0x43, 0x44, 0x45, 0x46, 0x47, 0x48, 0x49] 0
      = Res.ok [0, 39, 0, 0, 0, 9, 0, 0, 0, 65, 129, 199, 66, 7, 129, 199, 129, 199, 129, 199,
          129, 199, 129, 199, 129, 199, 129, 199, 129, 199, 0, 195, 192, 108, 1, 208, 33, 133, 40,
          151, 51, 133, 40, 94, 69, 133, 40, 37] ∧
    ∃ T1 x cp st0 st2,
      dec0_table 48 zeroTab0
          [65, 129, 199, 66, 7, 129, 199, 129, 199, 129, 199,
            129, 199, 129, 199, 129, 199, 129, 199, 129, 199, 0, 195, 192, 108, 1, 208, 33, 133, 40,
            151, 51, 133, 40, 94, 69, 133, 40, 37] = Res.ok (T1, x, cp) ∧
      dec_init4 cp = Res.ok st0 ∧
      dec0_states T1 2 st0 = Res.ok st2 ∧
      rans_uncompress zeroTab0 (fun _ _ => 0) (fun _ _ => { start := 0, freq := 0 })
          [0, 39, 0, 0, 0, 9, 0, 0, 0, 65, 129, 199, 66, 7, 129, 199, 129, 199, 129, 199,
            129, 199, 129, 199, 129, 199, 129, 199, 129, 199, 0, 195, 192, 108, 1, 208, 33, 133, 40,
            151, 51, 133, 40, 94, 69, 133, 40, 37]
        = Res.ok [0x41, 0x42, 0x43, 0x44, 0x45, 0x46, 0x47, 0x48, 0x49] ∧
      (dec0_sym T1 (st0.R 1)).1 = 0x42 ∧
      [0x41, 0x42, 0x43, 0x44, 0x45, 0x46, 0x47, 0x48, 0x49].getD (1 * (9 >>> 2) + 0) 0 = 0x43 ∧
      [0x41, 0x42, 0x43, 0x44, 0x45, 0x46, 0x47, 0x48, 0x49].getD (4 * 0 + 1) 0 = 0x42 ∧
      (dec0_sym T1 (st2.R 3)).1 = 0x41 ∧ (dec0_sym T1 (st2.R 0)).1 = 0x49 ∧
      [0x41, 0x42, 0x43, 0x44, 0x45, 0x46, 0x47, 0x48, 0x49].getD (4 * (9 >>> 2)) 0 = 0x49 :=
  ⟨rfl, _, _, _, _, _, rfl, rfl, rfl, rfl, rfl, rfl, rfl, rfl, rfl, rfl⟩

/-- Claim C22, as the code has it: when `rans_uncompress` decodes an order-0
block with `orig_size = n` and `q = n >> 2`, the output is filled interleaved:
the symbol decoded from stream `k` (`k = 0 .. 3`) at step `t` (`0 <= t < q`), that
is, the symbol at the state `R[k]` after `t` rounds from the initial states, is
stored at `out[4*t + k]`; and the remainder beyond `4q` is emitted by the streams
`0 .. (n & 3) - 1`, the byte `out[4*q + k]` being the symbol at the state of
stream `k` after the `q` rounds, with no advance.  The result has `n` bytes. -/
theorem order0_positions (T : DecTab0) (D : Nat → Nat → Nat)
    (syms : Nat → Nat → RansDecSymbol32) (inp out : List Nat) (h0 : inp.getD 0 0 = 0)
    (h : rans_uncompress T D syms inp = Res.ok out) :
    ∃ T1 x cp st0 stq, dec0_table inp.length T (inp.drop 9) = Res.ok (T1, x, cp) ∧
      dec_init4 cp = Res.ok st0 ∧ out.length = rd_le32 inp 5 ∧
      (∀ t, t < rd_le32 inp 5 >>> 2 → ∃ s, dec0_states T1 t st0 = Res.ok s ∧
        ∀ k, k < 4 → out.getD (4 * t + k) 0 = (dec0_sym T1 (s.R k)).1) ∧
      dec0_states T1 (rd_le32 inp 5 >>> 2) st0 = Res.ok stq ∧
      (∀ k, k < rd_le32 inp 5 &&& 3 →
        out.getD (4 * (rd_le32 inp 5 >>> 2) + k) 0 = (dec0_sym T1 (stq.R k)).1) := by
  have h9 : 9 ≤ inp.length := by
    by_contra c
    unfold rans_uncompress at h
    rw [if_pos (by omega)] at h
    exact Res.noConfusion h
  rw [uncompress_head0 T D syms inp h9 h0] at h
  obtain ⟨T1, x, cp, st0, e, ht, hi, hl, ho⟩ := uncompress0_ok_loop T inp out h
  have hlt := rd_le32_lt inp 5
  generalize rd_le32 inp 5 = n at *
  have e1 := and_not3 n hlt
  have e2 := and_not3_div n hlt
  have e3 := and_3 n
  have e4 : n >>> 2 = n / 4 := by rw [Nat.shiftRight_eq_div_pow]
  rw [e2] at hl
  obtain ⟨a, b⟩ := dec0_loop_positions T1 (n / 4) 0 st0 _ e hl
  refine ⟨T1, x, cp, st0, e.1, ht, hi, by rw [ho]; simp, ?_, by rw [e4]; exact a, ?_⟩
  · intro t ht2
    rw [e4] at ht2
    obtain ⟨s, hs1, hs2⟩ := b t ht2
    refine ⟨s, hs1, ?_⟩
    intro k hk
    rw [ho, getD_map_range _ _ _ (by omega),
      dec0_tail_frame T1 n hlt e.1 e.2 (4 * t + k) (Or.inl (by rw [e1]; omega))]
    have := hs2 k hk
    rw [Nat.zero_add] at this
    exact this
  · intro k hk
    rw [e4, ho, getD_map_range _ _ _ (by rw [e3] at hk; omega), ← e1]
    exact dec0_tail_positions T1 n (n &&& 0xFFFFFFFC) e.1 e.2 k hk

set_option maxRecDepth 100000 in
theorem order0_positions_witness :
    [0, 39, 0, 0, 0, 9, 0, 0, 0, 65, 129, 199, 66, 7, 129, 199, 129, 199, 129, 199,
      129, 199, 129, 199, 129, 199, 129, 199, 129, 199, 0, 195, 192, 108, 1, 208, 33, 133, 40,
      151, 51, 133, 40, 94, 69, 133, 40, 37].getD 0 0 = 0 ∧
    rans_uncompress zeroTab0 (fun _ _ => 0) (fun _ _ => { start := 0, freq := 0 })
        [0, 39, 0, 0, 0, 9, 0, 0, 0, 65, 129, 199, 66, 7, 129, 199, 129, 199, 129, 199,
          129, 199, 129, 199, 129, 199, 129, 199, 129, 199, 0, 195, 192, 108, 1, 208, 33, 133, 40,
          151, 51, 133, 40, 94, 69, 133, 40, 37]
      = Res.ok [0x41, 0x42, 0x43, 0x44, 0x45, 0x46, 0x47, 0x48, 0x49] ∧
    ∃ T1 x cp st0 stq,
      dec0_table
          [0, 39, 0, 0, 0, 9, 0, 0, 0, 65, 129, 199, 66, 7, 129, 199, 129, 199, 129, 199,
            129, 199, 129, 199, 129, 199, 129, 199, 129, 199, 0, 195, 192, 108, 1, 208, 33, 133,
            40, 151, 51, 133, 40, 94, 69, 133, 40, 37].length zeroTab0
          ([0, 39, 0, 0, 0, 9, 0, 0, 0, 65, 129, 199, 66, 7, 129, 199, 129, 199, 129, 199,
            129, 199, 129, 199, 129, 199, 129, 199, 129, 199, 0, 195, 192, 108, 1, 208, 33, 133,
            40, 151, 51, 133, 40, 94, 69, 133, 40, 37].drop 9) = Res.ok (T1, x, cp) ∧
      dec_init4 cp = Res.ok st0 ∧
      [0x41, 0x42, 0x43, 0x44, 0x45, 0x46, 0x47, 0x48, 0x49].length
        = rd_le32 [0, 39, 0, 0, 0, 9, 0, 0, 0, 65, 129, 199, 66, 7, 129, 199, 129, 199, 129, 199,
            129, 199, 129, 199, 129, 199, 129, 199, 129, 199, 0, 195, 192, 108, 1, 208, 33, 133,
            40, 151, 51, 133, 40, 94, 69, 133, 40, 37] 5 ∧
      (∀ t, t < rd_le32 [0, 39, 0, 0, 0, 9, 0, 0, 0, 65, 129, 199, 66, 7, 129, 199, 129, 199,
            129, 199, 129, 199, 129, 199, 129, 199, 129, 199, 129, 199, 0, 195, 192, 108, 1, 208,
            33, 133, 40, 151, 51, 133, 40, 94, 69, 133, 40, 37] 5 >>> 2 →
        ∃ s, dec0_states T1 t st0 = Res.ok s ∧
        ∀ k, k < 4 → [0x41, 0x42, 0x43, 0x44, 0x45, 0x46, 0x47, 0x48, 0x49].getD (4 * t + k) 0
          = (dec0_sym T1 (s.R k)).1) ∧
      dec0_states T1 (rd_le32 [0, 39, 0, 0, 0, 9, 0, 0, 0, 65, 129, 199, 66, 7, 129, 199, 129,
            199, 129, 199, 129, 199, 129, 199, 129, 199, 129, 199, 129, 199, 0, 195, 192, 108, 1,
            208, 33, 133, 40, 151, 51, 133, 40, 94, 69, 133, 40, 37] 5 >>> 2) st0 = Res.ok stq ∧
      (∀ k, k < rd_le32 [0, 39, 0, 0, 0, 9, 0, 0, 0, 65, 129, 199, 66, 7, 129, 199, 129, 199,
            129, 199, 129, 199, 129, 199, 129, 199, 129, 199, 129, 199, 0, 195, 192, 108, 1, 208,
            33, 133, 40, 151, 51, 133, 40, 94, 69, 133, 40, 37] 5 &&& 3 →
        [0x41, 0x42, 0x43, 0x44, 0x45, 0x46, 0x47, 0x48, 0x49].getD
            (4 * (rd_le32 [0, 39, 0, 0, 0, 9, 0, 0, 0, 65, 129, 199, 66, 7, 129, 199, 129, 199,
              129, 199, 129, 199, 129, 199, 129, 199, 129, 199, 129, 199, 0, 195, 192, 108, 1,
              208, 33, 133, 40, 151, 51, 133, 40, 94, 69, 133, 40, 37] 5 >>> 2) + k) 0
          = (dec0_sym T1 (stq.R k)).1) :=
  ⟨rfl, rfl, order0_positions zeroTab0 (fun _ _ => 0) (fun _ _ => { start := 0, freq := 0 })
    [0, 39, 0, 0, 0, 9, 0, 0, 0, 65, 129, 199, 66, 7, 129, 199, 129, 199, 129, 199,
      129, 199, 129, 199, 129, 199, 129, 199, 129, 199, 0, 195, 192, 108, 1, 208, 33, 133, 40,
      151, 51, 133, 40, 94, 69, 133, 40, 37]
    [0x41, 0x42, 0x43, 0x44, 0x45, 0x46, 0x47, 0x48, 0x49] rfl rfl⟩

theorem cumul_add (f g : Nat → Nat) (n : Nat) :
    cumul (fun b => f b + g b) n = cumul f n + cumul g n := by
  induction n with
  | zero => rfl
  | succ n ih => simp only [cumul, ih]; omega

/-- A sum of indicators of a property that holds for one index at most is at
most 1. -/
theorem cumul_indicator (P : Nat → Prop) [DecidablePred P]
    (hu : ∀ b c, P b → P c → b = c) (n : Nat) :
    cumul (fun b => if P b then 1 else 0) n ≤ 1 ∧
    (cumul (fun b => if P b then 1 else 0) n = 1 → ∃ b, b < n ∧ P b) := by
  induction n with
  | zero => exact ⟨by simp [cumul], fun h => by simp [cumul] at h⟩
  | succ n ih =>
    obtain ⟨i1, i2⟩ := ih
    simp only [cumul]
    by_cases hp : P n
    · rw [if_pos hp]
      have h0 : cumul (fun b => if P b then 1 else 0) n ≠ 1 := by
        intro h1
        obtain ⟨b, hb, hpb⟩ := i2 h1
        have := hu b n hpb hp
        omega
      exact ⟨by omega, fun _ => ⟨n, by omega, hp⟩⟩
    · rw [if_neg hp]
      refine ⟨by omega, fun h1 => ?_⟩
      obtain ⟨b, hb, hpb⟩ := i2 (by omega)
      exact ⟨b, by omega, hpb⟩

/-- Counts of the positions of a list by a key that each position has once sum
to the length of the list at most. -/
theorem cumul_countP_le (P : Nat → Nat → Prop) [∀ k b, Decidable (P k b)]
    (hu : ∀ k b c, P k b → P k c → b = c) (n : Nat) (L : List Nat) :
    cumul (fun b => L.countP (fun k => decide (P k b))) n ≤ L.length := by
  induction L with
  | nil => simp only [List.countP_nil, List.length_nil]; exact (cumul_le _ 0 n (fun _ _ => Nat.le_refl _)).trans (by omega)
  | cons k L ih =>
    have e : (fun b => (k :: L).countP (fun k => decide (P k b)))
        = fun b => L.countP (fun k => decide (P k b)) + (if P k b then 1 else 0) := by
      funext b
      rw [List.countP_cons]
      simp only [decide_eq_true_eq]
    rw [e, cumul_add, List.length_cons]
    have := (cumul_indicator (fun b => P k b) (hu k) n).1
    omega

/-- The pair counts of the statistics of order 1, and their sum over the second
byte, are at most the input size plus 3. -/
theorem stats_O1_le (inp : List Nat) (hn : 4 ≤ inp.length)
    (a b : Nat) :
    (stats_O1 inp).1 a b ≤ inp.length + 3 ∧ cumul ((stats_O1 inp).1 a) 256 ≤ inp.length + 3 := by
  have hF : ∀ c, (stats_O1 inp).1 a c
      = (List.range' 1 (inp.length - 1)).countP
          (fun k => decide (inp.getD (k - 1) 0 = a ∧ inp.getD k 0 = c))
        + (if a = 0 ∧ c = inp.getD 0 0 then 1 else 0)
        + [1, 2, 3].countP (fun k => decide (a = 0 ∧ c = inp.getD (k * (inp.length >>> 2)) 0)) := by
    intro c
    rw [← pairs_in_all inp (by omega) a c, ← hist1_4_pairs inp hn a c]
    unfold stats_O1
    simp only
    generalize hist1_4 inp (fun _ _ => 0) (fun _ => 0) = h
    generalize hA : store2 h.1 0 (inp.getD (1 * (inp.length >>> 2)) 0)
      (h.1 0 (inp.getD (1 * (inp.length >>> 2)) 0) + 1) = Fa
    generalize hB : store2 Fa 0 (inp.getD (2 * (inp.length >>> 2)) 0)
      (Fa 0 (inp.getD (2 * (inp.length >>> 2)) 0) + 1) = Fb
    rw [store2_inc Fb, ← hB, store2_inc Fa, ← hA, store2_inc h.1]
    simp only [List.countP_cons, List.countP_nil, decide_eq_true_eq]
    omega
  have h1 := cumul_countP_le (fun k c => inp.getD (k - 1) 0 = a ∧ inp.getD k 0 = c)
    (fun k c d h h2 => h.2.symm.trans h2.2) 256 (List.range' 1 (inp.length - 1))
  have h2 := (cumul_indicator (fun c => a = 0 ∧ c = inp.getD 0 0)
    (fun c d h h2 => h.2.trans h2.2.symm) 256).1
  have h3 := cumul_countP_le (fun k c => a = 0 ∧ c = inp.getD (k * (inp.length >>> 2)) 0)
    (fun k c d h h2 => h.2.trans h2.2.symm) 256 [1, 2, 3]
  rw [List.length_range'] at h1
  have e : (stats_O1 inp).1 a = fun c =>
      (List.range' 1 (inp.length - 1)).countP
          (fun k => decide (inp.getD (k - 1) 0 = a ∧ inp.getD k 0 = c))
        + (if a = 0 ∧ c = inp.getD 0 0 then 1 else 0)
        + [1, 2, 3].countP (fun k => decide (a = 0 ∧ c = inp.getD (k * (inp.length >>> 2)) 0)) :=
    funext hF
  refine ⟨?_, ?_⟩
  · rw [hF b]
    have g1 := List.countP_le_length (fun k => decide (inp.getD (k - 1) 0 = a ∧ inp.getD k 0 = b))
      (l := List.range' 1 (inp.length - 1))
    have g2 : (if a = 0 ∧ b = inp.getD 0 0 then 1 else 0) ≤ 1 := by split <;> omega
    have g3 := List.countP_le_length
      (fun k => decide (a = 0 ∧ b = inp.getD (k * (inp.length >>> 2)) 0)) (l := [1, 2, 3])
    rw [List.length_range'] at g1
    simp only [List.length_cons, List.length_nil] at g3
    omega
  · rw [e, cumul_add, cumul_add]
    simp only [List.length_cons, List.length_nil] at h3
    omega

/-- Claim C17: for every byte string `inp` of fewer than `2^31` bytes (the sizes
for which the `int` index and the `int` counters of `hist8` do not overflow) and
a zeroed `F0`, `hist8` leaves in `F0[b]` the number of positions `i` with
`in[i] = b`, for every `b`; that number is at most `INT_MAX`. -/
theorem hist8_naive (inp : List Nat) (hsz : inp.length < 2 ^ 31) (hb : ∀ b ∈ inp, b < 256)
    (b : Nat) :
    hist8 inp (fun _ => 0) b = inp.count b ∧
    inp.count b = ((List.range inp.length).filter (fun i => inp.getD i 0 = b)).length ∧
    hist8 inp (fun _ => 0) b ≤ INT_MAX := by
  refine ⟨hist8_count inp b hb, ?_, ?_⟩
  · clear hb hsz
    induction inp using List.reverseRecOn with
    | nil => rfl
    | append_singleton l a ih =>
      rw [List.count_append, ih, List.length_append, List.length_singleton, List.range_succ,
        List.filter_append, List.length_append]
      have e1 : (List.range l.length).filter (fun i => (l ++ [a]).getD i 0 = b)
          = (List.range l.length).filter (fun i => l.getD i 0 = b) := by
        apply List.filter_congr
        intro i hi
        have hi2 : i < l.length := List.mem_range.mp hi
        rw [List.getD_append _ _ _ _ hi2]
      rw [e1]
      have e2 : (l ++ [a]).getD l.length 0 = a := by
        rw [List.getD_append_right _ _ _ _ (Nat.le_refl _)]
        simp
      by_cases hab : a = b
      · simp [e2, hab]
      · have : ¬ (a == b) = true := by simpa using hab
        simp [e2, hab, List.count_cons, this]
  · rw [hist8_count inp b hb]
    have := List.count_le_length b inp
    unfold INT_MAX
    omega

theorem hist8_naive_witness :
    [65, 66, 65, 0, 65, 66, 65, 66, 65, 7].length < 2 ^ 31 ∧
    (∀ b ∈ [65, 66, 65, 0, 65, 66, 65, 66, 65, 7], b < 256) ∧
    hist8 [65, 66, 65, 0, 65, 66, 65, 66, 65, 7] (fun _ => 0) 65
        = [65, 66, 65, 0, 65, 66, 65, 66, 65, 7].count 65 ∧
      [65, 66, 65, 0, 65, 66, 65, 66, 65, 7].count 65
        = ((List.range [65, 66, 65, 0, 65, 66, 65, 66, 65, 7].length).filter
            (fun i => [65, 66, 65, 0, 65, 66, 65, 66, 65, 7].getD i 0 = 65)).length ∧
      hist8 [65, 66, 65, 0, 65, 66, 65, 66, 65, 7] (fun _ => 0) 65 ≤ INT_MAX :=
  ⟨by decide, by decide,
    hist8_naive [65, 66, 65, 0, 65, 66, 65, 66, 65, 7] (by decide) (by decide) 65⟩

/-- Claim C18: for every input `in` of four bytes or more and with
`n + 3 < 2^31` (the sizes for which no `int` counter of `F` and `T` overflows),
with `q = n >> 2`, after `hist1_4` and the three seed increments of
`rans_compress_O1`, `F[a][b]` is the number of positions `k ≥ 1` with
`in[k-1] = a` and `in[k] = b`, plus 1 when `a = 0` and `b = in[0]`, plus the
number of `k` in `{1, 2, 3}` with `a = 0` and `b = in[k*q]`; and for every
context `a`, `T[a]` is the sum of `F[a][b]` over the 256 values of `b`.  Both are
at most `INT_MAX`. -/
theorem order1_histogram (inp : List Nat) (hn : 4 ≤ inp.length)
    (hsz : inp.length + 3 < 2 ^ 31) (hb : ∀ x ∈ inp, x < 256) (a b : Nat) :
    (stats_O1 inp).1 a b
      = (List.range' 1 (inp.length - 1)).countP
          (fun k => decide (inp.getD (k - 1) 0 = a ∧ inp.getD k 0 = b))
        + (if a = 0 ∧ b = inp.getD 0 0 then 1 else 0)
        + [1, 2, 3].countP (fun k => decide (a = 0 ∧ b = inp.getD (k * (inp.length >>> 2)) 0)) ∧
    (a < 256 → (stats_O1 inp).2 a = cumul ((stats_O1 inp).1 a) 256) ∧
    (stats_O1 inp).1 a b ≤ INT_MAX ∧ (a < 256 → (stats_O1 inp).2 a ≤ INT_MAX) := by
  have hT : a < 256 → (stats_O1 inp).2 a = cumul ((stats_O1 inp).1 a) 256 :=
    fun ha => (stats_O1_spec inp hn hb).1 a ha
  have hle := stats_O1_le inp hn a b
  refine ⟨?_, hT, by unfold INT_MAX; omega, fun ha => by rw [hT ha]; unfold INT_MAX; omega⟩
  rw [← pairs_in_all inp (by omega) a b, ← hist1_4_pairs inp hn a b]
  unfold stats_O1
  simp only
  generalize hist1_4 inp (fun _ _ => 0) (fun _ => 0) = h
  generalize hA : store2 h.1 0 (inp.getD (1 * (inp.length >>> 2)) 0)
    (h.1 0 (inp.getD (1 * (inp.length >>> 2)) 0) + 1) = Fa
  generalize hB : store2 Fa 0 (inp.getD (2 * (inp.length >>> 2)) 0)
    (Fa 0 (inp.getD (2 * (inp.length >>> 2)) 0) + 1) = Fb
  rw [store2_inc Fb, ← hB, store2_inc Fa, ← hA, store2_inc h.1]
  simp only [List.countP_cons, List.countP_nil, decide_eq_true_eq]
  omega

theorem order1_histogram_witness :
    4 ≤ [65, 66, 65, 66, 67].length ∧ [65, 66, 65, 66, 67].length + 3 < 2 ^ 31 ∧
    (∀ x ∈ [65, 66, 65, 66, 67], x < 256) ∧
    (stats_O1 [65, 66, 65, 66, 67]).1 65 66
      = (List.range' 1 ([65, 66, 65, 66, 67].length - 1)).countP
          (fun k => decide ([65, 66, 65, 66, 67].getD (k - 1) 0 = 65 ∧
            [65, 66, 65, 66, 67].getD k 0 = 66))
        + (if 65 = 0 ∧ 66 = [65, 66, 65, 66, 67].getD 0 0 then 1 else 0)
        + [1, 2, 3].countP (fun k => decide (65 = 0 ∧
            66 = [65, 66, 65, 66, 67].getD (k * ([65, 66, 65, 66, 67].length >>> 2)) 0)) ∧
    (65 < 256 → (stats_O1 [65, 66, 65, 66, 67]).2 65
      = cumul ((stats_O1 [65, 66, 65, 66, 67]).1 65) 256) ∧
    (stats_O1 [65, 66, 65, 66, 67]).1 65 66 ≤ INT_MAX ∧
    (65 < 256 → (stats_O1 [65, 66, 65, 66, 67]).2 65 ≤ INT_MAX) :=
  ⟨by decide, by decide, by decide,
    order1_histogram [65, 66, 65, 66, 67] (by decide) (by decide) (by decide) 65 66⟩

/-- What a pass with `tr = 2104533975` does to one entry of an `int` row. -/
theorem harder_pass_int (F : Nat → Nat) (k : Nat) (hk : k < 256) :
    (2 ≤ F k → F k ≤ INT_MAX →
      1 ≤ (norm_pass 2104533975 256 0 { F := F, fsum := 0, m := 0, M := 0 }).F k ∧
      (norm_pass 2104533975 256 0 { F := F, fsum := 0, m := 0, M := 0 }).F k < F k) ∧
    (F k = 1 → (norm_pass 2104533975 256 0 { F := F, fsum := 0, m := 0, M := 0 }).F k = 1) ∧
    (F k = 0 → (norm_pass 2104533975 256 0 { F := F, fsum := 0, m := 0, M := 0 }).F k = 0) := by
  obtain ⟨h1, h2, h3⟩ := harder_pass_entry F k hk
  exact ⟨fun a b => h1 a (by unfold INT_MAX at b; omega), h2, h3⟩

/-- The first pass of the normaliser of order 0 leaves every entry at most
`TOTFREQ`. -/
theorem first_pass_le (inp : List Nat) (hb : ∀ b ∈ inp, b < 256) (k : Nat) (hk : k < 256) :
    (norm_pass ((((TOTFREQ <<< 31) % 2 ^ 64) / inp.length + (1 <<< 30) / inp.length) % 2 ^ 64)
      256 0 { F := hist8 inp (fun _ => 0), fsum := 0, m := 0, M := 0 }).F k ≤ TOTFREQ := by
  rw [norm_pass_eq, (full_pass _ _).2.1 k, TOTFREQ_eq]
  by_cases hz : hist8 inp (fun _ => 0) k = 0
  · rw [if_neg (by omega), hz]; omega
  · rw [if_pos ⟨hk, hz⟩]
    have := tr0_bound inp.length (hist8 inp (fun _ => 0) k)
      (by rw [hist8_count inp k hb]; exact List.count_le_length _ _)
    rw [TOTFREQ_eq] at this
    exact this

/-- Claim C23: for every non-empty input of fewer than `2^31` bytes (the sizes
for which the `int` counters of `hist8` hold the counts), the loop around
`normalise_harder` of `rans_compress_O0` comes to an end: with any budget of at
least `NORM_FUEL = 4100` passes it leaves the loop with one and the same row
`F1` and symbol `M`, so the label is reached finitely many times.  The counts
are at most `INT_MAX` and the first pass leaves every entry at most `TOTFREQ`; a
pass with `tr = 2104533975` leaves every entry `F[k] >= 2` of an `int` row at a
value in `[1, F[k])`, keeps the entries 1 at 1 and the entries 0 at 0. -/
theorem normalise_terminates (inp : List Nat) (hne : inp ≠ []) (hsz : inp.length < 2 ^ 31)
    (hb : ∀ b ∈ inp, b < 256) :
    (∃ F1 M, norm_row_O0 inp = some (F1, M) ∧
      ∀ fuel, NORM_FUEL ≤ fuel →
        normalise fuel ((((TOTFREQ <<< 31) % 2 ^ 64) / inp.length + (1 <<< 30) / inp.length) % 2 ^ 64)
          (hist8 inp (fun _ => 0)) = some (F1, M)) ∧
    (∀ k, hist8 inp (fun _ => 0) k ≤ INT_MAX) ∧
    (∀ k, k < 256 →
      (norm_pass ((((TOTFREQ <<< 31) % 2 ^ 64) / inp.length + (1 <<< 30) / inp.length) % 2 ^ 64)
        256 0 { F := hist8 inp (fun _ => 0), fsum := 0, m := 0, M := 0 }).F k ≤ TOTFREQ) ∧
    (∀ (F : Nat → Nat) (k : Nat), k < 256 →
      (2 ≤ F k → F k ≤ INT_MAX →
        1 ≤ (norm_pass 2104533975 256 0 { F := F, fsum := 0, m := 0, M := 0 }).F k ∧
        (norm_pass 2104533975 256 0 { F := F, fsum := 0, m := 0, M := 0 }).F k < F k) ∧
      (F k = 1 → (norm_pass 2104533975 256 0 { F := F, fsum := 0, m := 0, M := 0 }).F k = 1) ∧
      (F k = 0 → (norm_pass 2104533975 256 0 { F := F, fsum := 0, m := 0, M := 0 }).F k = 0)) := by
  refine ⟨?_, ?_, first_pass_le inp hb, harder_pass_int⟩
  · obtain ⟨F1, M, h, _⟩ := norm_row_O0_spec inp hne hb
    refine ⟨F1, M, h, ?_⟩
    intro fuel hf
    have h2 : normalise NORM_FUEL
        ((((TOTFREQ <<< 31) % 2 ^ 64) / inp.length + (1 <<< 30) / inp.length) % 2 ^ 64)
        (hist8 inp (fun _ => 0)) = some (F1, M) := h
    have h3 := normalise_fuel_le _ _ _ _ h2 (fuel - NORM_FUEL)
    have e : NORM_FUEL + (fuel - NORM_FUEL) = fuel := by omega
    rw [e] at h3
    exact h3
  · intro k
    rw [hist8_count inp k hb]
    have := List.count_le_length k inp
    unfold INT_MAX
    omega

theorem normalise_terminates_witness :
    [65, 66, 65] ≠ [] ∧ [65, 66, 65].length < 2 ^ 31 ∧ (∀ b ∈ [65, 66, 65], b < 256) ∧
    ((∃ F1 M, norm_row_O0 [65, 66, 65] = some (F1, M) ∧
      ∀ fuel, NORM_FUEL ≤ fuel →
        normalise fuel ((((TOTFREQ <<< 31) % 2 ^ 64) / [65, 66, 65].length
            + (1 <<< 30) / [65, 66, 65].length) % 2 ^ 64)
          (hist8 [65, 66, 65] (fun _ => 0)) = some (F1, M)) ∧
    (∀ k, hist8 [65, 66, 65] (fun _ => 0) k ≤ INT_MAX) ∧
    (∀ k, k < 256 →
      (norm_pass ((((TOTFREQ <<< 31) % 2 ^ 64) / [65, 66, 65].length
          + (1 <<< 30) / [65, 66, 65].length) % 2 ^ 64)
        256 0 { F := hist8 [65, 66, 65] (fun _ => 0), fsum := 0, m := 0, M := 0 }).F k ≤ TOTFREQ) ∧
    (∀ (F : Nat → Nat) (k : Nat), k < 256 →
      (2 ≤ F k → F k ≤ INT_MAX →
        1 ≤ (norm_pass 2104533975 256 0 { F := F, fsum := 0, m := 0, M := 0 }).F k ∧
        (norm_pass 2104533975 256 0 { F := F, fsum := 0, m := 0, M := 0 }).F k < F k) ∧
      (F k = 1 → (norm_pass 2104533975 256 0 { F := F, fsum := 0, m := 0, M := 0 }).F k = 1) ∧
      (F k = 0 → (norm_pass 2104533975 256 0 { F := F, fsum := 0, m := 0, M := 0 }).F k = 0))) :=
  ⟨by decide, by decide, by decide,
    normalise_terminates [65, 66, 65] (by decide) (by decide) (by decide)⟩

theorem access_pos {α : Type} (c : Prop) [Decidable c] (r : Res α) (h : c) : access c r = r := by
  unfold access
  rw [if_pos h]

theorem mask_lt (R : Nat) : R &&& ((1 <<< TF_SHIFT) - 1) < TOTFREQ := by
  rw [and_mask, TOTFREQ_eq]
  exact Nat.mod_lt _ (by omega)

/-- The checks of the table loop of order 0 never fail. -/
theorem dec0_table_loop_chk_eq (fuel : Nat) : ∀ (T : DecTab0) (j rle x : Nat) (cp : List Nat),
    dec0_table_loop_chk fuel T j rle x cp = dec0_table_loop fuel T j rle x cp := by
  induction fuel with
  | zero => intro T j rle x cp; rfl
  | succ fuel ih =>
    intro T j rle x cp
    rw [dec0_table_loop_chk, dec0_table_loop]
    by_cases h16 : cp.length < 16
    · rw [if_pos h16, if_pos h16]
    · rw [if_neg h16, if_neg h16]
      cases hfc : rd_freq cp with
      | fail => rfl
      | ub => rfl
      | diverge => rfl
      | ok fc =>
        simp only [Res.bind_ok]
        by_cases hx : fc.1 + x > TOTFREQ
        · rw [if_pos hx, if_pos hx]
        · rw [if_neg hx, if_neg hx, access_pos _ _ (by intro y hy; omega)]
          simp only [ih]

theorem dec0_table_chk_eq (fuel : Nat) (T : DecTab0) (cp : List Nat) :
    dec0_table_chk fuel T cp = dec0_table fuel T cp := by
  unfold dec0_table_chk dec0_table
  simp only [dec0_table_loop_chk_eq]

/-- The checks of the decode loop of order 0 never fail when its rounds end at
`out_sz` or before. -/
theorem dec0_loop_chk_eq (T : DecTab0) (out_sz n : Nat) : ∀ (i : Nat) (st : Rans4)
    (out : Nat → Nat), i + 4 * n ≤ out_sz →
    dec0_loop_chk T out_sz n i st out = dec0_loop T n i st out := by
  induction n with
  | zero => intro i st out _; rfl
  | succ n ih =>
    intro i st out h
    rw [dec0_loop_chk, dec0_loop,
      access_pos _ _ ⟨mask_lt _, mask_lt _, mask_lt _, mask_lt _, by omega, by omega, by omega,
        by omega⟩]
    have e : ∀ st1 out1, dec0_loop_chk T out_sz n (i + 4) st1 out1 = dec0_loop T n (i + 4) st1 out1 :=
      fun st1 out1 => ih (i + 4) st1 out1 (by omega)
    simp only [e]

/-- The checks of the `switch` of order 0 never fail. -/
theorem dec0_tail_chk_eq (T : DecTab0) (out_sz : Nat) (hsz : out_sz < 2 ^ 32) (st : Rans4)
    (out : Nat → Nat) :
    dec0_tail_chk T out_sz (out_sz &&& 0xFFFFFFFC) st out
      = Res.ok (dec0_tail T out_sz (out_sz &&& 0xFFFFFFFC) st out) := by
  have e1 := and_not3 out_sz hsz
  have e2 := and_3 out_sz
  unfold dec0_tail_chk dec0_tail
  simp only [e1, e2]
  have hm : out_sz % 4 = 0 ∨ out_sz % 4 = 1 ∨ out_sz % 4 = 2 ∨ out_sz % 4 = 3 := by omega
  have a0 := mask_lt st.r0
  have a1 := mask_lt st.r1
  have a2 := mask_lt st.r2
  have b0 : out_sz % 4 ≠ 0 → 4 * (out_sz / 4) < out_sz := fun _ => by omega
  have b1 : 2 ≤ out_sz % 4 → 4 * (out_sz / 4) + 1 < out_sz := fun _ => by omega
  have b2 : 3 ≤ out_sz % 4 → 4 * (out_sz / 4) + 2 < out_sz := fun _ => by omega
  rcases hm with m | m | m | m
  · simp [m]
  · have c0 := b0 (by omega)
    simp [m, access, a0, c0]
  · have c0 := b0 (by omega)
    have c1 := b1 (by omega)
    simp [m, access, a0, a1, c0, c1]
  · have c0 := b0 (by omega)
    have c1 := b1 (by omega)
    have c2 := b2 (by omega)
    simp [m, access, a0, a1, a2, c0, c1, c2]

/-- The checks of `rans_uncompress_O0` never fail: the checked function is the
function. -/
theorem rans_uncompress_O0_chk_eq (T : DecTab0) (inp : List Nat) :
    rans_uncompress_O0_chk T inp = rans_uncompress_O0 T inp := by
  unfold rans_uncompress_O0_chk rans_uncompress_O0
  by_cases c1 : inp.length < 26
  · simp only [if_pos c1]
  simp only [if_neg c1]
  rw [access_pos _ _ (by omega)]
  by_cases c2 : inp.getD 0 0 ≠ 0
  · simp only [if_pos c2]
  simp only [if_neg c2]
  by_cases c3 : rd_le32 inp 1 ≠ inp.length - 9
  · simp only [if_pos c3]
  simp only [if_neg c3]
  by_cases c4 : rd_le32 inp 5 ≥ INT_MAX
  · simp only [if_pos c4]
  simp only [if_neg c4, dec0_table_chk_eq]
  have hlt := rd_le32_lt inp 5
  generalize rd_le32 inp 5 = n at *
  cases h1 : dec0_table inp.length T (inp.drop 9) with
  | fail => rfl
  | ub => rfl
  | diverge => rfl
  | ok r =>
    simp only [Res.bind_ok]
    by_cases c5 : r.2.1 < TOTFREQ - 1 ∨ r.2.1 > TOTFREQ
    · rw [if_pos c5, if_pos c5]
    rw [if_neg c5, if_neg c5]
    by_cases c6 : r.2.2.length < 16
    · rw [if_pos c6, if_pos c6]
    rw [if_neg c6, if_neg c6]
    cases h2 : dec_init4 r.2.2 with
    | fail => rfl
    | ub => rfl
    | diverge => rfl
    | ok st =>
      simp only [Res.bind_ok]
      rw [dec0_loop_chk_eq r.1 n _ 0 st _ (by rw [and_not3_div n hlt]; omega)]
      cases h3 : dec0_loop r.1 ((n &&& 0xFFFFFFFC) / 4) 0 st (fun _ => 0) with
      | fail => rfl
      | ub => rfl
      | diverge => rfl
      | ok e =>
        simp only [Res.bind_ok]
        rw [dec0_tail_chk_eq r.1 n hlt]
        rfl

/-- The checks of the row loop of order 1 never fail. -/
theorem dec1_row_loop_chk_eq (m_i fuel : Nat) : ∀ (S : Dec1) (j rle x : Nat) (cp : List Nat),
    dec1_row_loop_chk m_i fuel S j rle x cp = dec1_row_loop m_i fuel S j rle x cp := by
  induction fuel with
  | zero => intro S j rle x cp; rfl
  | succ fuel ih =>
    intro S j rle x cp
    rw [dec1_row_loop_chk, dec1_row_loop]
    by_cases h16 : cp.length < 16
    · simp only [if_pos h16]
    · simp only [if_neg h16]
      cases hfc : rd_freq cp with
      | fail => rfl
      | ub => rfl
      | diverge => rfl
      | ok fc =>
        simp only [Res.bind_ok]
        generalize (if fc.1 = 0 then TOTFREQ else fc.1) = F
        by_cases hx : x + F > TOTFREQ
        · rw [if_pos hx, if_pos hx]
        · rw [if_neg hx, if_neg hx, access_pos _ _ (by intro y hy; omega)]
          simp only [ih]

/-- The checks of the outer table loop of order 1 never fail. -/
theorem dec1_table_loop_chk_eq (fuel : Nat) : ∀ (S : Dec1) (i rle : Nat) (cp : List Nat),
    dec1_table_loop_chk fuel S i rle cp = dec1_table_loop fuel S i rle cp := by
  induction fuel with
  | zero => intro S i rle cp; rfl
  | succ fuel ih =>
    intro S i rle cp
    rw [dec1_table_loop_chk, dec1_table_loop]
    simp only [dec1_row_loop_chk_eq]
    cases hrd : rd cp with
    | fail => rfl
    | ub => rfl
    | diverge => rfl
    | ok jc =>
      simp only [Res.bind_ok]
      cases hrow : dec1_row_loop ((map_touch S i).map i).toNat cp.length (map_touch S i) jc.1 0 0
          jc.2 with
      | fail => rfl
      | ub => rfl
      | diverge => rfl
      | ok r =>
        simp only [Res.bind_ok]
        by_cases hx : r.2.1 < TOTFREQ - 1 ∨ r.2.1 > TOTFREQ
        · rw [if_pos hx, if_pos hx]
        · rw [if_neg hx, if_neg hx,
            access_pos _ _ (by rw [TOTFREQ_eq] at hx ⊢; intro _; omega)]
          simp only [ih]

/-- The checks of the decode loop of order 1 never fail when its rounds stay in
the four quarters of `out_buf`. -/
theorem dec1_loop_chk_eq (S : Dec1) (isz4 out_sz : Nat) (h4 : 4 * isz4 ≤ out_sz) (n : Nat) :
    ∀ (t : Nat) (st : Rans4) (l cc : Last4) (out : Nat → Nat), t + n ≤ isz4 →
    dec1_loop_chk S isz4 out_sz n t st l cc out = dec1_loop S isz4 n t st l cc out := by
  induction n with
  | zero => intro t st l cc out _; rfl
  | succ n ih =>
    intro t st l cc out h
    have b0 : 0 * isz4 + t < out_sz := by omega
    have b1 : 1 * isz4 + t < out_sz := by omega
    have b2 : 2 * isz4 + t < out_sz := by omega
    have b3 : 3 * isz4 + t < out_sz := by omega
    rw [dec1_loop_chk, dec1_loop, access_pos _ _ ⟨b0, b1, b2, b3⟩]
    simp only
    generalize dec_renorm4 _ _ _ _ _ = q1
    cases q1 with
    | fail => rfl
    | ub => rfl
    | diverge => rfl
    | ok st1 =>
      simp only [Res.bind_ok]
      rw [access_pos _ _ ⟨mask_lt st1.r0, mask_lt st1.r1, mask_lt st1.r2, mask_lt st1.r3⟩]
      exact ih _ _ _ _ _ (by omega)

/-- The checks of the remainder loop of order 1 never fail when its rounds end
at `out_sz` or before. -/
theorem dec1_rem_chk_eq (S : Dec1) (out_sz n : Nat) : ∀ (i R3 : Nat) (ptr : List Nat) (l3 : Nat)
    (out : Nat → Nat), i + n ≤ out_sz →
    dec1_rem_chk S out_sz n i R3 ptr l3 out = Res.ok (dec1_rem S n i R3 ptr l3 out) := by
  induction n with
  | zero => intro i R3 ptr l3 out _; rfl
  | succ n ih =>
    intro i R3 ptr l3 out h
    have b : i < out_sz := by omega
    rw [dec1_rem_chk, dec1_rem, access_pos _ _ ⟨mask_lt R3, b⟩]
    exact ih _ _ _ _ _ (by omega)

/-- The checks of `rans_uncompress_O1` never fail: the checked function is the
function. -/
theorem rans_uncompress_O1_chk_eq (D : Nat → Nat → Nat) (syms : Nat → Nat → RansDecSymbol32)
    (inp : List Nat) : rans_uncompress_O1_chk D syms inp = rans_uncompress_O1 D syms inp := by
  unfold rans_uncompress_O1_chk rans_uncompress_O1
  by_cases c1 : inp.length < 27
  · simp only [if_pos c1]
  simp only [if_neg c1]
  rw [access_pos _ _ (by omega)]
  by_cases c2 : inp.getD 0 0 ≠ 1
  · simp only [if_pos c2]
  simp only [if_neg c2]
  by_cases c3 : rd_le32 inp 1 ≠ inp.length - 9
  · simp only [if_pos c3]
  simp only [if_neg c3]
  by_cases c4 : rd_le32 inp 5 ≥ INT_MAX
  · simp only [if_pos c4]
  simp only [if_neg c4, dec1_table_loop_chk_eq]
  generalize rd_le32 inp 5 = n at *
  have e : n >>> 2 = n / 4 := by rw [Nat.shiftRight_eq_div_pow]
  cases h0 : rd (inp.drop 9) with
  | fail => rfl
  | ub => rfl
  | diverge => rfl
  | ok ic =>
    simp only [Res.bind_ok]
    cases h1 : dec1_table_loop inp.length { D := D, syms := syms, map := fun _ => -1, map_i := 0 }
        ic.1 0 ic.2 with
    | fail => rfl
    | ub => rfl
    | diverge => rfl
    | ok r =>
      simp only [Res.bind_ok]
      by_cases c6 : r.2.length < 16
      · rw [if_pos c6, if_pos c6]
      rw [if_neg c6, if_neg c6]
      cases h2 : dec_init4 r.2 with
      | fail => rfl
      | ub => rfl
      | diverge => rfl
      | ok st =>
        simp only [Res.bind_ok]
        rw [access_pos _ _ ⟨mask_lt st.r0, mask_lt st.r1, mask_lt st.r2, mask_lt st.r3⟩,
          dec1_loop_chk_eq _ (n >>> 2) n (by rw [e]; omega) (n >>> 2) 0 st _ _ _ (by omega)]
        generalize dec1_loop _ _ _ _ _ _ _ _ = q
        cases q with
        | fail => rfl
        | ub => rfl
        | diverge => rfl
        | ok e1 =>
          simp only [Res.bind_ok]
          rw [dec1_rem_chk_eq _ n _ _ _ _ _ _ (by rw [e]; omega)]
          rfl

/-- The checks of `rans_uncompress` never fail: the checked function is the
function. -/
theorem rans_uncompress_chk_eq (T : DecTab0) (D : Nat → Nat → Nat)
    (syms : Nat → Nat → RansDecSymbol32) (inp : List Nat) :
    rans_uncompress_chk T D syms inp = rans_uncompress T D syms inp := by
  unfold rans_uncompress_chk rans_uncompress
  by_cases c0 : inp.length < 9
  · rw [if_pos c0, if_pos c0]
  · rw [if_neg c0, if_neg c0, access_pos _ _ (by omega), rans_uncompress_O1_chk_eq,
      rans_uncompress_O0_chk_eq]

/-- Claim C14: on every byte sequence, of any length and content and whatever the
tables hold on entry, the decoder stays in bounds.  `rans_uncompress_chk` is
`rans_uncompress` with every array access checked: a read `in[k]` of the header
with `k >= in_size`, a store of the table parse into `ssym`, `sfreq`, `sbase` or
`D[.].R` at a slot outside `[0, TOTFREQ)`, a lookup of the decode loops at such
a slot, and a store into `out_buf` at an index `>= out_sz` are the outcome `ub`,
as is a read past the end of the input in the table parse, the state
initialisations and the renormalisations.  The checked function is the function
itself and it returns, with a result or with the failure: no check fails and the
loops come to an end.  A check does fail when an index is out of range: a round
of the decode loop on an `out_buf` of three bytes is `ub`.  The renormalisation
at the end of a round returns on any states, reading eight bytes at most; the
bounds-checked one leaves a suffix of the bytes ahead; every lookup index
`R & (TOTFREQ - 1)` is below `TOTFREQ`; and the decode loops with the code after
them leave every output cell at or beyond `out_sz` as it was. -/
theorem decoder_in_bounds (T : DecTab0) (D : Nat → Nat → Nat)
    (syms : Nat → Nat → RansDecSymbol32) (inp : List Nat) :
    rans_uncompress_chk T D syms inp = rans_uncompress T D syms inp ∧
    Returns (rans_uncompress_chk T D syms inp) ∧
    (∀ (st : Rans4) (out : Nat → Nat), dec0_loop_chk T 3 1 0 st out = Res.ub) ∧
    Returns (rans_uncompress T D syms inp) ∧
    (∀ (R0 R1 R2 R3 : Nat) (cp : List Nat),
      ∃ st, dec_renorm4 R0 R1 R2 R3 cp = Res.ok st ∧ st.ptr.length ≤ cp.length ∧
        cp.length ≤ st.ptr.length + 8) ∧
    (∀ (x : Nat) (cp : List Nat), ∃ pre, cp = pre ++ (RansDecRenormSafe x cp).2) ∧
    (∀ R : Nat, R &&& ((1 <<< TF_SHIFT) - 1) < TOTFREQ) ∧
    (∀ (T1 : DecTab0) (out_sz : Nat) (st : Rans4) (out : Nat → Nat) (r : Rans4 × (Nat → Nat)),
      out_sz < 2 ^ 32 → dec0_loop T1 ((out_sz &&& 0xFFFFFFFC) / 4) 0 st out = Res.ok r →
      ∀ k, out_sz ≤ k → dec0_tail T1 out_sz (out_sz &&& 0xFFFFFFFC) r.1 r.2 k = out k) ∧
    (∀ (S : Dec1) (out_sz : Nat) (st : Rans4) (l cc : Last4) (out : Nat → Nat)
      (r : Rans4 × Last4 × (Nat → Nat)),
      dec1_loop S (out_sz >>> 2) (out_sz >>> 2) 0 st l cc out = Res.ok r →
      ∀ k, out_sz ≤ k →
        dec1_rem S (out_sz - 4 * (out_sz >>> 2)) (4 * (out_sz >>> 2)) r.1.r3 r.1.ptr r.2.1.l3 r.2.2 k
          = out k) := by
  refine ⟨rans_uncompress_chk_eq T D syms inp, ?_, ?_, uncompress_returns T D syms inp,
    dec_renorm4_returns, fun x cp => RansDecRenormSafe_suffix cp x, mask_lt, ?_, ?_⟩
  · rw [rans_uncompress_chk_eq]
    exact uncompress_returns T D syms inp
  · intro st out
    rw [dec0_loop_chk]
    unfold access
    rw [if_neg (by omega)]
  · intro T1 out_sz st out r hsz h k hk
    rw [dec0_tail_frame T1 out_sz hsz r.1 r.2 k (Or.inr hk)]
    apply dec0_loop_frame T1 _ 0 st out r h k
    right
    rw [and_not3_div out_sz hsz]
    omega
  · intro S out_sz st l cc out r h k hk
    have e : out_sz >>> 2 = out_sz / 4 := by rw [Nat.shiftRight_eq_div_pow]
    rw [e] at h ⊢
    rw [dec1_rem_frame S _ _ _ _ _ _ k (by omega)]
    apply dec1_loop_frame S _ _ 0 st l cc out r h k
    intro a ha
    right
    have : a * (out_sz / 4) ≤ 3 * (out_sz / 4) := Nat.mul_le_mul_right _ (by omega)
    omega

end RansStatic
